import Mathlib

/-!
# Solidity code generator (`libsolidity/Compiler.cpp`): a shallow embedding

The development follows `Compiler.cpp` function by function.  AST nodes are records
carrying a node identity (`id`, standing for the C++ object address), the assembly under
construction is a list of `AssemblyItem`s, and code of collaborators that `Compiler.cpp`
only calls (`CompilerContext`, `CompilerUtils`, `ExpressionCompiler`, `CallGraph`) is
represented either by a definition modelled from the specification or by one item that
records the call together with its arguments.

Stacks and layout vectors are lists written bottom-to-top: the last element is the top
of the stack, respectively `vector::back()`.
-/

namespace Solidity

/-! ## SVM instructions and assembly items -/

/-- The SVM opcodes used by the code generator. `DUP n` and `SWAP n` stand for
`eth::dupInstruction(n)` and `eth::swapInstruction(n)`. -/
inductive Instruction where
  | STOP
  | EQ
  | ISZERO
  | POP
  | MLOAD
  | MSTORE
  | CALLDATALOAD
  | CODECOPY
  | JUMP
  | JUMPI
  | RETURN
  | DUP (n : Nat)
  | SWAP (n : Nat)
  deriving DecidableEq, Repr

/-- The instruction `eth::dupInstruction(n)`. -/
def dupInstruction (n : Nat) : Instruction := Instruction.DUP n

/-- The instruction `eth::swapInstruction(n)`. -/
def swapInstruction (n : Nat) : Instruction := Instruction.SWAP n

/-! ## The stack-reshuffle epilogue of `Compiler::visit(FunctionDefinition const&)` -/

/-- The layout vector built at lines 310-315: the target of the return address, one `-1`
per argument slot, the targets `0 .. R-1` of the return values, one `-1` per local slot.
The `unsigned` sizes and `int` entries of the source are numbers of stack slots of one
function and are kept as unbounded natural numbers and integers. -/
def initialStackLayout (argumentsSize returnValuesSize localVariablesSize : Nat) : List Int :=
  [(returnValuesSize : Int)] ++ List.replicate argumentsSize (-1)
    ++ (List.range returnValuesSize).map (fun (i : Nat) => (i : Int))
    ++ List.replicate localVariablesSize (-1)

/-- Exchange of the entries at positions `i` and `j`, as done by `std::swap(v[i], v[j])`;
the list is returned unchanged when a position is out of range. -/
def swapAt {α : Type} (l : List α) (i j : Nat) : List α :=
  match l[i]?, l[j]? with
  | some a, some b => (l.set i b).set j a
  | _, _ => l

/-- The `while` loop at lines 317-327, with the instructions appended to the context
collected in `out`.  Each unit of fuel pays for one evaluation of the loop condition.
The result is the final layout and the emitted instructions; `none` stands for running
out of fuel, for `back()` of an empty vector and for an index outside the vector. -/
def reshuffleLoop : Nat → List Int → List Instruction → Option (List Int × List Instruction)
  | 0, _, _ => none
  | fuel + 1, stackLayout, out =>
    match stackLayout.getLast? with
    | none => none
    | some back =>
      if back = (stackLayout.length : Int) - 1 then
        some (stackLayout, out)
      else if back < 0 then
        reshuffleLoop fuel stackLayout.dropLast (out ++ [Instruction.POP])
      else if back.toNat < stackLayout.length then
        reshuffleLoop fuel (swapAt stackLayout back.toNat (stackLayout.length - 1))
          (out ++ [swapInstruction (stackLayout.length - back.toNat - 1)])
      else
        none

/-- The layout the loop is meant to end in: `[0, 1, .., R]`. -/
def identityLayout (returnValuesSize : Nat) : List Int :=
  (List.range (returnValuesSize + 1)).map (fun (i : Nat) => (i : Int))

/-- Effect of one stack instruction on a machine stack (bottom-to-top).  `POP` removes the
top, `SWAP n` exchanges the top with the element `n` below it, `DUP n` copies the element
`n - 1` below the top onto the top.  `none` is a stack underflow or another opcode. -/
def execStackOp {α : Type} (stack : List α) : Instruction → Option (List α)
  | Instruction.POP => if stack.length = 0 then none else some stack.dropLast
  | Instruction.SWAP n =>
    if 1 ≤ n ∧ n < stack.length then
      some (swapAt stack (stack.length - 1 - n) (stack.length - 1))
    else none
  | Instruction.DUP n =>
    if 1 ≤ n ∧ n ≤ stack.length then
      match stack[stack.length - n]? with
      | some v => some (stack ++ [v])
      | none => none
    else none
  | _ => none

/-- Execution of a sequence of stack instructions, left to right. -/
def execStackOps {α : Type} : List Instruction → List α → Option (List α)
  | [], stack => some stack
  | op :: ops, stack =>
    match execStackOp stack op with
    | some stack1 => execStackOps ops stack1
    | none => none

/-! ## The AST, as far as the code generator reads it -/

/-- Categories of `Type::Category` that the code generator distinguishes; only `STRING`
is ever tested for. -/
inductive Category where
  | INTEGER
  | BOOL
  | REAL
  | STRING
  | CONTRACT
  | STRUCT
  | FUNCTION
  | MAPPING
  | VOID
  | TYPE
  | MAGIC
  deriving DecidableEq, Repr

/-- What the code generator reads of a `Type`: `getCategory()`, `getCalldataEncodedSize()`,
`getSizeOnStack()` and `toString()`. -/
structure SolType where
  category : Category
  calldataEncodedSize : Nat
  sizeOnStack : Nat
  name : String
  deriving DecidableEq, Repr

/-- A source location (`Location`): start and end offset in the source text. -/
structure Location where
  start : Nat
  finish : Nat
  deriving DecidableEq, Repr

/-- A `VariableDeclaration` node: its identity, type and source location. -/
structure VariableDeclaration where
  id : Nat
  type : SolType
  location : Location
  deriving DecidableEq, Repr

/-- An `Expression` node; expressions are compiled by the `ExpressionCompiler`, so only
the identity and the type are visible here. -/
structure Expression where
  id : Nat
  type : SolType
  deriving DecidableEq, Repr

/-- A statement node, as far as `Compiler.cpp` reads it.  `Block` has no `visit` override
in `Compiler.cpp`; the other constructors are the statement kinds with one.  `Return`
carries the parameter list that `getFunctionReturnParameters()` points to. -/
inductive Statement where
  | Block (statements : List Statement)
  | IfStatement (condition : Expression) (trueStatement : Statement)
      (falseStatement : Option Statement)
  | WhileStatement (condition : Expression) (body : Statement)
  | ForStatement (initializationExpression : Option Statement) (condition : Option Expression)
      (loopExpression : Option Statement) (body : Statement)
  | Continue
  | Break
  | Return (expression : Option Expression) (functionReturnParameters : List VariableDeclaration)
  | VariableDefinition (declaration : VariableDeclaration) (expression : Option Expression)
  | ExpressionStatement (expression : Expression)
  deriving Repr

mutual
/-- Decision procedure for the equality of two statements. -/
def Statement.decideEq : (a b : Statement) → Decidable (a = b)
  | Statement.Block x0, Statement.Block y0 =>
    match Statement.decideEqList x0 y0 with
    | isTrue h0 => isTrue (by rw [h0])
    | isFalse h => isFalse (fun e => h (by cases e; rfl))
  | Statement.IfStatement x0 x1 x2, Statement.IfStatement y0 y1 y2 =>
    match decEq x0 y0, Statement.decideEq x1 y1, Statement.decideEqOption x2 y2 with
    | isTrue h0, isTrue h1, isTrue h2 => isTrue (by rw [h0, h1, h2])
    | isFalse h, _, _ => isFalse (fun e => h (by cases e; rfl))
    | _, isFalse h, _ => isFalse (fun e => h (by cases e; rfl))
    | _, _, isFalse h => isFalse (fun e => h (by cases e; rfl))
  | Statement.WhileStatement x0 x1, Statement.WhileStatement y0 y1 =>
    match decEq x0 y0, Statement.decideEq x1 y1 with
    | isTrue h0, isTrue h1 => isTrue (by rw [h0, h1])
    | isFalse h, _ => isFalse (fun e => h (by cases e; rfl))
    | _, isFalse h => isFalse (fun e => h (by cases e; rfl))
  | Statement.ForStatement x0 x1 x2 x3, Statement.ForStatement y0 y1 y2 y3 =>
    match Statement.decideEqOption x0 y0, decEq x1 y1, Statement.decideEqOption x2 y2, Statement.decideEq x3 y3 with
    | isTrue h0, isTrue h1, isTrue h2, isTrue h3 => isTrue (by rw [h0, h1, h2, h3])
    | isFalse h, _, _, _ => isFalse (fun e => h (by cases e; rfl))
    | _, isFalse h, _, _ => isFalse (fun e => h (by cases e; rfl))
    | _, _, isFalse h, _ => isFalse (fun e => h (by cases e; rfl))
    | _, _, _, isFalse h => isFalse (fun e => h (by cases e; rfl))
  | Statement.Continue, Statement.Continue => isTrue rfl
  | Statement.Break, Statement.Break => isTrue rfl
  | Statement.Return x0 x1, Statement.Return y0 y1 =>
    match decEq x0 y0, decEq x1 y1 with
    | isTrue h0, isTrue h1 => isTrue (by rw [h0, h1])
    | isFalse h, _ => isFalse (fun e => h (by cases e; rfl))
    | _, isFalse h => isFalse (fun e => h (by cases e; rfl))
  | Statement.VariableDefinition x0 x1, Statement.VariableDefinition y0 y1 =>
    match decEq x0 y0, decEq x1 y1 with
    | isTrue h0, isTrue h1 => isTrue (by rw [h0, h1])
    | isFalse h, _ => isFalse (fun e => h (by cases e; rfl))
    | _, isFalse h => isFalse (fun e => h (by cases e; rfl))
  | Statement.ExpressionStatement x0, Statement.ExpressionStatement y0 =>
    match decEq x0 y0 with
    | isTrue h0 => isTrue (by rw [h0])
    | isFalse h => isFalse (fun e => h (by cases e; rfl))
  | Statement.Block _, Statement.IfStatement _ _ _
  | Statement.Block _, Statement.WhileStatement _ _
  | Statement.Block _, Statement.ForStatement _ _ _ _
  | Statement.Block _, Statement.Continue
  | Statement.Block _, Statement.Break
  | Statement.Block _, Statement.Return _ _
  | Statement.Block _, Statement.VariableDefinition _ _
  | Statement.Block _, Statement.ExpressionStatement _ =>
    isFalse (fun e => by cases e)
  | Statement.IfStatement _ _ _, Statement.Block _
  | Statement.IfStatement _ _ _, Statement.WhileStatement _ _
  | Statement.IfStatement _ _ _, Statement.ForStatement _ _ _ _
  | Statement.IfStatement _ _ _, Statement.Continue
  | Statement.IfStatement _ _ _, Statement.Break
  | Statement.IfStatement _ _ _, Statement.Return _ _
  | Statement.IfStatement _ _ _, Statement.VariableDefinition _ _
  | Statement.IfStatement _ _ _, Statement.ExpressionStatement _ =>
    isFalse (fun e => by cases e)
  | Statement.WhileStatement _ _, Statement.Block _
  | Statement.WhileStatement _ _, Statement.IfStatement _ _ _
  | Statement.WhileStatement _ _, Statement.ForStatement _ _ _ _
  | Statement.WhileStatement _ _, Statement.Continue
  | Statement.WhileStatement _ _, Statement.Break
  | Statement.WhileStatement _ _, Statement.Return _ _
  | Statement.WhileStatement _ _, Statement.VariableDefinition _ _
  | Statement.WhileStatement _ _, Statement.ExpressionStatement _ =>
    isFalse (fun e => by cases e)
  | Statement.ForStatement _ _ _ _, Statement.Block _
  | Statement.ForStatement _ _ _ _, Statement.IfStatement _ _ _
  | Statement.ForStatement _ _ _ _, Statement.WhileStatement _ _
  | Statement.ForStatement _ _ _ _, Statement.Continue
  | Statement.ForStatement _ _ _ _, Statement.Break
  | Statement.ForStatement _ _ _ _, Statement.Return _ _
  | Statement.ForStatement _ _ _ _, Statement.VariableDefinition _ _
  | Statement.ForStatement _ _ _ _, Statement.ExpressionStatement _ =>
    isFalse (fun e => by cases e)
  | Statement.Continue, Statement.Block _
  | Statement.Continue, Statement.IfStatement _ _ _
  | Statement.Continue, Statement.WhileStatement _ _
  | Statement.Continue, Statement.ForStatement _ _ _ _
  | Statement.Continue, Statement.Break
  | Statement.Continue, Statement.Return _ _
  | Statement.Continue, Statement.VariableDefinition _ _
  | Statement.Continue, Statement.ExpressionStatement _ =>
    isFalse (fun e => by cases e)
  | Statement.Break, Statement.Block _
  | Statement.Break, Statement.IfStatement _ _ _
  | Statement.Break, Statement.WhileStatement _ _
  | Statement.Break, Statement.ForStatement _ _ _ _
  | Statement.Break, Statement.Continue
  | Statement.Break, Statement.Return _ _
  | Statement.Break, Statement.VariableDefinition _ _
  | Statement.Break, Statement.ExpressionStatement _ =>
    isFalse (fun e => by cases e)
  | Statement.Return _ _, Statement.Block _
  | Statement.Return _ _, Statement.IfStatement _ _ _
  | Statement.Return _ _, Statement.WhileStatement _ _
  | Statement.Return _ _, Statement.ForStatement _ _ _ _
  | Statement.Return _ _, Statement.Continue
  | Statement.Return _ _, Statement.Break
  | Statement.Return _ _, Statement.VariableDefinition _ _
  | Statement.Return _ _, Statement.ExpressionStatement _ =>
    isFalse (fun e => by cases e)
  | Statement.VariableDefinition _ _, Statement.Block _
  | Statement.VariableDefinition _ _, Statement.IfStatement _ _ _
  | Statement.VariableDefinition _ _, Statement.WhileStatement _ _
  | Statement.VariableDefinition _ _, Statement.ForStatement _ _ _ _
  | Statement.VariableDefinition _ _, Statement.Continue
  | Statement.VariableDefinition _ _, Statement.Break
  | Statement.VariableDefinition _ _, Statement.Return _ _
  | Statement.VariableDefinition _ _, Statement.ExpressionStatement _ =>
    isFalse (fun e => by cases e)
  | Statement.ExpressionStatement _, Statement.Block _
  | Statement.ExpressionStatement _, Statement.IfStatement _ _ _
  | Statement.ExpressionStatement _, Statement.WhileStatement _ _
  | Statement.ExpressionStatement _, Statement.ForStatement _ _ _ _
  | Statement.ExpressionStatement _, Statement.Continue
  | Statement.ExpressionStatement _, Statement.Break
  | Statement.ExpressionStatement _, Statement.Return _ _
  | Statement.ExpressionStatement _, Statement.VariableDefinition _ _ =>
    isFalse (fun e => by cases e)
/-- Decision procedure for the equality of two statement lists. -/
def Statement.decideEqList : (a b : List Statement) → Decidable (a = b)
  | [], [] => isTrue rfl
  | [], _ :: _ => isFalse (fun e => by cases e)
  | _ :: _, [] => isFalse (fun e => by cases e)
  | x :: xs, y :: ys =>
    match Statement.decideEq x y, Statement.decideEqList xs ys with
    | isTrue h0, isTrue h1 => isTrue (by rw [h0, h1])
    | isFalse h, _ => isFalse (fun e => h (by cases e; rfl))
    | _, isFalse h => isFalse (fun e => h (by cases e; rfl))
/-- Decision procedure for the equality of two optional statements. -/
def Statement.decideEqOption : (a b : Option Statement) → Decidable (a = b)
  | none, none => isTrue rfl
  | none, some _ => isFalse (fun e => by cases e)
  | some _, none => isFalse (fun e => by cases e)
  | some x, some y =>
    match Statement.decideEq x y with
    | isTrue h => isTrue (by rw [h])
    | isFalse h => isFalse (fun e => h (by cases e; rfl))
end

instance : DecidableEq Statement := Statement.decideEq

/-- A `FunctionDefinition` node.  `body` is the block returned by `getBody()`. -/
structure FunctionDefinition where
  id : Nat
  name : String
  isConstructor : Bool
  parameters : List VariableDeclaration
  returnParameters : List VariableDeclaration
  localVariables : List VariableDeclaration
  body : Statement := Statement.Block []
  deriving DecidableEq, Repr

/-- An `InheritanceSpecifier` node.  `referencedContract` is the identity of the
`ContractDefinition` that `getName()->getReferencedDeclaration()` points to, and `none`
when the `dynamic_cast<ContractDefinition const*>` of that declaration yields null. -/
structure InheritanceSpecifier where
  referencedContract : Option Nat
  arguments : List Expression
  deriving DecidableEq, Repr

/-- A `ContractDefinition` node.  `interfaceFunctions` is the table returned by
`getInterfaceFunctions()`, listed in the iteration order of the `std::map` (ascending
4-byte hash).  The vector returned by `getLinearizedBaseContracts()` is passed to the
functions below as a separate argument `bases`. -/
structure ContractDefinition where
  id : Nat
  definedFunctions : List FunctionDefinition
  baseContracts : List InheritanceSpecifier
  stateVariables : List VariableDeclaration
  interfaceFunctions : List (Nat × FunctionDefinition)
  deriving DecidableEq, Repr

/-- Modelled from the spec: `ContractDefinition::getConstructor()` (AST.cpp is not among
the sources).  The defined functions are "each marked constructor-or-not"; the
constructor is the first one so marked, and there is none when no function is marked. -/
def ContractDefinition.getConstructor (c : ContractDefinition) : Option FunctionDefinition :=
  c.definedFunctions.find? (fun f => f.isConstructor)

/-- A pointer of type `ASTNode const*` as stored in `nodesUsedInConstructors`. -/
inductive ASTNode where
  | function (f : FunctionDefinition)
  | expression (e : Expression)
  deriving DecidableEq, Repr

/-! ## Assembly items and the compiler context -/

/-- The items appended to a context.  The first seven are `eth::AssemblyItem`s.  The
remaining ones record a call into a collaborator whose emitted opcodes are not part of
`Compiler.cpp`, together with the arguments of the call. -/
inductive AssemblyItem where
  | Operation (i : Instruction)
  | Push (value : Nat)
  | PushTag (tag : Nat)
  | Tag (tag : Nat)
  | PushSubSize (sub : Nat)
  | PushSub (sub : Nat)
  | PushProgramSize
  | LoadFromMemory (offset numBytes : Nat) (leftAligned fromCalldata padToWords : Bool)
  | StoreInMemory (offset numBytes : Nat) (leftAligned padToWords : Bool)
  | CopyToStackTop (depth : Nat) (type : SolType)
  | TypeConversion (typeOnStack targetType : SolType) (cleanup : Bool)
  | CompileExpression (expression : Expression)
  | MoveToStackVariable (declaration : VariableDeclaration)
  | PopStackElement (type : SolType)
  deriving DecidableEq, Repr

/-- Modelled from the spec: an `eth::Assembly`, the item sequence of a context together
with the sub-assemblies nested in it. -/
inductive Assembly where
  | mk (items : List AssemblyItem) (subs : List Assembly)
  deriving Repr

mutual
/-- Decision procedure for the equality of two assemblies. -/
def Assembly.decideEq : (a b : Assembly) → Decidable (a = b)
  | Assembly.mk x0 x1, Assembly.mk y0 y1 =>
    match decEq x0 y0, Assembly.decideEqList x1 y1 with
    | isTrue h0, isTrue h1 => isTrue (by rw [h0, h1])
    | isFalse h, _ => isFalse (fun e => h (by cases e; rfl))
    | _, isFalse h => isFalse (fun e => h (by cases e; rfl))
/-- Decision procedure for the equality of two lists of assemblies. -/
def Assembly.decideEqList : (a b : List Assembly) → Decidable (a = b)
  | [], [] => isTrue rfl
  | [], _ :: _ => isFalse (fun e => by cases e)
  | _ :: _, [] => isFalse (fun e => by cases e)
  | x :: xs, y :: ys =>
    match Assembly.decideEq x y, Assembly.decideEqList xs ys with
    | isTrue h0, isTrue h1 => isTrue (by rw [h0, h1])
    | isFalse h, _ => isFalse (fun e => h (by cases e; rfl))
    | _, isFalse h => isFalse (fun e => h (by cases e; rfl))
end

instance : DecidableEq Assembly := Assembly.decideEq

/-- The items of an assembly. -/
def Assembly.items : Assembly → List AssemblyItem
  | Assembly.mk items _ => items

/-- The sub-assemblies of an assembly. -/
def Assembly.subs : Assembly → List Assembly
  | Assembly.mk _ subs => subs

/-- The exceptions thrown by the code generator: `CompilerError` with its
`errinfo_sourceLocation` and `errinfo_comment`, and the `InternalCompilerError` of a
failed `solAssert`. -/
inductive CompilerException where
  | CompilerError (location : Location) (comment : String)
  | InternalCompilerError
  deriving DecidableEq, Repr

/-- Modelled from the spec: `CompilerContext` (CompilerContext.h/.cpp are not among the
sources).  It holds the append-only sequence of assembly items, the label allocator
(`usedTags` is the next fresh tag), the function-entry label table keyed by function
identity, and the state-variable table (declaration identity and slot, in the order of
registration) with the next free storage slot.  It also holds the attached
sub-assemblies, the bindings of the in-scope variable declarations (declaration identity
and stack position) with the next free stack position of the current function, and the
registry of already-compiled contracts (contract identity and bytecode). -/
structure CompilerContext where
  items : List AssemblyItem := []
  usedTags : Nat := 0
  functionEntryLabels : List (Nat × Nat) := []
  stateVariables : List (Nat × Nat) := []
  stateVariablesSize : Nat := 0
  subs : List Assembly := []
  localVariables : List (Nat × Nat) := []
  localVariablesSize : Nat := 0
  compiledContracts : List (Nat × List Nat) := []
  deriving DecidableEq, Repr

/-- Result of a code-generation step that may throw: the value or the exception, and
the context as the step left it (the context is mutated in place, so items appended
before an exception is thrown stay in it). -/
abbrev Result (α : Type) : Type := Except CompilerException α × CompilerContext

namespace CompilerContext

/-- Modelled from the spec: `m_context << item` appends one item. -/
def append (ctx : CompilerContext) (item : AssemblyItem) : CompilerContext :=
  { ctx with items := ctx.items ++ [item] }

/-- Modelled from the spec: `newTag()` allocates a fresh tag. -/
def newTag (ctx : CompilerContext) : Nat × CompilerContext :=
  (ctx.usedTags, { ctx with usedTags := ctx.usedTags + 1 })

/-- Modelled from the spec: `pushNewTag()` allocates a fresh tag and appends a
push-of-tag item. -/
def pushNewTag (ctx : CompilerContext) : Nat × CompilerContext :=
  let r := ctx.newTag
  (r.1, r.2.append (AssemblyItem.PushTag r.1))

/-- Modelled from the spec: `appendJumpTo(tag)` emits an unconditional jump to `tag`. -/
def appendJumpTo (ctx : CompilerContext) (tag : Nat) : CompilerContext :=
  (ctx.append (AssemblyItem.PushTag tag)).append (AssemblyItem.Operation Instruction.JUMP)

/-- Modelled from the spec: `appendConditionalJumpTo(tag)` emits a conditional jump. -/
def appendConditionalJumpTo (ctx : CompilerContext) (tag : Nat) : CompilerContext :=
  (ctx.append (AssemblyItem.PushTag tag)).append (AssemblyItem.Operation Instruction.JUMPI)

/-- Modelled from the spec: `appendConditionalJump()` allocates a fresh tag, emits a
conditional jump to it and returns the tag, which the caller must later place. -/
def appendConditionalJump (ctx : CompilerContext) : Nat × CompilerContext :=
  let r := ctx.newTag
  (r.1, r.2.appendConditionalJumpTo r.1)

/-- Modelled from the spec: `appendJumpToNew()` allocates a fresh tag, emits an
unconditional jump to it and "returns a tag the caller must later place". -/
def appendJumpToNew (ctx : CompilerContext) : Nat × CompilerContext :=
  let r := ctx.newTag
  (r.1, r.2.appendJumpTo r.1)

/-- Modelled from the spec: `getFunctionEntryLabel(fn)` returns the entry label
registered for `fn`; `none` when `fn` was never registered. -/
def getFunctionEntryLabel (ctx : CompilerContext) (fn : FunctionDefinition) : Option Nat :=
  (ctx.functionEntryLabels.find? (fun e => e.1 == fn.id)).map (fun e => e.2)

/-- Modelled from the spec: `addFunction(fn)` registers `fn`, allocating (once) a stable
entry label; registration is idempotent by identity. -/
def addFunction (ctx : CompilerContext) (fn : FunctionDefinition) : CompilerContext :=
  match ctx.getFunctionEntryLabel fn with
  | some _ => ctx
  | none =>
    let r := ctx.newTag
    { r.2 with functionEntryLabels := r.2.functionEntryLabels ++ [(fn.id, r.1)] }

/-- Modelled from the spec: `addStateVariable(decl)` assigns and records the next
storage slot. -/
def addStateVariable (ctx : CompilerContext) (decl : VariableDeclaration) : CompilerContext :=
  { ctx with
    stateVariables := ctx.stateVariables ++ [(decl.id, ctx.stateVariablesSize)]
    stateVariablesSize := ctx.stateVariablesSize + 1 }

/-- Modelled from the spec: the storage slot recorded for `decl`, the latest
registration winning. -/
def getStorageLocation (ctx : CompilerContext) (decl : VariableDeclaration) : Option Nat :=
  (ctx.stateVariables.reverse.find? (fun e => e.1 == decl.id)).map (fun e => e.2)

/-- Modelled from the spec: `setCompiledContracts(map)` stores the registry of
already-compiled contracts; "the core only forwards the map". -/
def setCompiledContracts (ctx : CompilerContext) (_contracts : List (Nat × List Nat)) :
    CompilerContext :=
  { ctx with compiledContracts := _contracts }

/-- Modelled from the spec: `startNewFunction()` resets the virtual-stack baseline and
clears the local-variable bindings.  The entry label is placed by the caller. -/
def startNewFunction (ctx : CompilerContext) : CompilerContext :=
  { ctx with localVariables := [], localVariablesSize := 0 }

/-- Modelled from the spec: `addVariable(decl)` binds `decl` to the current top-of-stack
position, no code emitted; later calls stack additional frames. -/
def addVariable (ctx : CompilerContext) (decl : VariableDeclaration) : CompilerContext :=
  { ctx with
    localVariables := ctx.localVariables ++ [(decl.id, ctx.localVariablesSize)]
    localVariablesSize := ctx.localVariablesSize + decl.type.sizeOnStack }

/-- Modelled from the spec: `addAndInitializeVariable(decl)` is like `addVariable`, with
a zero-push sized to the stack footprint of `decl` appended. -/
def addAndInitializeVariable (ctx : CompilerContext) (decl : VariableDeclaration) :
    CompilerContext :=
  let ctx1 := ctx.addVariable decl
  { ctx1 with items := ctx1.items ++ List.replicate decl.type.sizeOnStack (AssemblyItem.Push 0) }

/-- Modelled from the spec: `getAssembly()`, the assembly held by the context. -/
def getAssembly (ctx : CompilerContext) : Assembly :=
  Assembly.mk ctx.items ctx.subs

/-- Modelled from the spec: `addSubroutine(asm)` attaches `asm` as a nested
sub-assembly, appends the push of its byte size (the source notes "stack contains sub
size" after the call) and returns the handle of the sub-assembly as a push item. -/
def addSubroutine (ctx : CompilerContext) (assembly : Assembly) :
    AssemblyItem × CompilerContext :=
  let sub := ctx.subs.length
  (AssemblyItem.PushSub sub,
   { ctx with
     subs := ctx.subs ++ [assembly]
     items := ctx.items ++ [AssemblyItem.PushSubSize sub] })

end CompilerContext

/-! ## `CompilerUtils` -/

namespace CompilerUtils

/-- Modelled from the spec: the data start offset in calldata, "4 (immediately after the
hash)". -/
def dataStartOffset : Nat := 4

/-- Modelled from the spec: `getPaddedSize(n)` rounds `n` up to the SVM word size 32. -/
def getPaddedSize (size : Nat) : Nat := ((size + 31) / 32) * 32

/-- Modelled from the spec: `getSizeOnStack(declList)`, the compile-time sum of the
stack footprints of the declarations' types. -/
def getSizeOnStack (decls : List VariableDeclaration) : Nat :=
  (decls.map (fun v => v.type.sizeOnStack)).sum

/-- Modelled from the spec: the default of the `padToWords` parameter of
`loadFromMemory` ("padToWords=true"). -/
def defaultPadToWords : Bool := true

/-- Modelled from the spec: `loadFromMemory(offset, numBytes, leftAligned, fromCalldata,
padToWords)` emits the load and returns the number of bytes consumed, which is the
padded size when padding to words. -/
def loadFromMemory (offset numBytes : Nat) (leftAligned fromCalldata padToWords : Bool)
    (ctx : CompilerContext) : Nat × CompilerContext :=
  (if padToWords then getPaddedSize numBytes else numBytes,
   ctx.append (AssemblyItem.LoadFromMemory offset numBytes leftAligned fromCalldata padToWords))

/-- Modelled from the spec: `storeInMemory(offset, numBytes, leftAligned, padToWords)`
emits the store and returns the number of bytes written. -/
def storeInMemory (offset numBytes : Nat) (leftAligned padToWords : Bool)
    (ctx : CompilerContext) : Nat × CompilerContext :=
  (if padToWords then getPaddedSize numBytes else numBytes,
   ctx.append (AssemblyItem.StoreInMemory offset numBytes leftAligned padToWords))

/-- Modelled from the spec: `copyToStackTop(depth, type)` duplicates the value at
`depth` slots below the top. -/
def copyToStackTop (depth : Nat) (type : SolType) (ctx : CompilerContext) : CompilerContext :=
  ctx.append (AssemblyItem.CopyToStackTop depth type)

/-- Modelled from the spec: `moveToStackVariable(decl)` moves the value on top of the
stack into the slot bound to `decl`. -/
def moveToStackVariable (decl : VariableDeclaration) (ctx : CompilerContext) : CompilerContext :=
  ctx.append (AssemblyItem.MoveToStackVariable decl)

/-- Modelled from the spec: `popStackElement(type)` emits enough pops for the stack
footprint of `type`. -/
def popStackElement (type : SolType) (ctx : CompilerContext) : CompilerContext :=
  ctx.append (AssemblyItem.PopStackElement type)

end CompilerUtils

/-- Modelled from the spec: `ExpressionCompiler::appendTypeConversion(ctx, from, to,
cleanup)` emits the conversion of the top-of-stack value. -/
def appendTypeConversion (ctx : CompilerContext) (typeOnStack targetType : SolType)
    (cleanup : Bool) : CompilerContext :=
  ctx.append (AssemblyItem.TypeConversion typeOnStack targetType cleanup)

/-- Modelled from the spec: `compileExpression(ctx, expr, optimize)`, the single entry
point of the expression code generator. -/
def compileExpression (ctx : CompilerContext) (expression : Expression) : CompilerContext :=
  ctx.append (AssemblyItem.CompileExpression expression)

/-! ## `Compiler` -/

namespace Compiler

open CompilerContext CompilerUtils

/-- Function `Compiler::registerStateVariables` (lines 266-271): the contracts of the
linearization in reverse, the state variables of each in declaration order. -/
def registerStateVariables (bases : List ContractDefinition) (ctx : CompilerContext) :
    CompilerContext :=
  bases.reverse.foldl
    (fun ctx1 contract =>
      contract.stateVariables.foldl (fun ctx2 decl => ctx2.addStateVariable decl) ctx1)
    ctx

/-- The loop of `Compiler::appendCalldataUnpacker` (lines 226-237) over the remaining
parameters, `dataOffset` being the running offset.  Offsets are `unsigned` in the source;
they are sums of at most 32 per parameter and are kept as natural numbers. -/
def appendCalldataUnpackerLoop (_fromMemory : Bool) :
    List VariableDeclaration → Nat → CompilerContext → Result Nat
  | [], dataOffset, ctx => (Except.ok dataOffset, ctx)
  | var :: rest, dataOffset, ctx =>
    let c_numBytes := var.type.calldataEncodedSize
    if c_numBytes > 32 then
      (Except.error (CompilerException.CompilerError var.location
        ("Type " ++ var.type.name ++ " not yet supported.")), ctx)
    else
      let c_leftAligned : Bool := var.type.category == Category.STRING
      let c_padToWords : Bool := true
      let r := loadFromMemory dataOffset c_numBytes c_leftAligned (!_fromMemory) c_padToWords ctx
      appendCalldataUnpackerLoop _fromMemory rest (dataOffset + r.1) r.2

/-- Function `Compiler::appendCalldataUnpacker` (lines 221-239); the value is the `dataOffset`
returned at line 238. -/
def appendCalldataUnpacker (_function : FunctionDefinition) (_fromMemory : Bool)
    (ctx : CompilerContext) : Result Nat :=
  appendCalldataUnpackerLoop _fromMemory _function.parameters dataStartOffset ctx

/-- The loop of `Compiler::appendReturnValuePacker` (lines 247-261) over the remaining
return parameters, with the running `dataOffset` and `stackDepth`. -/
def appendReturnValuePackerLoop :
    List VariableDeclaration → Nat → Nat → CompilerContext → Result Nat
  | [], dataOffset, _, ctx => (Except.ok dataOffset, ctx)
  | parameter :: rest, dataOffset, stackDepth, ctx =>
    let paramType := parameter.type
    let numBytes := paramType.calldataEncodedSize
    if numBytes > 32 then
      (Except.error (CompilerException.CompilerError parameter.location
        ("Type " ++ paramType.name ++ " not yet supported.")), ctx)
    else
      let ctx1 := copyToStackTop stackDepth paramType ctx
      let ctx2 := appendTypeConversion ctx1 paramType paramType true
      let c_leftAligned : Bool := paramType.category == Category.STRING
      let c_padToWords : Bool := true
      let r := storeInMemory dataOffset numBytes c_leftAligned c_padToWords ctx2
      appendReturnValuePackerLoop rest (dataOffset + r.1) (stackDepth - paramType.sizeOnStack) r.2

/-- Function `Compiler::appendReturnValuePacker` (lines 241-264).  The `unsigned`
`stackDepth` starts as the sum of the stack sizes and is decreased by one of the summands
per iteration, so the subtraction never wraps. -/
def appendReturnValuePacker (_function : FunctionDefinition) (ctx : CompilerContext) :
    Result Unit :=
  let parameters := _function.returnParameters
  match appendReturnValuePackerLoop parameters 0 (getSizeOnStack parameters) ctx with
  | (Except.error e, c) => (Except.error e, c)
  | (Except.ok dataOffset, c) =>
    (Except.ok (),
      ((c.append (AssemblyItem.Push dataOffset)).append (AssemblyItem.Push 0)).append
        (AssemblyItem.Operation Instruction.RETURN))

/-- The map `callDataUnpackerEntryPoints`: `insert` keeps an existing binding. -/
def insertEntryPoint (entryPoints : List (Nat × Nat)) (hash tag : Nat) : List (Nat × Nat) :=
  if (entryPoints.find? (fun e => e.1 == hash)).isSome then entryPoints
  else entryPoints ++ [(hash, tag)]

/-- The lookup `callDataUnpackerEntryPoints.at(hash)`.  Every hash looked up has been
inserted before, so the default is never returned. -/
def entryPointAt (entryPoints : List (Nat × Nat)) (hash : Nat) : Nat :=
  ((entryPoints.find? (fun e => e.1 == hash)).map (fun e => e.2)).getD 0

/-- The first loop of `Compiler::appendFunctionSelector` (lines 201-206): one comparison
group per entry of the interface table. -/
def appendSelectorChain :
    List (Nat × FunctionDefinition) → List (Nat × Nat) → CompilerContext →
      List (Nat × Nat) × CompilerContext
  | [], entryPoints, ctx => (entryPoints, ctx)
  | it :: rest, entryPoints, ctx =>
    let r := ctx.newTag
    let entryPoints1 := insertEntryPoint entryPoints it.1 r.1
    let ctx1 := ((r.2.append (AssemblyItem.Operation (dupInstruction 1))).append
      (AssemblyItem.Push it.1)).append (AssemblyItem.Operation Instruction.EQ)
    appendSelectorChain rest entryPoints1
      (ctx1.appendConditionalJumpTo (entryPointAt entryPoints1 it.1))

/-- The second loop of `Compiler::appendFunctionSelector` (lines 209-218): the landing
code of each entry.  An entry label that was never registered fails the assertion of
`getFunctionEntryLabel`. -/
def appendSelectorLandings (entryPoints : List (Nat × Nat)) :
    List (Nat × FunctionDefinition) → CompilerContext → Result Unit
  | [], ctx => (Except.ok (), ctx)
  | it :: rest, ctx =>
    let function := it.2
    let ctx1 := ctx.append (AssemblyItem.Tag (entryPointAt entryPoints it.1))
    let r := ctx1.pushNewTag
    match appendCalldataUnpacker function false r.2 with
    | (Except.error e, c) => (Except.error e, c)
    | (Except.ok _, c) =>
      match c.getFunctionEntryLabel function with
      | none => (Except.error CompilerException.InternalCompilerError, c)
      | some entryLabel =>
        let c1 := (c.appendJumpTo entryLabel).append (AssemblyItem.Tag r.1)
        match appendReturnValuePacker function c1 with
        | (Except.error e, c2) => (Except.error e, c2)
        | (Except.ok _, c2) => appendSelectorLandings entryPoints rest c2

/-- Function `Compiler::appendFunctionSelector` (lines 190-219). -/
def appendFunctionSelector (_contract : ContractDefinition) (ctx : CompilerContext) :
    Result Unit :=
  let interfaceFunctions := _contract.interfaceFunctions
  let ctx1 := (ctx.append (AssemblyItem.Push 1)).append (AssemblyItem.Push 0)
  let ctx2 := (loadFromMemory 0 4 false true defaultPadToWords ctx1).2
  let r := appendSelectorChain interfaceFunctions [] ctx2
  let ctx3 := r.2.append (AssemblyItem.Operation Instruction.STOP)
  appendSelectorLandings r.1 interfaceFunctions ctx3

/-! ### `Compiler::packIntoContractCreator`, phase by phase -/

/-- Insertion into the `std::set<ASTNode const*> nodesUsedInConstructors`. -/
def insertNode (nodes : List ASTNode) (node : ASTNode) : List ASTNode :=
  if node ∈ nodes then nodes else nodes ++ [node]

/-- The local variables `baseArguments` (keyed by contract identity) and
`nodesUsedInConstructors` of `packIntoContractCreator`. -/
structure CreatorState where
  baseArguments : List (Nat × List Expression) := []
  nodesUsedInConstructors : List ASTNode := []
  deriving DecidableEq, Repr

/-- The lookup `baseArguments.find(contract)`: the argument list recorded for the
contract, if any. -/
def lookupBaseArguments (baseArguments : List (Nat × List Expression)) (contract : Nat) :
    Option (List Expression) :=
  (baseArguments.find? (fun e => e.1 == contract)).map (fun e => e.2)

/-- The inner loop at lines 82-93 over the inheritance specifiers of one contract. -/
def captureSpecifiers :
    List InheritanceSpecifier → CreatorState → Except CompilerException CreatorState
  | [], st => Except.ok st
  | base :: rest, st =>
    match base.referencedContract with
    | none => Except.error CompilerException.InternalCompilerError
    | some baseContract =>
      if (lookupBaseArguments st.baseArguments baseContract).isNone then
        captureSpecifiers rest
          { baseArguments := st.baseArguments ++ [(baseContract, base.arguments)]
            nodesUsedInConstructors :=
              base.arguments.foldl (fun nodes arg => insertNode nodes (ASTNode.expression arg))
                st.nodesUsedInConstructors }
      else
        captureSpecifiers rest st

/-- The loop at lines 78-94 over the linearized base contracts. -/
def captureBaseArguments :
    List ContractDefinition → CreatorState → Except CompilerException CreatorState
  | [], st => Except.ok st
  | contract :: rest, st =>
    let st1 : CreatorState :=
      match contract.getConstructor with
      | some constructor =>
        { st with nodesUsedInConstructors :=
            insertNode st.nodesUsedInConstructors (ASTNode.function constructor) }
      | none => st
    match captureSpecifiers contract.baseContracts st1 with
    | Except.error e => Except.error e
    | Except.ok st2 => captureBaseArguments rest st2

/-- The inner loop of the lambda `overrideResolver` (lines 99-101) over the functions
defined in one contract. -/
def overrideResolverFunctions (_name : String) : List FunctionDefinition → Option FunctionDefinition
  | [] => none
  | function :: rest =>
    if !function.isConstructor && function.name == _name then some function
    else overrideResolverFunctions _name rest

/-- The lambda `overrideResolver` (lines 96-103); `none` is the null pointer. -/
def overrideResolver (bases : List ContractDefinition) (_name : String) :
    Option FunctionDefinition :=
  match bases with
  | [] => none
  | contract :: rest =>
    match overrideResolverFunctions _name contract.definedFunctions with
    | some function => some function
    | none => overrideResolver rest _name

/-- The loop of `Compiler::appendBaseConstructorCall` (lines 152-157) over the remaining
arguments, `i` being the index of the first of them.  An argument without a parameter
type at its index is an access outside the vector of parameter types and is reported
as an internal error. -/
def appendBaseConstructorArguments (parameterTypes : List SolType) :
    List Expression → Nat → CompilerContext → Result Unit
  | [], _, ctx => (Except.ok (), ctx)
  | argument :: rest, i, ctx =>
    let ctx1 := compileExpression ctx argument
    match parameterTypes[i]? with
    | none => (Except.error CompilerException.InternalCompilerError, ctx1)
    | some parameterType =>
      appendBaseConstructorArguments parameterTypes rest (i + 1)
        (appendTypeConversion ctx1 argument.type parameterType false)

/-- Function `Compiler::appendBaseConstructorCall` (lines 147-160). -/
def appendBaseConstructorCall (_constructor : FunctionDefinition) (_arguments : List Expression)
    (ctx : CompilerContext) : Result Unit :=
  let r := ctx.pushNewTag
  match appendBaseConstructorArguments (_constructor.parameters.map (fun p => p.type))
      _arguments 0 r.2 with
  | (Except.error e, c) => (Except.error e, c)
  | (Except.ok _, c) =>
    match c.getFunctionEntryLabel _constructor with
    | none => (Except.error CompilerException.InternalCompilerError, c)
    | some entryLabel => (Except.ok (), (c.appendJumpTo entryLabel).append (AssemblyItem.Tag r.1))

/-- Function `Compiler::appendConstructorCall` (lines 162-179).  `argumentSize` is an
`unsigned`: each `+=` of line 168 is taken modulo `2 ^ 32`, and the test of line 169 and
the push of line 171 read the wrapped value. -/
def appendConstructorCall (_constructor : FunctionDefinition) (ctx : CompilerContext) :
    Result Unit :=
  let r := ctx.pushNewTag
  let argumentSize : Nat :=
    _constructor.parameters.foldl
      (fun size var => (size + getPaddedSize var.type.calldataEncodedSize) % 2 ^ 32) 0
  let unpacked : Result Unit :=
    if argumentSize > 0 then
      let c1 := (((r.2.append (AssemblyItem.Push argumentSize)).append
        AssemblyItem.PushProgramSize).append (AssemblyItem.Push dataStartOffset)).append
        (AssemblyItem.Operation Instruction.CODECOPY)
      match appendCalldataUnpacker _constructor true c1 with
      | (Except.error e, c) => (Except.error e, c)
      | (Except.ok _, c) => (Except.ok (), c)
    else (Except.ok (), r.2)
  match unpacked with
  | (Except.error e, c) => (Except.error e, c)
  | (Except.ok _, c) =>
    match c.getFunctionEntryLabel _constructor with
    | none => (Except.error CompilerException.InternalCompilerError, c)
    | some entryLabel => (Except.ok (), (c.appendJumpTo entryLabel).append (AssemblyItem.Tag r.1))

/-- The loop at lines 123-132: `remaining` iterations starting with loop variable `i`.
The contract visited is `bases[bases.size() - i]`; a base without a constructor is
skipped, a base with a constructor but without recorded arguments fails the assertion
at line 130. -/
def appendBaseConstructorCalls (bases : List ContractDefinition)
    (baseArguments : List (Nat × List Expression)) :
    Nat → Nat → CompilerContext → Result Unit
  | 0, _, ctx => (Except.ok (), ctx)
  | remaining + 1, i, ctx =>
    match bases[bases.length - i]? with
    | none => (Except.error CompilerException.InternalCompilerError, ctx)
    | some base =>
      match base.getConstructor with
      | none => appendBaseConstructorCalls bases baseArguments remaining (i + 1) ctx
      | some baseConstructor =>
        match lookupBaseArguments baseArguments base.id with
        | none => (Except.error CompilerException.InternalCompilerError, ctx)
        | some arguments =>
          match appendBaseConstructorCall baseConstructor arguments ctx with
          | (Except.error e, c) => (Except.error e, c)
          | (Except.ok _, c) =>
            appendBaseConstructorCalls bases baseArguments remaining (i + 1) c

/-- Lines 121-134 of `packIntoContractCreator`: the base constructors for
`i = 1 .. bases.size() - 1`, then the constructor of `_contract` itself. -/
def appendConstructorCalls (_contract : ContractDefinition) (bases : List ContractDefinition)
    (baseArguments : List (Nat × List Expression)) (ctx : CompilerContext) : Result Unit :=
  match appendBaseConstructorCalls bases baseArguments (bases.length - 1) 1 ctx with
  | (Except.error e, c) => (Except.error e, c)
  | (Except.ok _, c) =>
    match _contract.getConstructor with
    | some constructor => appendConstructorCall constructor c
    | none => (Except.ok (), c)

end Compiler

/-! ## An abstract machine for the dispatch code -/

/-- A machine word on the operand stack: a number, or the address of a tag. -/
inductive Word where
  | value (n : Nat)
  | tag (t : Nat)
  deriving DecidableEq, Repr

/-- How a run of the machine ends. -/
inductive Outcome where
  | stopped (pc : Nat) (stack : List Word)
  | jumpedOut (tag : Nat) (stack : List Word)
  | fault (pc : Nat)
  | outOfFuel
  deriving DecidableEq, Repr

/-- Index of the item that places tag `t`, if the sequence places it. -/
def tagPosition (t : Nat) : List AssemblyItem → Option Nat
  | [] => none
  | item :: rest =>
    if item = AssemblyItem.Tag t then some 0 else (tagPosition t rest).map (fun p => p + 1)

/-- One step of the machine at item index `pc`: the next program counter and stack, or
the outcome that ends the run.  `load` gives the word that a recorded `loadFromMemory`
call leaves on the stack; in particular `load 0 4 false true _` is the 4-byte function
hash at the start of the calldata.  A jump to a tag that the sequence does not place
leaves the sequence. -/
def step (items : List AssemblyItem) (load : Nat → Nat → Bool → Bool → Bool → Nat)
    (pc : Nat) (stack : List Word) : Sum (Nat × List Word) Outcome :=
  match items[pc]? with
  | none => Sum.inr (Outcome.fault pc)
  | some (AssemblyItem.Push v) => Sum.inl (pc + 1, stack ++ [Word.value v])
  | some (AssemblyItem.PushTag t) => Sum.inl (pc + 1, stack ++ [Word.tag t])
  | some (AssemblyItem.Tag _) => Sum.inl (pc + 1, stack)
  | some (AssemblyItem.LoadFromMemory o n la fc pad) =>
    Sum.inl (pc + 1, stack ++ [Word.value (load o n la fc pad)])
  | some (AssemblyItem.Operation Instruction.STOP) => Sum.inr (Outcome.stopped pc stack)
  | some (AssemblyItem.Operation Instruction.EQ) =>
    match stack.reverse with
    | Word.value a :: Word.value b :: below =>
      Sum.inl (pc + 1, below.reverse ++ [Word.value (if a = b then 1 else 0)])
    | _ => Sum.inr (Outcome.fault pc)
  | some (AssemblyItem.Operation Instruction.JUMP) =>
    match stack.reverse with
    | Word.tag t :: below =>
      match tagPosition t items with
      | some p => Sum.inl (p, below.reverse)
      | none => Sum.inr (Outcome.jumpedOut t below.reverse)
    | _ => Sum.inr (Outcome.fault pc)
  | some (AssemblyItem.Operation Instruction.JUMPI) =>
    match stack.reverse with
    | Word.tag t :: Word.value c :: below =>
      if c = 0 then Sum.inl (pc + 1, below.reverse)
      else
        match tagPosition t items with
        | some p => Sum.inl (p, below.reverse)
        | none => Sum.inr (Outcome.jumpedOut t below.reverse)
    | _ => Sum.inr (Outcome.fault pc)
  | some (AssemblyItem.Operation op) =>
    match execStackOp stack op with
    | some stack1 => Sum.inl (pc + 1, stack1)
    | none => Sum.inr (Outcome.fault pc)
  | some _ => Sum.inr (Outcome.fault pc)

/-- Run of the machine from `pc` with the given stack.  The result is the list of item
indices executed, in order, and the outcome. -/
def run (items : List AssemblyItem) (load : Nat → Nat → Bool → Bool → Bool → Nat) :
    Nat → Nat → List Word → List Nat × Outcome
  | 0, _, _ => ([], Outcome.outOfFuel)
  | fuel + 1, pc, stack =>
    match step items load pc stack with
    | Sum.inr outcome => ([pc], outcome)
    | Sum.inl next =>
      let r := run items load fuel next.1 next.2
      (pc :: r.1, r.2)

/-- The items that a code-generation step appended to the context `before`. -/
def emitted (before after : CompilerContext) : List AssemblyItem :=
  after.items.drop before.items.length

end Solidity

namespace Solidity

/-! ## Predicates used in the statements and proofs -/

/-- Invariant of the loop at lines 317-327 for a function with `R` return-value slots:
the layout consists of the targets `0 .. R` and some `-1` entries, no target occurs twice,
the bottom entry is the return address's target `R` or already `0`, and every other
entry is at or above its target position. -/
structure LayoutInv (R : Nat) (layout : List Int) : Prop where
  perm : ∃ k, layout.Perm (identityLayout R ++ List.replicate k (-1))
  inj : ∀ (p q : Nat) (v : Int), 0 ≤ v → layout[p]? = some v → layout[q]? = some v → p = q
  zero : layout[0]? = some 0 ∨ layout[0]? = some (R : Int)
  below : ∀ (p : Nat) (v : Int), 1 ≤ p → layout[p]? = some v → v ≤ (p : Int)

/-- Number of positions of the layout that do not hold their own index. -/
def unfixed (layout : List Int) : Nat :=
  ((Finset.range layout.length).filter (fun (p : Nat) => layout[p]? ≠ some (p : Int))).card

/-- The machine stack `stack` carries, at every position whose layout entry is a target
`v`, the value that has to end at position `v` of `target`. -/
def StackRel {α : Type} (layout : List Int) (stack target : List α) : Prop :=
  stack.length = layout.length ∧
    ∀ (p v : Nat), layout[p]? = some (v : Int) → stack[p]? = target[v]?

end Solidity

namespace Solidity

open Compiler

/-- A constructor call made by `packIntoContractCreator`: a base constructor through
`appendBaseConstructorCall` with the argument list found in `baseArguments` (`none` when
nothing was recorded, which fails the assertion at line 130), or the constructor of the
most-derived contract through `appendConstructorCall`. -/
inductive ConstructorCall where
  | base (constructor : FunctionDefinition) (arguments : Option (List Expression))
  | mostDerived (constructor : FunctionDefinition)
  deriving DecidableEq, Repr

/-- The constructor that a call invokes. -/
def ConstructorCall.callee : ConstructorCall → FunctionDefinition
  | ConstructorCall.base constructor _ => constructor
  | ConstructorCall.mostDerived constructor => constructor

/-- Emission of one constructor call. -/
def emitCall : ConstructorCall → CompilerContext → Result Unit
  | ConstructorCall.base constructor (some arguments), ctx =>
    appendBaseConstructorCall constructor arguments ctx
  | ConstructorCall.base _ none, ctx => (Except.error CompilerException.InternalCompilerError, ctx)
  | ConstructorCall.mostDerived constructor, ctx => appendConstructorCall constructor ctx

/-- Emission of constructor calls one after the other, in list order, stopping at the
first exception. -/
def emitCalls : List ConstructorCall → CompilerContext → Result Unit
  | [], ctx => (Except.ok (), ctx)
  | call :: rest, ctx =>
    match emitCall call ctx with
    | (Except.error e, c) => (Except.error e, c)
    | (Except.ok _, c) => emitCalls rest c

/-- The base-constructor call of a contract of the linearization, if it has a
constructor. -/
def baseCallOf (baseArguments : List (Nat × List Expression)) (c : ContractDefinition) :
    Option ConstructorCall :=
  c.getConstructor.map
    (fun constructor => ConstructorCall.base constructor (lookupBaseArguments baseArguments c.id))

/-- The constructor calls for the linearization `c0 :: inherited`, in the order the
specification states: the constructors of the inherited contracts from the deepest base upwards, then
the constructor of `c0`. -/
def expectedConstructorCalls (c0 : ContractDefinition) (inherited : List ContractDefinition)
    (baseArguments : List (Nat × List Expression)) : List ConstructorCall :=
  inherited.reverse.filterMap (baseCallOf baseArguments) ++
    (match c0.getConstructor with
     | some constructor => [ConstructorCall.mostDerived constructor]
     | none => [])

end Solidity

namespace Solidity

open Compiler CompilerUtils

/-- The loads that the calldata layout prescribes for a parameter list: one per parameter,
in declaration order, the `i`-th at offset 4 plus the padded encoded sizes of the
parameters before it, left-aligned exactly for the category `STRING`, padded to words,
from calldata unless `fromMemory`. -/
def expectedLoads (fromMemory : Bool) (params : List VariableDeclaration) : List AssemblyItem :=
  params.enum.map (fun e =>
    AssemblyItem.LoadFromMemory
      (4 + ((params.take e.1).map (fun p => getPaddedSize p.type.calldataEncodedSize)).sum)
      e.2.type.calldataEncodedSize
      (e.2.type.category == Category.STRING)
      (!fromMemory)
      true)

/-- The loads emitted from running offset `offset` on, by recursion on the parameters. -/
def loadItems (fromMemory : Bool) : List VariableDeclaration → Nat → List AssemblyItem
  | [], _ => []
  | v :: rest, offset =>
    AssemblyItem.LoadFromMemory offset v.type.calldataEncodedSize
        (v.type.category == Category.STRING) (!fromMemory) true
      :: loadItems fromMemory rest (offset + getPaddedSize v.type.calldataEncodedSize)

/-- A function without parameters. -/
def exampleNoParameters : FunctionDefinition :=
  { id := 1, name := "f", isConstructor := false, parameters := [], returnParameters := [],
    localVariables := [] }

end Solidity

namespace Solidity

open Compiler CompilerUtils

/-- One comparison group of the dispatch chain: `DUP1; PUSH hash; EQ; JUMPI tag`. -/
def chainGroup (hash tag : Nat) : List AssemblyItem :=
  [AssemblyItem.Operation (Instruction.DUP 1), AssemblyItem.Push hash,
   AssemblyItem.Operation Instruction.EQ, AssemblyItem.PushTag tag,
   AssemblyItem.Operation Instruction.JUMPI]

/-- The prologue of the selector: `PUSH 1; PUSH 0` and the load of the function hash. -/
def selectorPrologue : List AssemblyItem :=
  [AssemblyItem.Push 1, AssemblyItem.Push 0,
   AssemblyItem.LoadFromMemory 0 4 false true defaultPadToWords]

/-- The items of the return-value packer of `f`: what `appendReturnValuePacker` appends
to an empty context. -/
def packerItems (f : FunctionDefinition) : List AssemblyItem :=
  (appendReturnValuePacker f {}).2.items

/-- The landing code of one interface function: placement of its selector tag, push of
the return tag, the calldata unpacker, the jump to the function's entry label, the
placement of the return tag and the return-value packer. -/
def landingItems (entryTag returnTag entryLabel : Nat) (f : FunctionDefinition) :
    List AssemblyItem :=
  [AssemblyItem.Tag entryTag, AssemblyItem.PushTag returnTag]
    ++ expectedLoads false f.parameters
    ++ [AssemblyItem.PushTag entryLabel, AssemblyItem.Operation Instruction.JUMP,
        AssemblyItem.Tag returnTag]
    ++ packerItems f

/-- The items emitted by the loop of the return-value packer, by recursion on the
remaining return parameters. -/
def packerLoopItems : List VariableDeclaration → Nat → Nat → List AssemblyItem
  | [], _, _ => []
  | p :: rest, dataOffset, stackDepth =>
    [AssemblyItem.CopyToStackTop stackDepth p.type,
     AssemblyItem.TypeConversion p.type p.type true,
     AssemblyItem.StoreInMemory dataOffset p.type.calldataEncodedSize
       (p.type.category == Category.STRING) true]
      ++ packerLoopItems rest (dataOffset + getPaddedSize p.type.calldataEncodedSize)
          (stackDepth - p.type.sizeOnStack)

/-- The word that a push-like item leaves on the stack. -/
def pushedWord (load : Nat → Nat → Bool → Bool → Bool → Nat) : AssemblyItem → Option Word
  | AssemblyItem.Push v => some (Word.value v)
  | AssemblyItem.PushTag t => some (Word.tag t)
  | AssemblyItem.LoadFromMemory o n la fc pad => some (Word.value (load o n la fc pad))
  | _ => none

end Solidity

namespace Solidity

open Compiler CompilerUtils

/-- The code of the selector for a context whose next fresh tag is `ctx.usedTags`: the
prologue, one comparison group per entry of the interface table (the `i`-th with tag
`usedTags + i`), `STOP`, and one landing per entry (the `i`-th placing tag
`usedTags + i`, with return tag `usedTags + n + i`, jumping to the entry label that the
context holds for the function). -/
def selectorItems (ctx : CompilerContext) (contract : ContractDefinition) : List AssemblyItem :=
  selectorPrologue
    ++ contract.interfaceFunctions.enum.flatMap
        (fun e => chainGroup e.2.1 (ctx.usedTags + e.1))
    ++ [AssemblyItem.Operation Instruction.STOP]
    ++ contract.interfaceFunctions.enum.flatMap
        (fun e => landingItems (ctx.usedTags + e.1)
          (ctx.usedTags + contract.interfaceFunctions.length + e.1)
          ((ctx.getFunctionEntryLabel e.2.2).getD 0) e.2.2)

end Solidity

namespace Solidity

open Compiler CompilerUtils

/-! ## Example inputs -/

/-- The type `uint256`: 32 bytes in calldata, one stack slot. -/
def exampleUint : SolType :=
  { category := Category.INTEGER, calldataEncodedSize := 32, sizeOnStack := 1, name := "uint256" }

/-- The type `string3`: 3 bytes in calldata, one stack slot. -/
def exampleString : SolType :=
  { category := Category.STRING, calldataEncodedSize := 3, sizeOnStack := 1, name := "string3" }

/-- A struct type whose calldata encoding takes 64 bytes. -/
def exampleStruct : SolType :=
  { category := Category.STRUCT, calldataEncodedSize := 64, sizeOnStack := 1, name := "struct S" }

/-- A declaration with the given identity and type. -/
def exampleDecl (id : Nat) (type : SolType) : VariableDeclaration :=
  { id := id, type := type, location := { start := 10 * id, finish := 10 * id + 5 } }

/-- The function `f(uint256 a, string3 b) returns (uint256 r)`. -/
def exampleF : FunctionDefinition :=
  { id := 10, name := "f", isConstructor := false,
    parameters := [exampleDecl 1 exampleUint, exampleDecl 2 exampleString],
    returnParameters := [exampleDecl 3 exampleUint], localVariables := [] }

/-- The function `g()`. -/
def exampleG : FunctionDefinition :=
  { id := 11, name := "g", isConstructor := false, parameters := [], returnParameters := [],
    localVariables := [] }

/-- The function `h(uint256 a, S b, uint256 c)` with an oversized second parameter. -/
def exampleOversized : FunctionDefinition :=
  { id := 12, name := "h", isConstructor := false,
    parameters := [exampleDecl 4 exampleUint, exampleDecl 5 exampleStruct,
      exampleDecl 6 exampleUint],
    returnParameters := [], localVariables := [] }

/-- A contract with the interface functions `f` (hash 5) and `g` (hash 9). -/
def exampleContract : ContractDefinition :=
  { id := 100, definedFunctions := [exampleF, exampleG], baseContracts := [],
    stateVariables := [exampleDecl 7 exampleUint],
    interfaceFunctions := [(5, exampleF), (9, exampleG)] }

/-- The context after `f` and `g` have been registered. -/
def exampleContext : CompilerContext :=
  (({} : CompilerContext).addFunction exampleF).addFunction exampleG

/-- Calldata whose first four bytes are the hash 7, which no function has. -/
def exampleLoadUnknown : Nat → Nat → Bool → Bool → Bool → Nat := fun _ _ _ _ _ => 7

/-- Calldata whose first four bytes are the hash 9 of `g`. -/
def exampleLoadG : Nat → Nat → Bool → Bool → Bool → Nat := fun _ _ _ _ _ => 9

/-- The constructor `function A(uint256 a)`. -/
def exampleConstructorA : FunctionDefinition :=
  { id := 20, name := "A", isConstructor := true, parameters := [exampleDecl 21 exampleUint],
    returnParameters := [], localVariables := [] }

/-- The constructor `function C()`. -/
def exampleConstructorC : FunctionDefinition :=
  { id := 22, name := "C", isConstructor := true, parameters := [], returnParameters := [],
    localVariables := [] }

/-- The contract `A { uint x; function A(uint256 a) }`. -/
def exampleA : ContractDefinition :=
  { id := 1, definedFunctions := [exampleConstructorA], baseContracts := [],
    stateVariables := [exampleDecl 31 exampleUint], interfaceFunctions := [] }

/-- The contract `B is A(e1) { uint y; }`. -/
def exampleB : ContractDefinition :=
  { id := 2, definedFunctions := [],
    baseContracts := [{ referencedContract := some 1,
                        arguments := [{ id := 41, type := exampleUint }] }],
    stateVariables := [exampleDecl 32 exampleUint], interfaceFunctions := [] }

/-- The contract `C is B, A(e2) { uint z; function C() }`. -/
def exampleC : ContractDefinition :=
  { id := 3, definedFunctions := [exampleConstructorC],
    baseContracts := [{ referencedContract := some 2, arguments := [] },
                      { referencedContract := some 1,
                        arguments := [{ id := 42, type := exampleUint }] }],
    stateVariables := [exampleDecl 33 exampleUint], interfaceFunctions := [] }

end Solidity

namespace Solidity

open CompilerContext CompilerUtils

/-! ## The `Compiler` object, the statement visitors and `compileContract` -/

/-- The data members of a `Compiler` (Compiler.h): the optimiser flag, the current
context `m_context`, the sibling context `m_runtimeContext`, the tag stacks for `break`
and `continue`, and the tag to jump to for a `return`. -/
structure Compiler where
  m_optimize : Bool := false
  m_context : CompilerContext := {}
  m_runtimeContext : CompilerContext := {}
  m_breakTags : List Nat := []
  m_continueTags : List Nat := []
  m_returnTag : Nat := 0
  deriving DecidableEq, Repr

/-- Result of a member function of `Compiler` that may throw: the value or the
exception, and the object as the call left it. -/
abbrev CompilerResult (α : Type) : Type := Except CompilerException α × Compiler

namespace Compiler

/-- The constructor `Compiler(bool _optimize = false)` of Compiler.h: `m_context` and
`m_runtimeContext` are default constructed and `m_returnTag` is a new tag of
`m_context`. -/
def construct (_optimize : Bool) : Compiler :=
  let r := ({} : CompilerContext).newTag
  { m_optimize := _optimize, m_context := r.2, m_runtimeContext := {}, m_returnTag := r.1 }

/-- Function `Compiler::compileExpression` (lines 454-457). -/
def compileExpression (self : Compiler) (_expression : Expression) : Compiler :=
  { self with m_context := Solidity.compileExpression self.m_context _expression }

mutual
/-- The statement visitors of `Compiler.cpp`: `visit(IfStatement)` (lines 335-346),
`visit(WhileStatement)` (348-368), `visit(ForStatement)` (370-402), `visit(Continue)`,
`visit(Break)` (404-416), `visit(Return)` (418-431), `visit(VariableDefinition)`
(433-444) and `visit(ExpressionStatement)` (446-452).  A `Block` has no override, so the
visitor descends into its statements in order.  `back()` of a tag stack is its last
element and `pop_back()` removes it.  In `visit(Return)` the call `front()` on an empty
parameter list is reported as an internal error. -/
def visitStatement : Statement → Compiler → CompilerResult Unit
  | Statement.Block statements, self => visitStatements statements self
  | Statement.IfStatement condition trueStatement falseStatement, self =>
    let self1 := self.compileExpression condition
    let r := self1.m_context.appendConditionalJump
    let trueTag := r.1
    match visitOptionalStatement falseStatement { self1 with m_context := r.2 } with
    | (Except.error e, self2) => (Except.error e, self2)
    | (Except.ok _, self2) =>
      let r2 := self2.m_context.appendJumpToNew
      let endTag := r2.1
      match visitStatement trueStatement
          { self2 with m_context := r2.2.append (AssemblyItem.Tag trueTag) } with
      | (Except.error e, self3) => (Except.error e, self3)
      | (Except.ok _, self3) =>
        (Except.ok (), { self3 with m_context := self3.m_context.append (AssemblyItem.Tag endTag) })
  | Statement.WhileStatement condition body, self =>
    let r1 := self.m_context.newTag
    let loopStart := r1.1
    let r2 := r1.2.newTag
    let loopEnd := r2.1
    let self1 : Compiler :=
      { self with
        m_context := r2.2.append (AssemblyItem.Tag loopStart)
        m_continueTags := self.m_continueTags ++ [loopStart]
        m_breakTags := self.m_breakTags ++ [loopEnd] }
    let self2 := self1.compileExpression condition
    let self3 : Compiler :=
      { self2 with
        m_context := (self2.m_context.append
          (AssemblyItem.Operation Instruction.ISZERO)).appendConditionalJumpTo loopEnd }
    match visitStatement body self3 with
    | (Except.error e, self4) => (Except.error e, self4)
    | (Except.ok _, self4) =>
      (Except.ok (),
        { self4 with
          m_context := (self4.m_context.appendJumpTo loopStart).append (AssemblyItem.Tag loopEnd)
          m_continueTags := self4.m_continueTags.dropLast
          m_breakTags := self4.m_breakTags.dropLast })
  | Statement.ForStatement initializationExpression condition loopExpression body, self =>
    let r1 := self.m_context.newTag
    let loopStart := r1.1
    let r2 := r1.2.newTag
    let loopEnd := r2.1
    let self1 : Compiler :=
      { self with
        m_context := r2.2
        m_continueTags := self.m_continueTags ++ [loopStart]
        m_breakTags := self.m_breakTags ++ [loopEnd] }
    match visitOptionalStatement initializationExpression self1 with
    | (Except.error e, self2) => (Except.error e, self2)
    | (Except.ok _, self2) =>
      let self3 : Compiler :=
        { self2 with m_context := self2.m_context.append (AssemblyItem.Tag loopStart) }
      let self4 : Compiler :=
        match condition with
        | some c =>
          let self3c := self3.compileExpression c
          { self3c with
            m_context := (self3c.m_context.append
              (AssemblyItem.Operation Instruction.ISZERO)).appendConditionalJumpTo loopEnd }
        | none => self3
      match visitStatement body self4 with
      | (Except.error e, self5) => (Except.error e, self5)
      | (Except.ok _, self5) =>
        match visitOptionalStatement loopExpression self5 with
        | (Except.error e, self6) => (Except.error e, self6)
        | (Except.ok _, self6) =>
          (Except.ok (),
            { self6 with
              m_context :=
                (self6.m_context.appendJumpTo loopStart).append (AssemblyItem.Tag loopEnd)
              m_continueTags := self6.m_continueTags.dropLast
              m_breakTags := self6.m_breakTags.dropLast })
  | Statement.Continue, self =>
    match self.m_continueTags.getLast? with
    | some back => (Except.ok (), { self with m_context := self.m_context.appendJumpTo back })
    | none => (Except.ok (), self)
  | Statement.Break, self =>
    match self.m_breakTags.getLast? with
    | some back => (Except.ok (), { self with m_context := self.m_context.appendJumpTo back })
    | none => (Except.ok (), self)
  | Statement.Return (some expression) functionReturnParameters, self =>
    let self1 := self.compileExpression expression
    match functionReturnParameters.head? with
    | none => (Except.error CompilerException.InternalCompilerError, self1)
    | some firstVariable =>
      let ctx2 := appendTypeConversion self1.m_context expression.type firstVariable.type false
      let ctx3 := moveToStackVariable firstVariable ctx2
      (Except.ok (), { self1 with m_context := ctx3.appendJumpTo self1.m_returnTag })
  | Statement.Return none _, self =>
    (Except.ok (), { self with m_context := self.m_context.appendJumpTo self.m_returnTag })
  | Statement.VariableDefinition declaration (some expression), self =>
    let self1 := self.compileExpression expression
    let ctx2 := appendTypeConversion self1.m_context expression.type declaration.type false
    (Except.ok (), { self1 with m_context := moveToStackVariable declaration ctx2 })
  | Statement.VariableDefinition _ none, self => (Except.ok (), self)
  | Statement.ExpressionStatement expression, self =>
    let self1 := self.compileExpression expression
    (Except.ok (), { self1 with m_context := popStackElement expression.type self1.m_context })
/-- The statements of a block, visited in order. -/
def visitStatements : List Statement → Compiler → CompilerResult Unit
  | [], self => (Except.ok (), self)
  | statement :: rest, self =>
    match visitStatement statement self with
    | (Except.error e, self1) => (Except.error e, self1)
    | (Except.ok _, self1) => visitStatements rest self1
/-- The call `statement->accept(*this)` guarded by `if (statement)`. -/
def visitOptionalStatement : Option Statement → Compiler → CompilerResult Unit
  | none, self => (Except.ok (), self)
  | some statement, self => visitStatement statement self
end

/-- Function `Compiler::visit(FunctionDefinition const&)` (lines 273-333).  The loop at
lines 317-327 is `reshuffleLoop`, given the fuel `A + R + L + 2` within which it always
ends; a missing entry label is the failed assertion of `getFunctionEntryLabel`. -/
def visitFunctionDefinition (_function : FunctionDefinition) (self : Compiler) :
    CompilerResult Unit :=
  let r := self.m_context.startNewFunction.newTag
  let self1 : Compiler :=
    { self with m_context := r.2, m_returnTag := r.1, m_breakTags := [], m_continueTags := [] }
  match self1.m_context.getFunctionEntryLabel _function with
  | none => (Except.error CompilerException.InternalCompilerError, self1)
  | some entryLabel =>
    let ctx1 := self1.m_context.append (AssemblyItem.Tag entryLabel)
    let ctx2 := _function.parameters.foldl addVariable ctx1
    let ctx3 := _function.returnParameters.foldl addAndInitializeVariable ctx2
    let ctx4 := _function.localVariables.foldl addAndInitializeVariable ctx3
    match visitStatement _function.body { self1 with m_context := ctx4 } with
    | (Except.error e, self2) => (Except.error e, self2)
    | (Except.ok _, self2) =>
      let ctx5 := self2.m_context.append (AssemblyItem.Tag self2.m_returnTag)
      let c_argumentsSize := getSizeOnStack _function.parameters
      let c_returnValuesSize := getSizeOnStack _function.returnParameters
      let c_localVariablesSize := getSizeOnStack _function.localVariables
      match reshuffleLoop (c_argumentsSize + c_returnValuesSize + c_localVariablesSize + 2)
          (initialStackLayout c_argumentsSize c_returnValuesSize c_localVariablesSize) [] with
      | none => (Except.error CompilerException.InternalCompilerError, { self2 with m_context := ctx5 })
      | some layoutAndInstructions =>
        let ctx6 := layoutAndInstructions.2.foldl
          (fun c instruction => c.append (AssemblyItem.Operation instruction)) ctx5
        (Except.ok (),
          { self2 with m_context := ctx6.append (AssemblyItem.Operation Instruction.JUMP) })

/-- Function `Compiler::initializeContext` (lines 61-66). -/
def initializeContext (bases : List ContractDefinition) (_contracts : List (Nat × List Nat))
    (self : Compiler) : Compiler :=
  { self with
    m_context := registerStateVariables bases (self.m_context.setCompiledContracts _contracts) }

/-- The loops at lines 44-47 of `compileContract`: `addFunction` for every
non-constructor function defined in a contract of the linearization. -/
def addFunctions (bases : List ContractDefinition) (ctx : CompilerContext) : CompilerContext :=
  bases.foldl (fun c contract =>
    contract.definedFunctions.foldl (fun c2 function =>
      if !function.isConstructor then c2.addFunction function else c2) c) ctx

/-- The inner loop at lines 51-53 of `compileContract` over the functions defined in one
contract: `function->accept(*this)` for the non-constructors. -/
def visitDefinedFunctions : List FunctionDefinition → Compiler → CompilerResult Unit
  | [], self => (Except.ok (), self)
  | function :: rest, self =>
    if !function.isConstructor then
      match visitFunctionDefinition function self with
      | (Except.error e, self1) => (Except.error e, self1)
      | (Except.ok _, self1) => visitDefinedFunctions rest self1
    else visitDefinedFunctions rest self

/-- The outer loop at lines 50-53 of `compileContract` over the linearization. -/
def visitContracts : List ContractDefinition → Compiler → CompilerResult Unit
  | [], self => (Except.ok (), self)
  | contract :: rest, self =>
    match visitDefinedFunctions contract.definedFunctions self with
    | (Except.error e, self1) => (Except.error e, self1)
    | (Except.ok _, self1) => visitContracts rest self1

/-- Function `Compiler::getFunctionsCalled` (lines 181-188).  The `CallGraph` is a
collaborator outside `Compiler.cpp`; `callGraph` gives the functions that
`CallGraph::getCalls()` returns after the nodes have been added, in the iteration order
of the resulting `std::set`. -/
def getFunctionsCalled
    (callGraph : List ASTNode → (String → Option FunctionDefinition) → List FunctionDefinition)
    (_nodes : List ASTNode) (_resolveOverrides : String → Option FunctionDefinition) :
    List FunctionDefinition :=
  callGraph _nodes _resolveOverrides

/-- The first registration loop of `packIntoContractCreator` (lines 107-115): for every
needed function that is not a constructor, the override found for its name is registered
when it is itself needed.  Membership in the pointer set is membership by identity. -/
def addOverrides (bases : List ContractDefinition) (neededFunctions : List FunctionDefinition) :
    List FunctionDefinition → CompilerContext → CompilerContext
  | [], ctx => ctx
  | fn :: rest, ctx =>
    let override : Option FunctionDefinition :=
      if !fn.isConstructor then overrideResolver bases fn.name else none
    match override with
    | some o =>
      if neededFunctions.any (fun g => g.id == o.id) then
        addOverrides bases neededFunctions rest (ctx.addFunction o)
      else addOverrides bases neededFunctions rest ctx
    | none => addOverrides bases neededFunctions rest ctx

/-- The test `overrideResolver(fun->getName()) != fun` of line 118, a comparison of
pointers. -/
def isNotOwnOverride (bases : List ContractDefinition) (fn : FunctionDefinition) : Bool :=
  match overrideResolver bases fn.name with
  | some o => o.id != fn.id
  | none => true

/-- The second registration loop of `packIntoContractCreator` (lines 116-119). -/
def addRest (bases : List ContractDefinition) :
    List FunctionDefinition → CompilerContext → CompilerContext
  | [], ctx => ctx
  | fn :: rest, ctx =>
    if fn.isConstructor || isNotOwnOverride bases fn then
      addRest bases rest (ctx.addFunction fn)
    else addRest bases rest ctx

/-- Lines 136-139 of `packIntoContractCreator`: the runtime assembly is attached, which
leaves its size on the stack, and the code that copies and returns it is appended. -/
def appendDeployTail (_runtimeContext : CompilerContext) (ctx : CompilerContext) :
    CompilerContext :=
  let r := ctx.addSubroutine _runtimeContext.getAssembly
  let sub := r.1
  (((((r.2.append (AssemblyItem.Operation (Instruction.DUP 1))).append sub).append
    (AssemblyItem.Push 0)).append (AssemblyItem.Operation Instruction.CODECOPY)).append
    (AssemblyItem.Push 0)).append (AssemblyItem.Operation Instruction.RETURN)

/-- The loop at lines 143-144 of `packIntoContractCreator`: `fun->accept(*this)` for
every needed function. -/
def visitNeededFunctions : List FunctionDefinition → Compiler → CompilerResult Unit
  | [], self => (Except.ok (), self)
  | fn :: rest, self =>
    match visitFunctionDefinition fn self with
    | (Except.error e, self1) => (Except.error e, self1)
    | (Except.ok _, self1) => visitNeededFunctions rest self1

/-- Function `Compiler::packIntoContractCreator` (lines 68-145). -/
def packIntoContractCreator
    (callGraph : List ASTNode → (String → Option FunctionDefinition) → List FunctionDefinition)
    (_contract : ContractDefinition) (bases : List ContractDefinition)
    (_runtimeContext : CompilerContext) (self : Compiler) : CompilerResult Unit :=
  match captureBaseArguments bases {} with
  | Except.error e => (Except.error e, self)
  | Except.ok captured =>
    let neededFunctions :=
      getFunctionsCalled callGraph captured.nodesUsedInConstructors (overrideResolver bases)
    let ctx1 := addOverrides bases neededFunctions neededFunctions self.m_context
    let ctx2 := addRest bases neededFunctions ctx1
    match appendConstructorCalls _contract bases captured.baseArguments ctx2 with
    | (Except.error e, ctx3) => (Except.error e, { self with m_context := ctx3 })
    | (Except.ok _, ctx3) =>
      visitNeededFunctions neededFunctions
        { self with m_context := appendDeployTail _runtimeContext ctx3 }

/-- Function `Compiler::compileContract` (lines 37-59).  `bases` is the vector
`_contract.getLinearizedBaseContracts()`. -/
def compileContract
    (callGraph : List ASTNode → (String → Option FunctionDefinition) → List FunctionDefinition)
    (_contract : ContractDefinition) (bases : List ContractDefinition)
    (_contracts : List (Nat × List Nat)) (self : Compiler) : CompilerResult Unit :=
  let self1 : Compiler := { self with m_context := {} }
  let self2 := initializeContext bases _contracts self1
  let self3 : Compiler := { self2 with m_context := addFunctions bases self2.m_context }
  match appendFunctionSelector _contract self3.m_context with
  | (Except.error e, ctx) => (Except.error e, { self3 with m_context := ctx })
  | (Except.ok _, ctx) =>
    match visitContracts bases { self3 with m_context := ctx } with
    | (Except.error e, self4) => (Except.error e, self4)
    | (Except.ok _, self4) =>
      let self5 : Compiler :=
        { self4 with m_context := self4.m_runtimeContext, m_runtimeContext := self4.m_context }
      let self6 := initializeContext bases _contracts self5
      packIntoContractCreator callGraph _contract bases self6.m_runtimeContext self6

end Compiler

end Solidity

namespace Solidity

open Compiler CompilerUtils

/-! ## Specification-level definitions for the packer, the constructor call and the visitors -/

/-- The items that the return-value layout prescribes for a list of return parameters:
for the `i`-th one the copy of the value at stack depth equal to the stack sizes of the
parameters `i ..`, the clean-up conversion of its type to itself, and the store at the
memory offset equal to the padded encoded sizes of the parameters before it
(left-aligned exactly for `STRING`); then `PUSH total; PUSH 0; RETURN`. -/
def expectedPackerItems (params : List VariableDeclaration) : List AssemblyItem :=
  params.enum.flatMap (fun e =>
    [AssemblyItem.CopyToStackTop (((params.drop e.1).map (fun p => p.type.sizeOnStack)).sum)
       e.2.type,
     AssemblyItem.TypeConversion e.2.type e.2.type true,
     AssemblyItem.StoreInMemory
       (((params.take e.1).map (fun p => getPaddedSize p.type.calldataEncodedSize)).sum)
       e.2.type.calldataEncodedSize (e.2.type.category == Category.STRING) true])
  ++ [AssemblyItem.Push ((params.map (fun p => getPaddedSize p.type.calldataEncodedSize)).sum),
      AssemblyItem.Push 0, AssemblyItem.Operation Instruction.RETURN]

end Solidity

namespace Solidity

open Compiler CompilerUtils

/-- What a lowering step from the object `before` to the object `after` does: it appends
the items `more` to the current context and allocates tags; every tag placed by `more` is
at least `low` and was allocated by the end of the step; the return tag, the runtime
context, the optimiser flag and the tables of the current context are untouched. -/
structure LoweredFrom (low : Nat) (before after : Compiler) (more : List AssemblyItem) :
    Prop where
  items_eq : after.m_context.items = before.m_context.items ++ more
  usedTags_le : before.m_context.usedTags ≤ after.m_context.usedTags
  placed : ∀ t, AssemblyItem.Tag t ∈ more → low ≤ t ∧ t < after.m_context.usedTags
  returnTag_eq : after.m_returnTag = before.m_returnTag
  runtimeContext_eq : after.m_runtimeContext = before.m_runtimeContext
  optimize_eq : after.m_optimize = before.m_optimize
  labels_eq : after.m_context.functionEntryLabels = before.m_context.functionEntryLabels
  subs_eq : after.m_context.subs = before.m_context.subs

/-- The tag stacks of two compiler objects agree. -/
def SameTagStacks (a b : Compiler) : Prop :=
  b.m_breakTags = a.m_breakTags ∧ b.m_continueTags = a.m_continueTags

end Solidity

namespace Solidity

open Compiler CompilerContext CompilerUtils

/-- The compiler object in which `visit(WhileStatement)` lowers the body: the object
after lines 350-358, that is after the two tags have been allocated and pushed on the
tag stacks and the loop head has been emitted. -/
def whileBodyState (condition : Expression) (self : Compiler) : Compiler :=
  let r1 := self.m_context.newTag
  let r2 := r1.2.newTag
  let self1 : Compiler :=
    { self with
      m_context := r2.2.append (AssemblyItem.Tag r1.1)
      m_continueTags := self.m_continueTags ++ [r1.1]
      m_breakTags := self.m_breakTags ++ [r2.1] }
  let self2 := self1.compileExpression condition
  { self2 with
    m_context := (self2.m_context.append
      (AssemblyItem.Operation Instruction.ISZERO)).appendConditionalJumpTo r2.1 }

/-- The compiler object in which `visit(ForStatement)` lowers the initialization
statement: the object after lines 372-375. -/
def forInitState (self : Compiler) : Compiler :=
  let r1 := self.m_context.newTag
  let r2 := r1.2.newTag
  { self with
    m_context := r2.2
    m_continueTags := self.m_continueTags ++ [r1.1]
    m_breakTags := self.m_breakTags ++ [r2.1] }

/-- The compiler object in which `visit(ForStatement)` lowers the body, given the object
`afterInit` left by the initialization statement: the object after lines 380-388, with
`loopStart` placed and the condition code, if there is a condition, emitted. -/
def forBodyState (condition : Option Expression) (loopStart loopEnd : Nat)
    (afterInit : Compiler) : Compiler :=
  let self3 : Compiler :=
    { afterInit with m_context := afterInit.m_context.append (AssemblyItem.Tag loopStart) }
  match condition with
  | some c =>
    let self3c := self3.compileExpression c
    { self3c with
      m_context := (self3c.m_context.append
        (AssemblyItem.Operation Instruction.ISZERO)).appendConditionalJumpTo loopEnd }
  | none => self3

/-- The items of the loop head of a `for` statement after the placement of `loopStart`:
the condition code, `ISZERO` and the conditional jump to `loopEnd` if there is a
condition, nothing otherwise. -/
def forConditionItems (condition : Option Expression) (loopEnd : Nat) : List AssemblyItem :=
  match condition with
  | some c =>
    [AssemblyItem.CompileExpression c, AssemblyItem.Operation Instruction.ISZERO,
     AssemblyItem.PushTag loopEnd, AssemblyItem.Operation Instruction.JUMPI]
  | none => []

/-- The compiler object in which `visit(IfStatement)` lowers the false branch: the
object after lines 337-338. -/
def ifFalseState (condition : Expression) (self : Compiler) : Compiler :=
  let self1 := self.compileExpression condition
  { self1 with m_context := self1.m_context.appendConditionalJump.2 }

/-- The compiler object in which `visit(IfStatement)` lowers the true branch, given the
object `afterFalse` left by the false branch: the object after lines 341-342. -/
def ifTrueState (trueTag : Nat) (afterFalse : Compiler) : Compiler :=
  { afterFalse with
    m_context := afterFalse.m_context.appendJumpToNew.2.append (AssemblyItem.Tag trueTag) }

/-- The item sequence of a lowered `if` statement with the given branch codes. -/
def ifItems (condition : Expression) (trueTag endTag : Nat)
    (falseItems trueItems : List AssemblyItem) : List AssemblyItem :=
  [AssemblyItem.CompileExpression condition, AssemblyItem.PushTag trueTag,
   AssemblyItem.Operation Instruction.JUMPI]
    ++ falseItems
    ++ [AssemblyItem.PushTag endTag, AssemblyItem.Operation Instruction.JUMP,
        AssemblyItem.Tag trueTag]
    ++ trueItems
    ++ [AssemblyItem.Tag endTag]

/-- The item sequence of a lowered `while` statement with the given body code. -/
def whileItems (condition : Expression) (loopStart loopEnd : Nat)
    (bodyItems : List AssemblyItem) : List AssemblyItem :=
  [AssemblyItem.Tag loopStart, AssemblyItem.CompileExpression condition,
   AssemblyItem.Operation Instruction.ISZERO, AssemblyItem.PushTag loopEnd,
   AssemblyItem.Operation Instruction.JUMPI]
    ++ bodyItems
    ++ [AssemblyItem.PushTag loopStart, AssemblyItem.Operation Instruction.JUMP,
        AssemblyItem.Tag loopEnd]

/-- The item sequence of a lowered `for` statement with the given codes of the
initialization statement, the body and the loop expression. -/
def forItems (condition : Option Expression) (loopStart loopEnd : Nat)
    (initItems bodyItems stepItems : List AssemblyItem) : List AssemblyItem :=
  initItems
    ++ [AssemblyItem.Tag loopStart]
    ++ forConditionItems condition loopEnd
    ++ bodyItems
    ++ stepItems
    ++ [AssemblyItem.PushTag loopStart, AssemblyItem.Operation Instruction.JUMP,
        AssemblyItem.Tag loopEnd]

/-- A condition and statements used as examples. -/
def exampleCondition : Expression := { id := 50, type := exampleUint }

/-- The statement `x;` for an expression `x`. -/
def exampleStep : Statement := Statement.ExpressionStatement { id := 51, type := exampleUint }

/-- The block `{ continue; break; }`. -/
def exampleLoopBody : Statement := Statement.Block [Statement.Continue, Statement.Break]

end Solidity

namespace Solidity

open Compiler CompilerContext CompilerUtils

/-- The value of `argumentSize` in `appendConstructorCall`: the sum of the padded sizes of
the parameters, as a 32-bit `unsigned`. -/
def constructorArgumentSize (params : List VariableDeclaration) : Nat :=
  (params.map (fun p => getPaddedSize p.type.calldataEncodedSize)).sum % 2 ^ 32

/-- The items that `appendConstructorCall` emits between the push of the return tag and
the jump: the copy of the argument data and the unpacker when `argumentSize` is positive,
nothing otherwise. -/
def constructorArgumentItems (params : List VariableDeclaration) : List AssemblyItem :=
  if constructorArgumentSize params > 0 then
    [AssemblyItem.Push (constructorArgumentSize params),
     AssemblyItem.PushProgramSize, AssemblyItem.Push 4,
     AssemblyItem.Operation Instruction.CODECOPY] ++ expectedLoads true params
  else []

/-- The type `string0`: no byte in calldata, one stack slot. -/
def exampleStringZero : SolType :=
  { category := Category.STRING, calldataEncodedSize := 0, sizeOnStack := 1, name := "string0" }

/-- The constructor `function D(string0 s)`. -/
def exampleConstructorZero : FunctionDefinition :=
  { id := 23, name := "D", isConstructor := true,
    parameters := [exampleDecl 24 exampleStringZero], returnParameters := [],
    localVariables := [] }

/-- The functions that the runtime phase of `compileContract` handles: the
non-constructor functions defined in the contracts of the linearization, in
linearization order then definition order. -/
def runtimeFunctions (bases : List ContractDefinition) : List FunctionDefinition :=
  (bases.flatMap (fun c => c.definedFunctions)).filter (fun f => !f.isConstructor)

/-- The runtime context at the moment `compileContract` emits the function selector: a
default-constructed context after `initializeContext` and the registration loop. -/
def runtimeRegistered (bases : List ContractDefinition) (_contracts : List (Nat × List Nat)) :
    CompilerContext :=
  addFunctions bases
    (registerStateVariables bases (({} : CompilerContext).setCompiledContracts _contracts))

/-- The function `f()` as defined in a derived contract. -/
def exampleDerivedF : FunctionDefinition :=
  { id := 61, name := "f", isConstructor := false, parameters := [], returnParameters := [],
    localVariables := [] }

/-- The function `f()` as defined in a base contract. -/
def exampleBaseF : FunctionDefinition :=
  { id := 62, name := "f", isConstructor := false, parameters := [], returnParameters := [],
    localVariables := [] }

/-- The linearization `[D, B]` of a contract `D is B` where both define `f()`. -/
def exampleOverrideBases : List ContractDefinition :=
  [{ id := 60, definedFunctions := [exampleDerivedF],
     baseContracts := [{ referencedContract := some 63, arguments := [] }],
     stateVariables := [], interfaceFunctions := [] },
   { id := 63, definedFunctions := [exampleBaseF], baseContracts := [], stateVariables := [],
     interfaceFunctions := [] }]

end Solidity

namespace Solidity

open Compiler CompilerContext CompilerUtils

/-- The deploy tail for the sub-assembly with index `sub`: the push of its size (left by
`addSubroutine`), `DUP1`, the push of the sub-assembly itself, `PUSH 0`, `CODECOPY`,
`PUSH 0`, `RETURN`. -/
def deployTailItems (sub : Nat) : List AssemblyItem :=
  [AssemblyItem.PushSubSize sub, AssemblyItem.Operation (Instruction.DUP 1),
   AssemblyItem.PushSub sub, AssemblyItem.Push 0,
   AssemblyItem.Operation Instruction.CODECOPY, AssemblyItem.Push 0,
   AssemblyItem.Operation Instruction.RETURN]

/-- Modelled from the spec: execution of straight-line deploy code on the SVM, with the
stack written bottom-to-top and the memory as a function from addresses to bytes.
`image` is the byte image of the code being run; `subSize s` and `subOffset s` are the
values that the pushes of the size and of the handle of sub-assembly `s` resolve to.
`CODECOPY` takes the memory offset, the code offset and the length from the stack (top
first) and copies that many bytes of the image to memory, bytes beyond the image being
zero; `RETURN` takes the memory offset and the length and ends the run with those bytes
of memory.  `none` is a stack underflow, another item, or the end of the items. -/
def execDeploy (image : List Nat) (subSize subOffset : Nat → Nat) :
    List AssemblyItem → List Nat → (Nat → Nat) → Option (List Nat)
  | [], _, _ => none
  | AssemblyItem.PushSubSize s :: rest, stack, memory =>
    execDeploy image subSize subOffset rest (stack ++ [subSize s]) memory
  | AssemblyItem.PushSub s :: rest, stack, memory =>
    execDeploy image subSize subOffset rest (stack ++ [subOffset s]) memory
  | AssemblyItem.Push v :: rest, stack, memory =>
    execDeploy image subSize subOffset rest (stack ++ [v]) memory
  | AssemblyItem.Operation (Instruction.DUP 1) :: rest, stack, memory =>
    match stack.getLast? with
    | some top => execDeploy image subSize subOffset rest (stack ++ [top]) memory
    | none => none
  | AssemblyItem.Operation Instruction.CODECOPY :: rest, stack, memory =>
    match stack.reverse with
    | memOffset :: codeOffset :: length :: below =>
      execDeploy image subSize subOffset rest below.reverse
        (fun a =>
          if memOffset ≤ a ∧ a < memOffset + length then
            image.getD (codeOffset + (a - memOffset)) 0
          else memory a)
    | _ => none
  | AssemblyItem.Operation Instruction.RETURN :: _, stack, memory =>
    match stack.reverse with
    | offset :: length :: _ => some ((List.range length).map (fun i => memory (offset + i)))
    | _ => none
  | _ :: _, _, _ => none

/-- A call graph that finds the constructors of `A` and `C`. -/
def exampleCallGraph (_nodes : List ASTNode) (_resolve : String → Option FunctionDefinition) :
    List FunctionDefinition :=
  [exampleConstructorA, exampleConstructorC]

/-- A call graph that finds no function. -/
def exampleCallGraphEmpty (_nodes : List ASTNode)
    (_resolve : String → Option FunctionDefinition) : List FunctionDefinition :=
  []

end Solidity

namespace Solidity

open Compiler CompilerContext CompilerUtils

/-- The contract `contract S { uint x; }`: one state variable, no function. -/
def exampleStorage : ContractDefinition :=
  { id := 70, definedFunctions := [], baseContracts := [],
    stateVariables := [exampleDecl 71 exampleUint], interfaceFunctions := [] }

/-- A contract whose only interface function `h` (hash 3) has an oversized parameter. -/
def exampleOversizedContract : ContractDefinition :=
  { id := 80, definedFunctions := [exampleOversized], baseContracts := [],
    stateVariables := [], interfaceFunctions := [(3, exampleOversized)] }

end Solidity

namespace Solidity

open Compiler CompilerContext CompilerUtils

/-- The base arguments and nodes captured for the linearization `[C, B, A]`. -/
def exampleCaptured : CreatorState :=
  match captureBaseArguments [exampleC, exampleB, exampleA] {} with
  | Except.ok st => st
  | Except.error _ => {}

/-- A `Compiler` after the swap, whose runtime context holds the single item `STOP`. -/
def exampleSwapped : Compiler :=
  { m_runtimeContext := { items := [AssemblyItem.Operation Instruction.STOP] } }

/-- The function `k() returns (uint256 r, string3 s)`. -/
def exampleTwoReturns : FunctionDefinition :=
  { id := 13, name := "k", isConstructor := false, parameters := [],
    returnParameters := [exampleDecl 8 exampleUint, exampleDecl 9 exampleString],
    localVariables := [] }

end Solidity

namespace Solidity

open Compiler CompilerContext CompilerUtils

/-- A compiler object inside a loop whose tags are 0 (start) and 1 (end). -/
def exampleInLoop : Compiler :=
  { m_context := { usedTags := 2 }, m_breakTags := [1], m_continueTags := [0] }

end Solidity
namespace Solidity

/-! ## Instrumentation of the reshuffle loop -/

/-- The layouts with which the body of the `while` loop at lines 317-327 is entered, in
order: the loop of `reshuffleLoop` with the same condition and the same two branches,
recording the layout vector at each iteration instead of the instructions.  The list ends
where the loop ends (condition false), where the fuel ends and where an access would be
out of range. -/
def reshuffleIterations : Nat → List Int → List (List Int)
  | 0, _ => []
  | fuel + 1, stackLayout =>
    match stackLayout.getLast? with
    | none => []
    | some back =>
      if back = (stackLayout.length : Int) - 1 then
        []
      else if back < 0 then
        stackLayout :: reshuffleIterations fuel stackLayout.dropLast
      else if back.toNat < stackLayout.length then
        stackLayout ::
          reshuffleIterations fuel (swapAt stackLayout back.toNat (stackLayout.length - 1))
      else
        [stackLayout]

end Solidity

namespace Solidity

open Compiler CompilerContext CompilerUtils

/-! ## The base-constructor call convention -/

/-- The items for the arguments of a base-constructor call, as the specification lists
them: for each supplied argument in order its expression code, followed by the conversion
from the type of the argument to the type of the parameter at the same index. -/
def baseArgumentItems (parameters : List VariableDeclaration) (arguments : List Expression) :
    List AssemblyItem :=
  (arguments.zip parameters).flatMap
    (fun ap => [AssemblyItem.CompileExpression ap.1,
                AssemblyItem.TypeConversion ap.1.type ap.2.type false])

/-- A value on the stack of the virtual stack model: a return address (the address of a
tag), or the value of an expression held in the representation of a type. -/
inductive StackValue where
  | returnAddress (tag : Nat)
  | value (expression : Expression) (type : SolType)
  deriving DecidableEq, Repr

/-- Number of stack words of a value. -/
def StackValue.size : StackValue → Nat
  | StackValue.returnAddress _ => 1
  | StackValue.value _ type => type.sizeOnStack

/-- Effect of an item on the stack of values, as the specification states it for the
collaborators: a push-of-tag item loads the address of the label, `compileExpression`
leaves the value of the expression (its `sizeOnStack` words), `appendTypeConversion`
transforms the top-of-stack value from type `from` to type `to`.  `none` is an item outside
this fragment, or a conversion whose source type is not the type of the value on top. -/
def symbolicStep (stack : List StackValue) : AssemblyItem → Option (List StackValue)
  | AssemblyItem.PushTag tag => some (stack ++ [StackValue.returnAddress tag])
  | AssemblyItem.CompileExpression expression =>
    some (stack ++ [StackValue.value expression expression.type])
  | AssemblyItem.TypeConversion typeOnStack targetType _ =>
    match stack.getLast? with
    | some (StackValue.value expression type) =>
      if type = typeOnStack then
        some (stack.dropLast ++ [StackValue.value expression targetType])
      else none
    | _ => none
  | _ => none

/-- Effect of a sequence of items on the stack of values. -/
def symbolicRun : List AssemblyItem → List StackValue → Option (List StackValue)
  | [], stack => some stack
  | item :: rest, stack =>
    match symbolicStep stack item with
    | none => none
    | some next => symbolicRun rest next

/-- The word offsets of consecutive values of the given sizes, the first at `offset`: each
value starts where the words of the values below it end. -/
def wordOffsets : List Nat → Nat → List Nat
  | [], _ => []
  | size :: rest, offset => offset :: wordOffsets rest (offset + size)

/-- The argument values of a call: the value of each argument expression in the
representation of the type of the parameter at the same index. -/
def argumentValues (parameters : List VariableDeclaration) (arguments : List Expression) :
    List StackValue :=
  (arguments.zip parameters).map (fun ap => StackValue.value ap.1 ap.2.type)

/-- The base-constructor call `A(e1)` of the contract `B is A(e1)`. -/
def exampleBaseCallContext : CompilerContext :=
  ({} : CompilerContext).addFunction exampleConstructorA

end Solidity

namespace Solidity

open Compiler CompilerContext CompilerUtils

/-! ## The precondition of the constructor-chain assertion -/

/-- Some inheritance specifier of some contract of the linearization `bases` names the
contract with identity `contract`. -/
def namedBySpecifier (bases : List ContractDefinition) (contract : Nat) : Bool :=
  (bases.flatMap (fun c => c.baseContracts)).any (fun s => s.referencedContract == some contract)

/-- The contract `E { }`, which has no inheritance specifier: in the list
`[exampleUnnamed, exampleA]`, taken as a linearization, no specifier names `A`, and `A`
has a constructor. -/
def exampleUnnamed : ContractDefinition :=
  { id := 5, definedFunctions := [], baseContracts := [], stateVariables := [],
    interfaceFunctions := [] }

end Solidity

namespace Eth

/-! ## `LogFilter` (libethereum/LogFilter.cpp) -/

/-- A `LogEntry`, as far as `LogFilter.cpp` reads it: the address and the topics. -/
structure LogEntry where
  address : Nat
  topics : List Nat
  deriving DecidableEq, Repr

/-- A `TransactionReceipt`, as far as `LogFilter.cpp` reads it: `bloom()` and `log()`. -/
structure TransactionReceipt where
  bloom : Nat
  log : List LogEntry
  deriving DecidableEq, Repr

/-- The members of `LogFilter` that the `matches` functions read: the address set and the
topic set, each listed in its iteration order. -/
structure LogFilter where
  m_addresses : List Nat
  m_topics : List Nat
  deriving DecidableEq, Repr

/-- The functions that `LogFilter::matches(LogBloom)` calls and that are defined outside
`LogFilter.cpp`: `dev::sha3` of an address, `dev::sha3` of a topic, and
`LogBloom::containsBloom<3>`. -/
structure BloomFunctions where
  sha3Address : Nat → Nat
  sha3Topic : Nat → Nat
  containsBloom : Nat → Nat → Bool

namespace LogFilter

/-- Function `LogFilter::matches(LogBloom)` (lines 42-61): a non-empty address set needs
one address whose hash the bloom contains (`goto OK1`), and then a non-empty topic set
needs one topic whose hash the bloom contains (`goto OK2`). -/
def matchesBloom (fns : BloomFunctions) (self : LogFilter) (_bloom : Nat) : Bool :=
  if self.m_addresses.length ≠ 0 ∧
      ¬ self.m_addresses.any (fun i => fns.containsBloom _bloom (fns.sha3Address i)) then
    false
  else if self.m_topics.length ≠ 0 ∧
      ¬ self.m_topics.any (fun i => fns.containsBloom _bloom (fns.sha3Topic i)) then
    false
  else
    true

/-- The loop at lines 76-78 over `m_topics`.  Its body is the `if` with the `continue` of
line 78; that `continue` is a statement of this loop, so it goes on with the next topic.
The loop assigns no variable and nothing leaves it before its end. -/
def topicsLoop (e : LogEntry) : List Nat → Unit
  | [] => ()
  | t :: rest =>
    if e.topics.count t = 0 then
      topicsLoop e rest
    else
      topicsLoop e rest

/-- The loop at lines 72-80 over the log entries of the receipt, `ret` being the vector
built so far: an entry whose address the non-empty address set lacks is skipped by the
`continue` of line 75; for the others the loop over the topics runs and, once it has
ended, the entry is pushed. -/
def matchesEntries (self : LogFilter) : List LogEntry → List LogEntry → List LogEntry
  | [], ret => ret
  | e :: rest, ret =>
    if !self.m_addresses.isEmpty && self.m_addresses.count e.address == 0 then
      matchesEntries self rest ret
    else
      match topicsLoop e self.m_topics with
      | () => matchesEntries self rest (ret ++ [e])

/-- Function `LogFilter::matches(TransactionReceipt const&)` (lines 68-82). -/
def matchesReceipt (fns : BloomFunctions) (self : LogFilter) (_m : TransactionReceipt) :
    List LogEntry :=
  if matchesBloom fns self _m.bloom then matchesEntries self _m.log [] else []

end LogFilter

/-- Bloom functions for the examples: the hash is the identity and every bloom contains
every hash. -/
def exampleBloomFunctions : BloomFunctions :=
  { sha3Address := fun a => a, sha3Topic := fun t => t, containsBloom := fun _ _ => true }

/-- A filter for the topic 7, with no address restriction. -/
def exampleTopicFilter : LogFilter :=
  { m_addresses := [], m_topics := [7] }

/-- A log entry of the address 1 that has no topic. -/
def exampleEntry : LogEntry :=
  { address := 1, topics := [] }

/-- A receipt whose log holds `exampleEntry`. -/
def exampleReceipt : TransactionReceipt :=
  { bloom := 0, log := [exampleEntry] }

end Eth
namespace Solidity

open Compiler CompilerContext CompilerUtils

/-! ## The lowering of statements as a function of the syntax -/

mutual
/-- Number of tags that the lowering of a statement allocates: two for each `if`, `while`
and `for` statement in it. -/
def tagCount : Statement → Nat
  | Statement.Block statements => tagCountList statements
  | Statement.IfStatement _ trueStatement falseStatement =>
    2 + tagCountOption falseStatement + tagCount trueStatement
  | Statement.WhileStatement _ body => 2 + tagCount body
  | Statement.ForStatement initializationExpression _ loopExpression body =>
    2 + tagCountOption initializationExpression + tagCount body + tagCountOption loopExpression
  | Statement.Continue => 0
  | Statement.Break => 0
  | Statement.Return _ _ => 0
  | Statement.VariableDefinition _ _ => 0
  | Statement.ExpressionStatement _ => 0
/-- Number of tags that the statements of a block allocate. -/
def tagCountList : List Statement → Nat
  | [] => 0
  | statement :: rest => tagCount statement + tagCountList rest
/-- Number of tags that an optional statement allocates. -/
def tagCountOption : Option Statement → Nat
  | none => 0
  | some statement => tagCount statement
end

/-- The jump that `break` and `continue` emit for a tag stack: the jump to the top of the
stack, nothing for the empty stack. -/
def jumpToTop (tags : List Nat) : List AssemblyItem :=
  match tags.getLast? with
  | some back => [AssemblyItem.PushTag back, AssemblyItem.Operation Instruction.JUMP]
  | none => []

mutual
/-- The item sequence that the specification gives for a statement (section 4.6), as a
function of the statement, the return tag of the function, the break-tag
and continue-tag stacks and the next free tag `u`: an `if` takes `trueTag = u` and its
`endTag` after the tags of the false branch, a loop takes `loopStart = u` and
`loopEnd = u + 1` and lowers its parts with the two tags pushed on the stacks.  `none`
stands for a `return` with an expression in a function without return parameter. -/
def expectedItems (returnTag : Nat) :
    Statement → List Nat → List Nat → Nat → Option (List AssemblyItem)
  | Statement.Block statements, breakTags, continueTags, u =>
    expectedItemsList returnTag statements breakTags continueTags u
  | Statement.IfStatement condition trueStatement falseStatement, breakTags, continueTags, u =>
    match expectedItemsOption returnTag falseStatement breakTags continueTags (u + 1) with
    | none => none
    | some falseItems =>
      match expectedItems returnTag trueStatement breakTags continueTags
          (u + 2 + tagCountOption falseStatement) with
      | none => none
      | some trueItems =>
        some (ifItems condition u (u + 1 + tagCountOption falseStatement) falseItems trueItems)
  | Statement.WhileStatement condition body, breakTags, continueTags, u =>
    match expectedItems returnTag body (breakTags ++ [u + 1]) (continueTags ++ [u]) (u + 2) with
    | none => none
    | some bodyItems => some (whileItems condition u (u + 1) bodyItems)
  | Statement.ForStatement initializationExpression condition loopExpression body,
      breakTags, continueTags, u =>
    match expectedItemsOption returnTag initializationExpression
        (breakTags ++ [u + 1]) (continueTags ++ [u]) (u + 2) with
    | none => none
    | some initItems =>
      match expectedItems returnTag body (breakTags ++ [u + 1]) (continueTags ++ [u])
          (u + 2 + tagCountOption initializationExpression) with
      | none => none
      | some bodyItems =>
        match expectedItemsOption returnTag loopExpression
            (breakTags ++ [u + 1]) (continueTags ++ [u])
            (u + 2 + tagCountOption initializationExpression + tagCount body) with
        | none => none
        | some stepItems =>
          some (forItems condition u (u + 1) initItems bodyItems stepItems)
  | Statement.Continue, _, continueTags, _ => some (jumpToTop continueTags)
  | Statement.Break, breakTags, _, _ => some (jumpToTop breakTags)
  | Statement.Return (some expression) functionReturnParameters, _, _, _ =>
    match functionReturnParameters.head? with
    | none => none
    | some firstVariable =>
      some [AssemblyItem.CompileExpression expression,
            AssemblyItem.TypeConversion expression.type firstVariable.type false,
            AssemblyItem.MoveToStackVariable firstVariable,
            AssemblyItem.PushTag returnTag, AssemblyItem.Operation Instruction.JUMP]
  | Statement.Return none _, _, _, _ =>
    some [AssemblyItem.PushTag returnTag, AssemblyItem.Operation Instruction.JUMP]
  | Statement.VariableDefinition declaration (some expression), _, _, _ =>
    some [AssemblyItem.CompileExpression expression,
          AssemblyItem.TypeConversion expression.type declaration.type false,
          AssemblyItem.MoveToStackVariable declaration]
  | Statement.VariableDefinition _ none, _, _, _ => some []
  | Statement.ExpressionStatement expression, _, _, _ =>
    some [AssemblyItem.CompileExpression expression,
          AssemblyItem.PopStackElement expression.type]
/-- The item sequence of the statements of a block, one after the other. -/
def expectedItemsList (returnTag : Nat) :
    List Statement → List Nat → List Nat → Nat → Option (List AssemblyItem)
  | [], _, _, _ => some []
  | statement :: rest, breakTags, continueTags, u =>
    match expectedItems returnTag statement breakTags continueTags u with
    | none => none
    | some items =>
      match expectedItemsList returnTag rest breakTags continueTags (u + tagCount statement) with
      | none => none
      | some restItems => some (items ++ restItems)
/-- The item sequence of an optional statement. -/
def expectedItemsOption (returnTag : Nat) :
    Option Statement → List Nat → List Nat → Nat → Option (List AssemblyItem)
  | none, _, _, _ => some []
  | some statement, breakTags, continueTags, u =>
    expectedItems returnTag statement breakTags continueTags u
end

/-- The compiler object after `items` have been appended to the current context and
`tags` tags have been allocated, everything else as in `self`. -/
def advance (self : Compiler) (items : List AssemblyItem) (tags : Nat) : Compiler :=
  { self with
    m_context :=
      { self.m_context with
        items := self.m_context.items ++ items
        usedTags := self.m_context.usedTags + tags } }

/-- The zero-pushes that `addAndInitializeVariable` emits for a list of variables. -/
def zeroPushes (declarations : List VariableDeclaration) : List AssemblyItem :=
  declarations.flatMap (fun v => List.replicate v.type.sizeOnStack (AssemblyItem.Push 0))

/-- The compiler object in which `visit(FunctionDefinition)` lowers the body of the
function: the object after lines 279-294, with the return tag allocated, the tag stacks
cleared, the entry label placed and the variables bound. -/
def functionBodyState (_function : FunctionDefinition) (entryLabel : Nat) (self : Compiler) :
    Compiler :=
  let r := self.m_context.startNewFunction.newTag
  let ctx1 := r.2.append (AssemblyItem.Tag entryLabel)
  let ctx2 := _function.parameters.foldl addVariable ctx1
  let ctx3 := _function.returnParameters.foldl addAndInitializeVariable ctx2
  let ctx4 := _function.localVariables.foldl addAndInitializeVariable ctx3
  { self with m_context := ctx4, m_returnTag := r.1, m_breakTags := [], m_continueTags := [] }

/-- The item sequence of a lowered function: the entry label, the zero-pushes for the
return parameters and the local variables, the body, the return tag, the instructions of
the reshuffle loop and the final jump. -/
def functionItems (_function : FunctionDefinition) (entryLabel returnTag : Nat)
    (bodyItems : List AssemblyItem) (ops : List Instruction) : List AssemblyItem :=
  [AssemblyItem.Tag entryLabel]
    ++ zeroPushes _function.returnParameters
    ++ zeroPushes _function.localVariables
    ++ bodyItems
    ++ [AssemblyItem.Tag returnTag]
    ++ ops.map AssemblyItem.Operation
    ++ [AssemblyItem.Operation Instruction.JUMP]

/-- The calls of the statement visitor during the lowering of a statement:
`Visits s self loops t st` holds when `visitStatement s self`, before it returns or throws,
calls the visitor on the statement `t` with the compiler object `st`.  `loops` lists the
`(loopStart, loopEnd)` tags of the loops of `s` that enclose `t`, the outermost first; the
parts of a `for` statement (initialization, body, loop expression) all count as enclosed by
it.  Each rule is one call site of `Compiler.cpp`, with the object the call receives. -/
inductive Visits : Statement → Compiler → List (Nat × Nat) → Statement → Compiler → Prop where
  | here (s : Statement) (self : Compiler) : Visits s self [] s self
  | block (before : List Statement) (s : Statement) (after : List Statement)
      (self self1 : Compiler) (loops : List (Nat × Nat)) (t : Statement) (st : Compiler) :
      visitStatements before self = (Except.ok (), self1) →
      Visits s self1 loops t st →
      Visits (Statement.Block (before ++ s :: after)) self loops t st
  | ifFalse (condition : Expression) (trueStatement falseStatement : Statement)
      (self : Compiler) (loops : List (Nat × Nat)) (t : Statement) (st : Compiler) :
      Visits falseStatement (ifFalseState condition self) loops t st →
      Visits (Statement.IfStatement condition trueStatement (some falseStatement)) self loops t st
  | ifTrue (condition : Expression) (trueStatement : Statement)
      (falseStatement : Option Statement) (self self2 : Compiler) (loops : List (Nat × Nat))
      (t : Statement) (st : Compiler) :
      visitOptionalStatement falseStatement (ifFalseState condition self)
        = (Except.ok (), self2) →
      Visits trueStatement (ifTrueState self.m_context.usedTags self2) loops t st →
      Visits (Statement.IfStatement condition trueStatement falseStatement) self loops t st
  | whileBody (condition : Expression) (body : Statement) (self : Compiler)
      (loops : List (Nat × Nat)) (t : Statement) (st : Compiler) :
      Visits body (whileBodyState condition self) loops t st →
      Visits (Statement.WhileStatement condition body) self
        ((self.m_context.usedTags, self.m_context.usedTags + 1) :: loops) t st
  | forInit (initializationExpression : Statement) (condition : Option Expression)
      (loopExpression : Option Statement) (body : Statement) (self : Compiler)
      (loops : List (Nat × Nat)) (t : Statement) (st : Compiler) :
      Visits initializationExpression (forInitState self) loops t st →
      Visits (Statement.ForStatement (some initializationExpression) condition loopExpression
          body) self
        ((self.m_context.usedTags, self.m_context.usedTags + 1) :: loops) t st
  | forBody (initializationExpression : Option Statement) (condition : Option Expression)
      (loopExpression : Option Statement) (body : Statement) (self self2 : Compiler)
      (loops : List (Nat × Nat)) (t : Statement) (st : Compiler) :
      visitOptionalStatement initializationExpression (forInitState self)
        = (Except.ok (), self2) →
      Visits body
        (forBodyState condition self.m_context.usedTags (self.m_context.usedTags + 1) self2)
        loops t st →
      Visits (Statement.ForStatement initializationExpression condition loopExpression body)
        self ((self.m_context.usedTags, self.m_context.usedTags + 1) :: loops) t st
  | forStep (initializationExpression : Option Statement) (condition : Option Expression)
      (loopExpression : Statement) (body : Statement) (self self2 self5 : Compiler)
      (loops : List (Nat × Nat)) (t : Statement) (st : Compiler) :
      visitOptionalStatement initializationExpression (forInitState self)
        = (Except.ok (), self2) →
      visitStatement body
        (forBodyState condition self.m_context.usedTags (self.m_context.usedTags + 1) self2)
        = (Except.ok (), self5) →
      Visits loopExpression self5 loops t st →
      Visits (Statement.ForStatement initializationExpression condition (some loopExpression)
          body) self
        ((self.m_context.usedTags, self.m_context.usedTags + 1) :: loops) t st

end Solidity

namespace Solidity

open Compiler CompilerContext CompilerUtils

/-- The result `r` of a visitor called on the compiler object `self` is the one that the
item sequence `expected` describes: normal return with the items appended and `tags` tags
allocated, or, for `none`, an internal error. -/
def Refines (r : CompilerResult Unit) (self : Compiler)
    (expected : Option (List AssemblyItem)) (tags : Nat) : Prop :=
  match expected with
  | some items => r = (Except.ok (), advance self items tags)
  | none => r.1 = Except.error CompilerException.InternalCompilerError

end Solidity

namespace Solidity

open Compiler CompilerContext CompilerUtils

/-! ## The virtual stack height along the items of a function -/

/-- The change of the stack height that the specification states for an item: a push adds
one word, `compileExpression` leaves the words of the expression type,
`appendTypeConversion` replaces the words of the source type by those of the target type,
`moveToStackVariable` and `popStackElement` remove the words of the value, `ISZERO`
replaces one word by one word, a jump consumes its target and a conditional jump its
target and the condition, a tag leaves the stack as it is.  `none` is an item that the
lowering of statements does not emit. -/
def stackDelta : AssemblyItem → Option Int
  | AssemblyItem.Push _ => some 1
  | AssemblyItem.PushTag _ => some 1
  | AssemblyItem.Tag _ => some 0
  | AssemblyItem.CompileExpression expression => some (expression.type.sizeOnStack : Int)
  | AssemblyItem.TypeConversion typeOnStack targetType _ =>
    some ((targetType.sizeOnStack : Int) - (typeOnStack.sizeOnStack : Int))
  | AssemblyItem.MoveToStackVariable declaration => some (-(declaration.type.sizeOnStack : Int))
  | AssemblyItem.PopStackElement type => some (-(type.sizeOnStack : Int))
  | AssemblyItem.Operation Instruction.ISZERO => some 0
  | AssemblyItem.Operation Instruction.JUMP => some (-1)
  | AssemblyItem.Operation Instruction.JUMPI => some (-2)
  | _ => none

/-- The items at which control joins or leaves the straight line: the placement of a tag
and the two jumps. -/
def isControlItem : AssemblyItem → Bool
  | AssemblyItem.Tag _ => true
  | AssemblyItem.Operation Instruction.JUMP => true
  | AssemblyItem.Operation Instruction.JUMPI => true
  | _ => false

/-- The stack height after the items, started at height `height` and followed in the order
of emission, provided that the height is `base` at every tag and after every jump (so
that the height at a tag is `base` whether the tag is reached by falling through or by a
jump); `none` otherwise. -/
def scanHeights (base : Int) : List AssemblyItem → Int → Option Int
  | [], height => some height
  | item :: rest, height =>
    match stackDelta item with
    | none => none
    | some delta =>
      if isControlItem item && decide (height + delta ≠ base) then none
      else scanHeights base rest (height + delta)

mutual
/-- Every condition of an `if`, `while` or `for` statement in the statement occupies one
stack word, the word that the conditional jump consumes. -/
def conditionsOneWord : Statement → Bool
  | Statement.Block statements => conditionsOneWordList statements
  | Statement.IfStatement condition trueStatement falseStatement =>
    condition.type.sizeOnStack == 1 && conditionsOneWordOption falseStatement
      && conditionsOneWord trueStatement
  | Statement.WhileStatement condition body =>
    condition.type.sizeOnStack == 1 && conditionsOneWord body
  | Statement.ForStatement initializationExpression condition loopExpression body =>
    (match condition with
     | some c => c.type.sizeOnStack == 1
     | none => true)
      && conditionsOneWordOption initializationExpression && conditionsOneWord body
      && conditionsOneWordOption loopExpression
  | Statement.Continue => true
  | Statement.Break => true
  | Statement.Return _ _ => true
  | Statement.VariableDefinition _ _ => true
  | Statement.ExpressionStatement _ => true
/-- The statements of a block have one-word conditions. -/
def conditionsOneWordList : List Statement → Bool
  | [] => true
  | statement :: rest => conditionsOneWord statement && conditionsOneWordList rest
/-- An optional statement has one-word conditions. -/
def conditionsOneWordOption : Option Statement → Bool
  | none => true
  | some statement => conditionsOneWord statement
end

end Solidity

namespace Solidity

open Compiler CompilerContext CompilerUtils

/-- The function
`function m() returns (uint256 r) { while (c) { continue; break; } return e; }`. -/
def exampleLoopFunction : FunctionDefinition :=
  { id := 90, name := "m", isConstructor := false, parameters := [],
    returnParameters := [exampleDecl 91 exampleUint], localVariables := [],
    body := Statement.Block
      [Statement.WhileStatement exampleCondition exampleLoopBody,
       Statement.Return (some { id := 92, type := exampleUint }) [exampleDecl 91 exampleUint]] }

/-- A compiler object in whose current context the function `m` is registered, with the
entry label 0. -/
def exampleLoopCompiler : Compiler :=
  { m_context := ({} : CompilerContext).addFunction exampleLoopFunction }

/-- The compiler object with which the visitor reaches the `return` of `m`: after the
`while` loop. -/
def exampleAtReturn : Compiler :=
  (visitStatements [Statement.WhileStatement exampleCondition exampleLoopBody]
    (functionBodyState exampleLoopFunction 0 exampleLoopCompiler)).2

end Solidity

namespace Solidity

open Compiler CompilerContext CompilerUtils

/-! ## The functions registered in the creation context -/

/-- The functions that the first registration loop of `packIntoContractCreator` (lines
107-115) passes to `addFunction`, in order: the loop of `addOverrides`, recording the
argument of each call instead of making it. -/
def overridesRegistered (bases : List ContractDefinition)
    (neededFunctions : List FunctionDefinition) :
    List FunctionDefinition → List FunctionDefinition
  | [] => []
  | fn :: rest =>
    let override : Option FunctionDefinition :=
      if !fn.isConstructor then overrideResolver bases fn.name else none
    match override with
    | some o =>
      if neededFunctions.any (fun g => g.id == o.id) then
        o :: overridesRegistered bases neededFunctions rest
      else overridesRegistered bases neededFunctions rest
    | none => overridesRegistered bases neededFunctions rest

/-- The functions that the two registration loops pass to `addFunction`, in order: those
of the first loop, then the needed functions that pass the test of line 118. -/
def registeredFunctions (bases : List ContractDefinition)
    (neededFunctions : List FunctionDefinition) : List FunctionDefinition :=
  overridesRegistered bases neededFunctions neededFunctions
    ++ neededFunctions.filter (fun fn => fn.isConstructor || isNotOwnOverride bases fn)

/-- A call graph that finds the two definitions of `f()` of `exampleOverrideBases`. -/
def exampleCallGraphOverride (_nodes : List ASTNode)
    (_resolve : String → Option FunctionDefinition) : List FunctionDefinition :=
  [exampleDerivedF, exampleBaseF]

end Solidity
namespace Solidity

open Compiler CompilerContext CompilerUtils

/-! ## The items of the constructor calls and of the lowered functions -/

/-- Whether a constructor call can be emitted in a context without an exception: the
entry label of the constructor is registered; for a base constructor the arguments are
recorded and are at most as many as the parameters; for the most-derived constructor the
parameters are within the size limit of the unpacker. -/
def callEmittable (ctx : CompilerContext) : ConstructorCall → Bool
  | ConstructorCall.base constructor (some arguments) =>
    (ctx.getFunctionEntryLabel constructor).isSome
      && decide (arguments.length ≤ constructor.parameters.length)
  | ConstructorCall.base _ none => false
  | ConstructorCall.mostDerived constructor =>
    (ctx.getFunctionEntryLabel constructor).isSome
      && constructor.parameters.all (fun v => decide (v.type.calldataEncodedSize ≤ 32))

/-- The items of one constructor call, as the specification gives them: the push of the
return tag, the code that puts the arguments on the stack (for a base constructor the
argument expressions with their conversions, for the most-derived constructor the copy of
the argument data and the unpacker), the jump to the entry label of the constructor and
the placement of the return tag. -/
def callItems (returnTag entryLabel : Nat) : ConstructorCall → List AssemblyItem
  | ConstructorCall.base constructor (some arguments) =>
    [AssemblyItem.PushTag returnTag]
      ++ baseArgumentItems constructor.parameters arguments
      ++ [AssemblyItem.PushTag entryLabel, AssemblyItem.Operation Instruction.JUMP,
          AssemblyItem.Tag returnTag]
  | ConstructorCall.base _ none => []
  | ConstructorCall.mostDerived constructor =>
    [AssemblyItem.PushTag returnTag]
      ++ constructorArgumentItems constructor.parameters
      ++ [AssemblyItem.PushTag entryLabel, AssemblyItem.Operation Instruction.JUMP,
          AssemblyItem.Tag returnTag]

/-- The items of a list of constructor calls emitted one after the other, the first with
the return tag `returnTag` and each later one with the next tag; the entry labels are
those registered in `ctx`. -/
def callsItems (ctx : CompilerContext) : List ConstructorCall → Nat → List AssemblyItem
  | [], _ => []
  | call :: rest, returnTag =>
    callItems returnTag ((ctx.getFunctionEntryLabel call.callee).getD 0) call
      ++ callsItems ctx rest (returnTag + 1)

/-- The instructions that the reshuffle loop emits for a function; `none` if the loop did
not end within its fuel. -/
def reshuffleInstructions (f : FunctionDefinition) : Option (List Instruction) :=
  (reshuffleLoop
    (getSizeOnStack f.parameters + getSizeOnStack f.returnParameters
      + getSizeOnStack f.localVariables + 2)
    (initialStackLayout (getSizeOnStack f.parameters) (getSizeOnStack f.returnParameters)
      (getSizeOnStack f.localVariables)) []).map Prod.snd

/-- The items of one lowered function, for the next free tag `u` and the entry labels of
`ctx`: `functionItems` with the return tag `u` and the body lowered from tag `u + 1` with
empty tag stacks.  `none` when the function has no entry label or its body has no item
sequence. -/
def loweredFunctionItems (ctx : CompilerContext) (f : FunctionDefinition) (u : Nat) :
    Option (List AssemblyItem) :=
  match ctx.getFunctionEntryLabel f, expectedItems u f.body [] [] (u + 1),
    reshuffleInstructions f with
  | some entryLabel, some bodyItems, some ops =>
    some (functionItems f entryLabel u bodyItems ops)
  | _, _, _ => none

/-- The items of a list of functions lowered one after the other, in list order, each
once: the items of the first function from tag `u`, followed by the items of the others
from the tag after those the first used. -/
def loweredFunctionsItems (ctx : CompilerContext) :
    List FunctionDefinition → Nat → Option (List AssemblyItem)
  | [], _ => some []
  | f :: rest, u =>
    match loweredFunctionItems ctx f u,
      loweredFunctionsItems ctx rest (u + 1 + tagCount f.body) with
    | some items, some restItems => some (items ++ restItems)
    | _, _ => none

/-- The context in which the constructors of `A` and `C` are registered, with the entry
labels 0 and 1. -/
def exampleCreationContext : CompilerContext :=
  (({} : CompilerContext).addFunction exampleConstructorA).addFunction exampleConstructorC

/-- The function `function n() { x; }`. -/
def exampleStepFunction : FunctionDefinition :=
  { id := 93, name := "n", isConstructor := false, parameters := [], returnParameters := [],
    localVariables := [], body := Statement.Block [exampleStep] }

/-- The contract `R { function R(); function m() ...; function n() ... }`, with no
interface function. -/
def exampleRuntimeContract : ContractDefinition :=
  { id := 94,
    definedFunctions := [exampleConstructorC, exampleLoopFunction, exampleStepFunction],
    baseContracts := [], stateVariables := [], interfaceFunctions := [] }

/-- A call graph that finds the constructor `C`. -/
def exampleCallGraphConstructor (_nodes : List ASTNode)
    (_resolve : String → Option FunctionDefinition) : List FunctionDefinition :=
  [exampleConstructorC]

/-- The constructor `function Q(uint256 a, S b)` with an oversized second parameter. -/
def exampleConstructorOversized : FunctionDefinition :=
  { id := 96, name := "Q", isConstructor := true,
    parameters := [exampleDecl 95 exampleUint, exampleDecl 97 exampleStruct],
    returnParameters := [], localVariables := [] }

/-- The contract `Q { function Q(uint256 a, S b); function n() ... }`, with no interface
function. -/
def exampleCreationErrorContract : ContractDefinition :=
  { id := 98, definedFunctions := [exampleConstructorOversized, exampleStepFunction],
    baseContracts := [], stateVariables := [], interfaceFunctions := [] }

/-- A call graph that finds the constructor `Q`. -/
def exampleCallGraphOversized (_nodes : List ASTNode)
    (_resolve : String → Option FunctionDefinition) : List FunctionDefinition :=
  [exampleConstructorOversized]

end Solidity

namespace Solidity

/-! ## Facts about `swapAt` -/

theorem swapAt_length {α : Type} (l : List α) (i j : Nat) : (swapAt l i j).length = l.length := by
  unfold swapAt
  split <;> simp

theorem swapAt_getElem? {α : Type} (l : List α) (i j : Nat) (hi : i < l.length)
    (hj : j < l.length) (x : Nat) :
    (swapAt l i j)[x]? = if x = j then l[i]? else if x = i then l[j]? else l[x]? := by
  unfold swapAt
  rw [List.getElem?_eq_getElem hi, List.getElem?_eq_getElem hj]
  simp only [List.getElem?_set, List.length_set]
  by_cases h1 : x = j
  · subst h1; simp [hj]
  · by_cases h2 : x = i
    · subst h2; simp [h1, hi, Ne.symm h1]
    · simp [h1, h2, Ne.symm h1, Ne.symm h2]

theorem set_head_perm {α : Type} (x : α) :
    ∀ (xs : List α) (j : Nat) (b : α), xs[j]? = some b → (b :: xs.set j x).Perm (x :: xs) := by
  intro xs
  induction xs with
  | nil => intro j b h; simp at h
  | cons y ys ih =>
    intro j b h
    cases j with
    | zero =>
      simp at h
      subst h
      simpa using List.Perm.swap x y ys
    | succ j =>
      simp at h
      simp only [List.set_cons_succ]
      exact ((List.Perm.swap y b _).trans ((ih j b h).cons y)).trans (List.Perm.swap x y ys)

theorem set_set_perm {α : Type} :
    ∀ (l : List α) (i j : Nat) (a b : α), i < j → l[i]? = some a → l[j]? = some b →
      ((l.set i b).set j a).Perm l := by
  intro l
  induction l with
  | nil => intro i j a b _ h; simp at h
  | cons y ys ih =>
    intro i j a b hij hi hj
    cases j with
    | zero => omega
    | succ j =>
      cases i with
      | zero =>
        simp at hi hj
        subst hi
        simpa using set_head_perm y ys j b hj
      | succ i =>
        simp at hi hj
        simp only [List.set_cons_succ]
        exact (ih i j a b (by omega) hi hj).cons y

theorem swapAt_perm {α : Type} (l : List α) (i j : Nat) (hij : i < j) (hj : j < l.length) :
    (swapAt l i j).Perm l := by
  have hi : i < l.length := by omega
  unfold swapAt
  rw [List.getElem?_eq_getElem hi, List.getElem?_eq_getElem hj]
  exact set_set_perm l i j _ _ hij (List.getElem?_eq_getElem hi) (List.getElem?_eq_getElem hj)

end Solidity

namespace Solidity

/-! ## The invariant of the reshuffle loop -/

theorem identityLayout_length (R : Nat) : (identityLayout R).length = R + 1 := by
  simp [identityLayout]

theorem identityLayout_getElem? (R p : Nat) :
    (identityLayout R)[p]? = if p < R + 1 then some (p : Int) else none := by
  unfold identityLayout
  rw [List.getElem?_map]
  by_cases h : p < R + 1
  · rw [List.getElem?_range h]; simp [h]
  · rw [List.getElem?_eq_none (by simpa using h)]; simp [h]

theorem mem_identityLayout (R : Nat) (v : Int) :
    v ∈ identityLayout R ↔ 0 ≤ v ∧ v ≤ (R : Int) := by
  unfold identityLayout
  simp only [List.mem_map, List.mem_range]
  constructor
  · rintro ⟨i, hi, rfl⟩
    omega
  · rintro ⟨h0, h1⟩
    exact ⟨v.toNat, by omega, by omega⟩

theorem LayoutInv.length_ge {R : Nat} {layout : List Int} (h : LayoutInv R layout) :
    R + 1 ≤ layout.length := by
  obtain ⟨k, hk⟩ := h.perm
  have := hk.length_eq
  simp [identityLayout_length] at this
  omega

theorem LayoutInv.le_of_nonneg {R : Nat} {layout : List Int} (h : LayoutInv R layout)
    {p : Nat} {v : Int} (hv : layout[p]? = some v) (h0 : 0 ≤ v) : v ≤ (R : Int) := by
  obtain ⟨k, hk⟩ := h.perm
  have hmem : v ∈ layout := List.getElem?_mem hv
  have := hk.mem_iff.mp hmem
  rw [List.mem_append] at this
  rcases this with h1 | h1
  · exact ((mem_identityLayout R v).mp h1).2
  · have := List.eq_of_mem_replicate h1
    omega

theorem LayoutInv.surj {R : Nat} {layout : List Int} (h : LayoutInv R layout)
    (v : Nat) (hv : v ≤ R) : ∃ p : Nat, layout[p]? = some (v : Int) := by
  obtain ⟨k, hk⟩ := h.perm
  have hmem : (v : Int) ∈ layout := by
    apply hk.mem_iff.mpr
    rw [List.mem_append]
    left
    exact (mem_identityLayout R v).mpr ⟨by omega, by omega⟩
  exact List.getElem?_of_mem hmem

/-- When the loop condition fails, the layout is the identity. -/
theorem LayoutInv.exit_identity {R : Nat} {layout : List Int} (h : LayoutInv R layout)
    (hlast : layout[layout.length - 1]? = some ((layout.length : Int) - 1)) :
    layout = identityLayout R := by
  have hge := h.length_ge
  have hle := h.le_of_nonneg hlast (by omega)
  have hn : layout.length = R + 1 := by omega
  have hR : layout[R]? = some (R : Int) := by
    have : layout.length - 1 = R := by omega
    rw [this] at hlast
    rw [hlast]; congr 1; omega
  have fixedAbove : ∀ d v : Nat, v + d = R → 1 ≤ v → layout[v]? = some (v : Int) := by
    intro d
    induction d using Nat.strong_induction_on with
    | _ d ih =>
      intro v hvd hv1
      obtain ⟨p, hp⟩ := h.surj v (by omega)
      have hpn : p < layout.length := by
        by_contra hc
        rw [List.getElem?_eq_none (by omega)] at hp
        cases hp
      rcases Nat.eq_zero_or_pos p with hp0 | hp0
      · subst hp0
        rcases h.zero with hz | hz
        · rw [hz] at hp; simp at hp; omega
        · rw [hz] at hp
          have hvR : v = R := by simp at hp; omega
          have := h.inj 0 R (R : Int) (by omega) hz hR
          omega
      · have hvp := h.below p v hp0 hp
        by_cases hpv : p = v
        · subst hpv; exact hp
        · have hlt : v < p := by omega
          have := ih (R - p) (by omega) p (by omega) (by omega)
          rw [this] at hp
          simp at hp
          omega
  have fixedZero : layout[0]? = some (0 : Int) := by
    obtain ⟨p, hp⟩ := h.surj 0 (by omega)
    rcases Nat.eq_zero_or_pos p with hp0 | hp0
    · subst hp0; simpa using hp
    · have hpn : p < layout.length := by
        by_contra hc
        rw [List.getElem?_eq_none (by omega)] at hp
        cases hp
      have := fixedAbove (R - p) p (by omega) hp0
      rw [this] at hp
      simp at hp
      omega
  apply List.ext_getElem?
  intro x
  rw [identityLayout_getElem?]
  by_cases hx : x < R + 1
  · simp only [hx, if_true]
    rcases Nat.eq_zero_or_pos x with hx0 | hx0
    · subst hx0; simpa using fixedZero
    · exact fixedAbove (R - x) x (by omega) hx0
  · simp only [hx, if_false]
    exact List.getElem?_eq_none (by omega)

end Solidity

namespace Solidity

theorem getLast?_eq_some_getElem? {α : Type} (l : List α) (b : α) (h : l.getLast? = some b) :
    0 < l.length ∧ l[l.length - 1]? = some b := by
  rw [List.getLast?_eq_getElem?] at h
  refine ⟨?_, h⟩
  by_contra hc
  rw [List.getElem?_eq_none (by omega)] at h
  cases h

theorem LayoutInv.pop_inv {R : Nat} {layout : List Int} (h : LayoutInv R layout) {back : Int}
    (hlast : layout[layout.length - 1]? = some back) (hneg : back < 0) :
    LayoutInv R layout.dropLast := by
  have hpos : 0 < layout.length := by
    by_contra hc
    rw [List.getElem?_eq_none (by omega)] at hlast
    cases hlast
  have h2 : 2 ≤ layout.length := by
    by_contra hc
    have h1 : layout.length - 1 = 0 := by omega
    rw [h1] at hlast
    rcases h.zero with hz | hz <;> rw [hz] at hlast <;> simp at hlast <;> omega
  refine ⟨?_, ?_, ?_, ?_⟩
  · obtain ⟨k, hk⟩ := h.perm
    have hmem : back ∈ layout := List.getElem?_mem hlast
    have hm2 := hk.mem_iff.mp hmem
    rw [List.mem_append] at hm2
    have hrep : back ∈ List.replicate k (-1 : Int) := by
      rcases hm2 with h1 | h1
      · have := (mem_identityLayout R back).mp h1
        omega
      · exact h1
    have hb : back = -1 := List.eq_of_mem_replicate hrep
    have hk0 : k ≠ 0 := by
      intro hk0
      subst hk0
      simp at hrep
    obtain ⟨k1, rfl⟩ := Nat.exists_eq_succ_of_ne_zero hk0
    refine ⟨k1, ?_⟩
    have hsplit : layout = layout.dropLast ++ [back] := by
      have hne : layout ≠ [] := by
        intro hnil
        rw [hnil] at hpos
        simp at hpos
      have hgl : layout.getLast hne = back := by
        have h3 : layout.getLast? = some back := by
          rw [List.getLast?_eq_getElem?]; exact hlast
        rw [List.getLast?_eq_getLast _ hne] at h3
        exact Option.some.inj h3
      rw [← hgl]
      exact (List.dropLast_append_getLast hne).symm
    rw [hsplit, hb, List.replicate_succ', ← List.append_assoc] at hk
    exact (List.perm_append_right_iff _).mp hk
  · intro p q v hv hp hq
    rw [List.getElem?_dropLast] at hp hq
    split at hp
    · split at hq
      · exact h.inj p q v hv hp hq
      · cases hq
    · cases hp
  · rcases h.zero with hz | hz
    · left; rw [List.getElem?_dropLast, if_pos (by omega)]; exact hz
    · right; rw [List.getElem?_dropLast, if_pos (by omega)]; exact hz
  · intro p v hp1 hp
    rw [List.getElem?_dropLast] at hp
    split at hp
    · exact h.below p v hp1 hp
    · cases hp

theorem LayoutInv.back_lt {R : Nat} {layout : List Int} (h : LayoutInv R layout) {back : Int}
    (hlast : layout[layout.length - 1]? = some back) (hnn : ¬ back < 0)
    (hne : ¬ back = (layout.length : Int) - 1) : back.toNat < layout.length - 1 := by
  have hge := h.length_ge
  have hR := h.le_of_nonneg hlast (by omega)
  rcases Nat.eq_zero_or_pos (layout.length - 1) with h0 | h0
  · rw [h0] at hlast
    rcases h.zero with hz | hz <;> rw [hz] at hlast <;> simp at hlast <;> omega
  · have := h.below _ back h0 hlast
    omega

theorem LayoutInv.swap_inv {R : Nat} {layout : List Int} (h : LayoutInv R layout) {back : Int}
    (hlast : layout[layout.length - 1]? = some back) (hnn : ¬ back < 0)
    (hne : ¬ back = (layout.length : Int) - 1) :
    LayoutInv R (swapAt layout back.toNat (layout.length - 1)) := by
  have hge := h.length_ge
  have hlt := h.back_lt hlast hnn hne
  have hi : back.toNat < layout.length := by omega
  have hj : layout.length - 1 < layout.length := by omega
  have hback : (back.toNat : Int) = back := by omega
  refine ⟨?_, ?_, ?_, ?_⟩
  · obtain ⟨k, hk⟩ := h.perm
    exact ⟨k, (swapAt_perm layout _ _ hlt hj).trans hk⟩
  · intro p q v hv hp hq
    rw [swapAt_getElem? layout _ _ hi hj] at hp hq
    split at hp <;> split at hq
    · omega
    · split at hq
      · have := h.inj _ _ v hv hp hq; omega
      · have := h.inj _ _ v hv hp hq; omega
    · split at hp
      · have := h.inj _ _ v hv hp hq; omega
      · have := h.inj _ _ v hv hp hq; omega
    · split at hp <;> split at hq
      · omega
      · have := h.inj _ _ v hv hp hq; omega
      · have := h.inj _ _ v hv hp hq; omega
      · exact h.inj _ _ v hv hp hq
  · rw [swapAt_getElem? layout _ _ hi hj]
    rw [if_neg (by omega)]
    by_cases h0 : 0 = back.toNat
    · rw [if_pos h0]
      left
      rw [hlast]; congr 1; omega
    · rw [if_neg h0]
      exact h.zero
  · intro p v hp1 hp
    rw [swapAt_getElem? layout _ _ hi hj] at hp
    split at hp
    · rcases Nat.eq_zero_or_pos back.toNat with hz | hz
      · rw [hz] at hp
        rcases h.zero with hz0 | hz0 <;> rw [hz0] at hp <;> simp at hp <;> omega
      · have := h.below _ v hz hp
        omega
    · split at hp
      · rw [hlast] at hp
        simp at hp
        omega
      · exact h.below p v hp1 hp

theorem unfixed_pop {layout : List Int} {back : Int}
    (hlast : layout[layout.length - 1]? = some back) (hneg : back < 0) :
    unfixed layout.dropLast < unfixed layout := by
  have hpos : 0 < layout.length := by
    by_contra hc
    rw [List.getElem?_eq_none (by omega)] at hlast
    cases hlast
  unfold unfixed
  apply Finset.card_lt_card
  rw [Finset.ssubset_iff_of_subset]
  · refine ⟨layout.length - 1, ?_, ?_⟩
    · simp only [Finset.mem_filter, Finset.mem_range]
      refine ⟨by omega, ?_⟩
      rw [hlast]
      intro hc
      simp at hc
      omega
    · simp [List.length_dropLast]
  · intro p
    simp only [Finset.mem_filter, Finset.mem_range, List.length_dropLast]
    rintro ⟨hp, hne⟩
    rw [List.getElem?_dropLast, if_pos hp] at hne
    exact ⟨by omega, hne⟩

theorem unfixed_swap {R : Nat} {layout : List Int} (h : LayoutInv R layout) {back : Int}
    (hlast : layout[layout.length - 1]? = some back) (hnn : ¬ back < 0)
    (hne : ¬ back = (layout.length : Int) - 1) :
    unfixed (swapAt layout back.toNat (layout.length - 1)) < unfixed layout := by
  have hlt := h.back_lt hlast hnn hne
  have hi : back.toNat < layout.length := by omega
  have hj : layout.length - 1 < layout.length := by omega
  have hback : (back.toNat : Int) = back := by omega
  unfold unfixed
  apply Finset.card_lt_card
  rw [Finset.ssubset_iff_of_subset]
  · refine ⟨back.toNat, ?_, ?_⟩
    · simp only [Finset.mem_filter, Finset.mem_range]
      refine ⟨hi, ?_⟩
      intro hc
      rw [hback] at hc
      have := h.inj _ _ back (by omega) hc hlast
      omega
    · simp only [Finset.mem_filter, Finset.mem_range, swapAt_length, not_and, not_not]
      intro _
      rw [swapAt_getElem? layout _ _ hi hj, if_neg (by omega), if_pos rfl, hlast, hback]
  · intro p
    simp only [Finset.mem_filter, Finset.mem_range, swapAt_length]
    rintro ⟨hp, hnp⟩
    refine ⟨hp, ?_⟩
    rw [swapAt_getElem? layout _ _ hi hj] at hnp
    split at hnp
    · rename_i hpj
      rw [hpj, hlast]
      intro hc
      simp at hc
      omega
    · split at hnp
      · rename_i hpi
        exfalso
        apply hnp
        rw [hlast, hpi, hback]
      · exact hnp

end Solidity

namespace Solidity

theorem StackRel.pop_rel {α : Type} {layout : List Int} {stack target : List α}
    (h : StackRel layout stack target) : StackRel layout.dropLast stack.dropLast target := by
  refine ⟨by simp [h.1], ?_⟩
  intro p v hp
  rw [List.getElem?_dropLast] at hp ⊢
  rw [h.1]
  split at hp
  · rename_i hlt
    rw [if_pos hlt]
    exact h.2 p v hp
  · cases hp

theorem StackRel.swap_rel {α : Type} {layout : List Int} {stack target : List α}
    (h : StackRel layout stack target) (i j : Nat) (hi : i < layout.length)
    (hj : j < layout.length) : StackRel (swapAt layout i j) (swapAt stack i j) target := by
  refine ⟨by simp [swapAt_length, h.1], ?_⟩
  intro p v hp
  rw [swapAt_getElem? layout i j hi hj] at hp
  rw [swapAt_getElem? stack i j (by rw [h.1]; exact hi) (by rw [h.1]; exact hj)]
  split at hp
  · rename_i hpj
    rw [if_pos hpj]
    exact h.2 i v hp
  · rename_i hpj
    rw [if_neg hpj]
    split at hp
    · rename_i hpi
      rw [if_pos hpi]
      exact h.2 j v hp
    · rename_i hpi
      rw [if_neg hpi]
      exact h.2 p v hp

theorem StackRel.exit_rel {α : Type} {R : Nat} {stack target : List α}
    (h : StackRel (identityLayout R) stack target) (ht : target.length = R + 1) :
    stack = target := by
  apply List.ext_getElem?
  intro x
  by_cases hx : x < R + 1
  · apply h.2 x x
    rw [identityLayout_getElem?, if_pos hx]
  · have h1 := h.1
    rw [identityLayout_length] at h1
    rw [List.getElem?_eq_none (by omega), List.getElem?_eq_none (by omega)]

/-- Under the invariant the loop terminates within `unfixed layout + 1` evaluations of
its condition, ends in the identity layout, and the emitted instructions transform a
related machine stack into the target stack. -/
theorem reshuffleLoop_correct {α : Type} (R : Nat) (target : List α)
    (ht : target.length = R + 1) :
    ∀ (fuel : Nat) (layout : List Int) (out : List Instruction) (stack : List α),
      LayoutInv R layout → StackRel layout stack target → unfixed layout < fuel →
      ∃ ops, reshuffleLoop fuel layout out = some (identityLayout R, out ++ ops) ∧
        execStackOps ops stack = some target := by
  intro fuel
  induction fuel with
  | zero => intro layout out stack _ _ hf; omega
  | succ fuel ih =>
    intro layout out stack hinv hrel hf
    have hge := hinv.length_ge
    have hsome : (layout[layout.length - 1]?).isSome := by
      rw [List.getElem?_eq_getElem (by omega)]; rfl
    obtain ⟨back, hlast⟩ := Option.isSome_iff_exists.mp hsome
    have hgl : layout.getLast? = some back := by
      rw [List.getLast?_eq_getElem?]; exact hlast
    unfold reshuffleLoop
    simp only [hgl]
    by_cases hexit : back = (layout.length : Int) - 1
    · rw [if_pos hexit]
      rw [hexit] at hlast
      have hid := hinv.exit_identity hlast
      refine ⟨[], by simp [hid], ?_⟩
      rw [hid] at hrel
      simp [execStackOps, hrel.exit_rel ht]
    · rw [if_neg hexit]
      by_cases hneg : back < 0
      · rw [if_pos hneg]
        obtain ⟨ops, h1, h2⟩ := ih layout.dropLast (out ++ [Instruction.POP]) stack.dropLast
          (hinv.pop_inv hlast hneg) hrel.pop_rel (by have := unfixed_pop hlast hneg; omega)
        refine ⟨Instruction.POP :: ops, by simpa using h1, ?_⟩
        have hs : stack.length ≠ 0 := by rw [hrel.1]; omega
        simp [execStackOps, execStackOp, hs, h2]
      · rw [if_neg hneg]
        have hlt := hinv.back_lt hlast hneg hexit
        rw [if_pos (by omega)]
        obtain ⟨ops, h1, h2⟩ := ih (swapAt layout back.toNat (layout.length - 1))
          (out ++ [swapInstruction (layout.length - back.toNat - 1)])
          (swapAt stack back.toNat (layout.length - 1))
          (hinv.swap_inv hlast hneg hexit) (hrel.swap_rel _ _ (by omega) (by omega))
          (by have := unfixed_swap hinv hlast hneg hexit; omega)
        refine ⟨swapInstruction (layout.length - back.toNat - 1) :: ops, by simpa using h1, ?_⟩
        have hcond : 1 ≤ layout.length - back.toNat - 1 ∧
            layout.length - back.toNat - 1 < stack.length := by
          rw [hrel.1]; omega
        have hidx : stack.length - 1 - (layout.length - back.toNat - 1) = back.toNat := by
          rw [hrel.1]; omega
        simp only [execStackOps, execStackOp, swapInstruction, if_pos hcond, hidx]
        rw [hrel.1]
        exact h2

end Solidity

namespace Solidity

theorem initialStackLayout_getElem? (A R L p : Nat) :
    (initialStackLayout A R L)[p]? =
      if p = 0 then some (R : Int)
      else if p < 1 + A then some (-1)
      else if p < 1 + A + R then some (((p - 1 - A : Nat) : Int))
      else if p < 1 + A + R + L then some (-1)
      else none := by
  unfold initialStackLayout
  by_cases h0 : p = 0
  · subst h0; simp
  · rw [if_neg h0]
    by_cases h1 : p < 1 + A
    · rw [if_pos h1]
      rw [List.getElem?_append_left (by simp; omega), List.getElem?_append_left (by simp; omega),
        List.getElem?_append_right (by simp; omega), List.getElem?_replicate]
      simp; omega
    · rw [if_neg h1]
      by_cases h2 : p < 1 + A + R
      · rw [if_pos h2]
        rw [List.getElem?_append_left (by simp; omega),
          List.getElem?_append_right (by simp; omega), List.getElem?_map,
          List.getElem?_range (by simp; omega)]
        simp
        omega
      · rw [if_neg h2]
        rw [List.getElem?_append_right (by simp; omega), List.getElem?_replicate]
        simp
        by_cases h3 : p < 1 + A + R + L
        · rw [if_pos h3, if_pos (by omega)]
        · rw [if_neg h3, if_neg (by omega)]

theorem initialStackLayout_inv (A R L : Nat) : LayoutInv R (initialStackLayout A R L) := by
  refine ⟨⟨A + L, ?_⟩, ?_, ?_, ?_⟩
  · unfold initialStackLayout identityLayout
    rw [List.range_succ, List.map_append, List.replicate_add]
    rw [← Multiset.coe_eq_coe]
    simp only [← Multiset.coe_add, List.map_cons, List.map_nil]
    abel
  · intro p q v hv hp hq
    rw [initialStackLayout_getElem?] at hp hq
    split_ifs at hp hq <;> simp at hp hq <;> omega
  · right
    rw [initialStackLayout_getElem?]
    simp
  · intro p v hp1 hp
    rw [initialStackLayout_getElem?] at hp
    split_ifs at hp <;> simp at hp <;> omega

theorem initial_stackRel {α : Type} (ret : α) (args rets locals : List α) :
    StackRel (initialStackLayout args.length rets.length locals.length)
      ([ret] ++ args ++ rets ++ locals) (rets ++ [ret]) := by
  refine ⟨by simp [initialStackLayout], ?_⟩
  intro p v hp
  rw [initialStackLayout_getElem?] at hp
  split_ifs at hp with h0 h1 h2 h3
  · subst h0
    have hv : v = rets.length := by simp at hp; omega
    subst hv
    simp
  · exfalso; simp at hp
  · have hv : v = p - 1 - args.length := by simp at hp; omega
    subst hv
    rw [List.getElem?_append_left (by simp; omega), List.getElem?_append_right (by simp; omega),
      List.getElem?_append_left (by omega)]
    congr 1
    simp
    omega
  · exfalso; simp at hp

theorem unfixed_le_length (layout : List Int) : unfixed layout ≤ layout.length := by
  unfold unfixed
  calc _ ≤ (Finset.range layout.length).card := Finset.card_filter_le _ _
    _ = layout.length := Finset.card_range _

/-- C1: for all argument, return-value and local-variable slots, the reshuffle loop of
`Compiler::visit(FunctionDefinition)` terminates (within `A + R + L + 2` evaluations of its
condition, whatever extra fuel `k` is given) with the layout equal to the identity
`[0 .. R]`, and the `POP`/`SWAPn` sequence it emits turns the machine stack
`[retAddr, a_1 .. a_A, r_0 .. r_(R-1), l_1 .. l_L]` into `[r_0 .. r_(R-1), retAddr]`. -/
theorem reshuffle_yields_return_layout {α : Type} (ret : α) (args rets locals : List α)
    (k : Nat) :
    ∃ ops : List Instruction,
      reshuffleLoop (args.length + rets.length + locals.length + 2 + k)
          (initialStackLayout args.length rets.length locals.length) []
        = some (identityLayout rets.length, ops) ∧
      execStackOps ops ([ret] ++ args ++ rets ++ locals) = some (rets ++ [ret]) := by
  have hlen : (initialStackLayout args.length rets.length locals.length).length
      = 1 + args.length + rets.length + locals.length := by
    simp [initialStackLayout]; omega
  have hfuel : unfixed (initialStackLayout args.length rets.length locals.length)
      < args.length + rets.length + locals.length + 2 + k := by
    have := unfixed_le_length (initialStackLayout args.length rets.length locals.length)
    omega
  obtain ⟨ops, h1, h2⟩ := reshuffleLoop_correct rets.length (rets ++ [ret]) (by simp)
    _ _ [] _ (initialStackLayout_inv _ _ _) (initial_stackRel ret args rets locals) hfuel
  exact ⟨ops, by simpa using h1, h2⟩

end Solidity

namespace Solidity

open Compiler CompilerContext CompilerUtils

/-! ## The override resolver -/

theorem overrideResolverFunctions_eq_find (name : String) (fs : List FunctionDefinition) :
    overrideResolverFunctions name fs
      = fs.find? (fun g => !g.isConstructor && g.name == name) := by
  induction fs with
  | nil => rfl
  | cons g rest ih =>
    simp only [overrideResolverFunctions, List.find?_cons]
    by_cases h : (!g.isConstructor && g.name == name) = true
    · simp [h]
    · simp only [h, Bool.false_eq_true, if_false]
      rw [ih]

theorem overrideResolver_eq_find (bases : List ContractDefinition) (name : String) :
    overrideResolver bases name
      = (bases.flatMap (fun c => c.definedFunctions)).find?
          (fun g => !g.isConstructor && g.name == name) := by
  induction bases with
  | nil => rfl
  | cons c rest ih =>
    simp only [overrideResolver, List.flatMap_cons, List.find?_append,
      overrideResolverFunctions_eq_find]
    cases h : c.definedFunctions.find? (fun g => !g.isConstructor && g.name == name) with
    | some f => simp
    | none => simpa using ih

/-- C2: for every linearization and every name, the override resolver returns exactly the
first function, in the order "contracts of the linearization most-derived first, functions
of a contract in definition order", that is not a constructor and has the given name; and
it returns null exactly when no contract of the linearization defines such a function. -/
theorem overrideResolver_first_match (bases : List ContractDefinition) (name : String) :
    (∀ f : FunctionDefinition, overrideResolver bases name = some f ↔
      ((f.isConstructor = false ∧ f.name = name) ∧
        ∃ before after : List FunctionDefinition,
          bases.flatMap (fun c => c.definedFunctions) = before ++ f :: after ∧
          ∀ g ∈ before, ¬ (g.isConstructor = false ∧ g.name = name))) ∧
    (overrideResolver bases name = none ↔
      ∀ c ∈ bases, ∀ g ∈ c.definedFunctions, ¬ (g.isConstructor = false ∧ g.name = name)) := by
  rw [overrideResolver_eq_find]
  constructor
  · intro f
    rw [List.find?_eq_some]
    constructor
    · rintro ⟨hp, before, after, hl, hn⟩
      refine ⟨by simpa using hp, before, after, hl, ?_⟩
      intro g hg hc
      have := hn g hg
      simp [hc.1, hc.2] at this
    · rintro ⟨hp, before, after, hl, hn⟩
      refine ⟨by simpa using hp, before, after, hl, ?_⟩
      intro g hg
      have := hn g hg
      cases hgc : g.isConstructor <;> simp_all
  · rw [List.find?_eq_none]
    simp only [List.mem_flatMap]
    constructor
    · intro h c hc g hg
      have := h g ⟨c, hc, hg⟩
      simpa using this
    · rintro h g ⟨c, hc, hg⟩
      have := h c hc g hg
      simpa using this

end Solidity

namespace Solidity

open Compiler CompilerContext CompilerUtils

/-! ## Base-constructor arguments -/

theorem lookupBaseArguments_append (m : List (Nat × List Expression)) (b : Nat)
    (args : List Expression) (X : Nat) :
    lookupBaseArguments (m ++ [(b, args)]) X
      = (lookupBaseArguments m X).or (if b = X then some args else none) := by
  unfold lookupBaseArguments
  rw [List.find?_append]
  cases h : m.find? (fun e => e.1 == X) with
  | some e => simp
  | none =>
    by_cases hb : b = X
    · simp [hb]
    · simp [hb]

theorem captureSpecifiers_spec :
    ∀ (specs : List InheritanceSpecifier) (st0 : CreatorState),
      (∀ s ∈ specs, s.referencedContract ≠ none) →
      ∃ st, captureSpecifiers specs st0 = Except.ok st ∧
        ∀ X : Nat, lookupBaseArguments st.baseArguments X
          = (lookupBaseArguments st0.baseArguments X).or
              ((specs.find? (fun s => s.referencedContract == some X)).map
                (fun s => s.arguments)) := by
  intro specs
  induction specs with
  | nil =>
    intro st0 _
    exact ⟨st0, rfl, by intro X; cases lookupBaseArguments st0.baseArguments X <;> rfl⟩
  | cons base rest ih =>
    intro st0 hres
    have hb := hres base (List.mem_cons_self _ _)
    obtain ⟨b, hb⟩ := Option.ne_none_iff_exists'.mp hb
    have hrest : ∀ s ∈ rest, s.referencedContract ≠ none :=
      fun s hs => hres s (List.mem_cons_of_mem _ hs)
    simp only [captureSpecifiers, hb]
    by_cases hnew : (lookupBaseArguments st0.baseArguments b).isNone = true
    · rw [if_pos hnew]
      obtain ⟨st, hst, hlook⟩ := ih _ hrest
      refine ⟨st, hst, ?_⟩
      intro X
      rw [hlook X, lookupBaseArguments_append, List.find?_cons]
      by_cases hX : b = X
      · subst hX
        rw [Option.isNone_iff_eq_none] at hnew
        simp [hnew, hb]
      · have : (base.referencedContract == some X) = false := by
          rw [hb]; simp [hX]
        simp only [hX, if_false, this]
        cases lookupBaseArguments st0.baseArguments X <;> rfl
    · rw [if_neg hnew]
      obtain ⟨st, hst, hlook⟩ := ih st0 hrest
      refine ⟨st, hst, ?_⟩
      intro X
      rw [hlook X, List.find?_cons]
      by_cases hX : b = X
      · subst hX
        obtain ⟨a, ha⟩ := Option.ne_none_iff_exists'.mp
          (by simpa [Option.isNone_iff_eq_none] using hnew :
            lookupBaseArguments st0.baseArguments b ≠ none)
        simp [ha]
      · have : (base.referencedContract == some X) = false := by
          rw [hb]; simp [hX]
        simp only [this]

theorem captureBaseArguments_spec :
    ∀ (bases : List ContractDefinition) (st0 : CreatorState),
      (∀ c ∈ bases, ∀ s ∈ c.baseContracts, s.referencedContract ≠ none) →
      ∃ st, captureBaseArguments bases st0 = Except.ok st ∧
        ∀ X : Nat, lookupBaseArguments st.baseArguments X
          = (lookupBaseArguments st0.baseArguments X).or
              (((bases.flatMap (fun c => c.baseContracts)).find?
                (fun s => s.referencedContract == some X)).map (fun s => s.arguments)) := by
  intro bases
  induction bases with
  | nil =>
    intro st0 _
    exact ⟨st0, rfl, by intro X; cases lookupBaseArguments st0.baseArguments X <;> rfl⟩
  | cons c rest ih =>
    intro st0 hres
    have hc := hres c (List.mem_cons_self _ _)
    have hrest : ∀ d ∈ rest, ∀ s ∈ d.baseContracts, s.referencedContract ≠ none :=
      fun d hd => hres d (List.mem_cons_of_mem _ hd)
    simp only [captureBaseArguments]
    generalize hst1 : (match c.getConstructor with
      | some constructor =>
        ({ st0 with nodesUsedInConstructors :=
            insertNode st0.nodesUsedInConstructors (ASTNode.function constructor) } : CreatorState)
      | none => st0) = st1
    have hsame : st1.baseArguments = st0.baseArguments := by
      rw [← hst1]
      cases c.getConstructor <;> rfl
    obtain ⟨st2, hst2, hlook2⟩ := captureSpecifiers_spec c.baseContracts st1 hc
    rw [hst2]
    obtain ⟨st, hst, hlook⟩ := ih st2 hrest
    refine ⟨st, hst, ?_⟩
    intro X
    rw [hlook X, hlook2 X, hsame, List.flatMap_cons, List.find?_append]
    cases lookupBaseArguments st0.baseArguments X <;>
      cases c.baseContracts.find? (fun s => s.referencedContract == some X) <;> rfl

/-- C3: when every inheritance specifier in the linearization names a contract, the walk
of `packIntoContractCreator` over the linearization completes, and for every contract `X`
the argument list recorded for `X` is the one of the first specifier naming `X` in the walk
(contracts most-derived first, specifiers of a contract in declaration order); specifiers
for `X` met later never replace it, and nothing is recorded for a contract no specifier
names. -/
theorem baseArguments_most_derived_wins (bases : List ContractDefinition)
    (hres : ∀ c ∈ bases, ∀ s ∈ c.baseContracts, s.referencedContract ≠ none) :
    ∃ st, captureBaseArguments bases {} = Except.ok st ∧
      ∀ X : Nat, lookupBaseArguments st.baseArguments X
        = ((bases.flatMap (fun c => c.baseContracts)).find?
            (fun s => s.referencedContract == some X)).map (fun s => s.arguments) := by
  obtain ⟨st, hst, hlook⟩ := captureBaseArguments_spec bases {} hres
  refine ⟨st, hst, ?_⟩
  intro X
  rw [hlook X]
  rfl

end Solidity

namespace Solidity

open Compiler CompilerContext CompilerUtils

/-! ## The constructor call chain -/

theorem emitCalls_append (l1 l2 : List ConstructorCall) (ctx : CompilerContext) :
    emitCalls (l1 ++ l2) ctx =
      match emitCalls l1 ctx with
      | (Except.error e, c) => (Except.error e, c)
      | (Except.ok _, c) => emitCalls l2 c := by
  induction l1 generalizing ctx with
  | nil => rfl
  | cons call rest ih =>
    simp only [List.cons_append, emitCalls]
    rcases h : emitCall call ctx with ⟨r, c⟩
    cases r with
    | error e => rfl
    | ok u => exact ih c

theorem appendBaseConstructorCalls_spec (c0 : ContractDefinition)
    (baseArguments : List (Nat × List Expression)) :
    ∀ (n : Nat) (visited pending : List ContractDefinition) (ctx : CompilerContext),
      pending.length = n →
      appendBaseConstructorCalls (c0 :: (pending ++ visited)) baseArguments
          pending.length (visited.length + 1) ctx
        = emitCalls (pending.reverse.filterMap (baseCallOf baseArguments)) ctx := by
  intro n
  induction n with
  | zero =>
    intro visited pending ctx hlen
    have : pending = [] := List.length_eq_zero.mp hlen
    subst this
    rfl
  | succ n ih =>
    intro visited pending ctx hlen
    obtain ⟨init, x, rfl⟩ : ∃ init x, pending = init ++ [x] := by
      rcases List.eq_nil_or_concat pending with h | ⟨init, x, h⟩
      · rw [h] at hlen; simp at hlen
      · exact ⟨init, x, by simpa using h⟩
    have hinit : init.length = n := by simpa using hlen
    have hidx : (c0 :: (init ++ [x] ++ visited))[(c0 :: (init ++ [x] ++ visited)).length
        - (visited.length + 1)]? = some x := by
      have : (c0 :: (init ++ [x] ++ visited)).length - (visited.length + 1) = init.length + 1 := by
        simp; omega
      rw [this, List.getElem?_cons_succ, List.append_assoc,
        List.getElem?_append_right (le_refl _)]
      simp
    have hnext := ih (x :: visited) init
    simp only [List.length_append, List.length_singleton, List.reverse_append,
      List.reverse_singleton, List.singleton_append, List.filterMap_cons]
    rw [appendBaseConstructorCalls]
    simp only [List.length_append, List.length_singleton] at hidx
    rw [hidx]
    have hlist : init ++ [x] ++ visited = init ++ x :: visited := by simp
    simp only [baseCallOf]
    cases hk : x.getConstructor with
    | none =>
      simp only [Option.map_none']
      have := hnext ctx hinit
      simp only [List.length_cons, baseCallOf] at this
      rw [hlist]
      exact this
    | some k =>
      simp only [Option.map_some']
      cases hargs : lookupBaseArguments baseArguments x.id with
      | none => simp [emitCalls, emitCall]
      | some args =>
        simp only [emitCalls, emitCall]
        rcases hcall : appendBaseConstructorCall k args ctx with ⟨r, c⟩
        cases r with
        | error e => rfl
        | ok u =>
          have := hnext c hinit
          simp only [List.length_cons, baseCallOf] at this
          simp only [hlist]
          exact this

/-- The constructor-call part of `packIntoContractCreator` is the emission, one after the
other, of the calls of `expectedConstructorCalls`. -/
theorem appendConstructorCalls_eq_emitCalls (c0 : ContractDefinition)
    (inherited : List ContractDefinition) (baseArguments : List (Nat × List Expression))
    (ctx : CompilerContext) :
    appendConstructorCalls c0 (c0 :: inherited) baseArguments ctx
        = emitCalls (expectedConstructorCalls c0 inherited baseArguments) ctx := by
  unfold appendConstructorCalls expectedConstructorCalls
  rw [emitCalls_append]
  have h := appendBaseConstructorCalls_spec c0 baseArguments inherited.length [] inherited ctx rfl
  simp only [List.append_nil, List.length_nil, Nat.zero_add] at h
  simp only [List.length_cons, Nat.add_sub_cancel]
  rw [h]
  rcases emitCalls (inherited.reverse.filterMap (baseCallOf baseArguments)) ctx with ⟨r, c⟩
  cases r with
  | error e => rfl
  | ok u =>
    cases c0.getConstructor with
    | none => rfl
    | some k =>
      simp only [emitCalls, emitCall]
      rcases appendConstructorCall k c with ⟨r2, c2⟩
      cases r2 <;> rfl

/-- The constructors that the calls of `expectedConstructorCalls` invoke: those of the
inherited contracts, deepest base first, then that of `c0`. -/
theorem expectedConstructorCalls_callees (c0 : ContractDefinition)
    (inherited : List ContractDefinition) (baseArguments : List (Nat × List Expression)) :
    (expectedConstructorCalls c0 inherited baseArguments).map ConstructorCall.callee
      = inherited.reverse.filterMap (fun c => c.getConstructor) ++ c0.getConstructor.toList := by
  unfold expectedConstructorCalls
  rw [List.map_append, List.map_filterMap]
  congr 1
  · apply List.filterMap_congr
    intro c _
    simp only [baseCallOf]
    cases c.getConstructor <;> rfl
  · cases c0.getConstructor <;> rfl

/-- No constructor is invoked twice when the constructors of the linearized contracts
are distinct nodes. -/
theorem expectedConstructorCalls_nodup (c0 : ContractDefinition)
    (inherited : List ContractDefinition) (baseArguments : List (Nat × List Expression))
    (hnd : ((c0 :: inherited).filterMap (fun c => c.getConstructor)).Nodup) :
    ((expectedConstructorCalls c0 inherited baseArguments).map
      ConstructorCall.callee).Nodup := by
  rw [expectedConstructorCalls_callees]
  have hperm : (inherited.reverse.filterMap (fun c => c.getConstructor)
      ++ c0.getConstructor.toList).Perm
      ((c0 :: inherited).filterMap (fun c => c.getConstructor)) := by
    rw [List.filterMap_cons]
    cases c0.getConstructor with
    | none =>
      simp only [Option.toList, List.append_nil]
      exact (List.reverse_perm inherited).filterMap _
    | some k =>
      simp only [Option.toList]
      refine (List.perm_append_comm).trans ?_
      simp only [List.singleton_append]
      exact ((List.reverse_perm inherited).filterMap _).cons k
  exact hperm.nodup_iff.mpr hnd

end Solidity

namespace Solidity

open Compiler CompilerContext CompilerUtils

/-! ## State-variable slots -/

theorem foldl_addStateVariable (vs : List VariableDeclaration) :
    ∀ ctx : CompilerContext,
      vs.foldl (fun c v => c.addStateVariable v) ctx =
        { ctx with
          stateVariables := ctx.stateVariables ++
            (vs.map (fun v => v.id)).zip (List.range' ctx.stateVariablesSize vs.length)
          stateVariablesSize := ctx.stateVariablesSize + vs.length } := by
  induction vs with
  | nil => intro ctx; simp
  | cons v rest ih =>
    intro ctx
    rw [List.foldl_cons, ih]
    simp [addStateVariable, List.range'_succ, Nat.add_assoc, Nat.add_comm 1]

theorem foldl_contracts_stateVariables (cs : List ContractDefinition) :
    ∀ ctx : CompilerContext,
      cs.foldl
          (fun ctx1 contract =>
            contract.stateVariables.foldl (fun ctx2 decl => ctx2.addStateVariable decl) ctx1)
          ctx
        = (cs.flatMap (fun c => c.stateVariables)).foldl (fun c v => c.addStateVariable v) ctx := by
  induction cs with
  | nil => intro ctx; rfl
  | cons c rest ih =>
    intro ctx
    rw [List.foldl_cons, ih, List.flatMap_cons, List.foldl_append]

theorem registerStateVariables_fresh (bases : List ContractDefinition) :
    registerStateVariables bases {} =
      { stateVariables :=
          ((bases.reverse.flatMap (fun c => c.stateVariables)).map (fun v => v.id)).zip
            (List.range (bases.reverse.flatMap (fun c => c.stateVariables)).length)
        stateVariablesSize := (bases.reverse.flatMap (fun c => c.stateVariables)).length } := by
  unfold registerStateVariables
  rw [foldl_contracts_stateVariables, foldl_addStateVariable, List.range_eq_range']
  simp

theorem getStorageLocation_of_index (vars : List VariableDeclaration)
    (hnd : (vars.map (fun v => v.id)).Nodup) (i : Nat) (v : VariableDeclaration)
    (hv : vars[i]? = some v) :
    ((((vars.map (fun v => v.id)).zip (List.range vars.length)).reverse.find?
        (fun e => e.1 == v.id)).map (fun e => e.2)) = some i := by
  have hi : i < vars.length := by
    by_contra hc
    rw [List.getElem?_eq_none (by omega)] at hv
    cases hv
  have hmem : (v.id, i) ∈ ((vars.map (fun v => v.id)).zip (List.range vars.length)).reverse := by
    rw [List.mem_reverse, List.mem_iff_getElem?]
    refine ⟨i, ?_⟩
    rw [List.getElem?_zip_eq_some]
    simp [hv, List.getElem?_range hi]
  cases hfind : ((vars.map (fun v => v.id)).zip (List.range vars.length)).reverse.find?
      (fun e => e.1 == v.id) with
  | none =>
    rw [List.find?_eq_none] at hfind
    have := hfind _ hmem
    simp at this
  | some e =>
    have hp := List.find?_some hfind
    have he := List.mem_of_find?_eq_some hfind
    rw [List.mem_reverse, List.mem_iff_getElem?] at he
    obtain ⟨j, hj⟩ := he
    rw [List.getElem?_zip_eq_some] at hj
    obtain ⟨hj1, hj2⟩ := hj
    have hjlt : j < vars.length := by
      by_contra hc
      rw [List.getElem?_eq_none (by simp; omega)] at hj2
      cases hj2
    rw [List.getElem?_range hjlt] at hj2
    have hid : (vars.map (fun v => v.id))[j]? = (vars.map (fun v => v.id))[i]? := by
      rw [hj1]
      simp only [List.getElem?_map, hv, Option.map_some']
      congr 1
      simpa using hp
    have hij : j = i := by
      have hjl : j < (vars.map (fun v => v.id)).length := by simpa using hjlt
      have hil : i < (vars.map (fun v => v.id)).length := by simpa using hi
      rw [List.getElem?_eq_getElem hjl, List.getElem?_eq_getElem hil] at hid
      exact (List.Nodup.getElem_inj_iff hnd).mp (Option.some.inj hid)
    simp only [Option.map_some']
    congr 1
    have := Option.some.inj hj2
    omega

/-- C5: on a fresh context `registerStateVariables` registers the state variables in the
order "linearization from the deepest base to the most-derived contract, declaration
order within a contract", the `i`-th registration receiving slot `i`; so the `N`
variables receive exactly the slots `0 .. N-1`, the next free slot is `N`, and (the
declarations being distinct nodes) the slot looked up for the `i`-th variable is `i` and
every variable of an inherited contract has a smaller slot than every variable of a
more-derived contract. -/
theorem stateVariables_slots_base_first (bases : List ContractDefinition) :
    (registerStateVariables bases {}).stateVariables
        = ((bases.reverse.flatMap (fun c => c.stateVariables)).map (fun v => v.id)).zip
            (List.range (bases.reverse.flatMap (fun c => c.stateVariables)).length) ∧
      (registerStateVariables bases {}).stateVariablesSize
        = (bases.reverse.flatMap (fun c => c.stateVariables)).length ∧
      (((bases.reverse.flatMap (fun c => c.stateVariables)).map (fun v => v.id)).Nodup →
        (∀ (i : Nat) (v : VariableDeclaration),
          (bases.reverse.flatMap (fun c => c.stateVariables))[i]? = some v →
          (registerStateVariables bases {}).getStorageLocation v = some i) ∧
        (∀ (moreDerived : List ContractDefinition) (derived : ContractDefinition)
          (between : List ContractDefinition) (inherited : ContractDefinition)
          (deeper : List ContractDefinition),
          bases = moreDerived ++ derived :: (between ++ inherited :: deeper) →
          ∀ v ∈ inherited.stateVariables, ∀ w ∈ derived.stateVariables,
            ∃ sv sw, (registerStateVariables bases {}).getStorageLocation v = some sv ∧
              (registerStateVariables bases {}).getStorageLocation w = some sw ∧ sv < sw)) := by
  rw [registerStateVariables_fresh]
  refine ⟨rfl, rfl, ?_⟩
  intro hnd
  have hloc : ∀ (i : Nat) (v : VariableDeclaration),
      (bases.reverse.flatMap (fun c => c.stateVariables))[i]? = some v →
      CompilerContext.getStorageLocation
        { stateVariables :=
            ((bases.reverse.flatMap (fun c => c.stateVariables)).map (fun v => v.id)).zip
              (List.range (bases.reverse.flatMap (fun c => c.stateVariables)).length)
          stateVariablesSize := (bases.reverse.flatMap (fun c => c.stateVariables)).length } v
        = some i := by
    intro i v hv
    exact getStorageLocation_of_index _ hnd i v hv
  refine ⟨hloc, ?_⟩
  intro moreDerived derived between inherited deeper hb v hv w hw
  obtain ⟨a, ha⟩ := List.mem_iff_getElem?.mp hv
  obtain ⟨b, hb2⟩ := List.mem_iff_getElem?.mp hw
  have halt : a < inherited.stateVariables.length := by
    by_contra hc
    rw [List.getElem?_eq_none (by omega)] at ha
    cases ha
  have hsplit : bases.reverse.flatMap (fun c => c.stateVariables)
      = deeper.reverse.flatMap (fun c => c.stateVariables) ++ (inherited.stateVariables ++
          (between.reverse.flatMap (fun c => c.stateVariables) ++ (derived.stateVariables ++
            moreDerived.reverse.flatMap (fun c => c.stateVariables)))) := by
    rw [hb]
    simp [List.flatMap_append, List.flatMap_cons]
  refine ⟨(deeper.reverse.flatMap (fun c => c.stateVariables)).length + a,
    (deeper.reverse.flatMap (fun c => c.stateVariables)).length
      + (inherited.stateVariables.length
        + ((between.reverse.flatMap (fun c => c.stateVariables)).length + b)),
    hloc _ v ?_, hloc _ w ?_, by omega⟩
  · rw [hsplit, List.getElem?_append_right (by omega), Nat.add_sub_cancel_left,
      List.getElem?_append_left halt]
    exact ha
  · rw [hsplit, List.getElem?_append_right (by omega), Nat.add_sub_cancel_left,
      List.getElem?_append_right (by omega), Nat.add_sub_cancel_left,
      List.getElem?_append_right (by omega), Nat.add_sub_cancel_left]
    have hblt : b < derived.stateVariables.length := by
      by_contra hc
      rw [List.getElem?_eq_none (by omega)] at hb2
      cases hb2
    rw [List.getElem?_append_left hblt]
    exact hb2

end Solidity

namespace Solidity

open Compiler CompilerContext CompilerUtils

/-! ## The calldata unpacker -/

theorem loadItems_getElem? (fromMemory : Bool) :
    ∀ (params : List VariableDeclaration) (offset i : Nat),
      (loadItems fromMemory params offset)[i]? =
        (params[i]?).map (fun v =>
          AssemblyItem.LoadFromMemory
            (offset + ((params.take i).map
              (fun p => getPaddedSize p.type.calldataEncodedSize)).sum)
            v.type.calldataEncodedSize (v.type.category == Category.STRING)
            (!fromMemory) true) := by
  intro params
  induction params with
  | nil => intro offset i; simp [loadItems]
  | cons v rest ih =>
    intro offset i
    cases i with
    | zero => simp [loadItems]
    | succ i =>
      simp only [loadItems, List.getElem?_cons_succ, List.take_succ_cons, List.map_cons,
        List.sum_cons]
      rw [ih]
      simp [Nat.add_assoc]

theorem loadItems_eq_expectedLoads (fromMemory : Bool) (params : List VariableDeclaration) :
    loadItems fromMemory params 4 = expectedLoads fromMemory params := by
  apply List.ext_getElem?
  intro i
  rw [loadItems_getElem?]
  unfold expectedLoads
  rw [List.getElem?_map, List.getElem?_enum]
  cases params[i]? <;> simp

theorem appendCalldataUnpackerLoop_ok (fromMemory : Bool) :
    ∀ (params : List VariableDeclaration) (offset : Nat) (ctx : CompilerContext),
      (∀ v ∈ params, v.type.calldataEncodedSize ≤ 32) →
      appendCalldataUnpackerLoop fromMemory params offset ctx =
        (Except.ok (offset + (params.map
            (fun p => getPaddedSize p.type.calldataEncodedSize)).sum),
          { ctx with items := ctx.items ++ loadItems fromMemory params offset }) := by
  intro params
  induction params with
  | nil => intro offset ctx _; simp [appendCalldataUnpackerLoop, loadItems]
  | cons v rest ih =>
    intro offset ctx hall
    have hv : ¬ v.type.calldataEncodedSize > 32 := by
      have := hall v (List.mem_cons_self _ _)
      omega
    simp only [appendCalldataUnpackerLoop, if_neg hv]
    rw [ih _ _ (fun w hw => hall w (List.mem_cons_of_mem _ hw))]
    simp [loadFromMemory, CompilerContext.append, loadItems, Nat.add_assoc]

theorem appendCalldataUnpackerLoop_error (fromMemory : Bool) :
    ∀ (before : List VariableDeclaration) (bad : VariableDeclaration)
      (after : List VariableDeclaration) (offset : Nat) (ctx : CompilerContext),
      (∀ v ∈ before, v.type.calldataEncodedSize ≤ 32) → 32 < bad.type.calldataEncodedSize →
      appendCalldataUnpackerLoop fromMemory (before ++ bad :: after) offset ctx =
        (Except.error (CompilerException.CompilerError bad.location
            ("Type " ++ bad.type.name ++ " not yet supported.")),
          { ctx with items := ctx.items ++ loadItems fromMemory before offset }) := by
  intro before
  induction before with
  | nil =>
    intro bad after offset ctx _ hbad
    simp [appendCalldataUnpackerLoop, hbad, loadItems]
  | cons v rest ih =>
    intro bad after offset ctx hall hbad
    have hv : ¬ v.type.calldataEncodedSize > 32 := by
      have := hall v (List.mem_cons_self _ _)
      omega
    rw [List.cons_append, appendCalldataUnpackerLoop]
    simp only [if_neg hv]
    rw [ih _ _ _ _ (fun w hw => hall w (List.mem_cons_of_mem _ hw)) hbad]
    simp [loadFromMemory, CompilerContext.append, loadItems]

theorem exists_first_oversized (params : List VariableDeclaration)
    (h : ∃ v ∈ params, 32 < v.type.calldataEncodedSize) :
    ∃ (before : List VariableDeclaration) (bad : VariableDeclaration)
      (after : List VariableDeclaration),
      params = before ++ bad :: after ∧ (∀ v ∈ before, v.type.calldataEncodedSize ≤ 32) ∧
        32 < bad.type.calldataEncodedSize := by
  cases hf : params.find? (fun v => decide (32 < v.type.calldataEncodedSize)) with
  | none =>
    rw [List.find?_eq_none] at hf
    obtain ⟨v, hv, hlt⟩ := h
    have := hf v hv
    simp at this
    omega
  | some bad =>
    rw [List.find?_eq_some] at hf
    obtain ⟨hp, before, after, hl, hn⟩ := hf
    refine ⟨before, bad, after, hl, ?_, by simpa using hp⟩
    intro v hv
    have := hn v hv
    simpa using this

/-- C8: `appendCalldataUnpacker` signals `CompilerError` if and only if some parameter has
a calldata-encoded size above 32 (and returns normally otherwise); when it does, the
parameters split as `before ++ bad :: after` with `bad` the first oversized one, the error
carries the location of `bad`, and the items emitted are exactly the loads of the
parameters in `before`: none for `bad` or any later parameter. -/
theorem calldataUnpacker_error_first_oversized (f : FunctionDefinition) (fromMemory : Bool)
    (ctx : CompilerContext) :
    ((∃ loc msg, (appendCalldataUnpacker f fromMemory ctx).1
          = Except.error (CompilerException.CompilerError loc msg)) ↔
        ∃ v ∈ f.parameters, 32 < v.type.calldataEncodedSize) ∧
      ((∀ v ∈ f.parameters, v.type.calldataEncodedSize ≤ 32) →
        ∃ n, (appendCalldataUnpacker f fromMemory ctx).1 = Except.ok n) ∧
      ((∃ v ∈ f.parameters, 32 < v.type.calldataEncodedSize) →
        ∃ (before : List VariableDeclaration) (bad : VariableDeclaration)
          (after : List VariableDeclaration),
          f.parameters = before ++ bad :: after ∧
          (∀ v ∈ before, v.type.calldataEncodedSize ≤ 32) ∧
          32 < bad.type.calldataEncodedSize ∧
          appendCalldataUnpacker f fromMemory ctx =
            (Except.error (CompilerException.CompilerError bad.location
                ("Type " ++ bad.type.name ++ " not yet supported.")),
              { ctx with items := ctx.items ++ expectedLoads fromMemory before })) := by
  have hok : (∀ v ∈ f.parameters, v.type.calldataEncodedSize ≤ 32) →
      ∃ n, (appendCalldataUnpacker f fromMemory ctx).1 = Except.ok n := by
    intro hall
    unfold appendCalldataUnpacker
    rw [appendCalldataUnpackerLoop_ok fromMemory _ _ _ hall]
    exact ⟨_, rfl⟩
  have herr : (∃ v ∈ f.parameters, 32 < v.type.calldataEncodedSize) →
      ∃ (before : List VariableDeclaration) (bad : VariableDeclaration)
        (after : List VariableDeclaration),
        f.parameters = before ++ bad :: after ∧
        (∀ v ∈ before, v.type.calldataEncodedSize ≤ 32) ∧
        32 < bad.type.calldataEncodedSize ∧
        appendCalldataUnpacker f fromMemory ctx =
          (Except.error (CompilerException.CompilerError bad.location
              ("Type " ++ bad.type.name ++ " not yet supported.")),
            { ctx with items := ctx.items ++ expectedLoads fromMemory before }) := by
    intro h
    obtain ⟨before, bad, after, hl, hb, hbad⟩ := exists_first_oversized f.parameters h
    refine ⟨before, bad, after, hl, hb, hbad, ?_⟩
    unfold appendCalldataUnpacker
    rw [hl, appendCalldataUnpackerLoop_error fromMemory before bad after _ ctx hb hbad]
    rw [← loadItems_eq_expectedLoads]
    rfl
  refine ⟨⟨?_, ?_⟩, hok, herr⟩
  · rintro ⟨loc, msg, he⟩
    by_contra hno
    have hall : ∀ v ∈ f.parameters, v.type.calldataEncodedSize ≤ 32 := by
      intro v hv
      by_contra hc
      exact hno ⟨v, hv, by omega⟩
    obtain ⟨n, hn⟩ := hok hall
    rw [hn] at he
    cases he
  · intro h
    obtain ⟨before, bad, after, _, _, _, hres⟩ := herr h
    exact ⟨bad.location, _, by rw [hres]⟩

/-- C9: for every function whose parameters all have encoded size at most 32,
`appendCalldataUnpacker` returns normally and appends to the context exactly
`expectedLoads`: one load per parameter in declaration order, the `i`-th at offset 4 plus
the padded sizes of the parameters before it, left-aligned exactly for `STRING`, padded to
words, read from memory when `fromMemory` is set and from calldata otherwise. -/
theorem calldataUnpacker_layout (f : FunctionDefinition) (fromMemory : Bool)
    (ctx : CompilerContext)
    (hall : ∀ v ∈ f.parameters, v.type.calldataEncodedSize ≤ 32) :
    (∃ n, (appendCalldataUnpacker f fromMemory ctx).1 = Except.ok n) ∧
      (appendCalldataUnpacker f fromMemory ctx).2
        = { ctx with items := ctx.items ++ expectedLoads fromMemory f.parameters } ∧
      (expectedLoads fromMemory f.parameters).length = f.parameters.length ∧
      ∀ (i : Nat) (v : VariableDeclaration), f.parameters[i]? = some v →
        (expectedLoads fromMemory f.parameters)[i]? = some
          (AssemblyItem.LoadFromMemory
            (4 + ((f.parameters.take i).map
              (fun p => getPaddedSize p.type.calldataEncodedSize)).sum)
            v.type.calldataEncodedSize (v.type.category == Category.STRING)
            (!fromMemory) true) := by
  unfold appendCalldataUnpacker
  rw [appendCalldataUnpackerLoop_ok fromMemory _ _ _ hall]
  refine ⟨⟨_, rfl⟩, ?_, by simp [expectedLoads], ?_⟩
  · rw [← loadItems_eq_expectedLoads]
    rfl
  · intro i v hv
    rw [← loadItems_eq_expectedLoads, loadItems_getElem?, hv]
    rfl

/-- The value returned by `appendCalldataUnpacker` for parameters of encoded size at
most 32: the data start offset 4 plus the padded sizes of all parameters. -/
theorem appendCalldataUnpacker_value (f : FunctionDefinition) (fromMemory : Bool)
    (ctx : CompilerContext)
    (hall : ∀ v ∈ f.parameters, v.type.calldataEncodedSize ≤ 32) :
    (appendCalldataUnpacker f fromMemory ctx).1
      = Except.ok (4 + (f.parameters.map
          (fun p => getPaddedSize p.type.calldataEncodedSize)).sum) := by
  unfold appendCalldataUnpacker
  rw [appendCalldataUnpackerLoop_ok fromMemory _ _ _ hall]
  rfl

/-- C10 (the code departs from its documentation): for a function without parameters the
padded sizes of the parameters sum to 0, yet `appendCalldataUnpacker` returns 4, the
offset behind the signature hash, not the size of the argument data. -/
theorem calldataUnpacker_returns_end_offset :
    (∀ v ∈ exampleNoParameters.parameters, v.type.calldataEncodedSize ≤ 32) ∧
      (exampleNoParameters.parameters.map
        (fun p => getPaddedSize p.type.calldataEncodedSize)).sum = 0 ∧
      (appendCalldataUnpacker exampleNoParameters false {}).1 = Except.ok 4 := by
  refine ⟨by decide, by decide, rfl⟩

end Solidity

namespace Solidity

open Compiler CompilerContext CompilerUtils

/-! ## Shape of the code emitted by `appendFunctionSelector` -/

theorem appendCalldataUnpackerLoop_items (fromMemory : Bool) :
    ∀ (params : List VariableDeclaration) (offset : Nat) (ctx : CompilerContext),
      ∃ more, (appendCalldataUnpackerLoop fromMemory params offset ctx).2.items
        = ctx.items ++ more := by
  intro params
  induction params with
  | nil => intro offset ctx; exact ⟨[], by simp [appendCalldataUnpackerLoop]⟩
  | cons v rest ih =>
    intro offset ctx
    simp only [appendCalldataUnpackerLoop]
    split
    · exact ⟨[], by simp⟩
    · obtain ⟨more, hm⟩ := ih (offset + (loadFromMemory offset v.type.calldataEncodedSize
        (v.type.category == Category.STRING) (!fromMemory) true ctx).1)
        (loadFromMemory offset v.type.calldataEncodedSize
        (v.type.category == Category.STRING) (!fromMemory) true ctx).2
      refine ⟨AssemblyItem.LoadFromMemory offset v.type.calldataEncodedSize
        (v.type.category == Category.STRING) (!fromMemory) true :: more, ?_⟩
      rw [hm]
      simp [loadFromMemory, CompilerContext.append]

theorem appendReturnValuePackerLoop_items :
    ∀ (params : List VariableDeclaration) (offset depth : Nat) (ctx : CompilerContext),
      ∃ more, (appendReturnValuePackerLoop params offset depth ctx).2.items
        = ctx.items ++ more := by
  intro params
  induction params with
  | nil => intro offset depth ctx; exact ⟨[], by simp [appendReturnValuePackerLoop]⟩
  | cons v rest ih =>
    intro offset depth ctx
    simp only [appendReturnValuePackerLoop]
    split
    · exact ⟨[], by simp⟩
    · obtain ⟨more, hm⟩ := ih (offset + (storeInMemory offset v.type.calldataEncodedSize
          (v.type.category == Category.STRING) true
          (appendTypeConversion (copyToStackTop depth v.type ctx) v.type v.type true)).1)
        (depth - v.type.sizeOnStack)
        (storeInMemory offset v.type.calldataEncodedSize
          (v.type.category == Category.STRING) true
          (appendTypeConversion (copyToStackTop depth v.type ctx) v.type v.type true)).2
      refine ⟨AssemblyItem.CopyToStackTop depth v.type ::
        AssemblyItem.TypeConversion v.type v.type true ::
        AssemblyItem.StoreInMemory offset v.type.calldataEncodedSize
          (v.type.category == Category.STRING) true :: more, ?_⟩
      rw [hm]
      simp [storeInMemory, appendTypeConversion, copyToStackTop, CompilerContext.append]

theorem appendReturnValuePacker_items (f : FunctionDefinition) (ctx : CompilerContext) :
    ∃ more, (appendReturnValuePacker f ctx).2.items = ctx.items ++ more := by
  simp only [appendReturnValuePacker]
  obtain ⟨more, hm⟩ := appendReturnValuePackerLoop_items f.returnParameters 0
    (getSizeOnStack f.returnParameters) ctx
  rcases h : appendReturnValuePackerLoop f.returnParameters 0
    (getSizeOnStack f.returnParameters) ctx with ⟨r, c⟩
  rw [h] at hm
  cases r with
  | error e => exact ⟨more, hm⟩
  | ok n =>
    refine ⟨more ++ [AssemblyItem.Push n, AssemblyItem.Push 0,
      AssemblyItem.Operation Instruction.RETURN], ?_⟩
    simp only [CompilerContext.append] at hm ⊢
    simp [hm]

theorem appendSelectorLandings_items (entryPoints : List (Nat × Nat)) :
    ∀ (table : List (Nat × FunctionDefinition)) (ctx : CompilerContext),
      ∃ more, (appendSelectorLandings entryPoints table ctx).2.items = ctx.items ++ more := by
  intro table
  induction table with
  | nil => intro ctx; exact ⟨[], by simp [appendSelectorLandings]⟩
  | cons it rest ih =>
    intro ctx
    simp only [appendSelectorLandings]
    obtain ⟨m1, h1⟩ := appendCalldataUnpackerLoop_items false it.2.parameters dataStartOffset
      (ctx.append (AssemblyItem.Tag (entryPointAt entryPoints it.1))).pushNewTag.2
    unfold appendCalldataUnpacker
    rcases hu : appendCalldataUnpackerLoop false it.2.parameters dataStartOffset
      (ctx.append (AssemblyItem.Tag (entryPointAt entryPoints it.1))).pushNewTag.2 with ⟨r, c⟩
    rw [hu] at h1
    have hc : c.items = ctx.items ++ ([AssemblyItem.Tag (entryPointAt entryPoints it.1),
        AssemblyItem.PushTag ctx.usedTags] ++ m1) := by
      simp only [pushNewTag, newTag, CompilerContext.append] at h1
      simpa using h1
    cases r with
    | error e => exact ⟨_, hc⟩
    | ok n =>
      simp only
      cases hl : c.getFunctionEntryLabel it.2 with
      | none => exact ⟨_, hc⟩
      | some l =>
        simp only
        obtain ⟨m2, h2⟩ := appendReturnValuePacker_items it.2
          ((c.appendJumpTo l).append (AssemblyItem.Tag (ctx.append
            (AssemblyItem.Tag (entryPointAt entryPoints it.1))).pushNewTag.1))
        rcases hp : appendReturnValuePacker it.2
          ((c.appendJumpTo l).append (AssemblyItem.Tag (ctx.append
            (AssemblyItem.Tag (entryPointAt entryPoints it.1))).pushNewTag.1)) with ⟨r2, c2⟩
        rw [hp] at h2
        have hc2 : c2.items = ctx.items ++ ([AssemblyItem.Tag (entryPointAt entryPoints it.1),
            AssemblyItem.PushTag ctx.usedTags] ++ m1 ++ [AssemblyItem.PushTag l,
            AssemblyItem.Operation Instruction.JUMP, AssemblyItem.Tag ctx.usedTags] ++ m2) := by
          simp only [appendJumpTo, CompilerContext.append, hc] at h2
          simpa using h2
        cases r2 with
        | error e => exact ⟨_, hc2⟩
        | ok u =>
          simp only
          obtain ⟨m3, h3⟩ := ih c2
          refine ⟨([AssemblyItem.Tag (entryPointAt entryPoints it.1),
            AssemblyItem.PushTag ctx.usedTags] ++ m1 ++ [AssemblyItem.PushTag l,
            AssemblyItem.Operation Instruction.JUMP, AssemblyItem.Tag ctx.usedTags] ++ m2)
            ++ m3, ?_⟩
          rw [h3, hc2]
          simp

theorem appendSelectorChain_items :
    ∀ (table : List (Nat × FunctionDefinition)) (entryPoints : List (Nat × Nat))
      (ctx : CompilerContext),
      ∃ tags : List Nat, tags.length = table.length ∧
        (appendSelectorChain table entryPoints ctx).2.items
          = ctx.items ++ ((table.map (fun e => e.1)).zip tags).flatMap
              (fun p => chainGroup p.1 p.2) := by
  intro table
  induction table with
  | nil => intro eps ctx; exact ⟨[], rfl, by simp [appendSelectorChain]⟩
  | cons it rest ih =>
    intro eps ctx
    simp only [appendSelectorChain]
    obtain ⟨tags, hlen, hitems⟩ := ih (insertEntryPoint eps it.1 ctx.newTag.1)
      ((((ctx.newTag.2.append (AssemblyItem.Operation (dupInstruction 1))).append
        (AssemblyItem.Push it.1)).append (AssemblyItem.Operation Instruction.EQ)).appendConditionalJumpTo
        (entryPointAt (insertEntryPoint eps it.1 ctx.newTag.1) it.1))
    refine ⟨entryPointAt (insertEntryPoint eps it.1 ctx.newTag.1) it.1 :: tags, by simp [hlen], ?_⟩
    rw [hitems]
    simp [appendConditionalJumpTo, CompilerContext.append, newTag, chainGroup, dupInstruction]

/-- The items emitted by `appendFunctionSelector`, whether or not it throws while
emitting the landing code: prologue, comparison chain, `STOP`, and whatever was emitted
of the landing code. -/
theorem appendFunctionSelector_items (contract : ContractDefinition) (ctx : CompilerContext) :
    ∃ (tags : List Nat) (landings : List AssemblyItem),
      tags.length = contract.interfaceFunctions.length ∧
      emitted ctx (appendFunctionSelector contract ctx).2
        = selectorPrologue
          ++ ((contract.interfaceFunctions.map (fun e => e.1)).zip tags).flatMap
              (fun p => chainGroup p.1 p.2)
          ++ AssemblyItem.Operation Instruction.STOP :: landings := by
  unfold appendFunctionSelector
  simp only
  obtain ⟨tags, hlen, hchain⟩ := appendSelectorChain_items contract.interfaceFunctions []
    (loadFromMemory 0 4 false true defaultPadToWords
      ((ctx.append (AssemblyItem.Push 1)).append (AssemblyItem.Push 0))).2
  obtain ⟨more, hmore⟩ := appendSelectorLandings_items
    (appendSelectorChain contract.interfaceFunctions []
      (loadFromMemory 0 4 false true defaultPadToWords
        ((ctx.append (AssemblyItem.Push 1)).append (AssemblyItem.Push 0))).2).1
    contract.interfaceFunctions
    ((appendSelectorChain contract.interfaceFunctions []
      (loadFromMemory 0 4 false true defaultPadToWords
        ((ctx.append (AssemblyItem.Push 1)).append (AssemblyItem.Push 0))).2).2.append
      (AssemblyItem.Operation Instruction.STOP))
  refine ⟨tags, more, hlen, ?_⟩
  unfold emitted
  rw [hmore]
  have key : ∀ (c : CompilerContext) (item : AssemblyItem),
      (c.append item).items = c.items ++ [item] := fun _ _ => rfl
  rw [key, hchain]
  simp [loadFromMemory, CompilerContext.append, selectorPrologue]

end Solidity

namespace Solidity

open Compiler CompilerContext CompilerUtils

/-! ## Steps of the dispatch machine -/

theorem run_of_step_inl (load : Nat → Nat → Bool → Bool → Bool → Nat) {items : List AssemblyItem}
    {pc : Nat} {stack : List Word} {pc1 : Nat} {stack1 : List Word}
    (h : step items load pc stack = Sum.inl (pc1, stack1)) (fuel : Nat) :
    run items load (fuel + 1) pc stack
      = (pc :: (run items load fuel pc1 stack1).1, (run items load fuel pc1 stack1).2) := by
  simp [run, h]

theorem run_of_step_inr (load : Nat → Nat → Bool → Bool → Bool → Nat) {items : List AssemblyItem}
    {pc : Nat} {stack : List Word} {outcome : Outcome}
    (h : step items load pc stack = Sum.inr outcome) (fuel : Nat) :
    run items load (fuel + 1) pc stack = ([pc], outcome) := by
  simp [run, h]

theorem getElem?_append_offset {α : Type} (pre l : List α) (j : Nat) :
    (pre ++ l)[pre.length + j]? = l[j]? := by
  rw [List.getElem?_append_right (by omega)]
  congr 1
  omega

theorem step_pushedWord (load : Nat → Nat → Bool → Bool → Bool → Nat) {items : List AssemblyItem}
    {pc : Nat} {item : AssemblyItem} {w : Word} (stack : List Word)
    (hget : items[pc]? = some item) (hw : pushedWord load item = some w) :
    step items load pc stack = Sum.inl (pc + 1, stack ++ [w]) := by
  cases item <;> simp [pushedWord] at hw <;> subst hw <;> simp [step, hget]

theorem step_tag (load : Nat → Nat → Bool → Bool → Bool → Nat) {items : List AssemblyItem}
    {pc t : Nat} (stack : List Word) (hget : items[pc]? = some (AssemblyItem.Tag t)) :
    step items load pc stack = Sum.inl (pc + 1, stack) := by
  simp [step, hget]

theorem step_stop (load : Nat → Nat → Bool → Bool → Bool → Nat) {items : List AssemblyItem}
    {pc : Nat} (stack : List Word)
    (hget : items[pc]? = some (AssemblyItem.Operation Instruction.STOP)) :
    step items load pc stack = Sum.inr (Outcome.stopped pc stack) := by
  simp [step, hget]

theorem step_dup1 (load : Nat → Nat → Bool → Bool → Bool → Nat) {items : List AssemblyItem}
    {pc : Nat} (base : List Word) (w : Word)
    (hget : items[pc]? = some (AssemblyItem.Operation (Instruction.DUP 1))) :
    step items load pc (base ++ [w]) = Sum.inl (pc + 1, base ++ [w, w]) := by
  simp [step, hget, execStackOp]

theorem step_eq (load : Nat → Nat → Bool → Bool → Bool → Nat) {items : List AssemblyItem}
    {pc : Nat} (base : List Word) (a b : Nat)
    (hget : items[pc]? = some (AssemblyItem.Operation Instruction.EQ)) :
    step items load pc (base ++ [Word.value b, Word.value a])
      = Sum.inl (pc + 1, base ++ [Word.value (if a = b then 1 else 0)]) := by
  simp [step, hget]

theorem step_jumpi_zero (load : Nat → Nat → Bool → Bool → Bool → Nat) {items : List AssemblyItem}
    {pc : Nat} (base : List Word) (t : Nat)
    (hget : items[pc]? = some (AssemblyItem.Operation Instruction.JUMPI)) :
    step items load pc (base ++ [Word.value 0, Word.tag t]) = Sum.inl (pc + 1, base) := by
  simp [step, hget]

theorem step_jumpi_taken (load : Nat → Nat → Bool → Bool → Bool → Nat) {items : List AssemblyItem}
    {pc : Nat} (base : List Word) (t p : Nat)
    (hget : items[pc]? = some (AssemblyItem.Operation Instruction.JUMPI))
    (hpos : tagPosition t items = some p) :
    step items load pc (base ++ [Word.value 1, Word.tag t]) = Sum.inl (p, base) := by
  simp [step, hget, hpos]

theorem step_jump_out (load : Nat → Nat → Bool → Bool → Bool → Nat) {items : List AssemblyItem}
    {pc : Nat} (base : List Word) (t : Nat)
    (hget : items[pc]? = some (AssemblyItem.Operation Instruction.JUMP))
    (hpos : tagPosition t items = none) :
    step items load pc (base ++ [Word.tag t]) = Sum.inr (Outcome.jumpedOut t base) := by
  simp [step, hget, hpos]

theorem range_trace (n : Nat) :
    0 :: 1 :: 2 :: (List.range' 3 n ++ [3 + n]) = List.range (3 + n + 1) := by
  have h1 : List.range' 0 (3 + n + 1) = List.range' 0 3 ++ List.range' 3 (n + 1) := by
    rw [List.range'_append]
    congr 1
    omega
  have h2 : List.range' 3 (n + 1) = List.range' 3 n ++ [3 + n] := by
    rw [List.range'_concat]
    simp
  rw [List.range_eq_range', h1, h2]
  rfl

theorem chain_length (pairs : List (Nat × Nat)) :
    (pairs.flatMap (fun p => chainGroup p.1 p.2)).length = 5 * pairs.length := by
  induction pairs with
  | nil => rfl
  | cons p rest ih =>
    rw [List.flatMap_cons, List.length_append, ih]
    simp only [chainGroup, List.length_cons, List.length_nil]
    omega

/-- A comparison group whose hash differs from the incoming one is passed without
jumping: five items are executed and the stack is as before. -/
theorem run_group_skip (load : Nat → Nat → Bool → Bool → Bool → Nat)
    (pre post : List AssemblyItem) (k τ h : Nat) (hne : k ≠ h) (base : List Word) (fuel : Nat) :
    run (pre ++ chainGroup k τ ++ post) load (fuel + 5) pre.length (base ++ [Word.value h])
      = (List.range' pre.length 5
          ++ (run (pre ++ chainGroup k τ ++ post) load fuel (pre.length + 5)
              (base ++ [Word.value h])).1,
         (run (pre ++ chainGroup k τ ++ post) load fuel (pre.length + 5)
              (base ++ [Word.value h])).2) := by
  have hget : ∀ j, (pre ++ chainGroup k τ ++ post)[pre.length + j]?
      = (chainGroup k τ ++ post)[j]? := by
    intro j
    rw [List.append_assoc, getElem?_append_offset]
  have h0 : (pre ++ chainGroup k τ ++ post)[pre.length]?
      = some (AssemblyItem.Operation (Instruction.DUP 1)) := by
    have := hget 0
    simpa [chainGroup] using this
  have h1 : (pre ++ chainGroup k τ ++ post)[pre.length + 1]?
      = some (AssemblyItem.Push k) := by
    rw [hget 1]; rfl
  have h2 : (pre ++ chainGroup k τ ++ post)[pre.length + 1 + 1]?
      = some (AssemblyItem.Operation Instruction.EQ) := by
    rw [show pre.length + 1 + 1 = pre.length + 2 from rfl, hget 2]; rfl
  have h3 : (pre ++ chainGroup k τ ++ post)[pre.length + 1 + 1 + 1]?
      = some (AssemblyItem.PushTag τ) := by
    rw [show pre.length + 1 + 1 + 1 = pre.length + 3 from rfl, hget 3]; rfl
  have h4 : (pre ++ chainGroup k τ ++ post)[pre.length + 1 + 1 + 1 + 1]?
      = some (AssemblyItem.Operation Instruction.JUMPI) := by
    rw [show pre.length + 1 + 1 + 1 + 1 = pre.length + 4 from rfl, hget 4]; simp [chainGroup]
  generalize pre ++ chainGroup k τ ++ post = items at h0 h1 h2 h3 h4 ⊢
  have s0 := step_dup1 load base (Word.value h) h0
  have s1 := step_pushedWord load (w := Word.value k)
    (base ++ [Word.value h, Word.value h]) h1 rfl
  have s2 := step_eq load (base ++ [Word.value h]) k h h2
  have s3 := step_pushedWord load (w := Word.tag τ)
    (base ++ [Word.value h] ++ [Word.value (if k = h then 1 else 0)]) h3 rfl
  have s4 := step_jumpi_zero load (base ++ [Word.value h]) τ h4
  simp only [if_neg hne, List.append_assoc, List.cons_append, List.nil_append] at s1 s2 s3 s4
  rw [show fuel + 5 = fuel + 1 + 1 + 1 + 1 + 1 from rfl, run_of_step_inl load s0,
    run_of_step_inl load s1, run_of_step_inl load s2, run_of_step_inl load s3, run_of_step_inl load s4]
  simp [List.range', Nat.add_assoc]

/-- The whole comparison chain is passed without jumping when no hash of the chain equals
the incoming one. -/
theorem run_chain_skip (load : Nat → Nat → Bool → Bool → Bool → Nat) (h : Nat)
    (base : List Word) :
    ∀ (pairs : List (Nat × Nat)) (pre post : List AssemblyItem) (fuel : Nat),
      (∀ p ∈ pairs, p.1 ≠ h) →
      run (pre ++ pairs.flatMap (fun p => chainGroup p.1 p.2) ++ post) load
          (fuel + 5 * pairs.length) pre.length (base ++ [Word.value h])
        = (List.range' pre.length (5 * pairs.length)
            ++ (run (pre ++ pairs.flatMap (fun p => chainGroup p.1 p.2) ++ post) load fuel
                (pre.length + 5 * pairs.length) (base ++ [Word.value h])).1,
           (run (pre ++ pairs.flatMap (fun p => chainGroup p.1 p.2) ++ post) load fuel
                (pre.length + 5 * pairs.length) (base ++ [Word.value h])).2) := by
  intro pairs
  induction pairs with
  | nil => intro pre post fuel _; simp
  | cons p rest ih =>
    intro pre post fuel hne
    have hp := hne p (List.mem_cons_self _ _)
    have hrest : ∀ q ∈ rest, q.1 ≠ h := fun q hq => hne q (List.mem_cons_of_mem _ hq)
    have hitems : pre ++ (p :: rest).flatMap (fun p => chainGroup p.1 p.2) ++ post
        = pre ++ chainGroup p.1 p.2 ++ (rest.flatMap (fun p => chainGroup p.1 p.2) ++ post) := by
      simp [List.flatMap_cons]
    have hitems2 : pre ++ (p :: rest).flatMap (fun p => chainGroup p.1 p.2) ++ post
        = (pre ++ chainGroup p.1 p.2) ++ rest.flatMap (fun p => chainGroup p.1 p.2) ++ post := by
      simp [List.flatMap_cons]
    have hfuel : fuel + 5 * (p :: rest).length = (fuel + 5 * rest.length) + 5 := by
      simp only [List.length_cons]; omega
    rw [hfuel, hitems, run_group_skip load pre _ p.1 p.2 h hp base, ← hitems, hitems2]
    have hlen : (pre ++ chainGroup p.1 p.2).length = pre.length + 5 := by simp [chainGroup]
    have := ih (pre ++ chainGroup p.1 p.2) post fuel hrest
    rw [hlen] at this
    rw [this]
    have hpc : pre.length + 5 + 5 * rest.length = pre.length + 5 * (p :: rest).length := by
      simp only [List.length_cons]; omega
    rw [hpc]
    have hr : List.range' pre.length 5 ++ List.range' (pre.length + 5) (5 * rest.length)
        = List.range' pre.length (5 * (p :: rest).length) := by
      rw [List.range'_append]
      congr 1
    rw [← List.append_assoc, hr]

/-- C6: for every interface table and every incoming 4-byte hash that is not a key of the
table, the machine started at the first item emitted by `appendFunctionSelector` executes
the items `0 .. 3 + 5 n` one after the other (so it takes none of the `n` conditional
jumps of the comparison chain and enters no landing code) and halts at the `STOP` item
placed after the chain, with the stack `1 0 <funhash>`. -/
theorem selector_unknown_hash_stops (contract : ContractDefinition) (ctx : CompilerContext)
    (load : Nat → Nat → Bool → Bool → Bool → Nat) (k : Nat)
    (hunknown : ∀ e ∈ contract.interfaceFunctions, e.1 ≠ load 0 4 false true defaultPadToWords) :
    (emitted ctx (appendFunctionSelector contract ctx).2)[3
        + 5 * contract.interfaceFunctions.length]?
        = some (AssemblyItem.Operation Instruction.STOP) ∧
      run (emitted ctx (appendFunctionSelector contract ctx).2) load
          (3 + 5 * contract.interfaceFunctions.length + 1 + k) 0 []
        = (List.range (3 + 5 * contract.interfaceFunctions.length + 1),
           Outcome.stopped (3 + 5 * contract.interfaceFunctions.length)
             [Word.value 1, Word.value 0,
              Word.value (load 0 4 false true defaultPadToWords)]) := by
  obtain ⟨tags, landings, hlen, hitems⟩ := appendFunctionSelector_items contract ctx
  rw [hitems]
  generalize hpairs : (contract.interfaceFunctions.map (fun e => e.1)).zip tags = pairs
  have hplen : pairs.length = contract.interfaceFunctions.length := by
    rw [← hpairs]; simp [hlen]
  have hne : ∀ p ∈ pairs, p.1 ≠ load 0 4 false true defaultPadToWords := by
    intro p hp
    rw [← hpairs] at hp
    have := (List.of_mem_zip hp).1
    rw [List.mem_map] at this
    obtain ⟨e, he, heq⟩ := this
    rw [← heq]
    exact hunknown e he
  rw [← hplen]
  have hstop : (selectorPrologue ++ pairs.flatMap (fun p => chainGroup p.1 p.2)
      ++ AssemblyItem.Operation Instruction.STOP :: landings)[3 + 5 * pairs.length]?
      = some (AssemblyItem.Operation Instruction.STOP) := by
    have hl : (selectorPrologue ++ pairs.flatMap (fun p => chainGroup p.1 p.2)).length
        = 3 + 5 * pairs.length := by
      rw [List.length_append, chain_length]
      rfl
    rw [← hl, List.getElem?_append_right (le_refl _)]
    simp
  refine ⟨hstop, ?_⟩
  have g0 : (selectorPrologue ++ pairs.flatMap (fun p => chainGroup p.1 p.2)
      ++ AssemblyItem.Operation Instruction.STOP :: landings)[0]? = some (AssemblyItem.Push 1) := by
    simp [selectorPrologue]
  have g1 : (selectorPrologue ++ pairs.flatMap (fun p => chainGroup p.1 p.2)
      ++ AssemblyItem.Operation Instruction.STOP :: landings)[0 + 1]?
      = some (AssemblyItem.Push 0) := by
    simp [selectorPrologue]
  have g2 : (selectorPrologue ++ pairs.flatMap (fun p => chainGroup p.1 p.2)
      ++ AssemblyItem.Operation Instruction.STOP :: landings)[0 + 1 + 1]?
      = some (AssemblyItem.LoadFromMemory 0 4 false true defaultPadToWords) := by
    simp [selectorPrologue]
  have s0 := step_pushedWord load (w := Word.value 1) [] g0 rfl
  have s1 := step_pushedWord load (w := Word.value 0) ([] ++ [Word.value 1]) g1 rfl
  have s2 := step_pushedWord load
    (w := Word.value (load 0 4 false true defaultPadToWords))
    ([] ++ [Word.value 1] ++ [Word.value 0]) g2 rfl
  have hfuel : 3 + 5 * pairs.length + 1 + k = (k + 1 + 5 * pairs.length) + 1 + 1 + 1 := by omega
  rw [hfuel, run_of_step_inl load s0, run_of_step_inl load s1, run_of_step_inl load s2]
  have hchain := run_chain_skip load (load 0 4 false true defaultPadToWords)
    [Word.value 1, Word.value 0] pairs selectorPrologue
    (AssemblyItem.Operation Instruction.STOP :: landings) (k + 1) hne
  have hpl : selectorPrologue.length = 0 + 1 + 1 + 1 := rfl
  rw [hpl] at hchain
  simp only [List.nil_append, List.cons_append] at hchain ⊢
  rw [hchain]
  have hstop2 : (selectorPrologue ++ pairs.flatMap (fun p => chainGroup p.1 p.2)
      ++ AssemblyItem.Operation Instruction.STOP :: landings)[0 + 1 + 1 + 1 + 5 * pairs.length]?
      = some (AssemblyItem.Operation Instruction.STOP) := by
    rw [← hstop]
  rw [run_of_step_inr load (step_stop load _ hstop2)]
  refine Prod.ext ?_ ?_
  · simp only
    exact range_trace (5 * pairs.length)
  · rfl

end Solidity

namespace Solidity

open Compiler CompilerContext CompilerUtils

/-! ## The selector for a well-formed interface table -/

theorem appendReturnValuePackerLoop_ok :
    ∀ (params : List VariableDeclaration) (offset depth : Nat) (ctx : CompilerContext),
      (∀ v ∈ params, v.type.calldataEncodedSize ≤ 32) →
      appendReturnValuePackerLoop params offset depth ctx =
        (Except.ok (offset + (params.map
            (fun p => getPaddedSize p.type.calldataEncodedSize)).sum),
          { ctx with items := ctx.items ++ packerLoopItems params offset depth }) := by
  intro params
  induction params with
  | nil => intro offset depth ctx _; simp [appendReturnValuePackerLoop, packerLoopItems]
  | cons v rest ih =>
    intro offset depth ctx hall
    have hv : ¬ v.type.calldataEncodedSize > 32 := by
      have := hall v (List.mem_cons_self _ _)
      omega
    simp only [appendReturnValuePackerLoop, if_neg hv]
    rw [ih _ _ _ (fun w hw => hall w (List.mem_cons_of_mem _ hw))]
    simp [storeInMemory, appendTypeConversion, copyToStackTop, CompilerContext.append,
      packerLoopItems, Nat.add_assoc]

theorem appendReturnValuePacker_ok (f : FunctionDefinition) (ctx : CompilerContext)
    (hall : ∀ v ∈ f.returnParameters, v.type.calldataEncodedSize ≤ 32) :
    appendReturnValuePacker f ctx
      = (Except.ok (), { ctx with items := ctx.items ++ packerItems f }) := by
  simp only [packerItems, appendReturnValuePacker, appendReturnValuePackerLoop_ok _ _ _ _ hall]
  simp [CompilerContext.append]

theorem packerItems_eq (f : FunctionDefinition)
    (hall : ∀ v ∈ f.returnParameters, v.type.calldataEncodedSize ≤ 32) :
    packerItems f = packerLoopItems f.returnParameters 0 (getSizeOnStack f.returnParameters)
      ++ [AssemblyItem.Push (0 + (f.returnParameters.map
            (fun p => getPaddedSize p.type.calldataEncodedSize)).sum),
          AssemblyItem.Push 0, AssemblyItem.Operation Instruction.RETURN] := by
  simp only [packerItems, appendReturnValuePacker, appendReturnValuePackerLoop_ok _ _ _ _ hall]
  simp [CompilerContext.append]

theorem packerLoopItems_not_tag (t : Nat) :
    ∀ (params : List VariableDeclaration) (offset depth : Nat),
      AssemblyItem.Tag t ∉ packerLoopItems params offset depth := by
  intro params
  induction params with
  | nil => intro offset depth; simp [packerLoopItems]
  | cons v rest ih =>
    intro offset depth
    simp only [packerLoopItems, List.mem_append, List.mem_cons, List.mem_singleton, not_or]
    exact ⟨by simp, ih _ _⟩

theorem packerItems_not_tag (f : FunctionDefinition) (t : Nat)
    (hall : ∀ v ∈ f.returnParameters, v.type.calldataEncodedSize ≤ 32) :
    AssemblyItem.Tag t ∉ packerItems f := by
  rw [packerItems_eq f hall]
  simp only [List.mem_append, not_or]
  exact ⟨packerLoopItems_not_tag t _ _ _, by simp⟩

theorem expectedLoads_pushed (load : Nat → Nat → Bool → Bool → Bool → Nat) (fromMemory : Bool)
    (params : List VariableDeclaration) :
    ∀ x ∈ expectedLoads fromMemory params, (pushedWord load x).isSome = true := by
  intro x hx
  simp only [expectedLoads, List.mem_map] at hx
  obtain ⟨e, _, rfl⟩ := hx
  rfl

theorem expectedLoads_not_tag (fromMemory : Bool) (params : List VariableDeclaration) (t : Nat) :
    AssemblyItem.Tag t ∉ expectedLoads fromMemory params := by
  intro hx
  simp only [expectedLoads, List.mem_map] at hx
  obtain ⟨e, _, he⟩ := hx
  cases he

theorem insertEntryPoint_fresh (eps : List (Nat × Nat)) (hash tag : Nat)
    (hfresh : ∀ q ∈ eps, q.1 ≠ hash) :
    insertEntryPoint eps hash tag = eps ++ [(hash, tag)] ∧
      entryPointAt (eps ++ [(hash, tag)]) hash = tag := by
  have hnone : eps.find? (fun e => e.1 == hash) = none := by
    rw [List.find?_eq_none]
    intro q hq
    simpa using hfresh q hq
  constructor
  · simp [insertEntryPoint, hnone]
  · simp [entryPointAt, List.find?_append, hnone]

theorem appendSelectorChain_nodup :
    ∀ (table : List (Nat × FunctionDefinition)) (eps : List (Nat × Nat)) (ctx : CompilerContext)
      (s t0 : Nat),
      ctx.usedTags = t0 + s → (table.map (fun e => e.1)).Nodup →
      (∀ e ∈ table, ∀ q ∈ eps, q.1 ≠ e.1) →
      appendSelectorChain table eps ctx =
        (eps ++ (table.enumFrom s).map (fun e => (e.2.1, t0 + e.1)),
          { ctx with
            items := ctx.items ++ (table.enumFrom s).flatMap
              (fun e => chainGroup e.2.1 (t0 + e.1))
            usedTags := ctx.usedTags + table.length }) := by
  intro table
  induction table with
  | nil => intro eps ctx s t0 _ _ _; simp [appendSelectorChain]
  | cons it rest ih =>
    intro eps ctx s t0 htag hnd hdis
    rw [List.map_cons, List.nodup_cons] at hnd
    obtain ⟨hnotin, hnd⟩ := hnd
    have hfresh : ∀ q ∈ eps, q.1 ≠ it.1 := hdis it (List.mem_cons_self _ _)
    obtain ⟨hins, hat⟩ := insertEntryPoint_fresh eps it.1 ctx.usedTags hfresh
    simp only [appendSelectorChain, newTag, hins, hat]
    rw [ih _ _ (s + 1) t0 (by simp [appendConditionalJumpTo, CompilerContext.append]; omega) hnd]
    · simp [appendConditionalJumpTo, CompilerContext.append, List.enumFrom_cons, chainGroup,
        dupInstruction, htag, Nat.add_assoc, Nat.add_comm 1]
    · intro e he q hq
      rw [List.mem_append] at hq
      rcases hq with hq | hq
      · exact hdis e (List.mem_cons_of_mem _ he) q hq
      · simp only [List.mem_singleton] at hq
        subst hq
        intro heq
        apply hnotin
        rw [List.mem_map]
        exact ⟨e, he, heq.symm⟩

theorem entryPointAt_enumFrom (t0 : Nat) :
    ∀ (table : List (Nat × FunctionDefinition)) (s i : Nat) (e : Nat × FunctionDefinition),
      (table.map (fun e => e.1)).Nodup → (i, e) ∈ table.enumFrom s →
      entryPointAt ((table.enumFrom s).map (fun e => (e.2.1, t0 + e.1))) e.1 = t0 + i := by
  intro table
  induction table with
  | nil => intro s i e _ h; simp at h
  | cons it rest ih =>
    intro s i e hnd hmem
    rw [List.map_cons, List.nodup_cons] at hnd
    obtain ⟨hnotin, hnd⟩ := hnd
    rw [List.enumFrom_cons, List.mem_cons] at hmem
    rcases hmem with hhead | htail
    · have h1 : i = s := (Prod.mk.inj hhead).1
      have h2 : e = it := (Prod.mk.inj hhead).2
      subst h1 h2
      simp [entryPointAt, List.enumFrom_cons]
    · have hne : ¬ it.1 = e.1 := by
        intro heq
        apply hnotin
        rw [List.mem_map]
        have hsnd := List.mem_map_of_mem Prod.snd htail
        rw [List.enumFrom_map_snd] at hsnd
        exact ⟨e, hsnd, heq.symm⟩
      have hb : (it.1 == e.1) = false := by simpa using hne
      have := ih (s + 1) i e hnd htail
      unfold entryPointAt at this ⊢
      rw [List.enumFrom_cons, List.map_cons, List.find?_cons]
      simp only [hb]
      exact this

theorem getFunctionEntryLabel_frame (ctx : CompilerContext) (newItems : List AssemblyItem)
    (tags : Nat) (f : FunctionDefinition) :
    CompilerContext.getFunctionEntryLabel
        { ctx with items := newItems, usedTags := tags } f
      = ctx.getFunctionEntryLabel f := rfl

theorem appendSelectorLandings_ok (eps : List (Nat × Nat)) (labels : List (Nat × Nat)) :
    ∀ (table : List (Nat × FunctionDefinition)) (ctx : CompilerContext) (s r0 : Nat),
      ctx.usedTags = r0 + s → ctx.functionEntryLabels = labels →
      (∀ e ∈ table, (∀ v ∈ e.2.parameters, v.type.calldataEncodedSize ≤ 32) ∧
        (∀ v ∈ e.2.returnParameters, v.type.calldataEncodedSize ≤ 32) ∧
        ∃ l, ctx.getFunctionEntryLabel e.2 = some l) →
      appendSelectorLandings eps table ctx =
        (Except.ok (),
          { ctx with
            items := ctx.items ++ (table.enumFrom s).flatMap (fun e =>
              landingItems (entryPointAt eps e.2.1) (r0 + e.1)
                ((ctx.getFunctionEntryLabel e.2.2).getD 0) e.2.2)
            usedTags := ctx.usedTags + table.length }) := by
  intro table
  induction table with
  | nil => intro ctx s r0 _ _ _; simp [appendSelectorLandings]
  | cons it rest ih =>
    intro ctx s r0 htag hlab hall
    obtain ⟨hp, hr, l, hl⟩ := hall it (List.mem_cons_self _ _)
    have hrest := fun e he => hall e (List.mem_cons_of_mem _ he)
    simp only [appendSelectorLandings, appendCalldataUnpacker]
    rw [appendCalldataUnpackerLoop_ok false _ _ _ hp]
    simp only
    have hl2 : CompilerContext.getFunctionEntryLabel
        { (ctx.append (AssemblyItem.Tag (entryPointAt eps it.1))).pushNewTag.2 with
          items := (ctx.append (AssemblyItem.Tag (entryPointAt eps it.1))).pushNewTag.2.items
            ++ loadItems false it.2.parameters dataStartOffset } it.2 = some l := hl
    rw [hl2]
    simp only
    rw [appendReturnValuePacker_ok _ _ hr]
    simp only
    rw [ih _ (s + 1) r0 (by simp [pushNewTag, newTag, CompilerContext.append, appendJumpTo]; omega)
      (by simpa [pushNewTag, newTag, CompilerContext.append, appendJumpTo] using hlab)
      (by
        intro e he
        obtain ⟨h1, h2, l2, h3⟩ := hrest e he
        exact ⟨h1, h2, l2, h3⟩)]
    have hload : loadItems false it.2.parameters dataStartOffset
        = expectedLoads false it.2.parameters := loadItems_eq_expectedLoads false _
    simp only [pushNewTag, newTag, CompilerContext.append, appendJumpTo, hload,
      List.enumFrom_cons, List.flatMap_cons, landingItems, htag]
    have hlab2 : ∀ g : FunctionDefinition, CompilerContext.getFunctionEntryLabel
        { items := ((ctx.items ++ [AssemblyItem.Tag (entryPointAt eps it.1)] ++
              [AssemblyItem.PushTag (r0 + s)] ++ expectedLoads false it.2.parameters ++
              [AssemblyItem.PushTag l] ++ [AssemblyItem.Operation Instruction.JUMP] ++
              [AssemblyItem.Tag (r0 + s)]) ++ packerItems it.2),
          usedTags := r0 + s + 1, functionEntryLabels := ctx.functionEntryLabels,
          stateVariables := ctx.stateVariables, stateVariablesSize := ctx.stateVariablesSize,
          subs := ctx.subs, localVariables := ctx.localVariables,
          localVariablesSize := ctx.localVariablesSize,
          compiledContracts := ctx.compiledContracts } g
        = ctx.getFunctionEntryLabel g := fun _ => rfl
    simp only [hlab2, hl, Option.getD_some]
    simp [Nat.add_assoc, Nat.add_comm 1]

end Solidity

namespace Solidity

open Compiler CompilerContext CompilerUtils

theorem run_outcome_inl (load : Nat → Nat → Bool → Bool → Bool → Nat) {items : List AssemblyItem}
    {pc : Nat} {stack : List Word} {pc1 : Nat} {stack1 : List Word}
    (h : step items load pc stack = Sum.inl (pc1, stack1)) (fuel : Nat) :
    (run items load (fuel + 1) pc stack).2 = (run items load fuel pc1 stack1).2 := by
  rw [run_of_step_inl load h]

theorem run_outcome_inr (load : Nat → Nat → Bool → Bool → Bool → Nat) {items : List AssemblyItem}
    {pc : Nat} {stack : List Word} {outcome : Outcome}
    (h : step items load pc stack = Sum.inr outcome) (fuel : Nat) :
    (run items load (fuel + 1) pc stack).2 = outcome := by
  rw [run_of_step_inr load h]

theorem getElem?_decomp {α : Type} (pre post : List α) (x : α) :
    (pre ++ x :: post)[pre.length]? = some x := by
  rw [List.getElem?_append_right (le_refl _)]
  simp

theorem tagPosition_decomp (t : Nat) :
    ∀ (pre post : List AssemblyItem), AssemblyItem.Tag t ∉ pre →
      tagPosition t (pre ++ AssemblyItem.Tag t :: post) = some pre.length := by
  intro pre
  induction pre with
  | nil => intro post _; simp [tagPosition]
  | cons x rest ih =>
    intro post hnot
    rw [List.mem_cons, not_or] at hnot
    have hx : ¬ x = AssemblyItem.Tag t := fun h => hnot.1 h.symm
    rw [List.cons_append, tagPosition, if_neg hx, ih post hnot.2]
    rfl

theorem tagPosition_none (t : Nat) :
    ∀ (items : List AssemblyItem), AssemblyItem.Tag t ∉ items → tagPosition t items = none := by
  intro items
  induction items with
  | nil => intro _; rfl
  | cons x rest ih =>
    intro hnot
    rw [List.mem_cons, not_or] at hnot
    have hx : ¬ x = AssemblyItem.Tag t := fun h => hnot.1 h.symm
    simp only [tagPosition, if_neg hx, ih hnot.2]
    rfl

/-- A block of push-like items is executed item by item and appends the pushed words. -/
theorem run_pushes (load : Nat → Nat → Bool → Bool → Bool → Nat) :
    ∀ (block pre post : List AssemblyItem) (stack : List Word) (fuel : Nat),
      (∀ x ∈ block, (pushedWord load x).isSome = true) →
      (run (pre ++ block ++ post) load (fuel + block.length) pre.length stack).2
        = (run (pre ++ block ++ post) load fuel (pre.length + block.length)
            (stack ++ block.filterMap (pushedWord load))).2 := by
  intro block
  induction block with
  | nil => intro pre post stack fuel _; simp
  | cons x rest ih =>
    intro pre post stack fuel hall
    obtain ⟨w, hw⟩ := Option.isSome_iff_exists.mp (hall x (List.mem_cons_self _ _))
    have hget : (pre ++ x :: rest ++ post)[pre.length]? = some x := by
      rw [List.append_assoc, List.cons_append]
      exact getElem?_decomp _ _ _
    have hstep := step_pushedWord load stack hget hw
    rw [show fuel + (x :: rest).length = fuel + rest.length + 1 from rfl,
      run_outcome_inl load hstep]
    have hshape : pre ++ x :: rest ++ post = (pre ++ [x]) ++ rest ++ post := by simp
    have hlen : (pre ++ [x]).length = pre.length + 1 := by simp
    have := ih (pre ++ [x]) post (stack ++ [w]) fuel
      (fun y hy => hall y (List.mem_cons_of_mem _ hy))
    rw [hlen, ← hshape] at this
    rw [this]
    simp [List.filterMap_cons, hw, Nat.add_assoc, Nat.add_comm 1]

/-- Dispatch of a hash that the chain knows: the groups before its own are passed, its own
group jumps to the landing tag, and the landing code pushes the return tag, loads the
arguments and jumps to the entry label, which lies outside the selector. -/
theorem run_dispatch (load : Nat → Nat → Bool → Bool → Bool → Nat)
    (skipped : List (Nat × Nat)) (h e r l : Nat)
    (mid loads rest : List AssemblyItem)
    (hhash : load 0 4 false true defaultPadToWords = h)
    (hskip : ∀ p ∈ skipped, p.1 ≠ h)
    (hmid : AssemblyItem.Tag e ∉ mid)
    (hloads : ∀ x ∈ loads, (pushedWord load x).isSome = true)
    (hout : AssemblyItem.Tag l ∉
      selectorPrologue ++ skipped.flatMap (fun p => chainGroup p.1 p.2) ++ chainGroup h e ++ mid
        ++ AssemblyItem.Tag e :: AssemblyItem.PushTag r :: (loads ++
          AssemblyItem.PushTag l :: AssemblyItem.Operation Instruction.JUMP :: rest))
    (k : Nat) :
    (run
      (selectorPrologue ++ skipped.flatMap (fun p => chainGroup p.1 p.2) ++ chainGroup h e ++ mid
        ++ AssemblyItem.Tag e :: AssemblyItem.PushTag r :: (loads ++
          AssemblyItem.PushTag l :: AssemblyItem.Operation Instruction.JUMP :: rest))
      load (k + 2 + loads.length + 2 + 5 + 5 * skipped.length + 3) 0 []).2
      = Outcome.jumpedOut l
          ([Word.value 1, Word.value 0, Word.value h, Word.tag r]
            ++ loads.filterMap (pushedWord load)) := by
  generalize hitems : selectorPrologue ++ skipped.flatMap (fun p => chainGroup p.1 p.2)
      ++ chainGroup h e ++ mid
      ++ AssemblyItem.Tag e :: AssemblyItem.PushTag r :: (loads ++
        AssemblyItem.PushTag l :: AssemblyItem.Operation Instruction.JUMP :: rest) = items at hout
  -- the prologue
  have g0 : items[0]? = some (AssemblyItem.Push 1) := by
    rw [← hitems]; simp [selectorPrologue]
  have g1 : items[0 + 1]? = some (AssemblyItem.Push 0) := by
    rw [← hitems]; simp [selectorPrologue]
  have g2 : items[0 + 1 + 1]?
      = some (AssemblyItem.LoadFromMemory 0 4 false true defaultPadToWords) := by
    rw [← hitems]; simp [selectorPrologue]
  have s0 := step_pushedWord load (w := Word.value 1) [] g0 rfl
  have s1 := step_pushedWord load (w := Word.value 0) ([] ++ [Word.value 1]) g1 rfl
  have s2 := step_pushedWord load
    (w := Word.value (load 0 4 false true defaultPadToWords))
    ([] ++ [Word.value 1] ++ [Word.value 0]) g2 rfl
  rw [hhash] at s2
  rw [show k + 2 + loads.length + 2 + 5 + 5 * skipped.length + 3
      = (k + 2 + loads.length + 2 + 5 + 5 * skipped.length) + 1 + 1 + 1 from rfl,
    run_outcome_inl load s0, run_outcome_inl load s1, run_outcome_inl load s2]
  -- the groups of other hashes
  have hchain := run_chain_skip load h [Word.value 1, Word.value 0] skipped selectorPrologue
    (chainGroup h e ++ mid
      ++ AssemblyItem.Tag e :: AssemblyItem.PushTag r :: (loads ++
        AssemblyItem.PushTag l :: AssemblyItem.Operation Instruction.JUMP :: rest))
    (k + 2 + loads.length + 2 + 5) hskip
  have hshape1 : selectorPrologue ++ skipped.flatMap (fun p => chainGroup p.1 p.2)
      ++ (chainGroup h e ++ mid
        ++ AssemblyItem.Tag e :: AssemblyItem.PushTag r :: (loads ++
          AssemblyItem.PushTag l :: AssemblyItem.Operation Instruction.JUMP :: rest)) = items := by
    rw [← hitems]; simp only [List.append_assoc]
  rw [hshape1] at hchain
  have hpl : selectorPrologue.length = 0 + 1 + 1 + 1 := rfl
  rw [hpl] at hchain
  simp only [List.nil_append, List.cons_append] at hchain ⊢
  rw [hchain]
  simp only
  -- the group of the incoming hash
  generalize hA : selectorPrologue ++ skipped.flatMap (fun p => chainGroup p.1 p.2) = A
    at hitems hshape1
  have hAlen : A.length = 0 + 1 + 1 + 1 + 5 * skipped.length := by
    rw [← hA, List.length_append, chain_length]; rfl
  rw [← hAlen]
  have c0 : items[A.length]? = some (AssemblyItem.Operation (Instruction.DUP 1)) := by
    rw [← hshape1]; simp only [chainGroup, List.cons_append]; exact getElem?_decomp _ _ _
  have c1 : items[A.length + 1]? = some (AssemblyItem.Push h) := by
    rw [← hshape1, getElem?_append_offset]; rfl
  have c2 : items[A.length + 1 + 1]? = some (AssemblyItem.Operation Instruction.EQ) := by
    rw [← hshape1, show A.length + 1 + 1 = A.length + 2 from rfl, getElem?_append_offset]; rfl
  have c3 : items[A.length + 1 + 1 + 1]? = some (AssemblyItem.PushTag e) := by
    rw [← hshape1, show A.length + 1 + 1 + 1 = A.length + 3 from rfl, getElem?_append_offset]
    rfl
  have c4 : items[A.length + 1 + 1 + 1 + 1]?
      = some (AssemblyItem.Operation Instruction.JUMPI) := by
    rw [← hshape1, show A.length + 1 + 1 + 1 + 1 = A.length + 4 from rfl,
      getElem?_append_offset]
    simp [chainGroup]
  have hpos : tagPosition e items = some (A ++ chainGroup h e ++ mid).length := by
    rw [← hitems]
    apply tagPosition_decomp
    simp only [List.mem_append, not_or]
    refine ⟨⟨?_, by simp [chainGroup]⟩, hmid⟩
    rw [← hA]
    simp only [List.mem_append, not_or, List.mem_flatMap]
    refine ⟨by simp [selectorPrologue], ?_⟩
    rintro ⟨p, _, hp⟩
    simp [chainGroup] at hp
  have t0 := step_dup1 load [Word.value 1, Word.value 0] (Word.value h) c0
  have t1 := step_pushedWord load (w := Word.value h)
    ([Word.value 1, Word.value 0] ++ [Word.value h, Word.value h]) c1 rfl
  have t2 := step_eq load ([Word.value 1, Word.value 0] ++ [Word.value h]) h h c2
  have t3 := step_pushedWord load (w := Word.tag e)
    ([Word.value 1, Word.value 0] ++ [Word.value h] ++ [Word.value (if h = h then 1 else 0)])
    c3 rfl
  have t4 := step_jumpi_taken load ([Word.value 1, Word.value 0] ++ [Word.value h])
    e _ c4 hpos
  simp only [if_true, List.append_assoc, List.cons_append, List.nil_append] at t0 t1 t2 t3 t4
  rw [show k + 2 + loads.length + 2 + 5 = (k + 2 + loads.length + 2) + 1 + 1 + 1 + 1 + 1 from rfl,
    run_outcome_inl load t0, run_outcome_inl load t1, run_outcome_inl load t2, run_outcome_inl load t3,
    run_outcome_inl load t4]
  -- the landing code
  generalize hB : A ++ (chainGroup h e ++ mid) = B at t4 ⊢
  have hshape2 : B ++ AssemblyItem.Tag e :: AssemblyItem.PushTag r :: (loads ++
        AssemblyItem.PushTag l :: AssemblyItem.Operation Instruction.JUMP :: rest) = items := by
    rw [← hitems, ← hB]; simp only [List.append_assoc]
  have d0 : items[B.length]? = some (AssemblyItem.Tag e) := by
    rw [← hshape2]; exact getElem?_decomp _ _ _
  have d1 : items[B.length + 1]? = some (AssemblyItem.PushTag r) := by
    rw [← hshape2, getElem?_append_offset]; simp
  have u0 := step_tag load [Word.value 1, Word.value 0, Word.value h] d0
  have u1 := step_pushedWord load (w := Word.tag r)
    [Word.value 1, Word.value 0, Word.value h] d1 rfl
  rw [show k + 2 + loads.length + 2 = (k + 2 + loads.length) + 1 + 1 from rfl,
    run_outcome_inl load u0, run_outcome_inl load u1]
  have hshape3 : (B ++ [AssemblyItem.Tag e, AssemblyItem.PushTag r]) ++ loads ++
      (AssemblyItem.PushTag l :: AssemblyItem.Operation Instruction.JUMP :: rest) = items := by
    rw [← hshape2]; simp only [List.append_assoc, List.cons_append, List.nil_append]
  have hpush := run_pushes load loads (B ++ [AssemblyItem.Tag e, AssemblyItem.PushTag r])
    (AssemblyItem.PushTag l :: AssemblyItem.Operation Instruction.JUMP :: rest)
    ([Word.value 1, Word.value 0, Word.value h] ++ [Word.tag r]) (k + 2) hloads
  rw [hshape3] at hpush
  have hlen3 : (B ++ [AssemblyItem.Tag e, AssemblyItem.PushTag r]).length = B.length + 1 + 1 := by
    simp
  rw [hlen3] at hpush
  rw [hpush]
  generalize hD : (B ++ [AssemblyItem.Tag e, AssemblyItem.PushTag r]) ++ loads = D at hshape3
  have hDlen : D.length = B.length + 1 + 1 + loads.length := by
    rw [← hD, List.length_append, hlen3]
  rw [← hDlen]
  have e0 : items[D.length]? = some (AssemblyItem.PushTag l) := by
    rw [← hshape3]; exact getElem?_decomp _ _ _
  have e1 : items[D.length + 1]? = some (AssemblyItem.Operation Instruction.JUMP) := by
    rw [← hshape3, getElem?_append_offset]; simp
  have v0 := step_pushedWord load (w := Word.tag l)
    ([Word.value 1, Word.value 0, Word.value h] ++ [Word.tag r]
      ++ loads.filterMap (pushedWord load)) e0 rfl
  have v1 := step_jump_out load
    ([Word.value 1, Word.value 0, Word.value h] ++ [Word.tag r]
      ++ loads.filterMap (pushedWord load)) l e1 (tagPosition_none l items hout)
  rw [show k + 2 = k + 1 + 1 from rfl, run_outcome_inl load v0, run_outcome_inr load v1]
  simp

end Solidity

namespace Solidity

open Compiler CompilerContext CompilerUtils

theorem appendFunctionSelector_ok (contract : ContractDefinition) (ctx : CompilerContext)
    (hnd : (contract.interfaceFunctions.map (fun e => e.1)).Nodup)
    (hall : ∀ e ∈ contract.interfaceFunctions,
      (∀ v ∈ e.2.parameters, v.type.calldataEncodedSize ≤ 32) ∧
      (∀ v ∈ e.2.returnParameters, v.type.calldataEncodedSize ≤ 32) ∧
      ∃ l, ctx.getFunctionEntryLabel e.2 = some l) :
    appendFunctionSelector contract ctx =
      (Except.ok (),
        { ctx with
          items := ctx.items ++ selectorItems ctx contract
          usedTags := ctx.usedTags + contract.interfaceFunctions.length
            + contract.interfaceFunctions.length }) := by
  unfold appendFunctionSelector
  simp only
  rw [appendSelectorChain_nodup contract.interfaceFunctions [] _ 0 ctx.usedTags
    (by simp [loadFromMemory, CompilerContext.append]) hnd (by simp)]
  simp only
  rw [appendSelectorLandings_ok _ ctx.functionEntryLabels contract.interfaceFunctions _ 0
    (ctx.usedTags + contract.interfaceFunctions.length)
    (by simp [loadFromMemory, CompilerContext.append])
    (by simp [loadFromMemory, CompilerContext.append])
    (by
      intro e he
      obtain ⟨h1, h2, l, h3⟩ := hall e he
      exact ⟨h1, h2, l, h3⟩)]
  have hcongr : (List.enumFrom 0 contract.interfaceFunctions).flatMap (fun e =>
        landingItems
          (entryPointAt ([] ++ (List.enumFrom 0 contract.interfaceFunctions).map
            (fun e => (e.2.1, ctx.usedTags + e.1))) e.2.1)
          (ctx.usedTags + contract.interfaceFunctions.length + e.1)
          ((ctx.getFunctionEntryLabel e.2.2).getD 0) e.2.2)
      = (List.enumFrom 0 contract.interfaceFunctions).flatMap (fun e =>
        landingItems (ctx.usedTags + e.1)
          (ctx.usedTags + contract.interfaceFunctions.length + e.1)
          ((ctx.getFunctionEntryLabel e.2.2).getD 0) e.2.2) := by
    apply List.flatMap_congr
    intro e he
    rw [List.nil_append, entryPointAt_enumFrom ctx.usedTags contract.interfaceFunctions 0 e.1 e.2
      hnd he]
  have hlab : ∀ (its : List AssemblyItem) (n : Nat) (g : FunctionDefinition),
      CompilerContext.getFunctionEntryLabel
        { items := its, usedTags := n, functionEntryLabels := ctx.functionEntryLabels,
          stateVariables := ctx.stateVariables, stateVariablesSize := ctx.stateVariablesSize,
          subs := ctx.subs, localVariables := ctx.localVariables,
          localVariablesSize := ctx.localVariablesSize,
          compiledContracts := ctx.compiledContracts } g
        = ctx.getFunctionEntryLabel g := fun _ _ _ => rfl
  simp only [loadFromMemory, CompilerContext.append, hlab]
  rw [hcongr]
  simp [selectorItems, selectorPrologue, List.enum]

theorem mem_landingItems (t e r l : Nat) (f : FunctionDefinition)
    (hall : ∀ v ∈ f.returnParameters, v.type.calldataEncodedSize ≤ 32) :
    AssemblyItem.Tag t ∈ landingItems e r l f → t = e ∨ t = r := by
  intro h
  simp only [landingItems, List.mem_append, List.mem_cons, List.mem_singleton,
    AssemblyItem.Tag.injEq, List.not_mem_nil, or_false] at h
  rcases h with ((h | h) | h) | h
  · rcases h with h | h
    · exact Or.inl h
    · cases h
  · exact absurd h (expectedLoads_not_tag _ _ _)
  · rcases h with h | h | h
    · cases h
    · cases h
    · exact Or.inr h
  · exact absurd h (packerItems_not_tag f t hall)

theorem enum_split_facts {α : Type} (l : List α) (E1 E2 : List (Nat × α)) (i : Nat) (x : α)
    (hsplit : l.enum = E1 ++ (i, x) :: E2) :
    E1.length = i ∧ i < l.length ∧
      (∀ e ∈ E1, e.1 ≠ i ∧ e.1 < l.length ∧ e.2 ∈ l) ∧
      (∀ e ∈ E2, e.1 ≠ i ∧ e.1 < l.length ∧ e.2 ∈ l) := by
  have hget : l.enum[E1.length]? = some (i, x) := by
    rw [hsplit]; exact getElem?_decomp _ _ _
  rw [List.getElem?_enum] at hget
  have hlen : E1.length = i := by
    cases hl : l[E1.length]? with
    | none => rw [hl] at hget; cases hget
    | some y =>
      rw [hl] at hget
      exact (Prod.mk.inj (Option.some.inj hget)).1
  have hfst : (l.enum.map Prod.fst).Nodup := by
    rw [List.enum_map_fst]; exact List.nodup_range _
  have hmemi : (i, x) ∈ l.enum := by rw [hsplit]; simp
  have hilt : i < l.length := by
    have := List.mem_map_of_mem Prod.fst hmemi
    rw [List.enum_map_fst] at this
    simpa using this
  have hmem : ∀ e ∈ l.enum, e.1 < l.length ∧ e.2 ∈ l := by
    intro e he
    have h1 := List.mem_map_of_mem Prod.fst he
    have h2 := List.mem_map_of_mem Prod.snd he
    rw [List.enum_map_fst] at h1
    rw [List.enum_map_snd] at h2
    exact ⟨by simpa using h1, h2⟩
  rw [hsplit, List.map_append, List.map_cons, List.nodup_append, List.nodup_cons] at hfst
  obtain ⟨_, ⟨hi2, _⟩, hdisj⟩ := hfst
  refine ⟨hlen, hilt, ?_, ?_⟩
  · intro e he
    refine ⟨?_, hmem e (by rw [hsplit]; simp [he])⟩
    intro heq
    exact hdisj (List.mem_map_of_mem Prod.fst he) (by rw [heq]; simp)
  · intro e he
    refine ⟨?_, hmem e (by rw [hsplit]; simp [he])⟩
    intro heq
    exact hi2 (List.mem_map.mpr ⟨e, he, heq⟩)

end Solidity

namespace Solidity

open Compiler CompilerContext CompilerUtils

theorem tag_not_mem_chain (t : Nat) (pairs : List (Nat × Nat)) :
    AssemblyItem.Tag t ∉ pairs.flatMap (fun p => chainGroup p.1 p.2) := by
  simp only [List.mem_flatMap, not_exists, not_and]
  intro p _ hp
  simp [chainGroup] at hp

theorem tag_mem_landings (t t0 n : Nat) (lab : FunctionDefinition → Nat)
    (E : List (Nat × (Nat × FunctionDefinition)))
    (hall : ∀ e ∈ E, ∀ v ∈ e.2.2.returnParameters, v.type.calldataEncodedSize ≤ 32)
    (h : AssemblyItem.Tag t ∈ E.flatMap
      (fun e => landingItems (t0 + e.1) (t0 + n + e.1) (lab e.2.2) e.2.2)) :
    ∃ e ∈ E, t = t0 + e.1 ∨ t = t0 + n + e.1 := by
  rw [List.mem_flatMap] at h
  obtain ⟨e, he, hmem⟩ := h
  exact ⟨e, he, mem_landingItems t _ _ _ _ (hall e he) hmem⟩

theorem count_eq_one_of_decomp {α : Type} [DecidableEq α] (a : α) (X Y : List α)
    (hX : a ∉ X) (hY : a ∉ Y) : (X ++ a :: Y).count a = 1 := by
  rw [List.count_append, List.count_cons_self, List.count_eq_zero.mpr hX,
    List.count_eq_zero.mpr hY]

/-- C7: for an interface table with distinct hashes whose functions have parameters and
return parameters of encoded size at most 32 and an entry label registered in the
context before the selector is emitted, `appendFunctionSelector` returns normally and
appends exactly `selectorItems`: for the `i`-th entry `(h, f)` one group
`DUP1; PUSH h; EQ; JUMPI tag_i` with `tag_i = usedTags + i`, and after the `STOP` one
landing `tag_i:`, push of the fresh return tag, the calldata unpacker of `f`, the jump to
the entry label of `f`, the return tag and the return-value packer of `f`.  The tag
`tag_i` is placed exactly once, and a run of the machine on an incoming hash equal to `h`
leaves the selector by the jump to the entry label of `f`, with the return tag and the
loaded arguments on the stack. -/
theorem selector_known_hash_dispatch (contract : ContractDefinition) (ctx : CompilerContext)
    (hnd : (contract.interfaceFunctions.map (fun e => e.1)).Nodup)
    (hall : ∀ e ∈ contract.interfaceFunctions,
      (∀ v ∈ e.2.parameters, v.type.calldataEncodedSize ≤ 32) ∧
      (∀ v ∈ e.2.returnParameters, v.type.calldataEncodedSize ≤ 32) ∧
      ∃ l, ctx.getFunctionEntryLabel e.2 = some l ∧ l < ctx.usedTags) :
    appendFunctionSelector contract ctx =
        (Except.ok (),
          { ctx with
            items := ctx.items ++ selectorItems ctx contract
            usedTags := ctx.usedTags + contract.interfaceFunctions.length
              + contract.interfaceFunctions.length }) ∧
      ∀ (i h : Nat) (f : FunctionDefinition),
        contract.interfaceFunctions[i]? = some (h, f) →
        (selectorItems ctx contract).count (AssemblyItem.Tag (ctx.usedTags + i)) = 1 ∧
        ∀ (load : Nat → Nat → Bool → Bool → Bool → Nat) (k : Nat),
          load 0 4 false true defaultPadToWords = h →
          (run (selectorItems ctx contract) load
              (k + 2 + (expectedLoads false f.parameters).length + 2 + 5 + 5 * i + 3) 0 []).2
            = Outcome.jumpedOut ((ctx.getFunctionEntryLabel f).getD 0)
                ([Word.value 1, Word.value 0, Word.value h,
                  Word.tag (ctx.usedTags + contract.interfaceFunctions.length + i)]
                  ++ (expectedLoads false f.parameters).filterMap (pushedWord load)) := by
  refine ⟨appendFunctionSelector_ok contract ctx hnd ?_, ?_⟩
  · intro e he
    obtain ⟨h1, h2, l, h3, _⟩ := hall e he
    exact ⟨h1, h2, l, h3⟩
  intro i h f hif
  obtain ⟨E1, E2, hsplit⟩ := List.append_of_mem (List.mk_mem_enum_iff_getElem?.mpr hif)
  obtain ⟨hE1len, hilt, hE1, hE2⟩ := enum_split_facts _ E1 E2 i (h, f) hsplit
  have hrets : ∀ (E : List (Nat × (Nat × FunctionDefinition))),
      (∀ e ∈ E, e.2 ∈ contract.interfaceFunctions) →
      ∀ e ∈ E, ∀ v ∈ e.2.2.returnParameters, v.type.calldataEncodedSize ≤ 32 :=
    fun E hE e he => (hall e.2 (hE e he)).2.1
  have hfmem : (h, f) ∈ contract.interfaceFunctions := List.getElem?_mem hif
  obtain ⟨_, hfret, l, hl, hllt⟩ := hall (h, f) hfmem
  have hlab : (ctx.getFunctionEntryLabel f).getD 0 = l := by rw [hl]; rfl
  generalize hn : contract.interfaceFunctions.length = n at hilt hE1 hE2
  generalize ht0 : ctx.usedTags = t0 at hllt
  have hshape : selectorItems ctx contract
      = selectorPrologue
        ++ (E1.map (fun e => (e.2.1, t0 + e.1))).flatMap (fun p => chainGroup p.1 p.2)
        ++ chainGroup h (t0 + i)
        ++ (E2.flatMap (fun e => chainGroup e.2.1 (t0 + e.1))
            ++ [AssemblyItem.Operation Instruction.STOP]
            ++ E1.flatMap (fun e => landingItems (t0 + e.1) (t0 + n + e.1)
                ((ctx.getFunctionEntryLabel e.2.2).getD 0) e.2.2))
        ++ AssemblyItem.Tag (t0 + i) :: AssemblyItem.PushTag (t0 + n + i) ::
            (expectedLoads false f.parameters ++
              AssemblyItem.PushTag l :: AssemblyItem.Operation Instruction.JUMP ::
                (AssemblyItem.Tag (t0 + n + i) :: (packerItems f
                  ++ E2.flatMap (fun e => landingItems (t0 + e.1) (t0 + n + e.1)
                      ((ctx.getFunctionEntryLabel e.2.2).getD 0) e.2.2)))) := by
    unfold selectorItems
    rw [hsplit, hn, ht0]
    simp only [List.flatMap_append, List.flatMap_cons, List.flatMap_map, landingItems, hlab,
      List.append_assoc, List.cons_append, List.nil_append]
  have hmid : AssemblyItem.Tag (t0 + i) ∉
      E2.flatMap (fun e => chainGroup e.2.1 (t0 + e.1))
        ++ [AssemblyItem.Operation Instruction.STOP]
        ++ E1.flatMap (fun e => landingItems (t0 + e.1) (t0 + n + e.1)
            ((ctx.getFunctionEntryLabel e.2.2).getD 0) e.2.2) := by
    simp only [List.mem_append, not_or]
    refine ⟨⟨?_, by simp⟩, ?_⟩
    · simp only [List.mem_flatMap, not_exists, not_and]
      intro p _ hp
      simp [chainGroup] at hp
    · intro hmem
      obtain ⟨e, he, hcase⟩ := tag_mem_landings _ t0 n
        (fun g => (ctx.getFunctionEntryLabel g).getD 0) E1
        (hrets E1 (fun e he => (hE1 e he).2.2)) hmem
      have := hE1 e he
      omega
  have hX : AssemblyItem.Tag (t0 + i) ∉
      selectorPrologue
        ++ (E1.map (fun e => (e.2.1, t0 + e.1))).flatMap (fun p => chainGroup p.1 p.2)
        ++ chainGroup h (t0 + i)
        ++ (E2.flatMap (fun e => chainGroup e.2.1 (t0 + e.1))
            ++ [AssemblyItem.Operation Instruction.STOP]
            ++ E1.flatMap (fun e => landingItems (t0 + e.1) (t0 + n + e.1)
                ((ctx.getFunctionEntryLabel e.2.2).getD 0) e.2.2)) := by
    rw [List.mem_append, not_or]
    refine ⟨?_, hmid⟩
    rw [List.mem_append, not_or, List.mem_append, not_or]
    exact ⟨⟨by simp [selectorPrologue], tag_not_mem_chain _ _⟩, by simp [chainGroup]⟩
  have hE2tags : ∀ t, AssemblyItem.Tag t ∈ E2.flatMap (fun e =>
      landingItems (t0 + e.1) (t0 + n + e.1) ((ctx.getFunctionEntryLabel e.2.2).getD 0) e.2.2) →
      ∃ e ∈ E2, t = t0 + e.1 ∨ t = t0 + n + e.1 := fun t hmem =>
    tag_mem_landings t t0 n (fun g => (ctx.getFunctionEntryLabel g).getD 0) E2
      (hrets E2 (fun e he => (hE2 e he).2.2)) hmem
  have hE1tags : ∀ t, AssemblyItem.Tag t ∈ E1.flatMap (fun e =>
      landingItems (t0 + e.1) (t0 + n + e.1) ((ctx.getFunctionEntryLabel e.2.2).getD 0) e.2.2) →
      ∃ e ∈ E1, t = t0 + e.1 ∨ t = t0 + n + e.1 := fun t hmem =>
    tag_mem_landings t t0 n (fun g => (ctx.getFunctionEntryLabel g).getD 0) E1
      (hrets E1 (fun e he => (hE1 e he).2.2)) hmem
  have hY : AssemblyItem.Tag (t0 + i) ∉
      AssemblyItem.PushTag (t0 + n + i) ::
        (expectedLoads false f.parameters ++
          AssemblyItem.PushTag l :: AssemblyItem.Operation Instruction.JUMP ::
            (AssemblyItem.Tag (t0 + n + i) :: (packerItems f
              ++ E2.flatMap (fun e => landingItems (t0 + e.1) (t0 + n + e.1)
                  ((ctx.getFunctionEntryLabel e.2.2).getD 0) e.2.2)))) := by
    intro hmem
    simp only [List.mem_cons, List.mem_append, AssemblyItem.Tag.injEq] at hmem
    rcases hmem with hc | hc | hc | hc | hc | hc | hc
    · cases hc
    · exact expectedLoads_not_tag _ _ _ hc
    · cases hc
    · cases hc
    · omega
    · exact packerItems_not_tag f _ hfret hc
    · obtain ⟨e, he, hcase⟩ := hE2tags _ hc
      have := hE2 e he
      omega
  refine ⟨?_, ?_⟩
  · rw [hshape]
    exact count_eq_one_of_decomp _ _ _ hX hY
  · intro load k hhash
    rw [hlab, hshape]
    have hlen : (E1.map (fun e => (e.2.1, t0 + e.1))).length = i := by
      rw [List.length_map, hE1len]
    have hrun := run_dispatch load (E1.map (fun e => (e.2.1, t0 + e.1))) h (t0 + i)
      (t0 + n + i) l
      (E2.flatMap (fun e => chainGroup e.2.1 (t0 + e.1))
        ++ [AssemblyItem.Operation Instruction.STOP]
        ++ E1.flatMap (fun e => landingItems (t0 + e.1) (t0 + n + e.1)
            ((ctx.getFunctionEntryLabel e.2.2).getD 0) e.2.2))
      (expectedLoads false f.parameters)
      (AssemblyItem.Tag (t0 + n + i) :: (packerItems f
        ++ E2.flatMap (fun e => landingItems (t0 + e.1) (t0 + n + e.1)
            ((ctx.getFunctionEntryLabel e.2.2).getD 0) e.2.2)))
      hhash ?_ hmid (expectedLoads_pushed load false f.parameters) ?_ k
    · rw [hlen] at hrun
      exact hrun
    · intro p hp
      rw [List.mem_map] at hp
      obtain ⟨e, he, rfl⟩ := hp
      have hkeys : (contract.interfaceFunctions.enum.map (fun e => e.2.1)).Nodup := by
        have : contract.interfaceFunctions.enum.map (fun e => e.2.1)
            = contract.interfaceFunctions.map (fun e => e.1) := by
          rw [← List.enum_map_snd contract.interfaceFunctions, List.map_map]
          simp [List.enum_map_snd]
        rw [this]; exact hnd
      rw [hsplit, List.map_append, List.map_cons, List.nodup_append] at hkeys
      obtain ⟨_, _, hdisj⟩ := hkeys
      intro heq
      exact hdisj (List.mem_map_of_mem (fun e => e.2.1) he)
        (by rw [List.mem_cons]; exact Or.inl heq)
    · intro hmem
      rw [List.mem_append] at hmem
      rcases hmem with hc | hc
      · rw [List.mem_append] at hc
        rcases hc with hc | hc
        · rw [List.mem_append, List.mem_append] at hc
          rcases hc with (hc | hc) | hc
          · simp [selectorPrologue] at hc
          · exact tag_not_mem_chain _ _ hc
          · simp [chainGroup] at hc
        · simp only [List.mem_append] at hc
          rcases hc with (hc | hc) | hc
          · simp only [List.mem_flatMap] at hc
            obtain ⟨p, _, hp⟩ := hc
            simp [chainGroup] at hp
          · simp at hc
          · obtain ⟨e, _, hcase⟩ := hE1tags _ hc
            omega
      · simp only [List.mem_cons, List.mem_append, AssemblyItem.Tag.injEq] at hc
        rcases hc with hc | hc | hc | hc | hc | hc | hc | hc
        · omega
        · cases hc
        · exact expectedLoads_not_tag _ _ _ hc
        · cases hc
        · cases hc
        · omega
        · exact packerItems_not_tag f _ hfret hc
        · obtain ⟨e, _, hcase⟩ := hE2tags _ hc
          omega

end Solidity

namespace Solidity

open Compiler CompilerContext CompilerUtils

/-! ## The theorems at concrete inputs -/

/-- Instance of C3 for the linearization `[C, B, A]` where `C is B, A(e2)` and
`B is A(e1)`: all specifiers name contracts and the walk completes. -/
theorem baseArguments_most_derived_wins_witness :
    (∀ c ∈ [exampleC, exampleB, exampleA], ∀ s ∈ c.baseContracts, s.referencedContract ≠ none) ∧
      ∃ st, captureBaseArguments [exampleC, exampleB, exampleA] {} = Except.ok st ∧
        ∀ X : Nat, lookupBaseArguments st.baseArguments X
          = (([exampleC, exampleB, exampleA].flatMap (fun c => c.baseContracts)).find?
              (fun s => s.referencedContract == some X)).map (fun s => s.arguments) :=
  ⟨by decide, baseArguments_most_derived_wins [exampleC, exampleB, exampleA] (by decide)⟩

/-- Instance of C5 for the linearization `[C, B, A]`: the state variables have distinct
identities, and the variable of `A` gets a smaller slot than the variable of `C`. -/
theorem stateVariables_slots_base_first_witness :
    ((([exampleC, exampleB, exampleA].reverse.flatMap (fun c => c.stateVariables)).map
        (fun v => v.id)).Nodup) ∧
      ∃ sv sw,
        (registerStateVariables [exampleC, exampleB, exampleA] {}).getStorageLocation
            (exampleDecl 31 exampleUint) = some sv ∧
        (registerStateVariables [exampleC, exampleB, exampleA] {}).getStorageLocation
            (exampleDecl 33 exampleUint) = some sw ∧ sv < sw :=
  ⟨by decide,
    ((stateVariables_slots_base_first [exampleC, exampleB, exampleA]).2.2 (by decide)).2
      [] exampleC [exampleB] exampleA [] rfl _ (by decide) _ (by decide)⟩

/-- Instance of C6: the hash 7 is not in the interface table of the example contract,
and the selector runs into its `STOP` at item 13. -/
theorem selector_unknown_hash_stops_witness :
    (∀ e ∈ exampleContract.interfaceFunctions,
        e.1 ≠ exampleLoadUnknown 0 4 false true defaultPadToWords) ∧
      (run (emitted exampleContext (appendFunctionSelector exampleContract exampleContext).2)
          exampleLoadUnknown (3 + 5 * exampleContract.interfaceFunctions.length + 1 + 0) 0 []).2
        = Outcome.stopped 13 [Word.value 1, Word.value 0, Word.value 7] :=
  ⟨by decide,
    congrArg Prod.snd
      (selector_unknown_hash_stops exampleContract exampleContext exampleLoadUnknown 0
        (by decide)).2⟩

/-- Instance of C8 for a function whose second parameter is oversized: the error carries
that parameter's location and only the load of the first parameter was emitted. -/
theorem calldataUnpacker_error_first_oversized_witness :
    (∃ v ∈ exampleOversized.parameters, 32 < v.type.calldataEncodedSize) ∧
      ∃ (before : List VariableDeclaration) (bad : VariableDeclaration)
        (after : List VariableDeclaration),
        exampleOversized.parameters = before ++ bad :: after ∧
        (∀ v ∈ before, v.type.calldataEncodedSize ≤ 32) ∧
        32 < bad.type.calldataEncodedSize ∧
        appendCalldataUnpacker exampleOversized false {} =
          (Except.error (CompilerException.CompilerError bad.location
              ("Type " ++ bad.type.name ++ " not yet supported.")),
            { ({} : CompilerContext) with
              items := ({} : CompilerContext).items ++ expectedLoads false before }) :=
  ⟨⟨exampleDecl 5 exampleStruct, by decide, by decide⟩,
    (calldataUnpacker_error_first_oversized exampleOversized false {}).2.2
      ⟨exampleDecl 5 exampleStruct, by decide, by decide⟩⟩

/-- Instance of C9 for `f(uint256, string3)`: both parameters fit a word, and the loads
are at offsets 4 and 36. -/
theorem calldataUnpacker_layout_witness :
    (∀ v ∈ exampleF.parameters, v.type.calldataEncodedSize ≤ 32) ∧
      (appendCalldataUnpacker exampleF false {}).2
        = { ({} : CompilerContext) with
            items := ({} : CompilerContext).items ++ expectedLoads false exampleF.parameters } :=
  ⟨by decide, (calldataUnpacker_layout exampleF false {} (by decide)).2.1⟩

/-- Instance of C7 for the example contract: its two hashes are distinct, both functions
are registered, and a call with the hash 9 of `g` leaves the selector by the jump to the
entry label 1 of `g`, with the return tag 5 on the stack. -/
theorem selector_known_hash_dispatch_witness :
    (exampleContract.interfaceFunctions.map (fun e => e.1)).Nodup ∧
      (∀ e ∈ exampleContract.interfaceFunctions,
        (∀ v ∈ e.2.parameters, v.type.calldataEncodedSize ≤ 32) ∧
        (∀ v ∈ e.2.returnParameters, v.type.calldataEncodedSize ≤ 32) ∧
        ∃ l, exampleContext.getFunctionEntryLabel e.2 = some l ∧ l < exampleContext.usedTags) ∧
      (run (selectorItems exampleContext exampleContract) exampleLoadG 17 0 []).2
        = Outcome.jumpedOut 1 [Word.value 1, Word.value 0, Word.value 9, Word.tag 5] := by
  have hall : ∀ e ∈ exampleContract.interfaceFunctions,
      (∀ v ∈ e.2.parameters, v.type.calldataEncodedSize ≤ 32) ∧
      (∀ v ∈ e.2.returnParameters, v.type.calldataEncodedSize ≤ 32) ∧
      ∃ l, exampleContext.getFunctionEntryLabel e.2 = some l ∧ l < exampleContext.usedTags := by
    intro e he
    simp only [exampleContract, List.mem_cons, List.mem_singleton, List.not_mem_nil,
      or_false] at he
    rcases he with rfl | rfl
    · exact ⟨by decide, by decide, 0, rfl, by decide⟩
    · exact ⟨by decide, by decide, 1, rfl, by decide⟩
  refine ⟨by decide, hall, ?_⟩
  exact ((selector_known_hash_dispatch exampleContract exampleContext (by decide) hall).2
    1 9 exampleG rfl).2 exampleLoadG 0 rfl

end Solidity

namespace Solidity

open Compiler CompilerContext CompilerUtils

/-! ## The return-value packer -/

theorem packerLoopItems_closed :
    ∀ (rest before whole : List VariableDeclaration) (offset : Nat),
      whole = before ++ rest →
      packerLoopItems rest
          (offset + (before.map (fun p => getPaddedSize p.type.calldataEncodedSize)).sum)
          ((rest.map (fun p => p.type.sizeOnStack)).sum)
        = (rest.enumFrom before.length).flatMap (fun e =>
            [AssemblyItem.CopyToStackTop
               (((whole.drop e.1).map (fun p => p.type.sizeOnStack)).sum) e.2.type,
             AssemblyItem.TypeConversion e.2.type e.2.type true,
             AssemblyItem.StoreInMemory
               (offset + ((whole.take e.1).map
                 (fun p => getPaddedSize p.type.calldataEncodedSize)).sum)
               e.2.type.calldataEncodedSize (e.2.type.category == Category.STRING) true]) := by
  intro rest
  induction rest with
  | nil => intro before whole offset _; simp [packerLoopItems]
  | cons p rest ih =>
    intro before whole offset hw
    have hw2 : whole = (before ++ [p]) ++ rest := by rw [hw]; simp
    have h := ih (before ++ [p]) whole offset hw2
    simp only [List.map_append, List.map_cons, List.map_nil, List.sum_append, List.sum_cons,
      List.sum_nil, Nat.add_zero, List.length_append, List.length_singleton] at h
    simp only [packerLoopItems, List.enumFrom_cons, List.flatMap_cons, List.map_cons,
      List.sum_cons, Nat.add_sub_cancel_left]
    rw [Nat.add_assoc, h]
    have hd : whole.drop before.length = p :: rest := by rw [hw]; simp
    have ht : whole.take before.length = before := by rw [hw]; simp
    rw [hd, ht]
    simp

theorem packerLoopItems_expected (params : List VariableDeclaration) :
    packerLoopItems params 0 (getSizeOnStack params)
        ++ [AssemblyItem.Push (0 + (params.map
              (fun p => getPaddedSize p.type.calldataEncodedSize)).sum),
            AssemblyItem.Push 0, AssemblyItem.Operation Instruction.RETURN]
      = expectedPackerItems params := by
  have h := packerLoopItems_closed params [] params 0 (by simp)
  simp only [List.map_nil, List.sum_nil, Nat.add_zero, List.length_nil, Nat.zero_add] at h
  unfold expectedPackerItems getSizeOnStack List.enum
  rw [h]
  simp

theorem appendReturnValuePackerLoop_error :
    ∀ (before : List VariableDeclaration) (bad : VariableDeclaration)
      (after : List VariableDeclaration) (offset depth : Nat) (ctx : CompilerContext),
      (∀ v ∈ before, v.type.calldataEncodedSize ≤ 32) → 32 < bad.type.calldataEncodedSize →
      appendReturnValuePackerLoop (before ++ bad :: after) offset depth ctx =
        (Except.error (CompilerException.CompilerError bad.location
            ("Type " ++ bad.type.name ++ " not yet supported.")),
          { ctx with items := ctx.items ++ packerLoopItems before offset depth }) := by
  intro before
  induction before with
  | nil =>
    intro bad after offset depth ctx _ hbad
    simp [appendReturnValuePackerLoop, hbad, packerLoopItems]
  | cons v rest ih =>
    intro bad after offset depth ctx hall hbad
    have hv : ¬ v.type.calldataEncodedSize > 32 := by
      have := hall v (List.mem_cons_self _ _)
      omega
    rw [List.cons_append, appendReturnValuePackerLoop]
    simp only [if_neg hv]
    rw [ih _ _ _ _ _ (fun w hw => hall w (List.mem_cons_of_mem _ hw)) hbad]
    simp [storeInMemory, appendTypeConversion, copyToStackTop, CompilerContext.append,
      packerLoopItems]

/-- C11: for every function whose return parameters all have encoded size at most 32,
`appendReturnValuePacker` returns normally and appends exactly `expectedPackerItems`: for
the `i`-th return parameter, in declaration order, the copy of the value at stack depth
equal to the stack sizes of the return parameters `i .. m-1`, the clean-up conversion of
its type to itself, and the store at memory offset equal to the padded encoded sizes of
the return parameters `0 .. i-1`, left-aligned exactly for `STRING`; then `PUSH total`,
`PUSH 0`, `RETURN`, with `total` the sum of all padded sizes.  If some return parameter
has an encoded size above 32, it signals `CompilerError` with the location of the first
such parameter. -/
theorem returnValuePacker_layout (f : FunctionDefinition) (ctx : CompilerContext) :
    ((∀ v ∈ f.returnParameters, v.type.calldataEncodedSize ≤ 32) →
        appendReturnValuePacker f ctx
          = (Except.ok (),
              { ctx with items := ctx.items ++ expectedPackerItems f.returnParameters })) ∧
      ((∃ v ∈ f.returnParameters, 32 < v.type.calldataEncodedSize) →
        ∃ (before : List VariableDeclaration) (bad : VariableDeclaration)
          (after : List VariableDeclaration),
          f.returnParameters = before ++ bad :: after ∧
          (∀ v ∈ before, v.type.calldataEncodedSize ≤ 32) ∧
          32 < bad.type.calldataEncodedSize ∧
          (appendReturnValuePacker f ctx).1 =
            Except.error (CompilerException.CompilerError bad.location
              ("Type " ++ bad.type.name ++ " not yet supported."))) := by
  refine ⟨?_, ?_⟩
  · intro hall
    rw [appendReturnValuePacker_ok f ctx hall, packerItems_eq f hall, packerLoopItems_expected]
  · intro h
    obtain ⟨before, bad, after, hl, hb, hbad⟩ := exists_first_oversized f.returnParameters h
    refine ⟨before, bad, after, hl, hb, hbad, ?_⟩
    unfold appendReturnValuePacker
    simp only [hl, appendReturnValuePackerLoop_error before bad after _ _ ctx hb hbad]

end Solidity

namespace Solidity

open Compiler CompilerContext CompilerUtils

/-! ## Frame properties of the statement visitors -/

theorem LoweredFrom.refl_step (low : Nat) (a : Compiler) : LoweredFrom low a a [] :=
  ⟨by simp, Nat.le_refl _, by simp, rfl, rfl, rfl, rfl, rfl⟩

theorem LoweredFrom.trans_step {low : Nat} {a b c : Compiler} {m1 m2 : List AssemblyItem}
    (h1 : LoweredFrom low a b m1) (h2 : LoweredFrom low b c m2) :
    LoweredFrom low a c (m1 ++ m2) := by
  refine ⟨by rw [h2.items_eq, h1.items_eq, List.append_assoc],
    Nat.le_trans h1.usedTags_le h2.usedTags_le, ?_, by rw [h2.returnTag_eq, h1.returnTag_eq],
    by rw [h2.runtimeContext_eq, h1.runtimeContext_eq], by rw [h2.optimize_eq, h1.optimize_eq],
    by rw [h2.labels_eq, h1.labels_eq], by rw [h2.subs_eq, h1.subs_eq]⟩
  intro t ht
  rcases List.mem_append.mp ht with h | h
  · have := h1.placed t h
    have := h2.usedTags_le
    omega
  · exact h2.placed t h

theorem LoweredFrom.weaken {low low2 : Nat} {a b : Compiler} {m : List AssemblyItem}
    (h : LoweredFrom low a b m) (hl : low2 ≤ low) : LoweredFrom low2 a b m :=
  ⟨h.items_eq, h.usedTags_le, fun t ht => ⟨Nat.le_trans hl (h.placed t ht).1, (h.placed t ht).2⟩,
    h.returnTag_eq, h.runtimeContext_eq, h.optimize_eq, h.labels_eq, h.subs_eq⟩

end Solidity

namespace Solidity

open Compiler CompilerContext CompilerUtils

/-- A step that replaces the current context by `ctx2`, which holds the items of the old
one followed by `more`. -/
theorem lowered_ctx (low : Nat) (a : Compiler) (ctx2 : CompilerContext)
    (more : List AssemblyItem) (bt ct : List Nat)
    (hi : ctx2.items = a.m_context.items ++ more)
    (hu : a.m_context.usedTags ≤ ctx2.usedTags)
    (hp : ∀ t, AssemblyItem.Tag t ∈ more → low ≤ t ∧ t < ctx2.usedTags)
    (hl : ctx2.functionEntryLabels = a.m_context.functionEntryLabels)
    (hs : ctx2.subs = a.m_context.subs) :
    LoweredFrom low a { a with m_context := ctx2, m_breakTags := bt, m_continueTags := ct } more :=
  ⟨hi, hu, hp, rfl, rfl, rfl, hl, hs⟩

mutual
/-- Lowering a statement appends items, allocates tags, places only tags it allocated,
and on normal return leaves the tag stacks as they were. -/
theorem visitStatement_lowers : ∀ (s : Statement) (self : Compiler)
    (r : Except CompilerException Unit) (self2 : Compiler),
    visitStatement s self = (r, self2) →
    ∃ more, LoweredFrom self.m_context.usedTags self self2 more ∧
      (r = Except.ok () → SameTagStacks self self2)
  | Statement.Block statements, self, r, self2, h => by
    simp only [visitStatement] at h
    exact visitStatements_lowers statements self r self2 h
  | Statement.IfStatement condition trueStatement falseStatement, self, r, self2, h => by
    simp only [visitStatement] at h
    split at h
    · rename_i e s2 heq
      obtain ⟨rfl, rfl⟩ := Prod.mk.inj h
      obtain ⟨mF, hF, _⟩ := visitOptionalStatement_lowers falseStatement _ _ _ heq
      refine ⟨_, (lowered_ctx _ self _ [AssemblyItem.CompileExpression condition,
          AssemblyItem.PushTag self.m_context.usedTags,
          AssemblyItem.Operation Instruction.JUMPI] _ _ ?_ ?_ ?_ ?_ ?_).trans_step
        (hF.weaken ?_), fun h => by cases h⟩
      · simp [Compiler.compileExpression, Solidity.compileExpression, appendConditionalJump,
          appendConditionalJumpTo, appendJumpToNew, appendJumpTo, newTag,
          CompilerContext.append]
      · simp [Compiler.compileExpression, Solidity.compileExpression, appendConditionalJump,
          appendConditionalJumpTo, appendJumpToNew, appendJumpTo, newTag,
          CompilerContext.append]
      · simp
      · rfl
      · rfl
      · simp [Compiler.compileExpression, Solidity.compileExpression, appendConditionalJump,
          appendConditionalJumpTo, appendJumpToNew, appendJumpTo, newTag,
          CompilerContext.append]
    · rename_i u s2 heq
      obtain ⟨mF, hF, hFs⟩ := visitOptionalStatement_lowers falseStatement _ _ _ heq
      have hu1 : self.m_context.usedTags + 1 ≤ s2.m_context.usedTags := by
        have := hF.usedTags_le
        simp [Compiler.compileExpression, Solidity.compileExpression, appendConditionalJump,
          appendConditionalJumpTo, appendJumpToNew, appendJumpTo, newTag,
          CompilerContext.append] at this
        omega
      have h0 := (lowered_ctx self.m_context.usedTags self _
          [AssemblyItem.CompileExpression condition,
           AssemblyItem.PushTag self.m_context.usedTags,
           AssemblyItem.Operation Instruction.JUMPI] _ _ ?_ ?_ ?_ ?_ ?_).trans_step
        (hF.weaken ?_)
      rotate_left
      · simp [Compiler.compileExpression, Solidity.compileExpression, appendConditionalJump,
          appendConditionalJumpTo, appendJumpToNew, appendJumpTo, newTag,
          CompilerContext.append]
      · simp [Compiler.compileExpression, Solidity.compileExpression, appendConditionalJump,
          appendConditionalJumpTo, appendJumpToNew, appendJumpTo, newTag,
          CompilerContext.append]
      · simp
      · rfl
      · rfl
      · simp [Compiler.compileExpression, Solidity.compileExpression, appendConditionalJump,
          appendConditionalJumpTo, appendJumpToNew, appendJumpTo, newTag,
          CompilerContext.append]
      split at h
      · rename_i e s3 heq2
        obtain ⟨rfl, rfl⟩ := Prod.mk.inj h
        obtain ⟨mT, hT, _⟩ := visitStatement_lowers trueStatement _ _ _ heq2
        have hu2 : s2.m_context.usedTags + 1 ≤ s3.m_context.usedTags := by
          have := hT.usedTags_le
          simp [Compiler.compileExpression, Solidity.compileExpression, appendConditionalJump,
          appendConditionalJumpTo, appendJumpToNew, appendJumpTo, newTag,
          CompilerContext.append] at this
          omega
        refine ⟨_, (h0.trans_step (lowered_ctx _ s2 _
            [AssemblyItem.PushTag s2.m_context.usedTags,
             AssemblyItem.Operation Instruction.JUMP,
             AssemblyItem.Tag self.m_context.usedTags] _ _ ?_ ?_ ?_ ?_ ?_)).trans_step
          (hT.weaken ?_), fun h => by cases h⟩
        · simp [Compiler.compileExpression, Solidity.compileExpression, appendConditionalJump,
          appendConditionalJumpTo, appendJumpToNew, appendJumpTo, newTag,
          CompilerContext.append]
        · simp [Compiler.compileExpression, Solidity.compileExpression, appendConditionalJump,
          appendConditionalJumpTo, appendJumpToNew, appendJumpTo, newTag,
          CompilerContext.append]
        · intro t ht
          simp at ht
          subst ht
          simp [Compiler.compileExpression, Solidity.compileExpression, appendConditionalJump,
          appendConditionalJumpTo, appendJumpToNew, appendJumpTo, newTag,
          CompilerContext.append]
          omega
        · rfl
        · rfl
        · simp [Compiler.compileExpression, Solidity.compileExpression, appendConditionalJump,
          appendConditionalJumpTo, appendJumpToNew, appendJumpTo, newTag,
          CompilerContext.append]
          omega
      · rename_i u2 s3 heq2
        obtain ⟨rfl, rfl⟩ := Prod.mk.inj h
        obtain ⟨mT, hT, hTs⟩ := visitStatement_lowers trueStatement _ _ _ heq2
        have hu2 : s2.m_context.usedTags + 1 ≤ s3.m_context.usedTags := by
          have := hT.usedTags_le
          simp [Compiler.compileExpression, Solidity.compileExpression, appendConditionalJump,
          appendConditionalJumpTo, appendJumpToNew, appendJumpTo, newTag,
          CompilerContext.append] at this
          omega
        refine ⟨_, ((h0.trans_step (lowered_ctx _ s2 _
            [AssemblyItem.PushTag s2.m_context.usedTags,
             AssemblyItem.Operation Instruction.JUMP,
             AssemblyItem.Tag self.m_context.usedTags] _ _ ?_ ?_ ?_ ?_ ?_)).trans_step
          (hT.weaken ?_)).trans_step (lowered_ctx _ s3 _
            [AssemblyItem.Tag s2.m_context.usedTags] _ _ ?_ ?_ ?_ ?_ ?_), ?_⟩
        · simp [Compiler.compileExpression, Solidity.compileExpression, appendConditionalJump,
          appendConditionalJumpTo, appendJumpToNew, appendJumpTo, newTag,
          CompilerContext.append]
        · simp [Compiler.compileExpression, Solidity.compileExpression, appendConditionalJump,
          appendConditionalJumpTo, appendJumpToNew, appendJumpTo, newTag,
          CompilerContext.append]
        · intro t ht
          simp at ht
          subst ht
          simp [Compiler.compileExpression, Solidity.compileExpression, appendConditionalJump,
          appendConditionalJumpTo, appendJumpToNew, appendJumpTo, newTag,
          CompilerContext.append]
          omega
        · rfl
        · rfl
        · simp [Compiler.compileExpression, Solidity.compileExpression, appendConditionalJump,
          appendConditionalJumpTo, appendJumpToNew, appendJumpTo, newTag,
          CompilerContext.append]
          omega
        · simp [Compiler.compileExpression, Solidity.compileExpression, appendConditionalJump,
          appendConditionalJumpTo, appendJumpToNew, appendJumpTo, newTag,
          CompilerContext.append]
        · simp [Compiler.compileExpression, Solidity.compileExpression, appendConditionalJump,
          appendConditionalJumpTo, appendJumpToNew, appendJumpTo, newTag,
          CompilerContext.append]
        · intro t ht
          simp at ht
          subst ht
          simp [Compiler.compileExpression, Solidity.compileExpression, appendConditionalJump,
          appendConditionalJumpTo, appendJumpToNew, appendJumpTo, newTag,
          CompilerContext.append]
          omega
        · rfl
        · rfl
        · intro _
          have h1 := hFs rfl
          have h2 := hTs rfl
          exact ⟨h2.1.trans h1.1, h2.2.trans h1.2⟩
  | Statement.WhileStatement condition body, self, r, self2, h => by
    simp only [visitStatement] at h
    split at h
    · rename_i e s4 heq
      obtain ⟨rfl, rfl⟩ := Prod.mk.inj h
      obtain ⟨mB, hB, _⟩ := visitStatement_lowers body _ _ _ heq
      refine ⟨_, (lowered_ctx _ self _ [AssemblyItem.Tag self.m_context.usedTags,
          AssemblyItem.CompileExpression condition,
          AssemblyItem.Operation Instruction.ISZERO,
          AssemblyItem.PushTag (self.m_context.usedTags + 1),
          AssemblyItem.Operation Instruction.JUMPI] _ _ ?_ ?_ ?_ ?_ ?_).trans_step
        (hB.weaken ?_), fun h => by cases h⟩
      · simp [Compiler.compileExpression, Solidity.compileExpression, appendConditionalJump,
          appendConditionalJumpTo, appendJumpToNew, appendJumpTo, newTag,
          CompilerContext.append]
      · simp [Compiler.compileExpression, Solidity.compileExpression, appendConditionalJump,
          appendConditionalJumpTo, appendJumpToNew, appendJumpTo, newTag,
          CompilerContext.append]
        omega
      · intro t ht
        simp at ht
        subst ht
        simp [Compiler.compileExpression, Solidity.compileExpression, appendConditionalJump,
          appendConditionalJumpTo, appendJumpToNew, appendJumpTo, newTag,
          CompilerContext.append]
        omega
      · rfl
      · rfl
      · simp [Compiler.compileExpression, Solidity.compileExpression, appendConditionalJump,
          appendConditionalJumpTo, appendJumpToNew, appendJumpTo, newTag,
          CompilerContext.append]
        omega
    · rename_i u s4 heq
      obtain ⟨rfl, rfl⟩ := Prod.mk.inj h
      obtain ⟨mB, hB, hBs⟩ := visitStatement_lowers body _ _ _ heq
      have hu1 : self.m_context.usedTags + 2 ≤ s4.m_context.usedTags := by
        have := hB.usedTags_le
        simp [Compiler.compileExpression, Solidity.compileExpression, appendConditionalJump,
          appendConditionalJumpTo, appendJumpToNew, appendJumpTo, newTag,
          CompilerContext.append] at this
        omega
      refine ⟨_, ((lowered_ctx _ self _ [AssemblyItem.Tag self.m_context.usedTags,
          AssemblyItem.CompileExpression condition,
          AssemblyItem.Operation Instruction.ISZERO,
          AssemblyItem.PushTag (self.m_context.usedTags + 1),
          AssemblyItem.Operation Instruction.JUMPI] _ _ ?_ ?_ ?_ ?_ ?_).trans_step
        (hB.weaken ?_)).trans_step (lowered_ctx _ s4 _
          [AssemblyItem.PushTag self.m_context.usedTags,
           AssemblyItem.Operation Instruction.JUMP,
           AssemblyItem.Tag (self.m_context.usedTags + 1)] _ _ ?_ ?_ ?_ ?_ ?_), ?_⟩
      · simp [Compiler.compileExpression, Solidity.compileExpression, appendConditionalJump,
          appendConditionalJumpTo, appendJumpToNew, appendJumpTo, newTag,
          CompilerContext.append]
      · simp [Compiler.compileExpression, Solidity.compileExpression, appendConditionalJump,
          appendConditionalJumpTo, appendJumpToNew, appendJumpTo, newTag,
          CompilerContext.append]
        omega
      · intro t ht
        simp at ht
        subst ht
        simp [Compiler.compileExpression, Solidity.compileExpression, appendConditionalJump,
          appendConditionalJumpTo, appendJumpToNew, appendJumpTo, newTag,
          CompilerContext.append]
        omega
      · rfl
      · rfl
      · simp [Compiler.compileExpression, Solidity.compileExpression, appendConditionalJump,
          appendConditionalJumpTo, appendJumpToNew, appendJumpTo, newTag,
          CompilerContext.append]
        omega
      · simp [Compiler.compileExpression, Solidity.compileExpression, appendConditionalJump,
          appendConditionalJumpTo, appendJumpToNew, appendJumpTo, newTag,
          CompilerContext.append]
      · simp [Compiler.compileExpression, Solidity.compileExpression, appendConditionalJump,
          appendConditionalJumpTo, appendJumpToNew, appendJumpTo, newTag,
          CompilerContext.append]
      · intro t ht
        simp at ht
        subst ht
        simp [Compiler.compileExpression, Solidity.compileExpression, appendConditionalJump,
          appendConditionalJumpTo, appendJumpToNew, appendJumpTo, newTag,
          CompilerContext.append]
        omega
      · rfl
      · rfl
      · intro _
        have h1 := hBs rfl
        refine ⟨?_, ?_⟩
        · show s4.m_breakTags.dropLast = self.m_breakTags
          rw [h1.1]
          simp [Compiler.compileExpression, Solidity.compileExpression, appendConditionalJump,
          appendConditionalJumpTo, appendJumpToNew, appendJumpTo, newTag,
          CompilerContext.append]
        · show s4.m_continueTags.dropLast = self.m_continueTags
          rw [h1.2]
          simp [Compiler.compileExpression, Solidity.compileExpression, appendConditionalJump,
          appendConditionalJumpTo, appendJumpToNew, appendJumpTo, newTag,
          CompilerContext.append]
  | Statement.ForStatement initializationExpression (some c) loopExpression body, self, r,
      self2, h => by
    simp only [visitStatement] at h
    split at h
    · rename_i e s2 heq
      obtain ⟨rfl, rfl⟩ := Prod.mk.inj h
      obtain ⟨mI, hI, _⟩ := visitOptionalStatement_lowers initializationExpression _ _ _ heq
      refine ⟨_, (lowered_ctx _ self _ [] _ _ ?_ ?_ ?_ ?_ ?_).trans_step
        (hI.weaken ?_), fun h => by cases h⟩
      · simp [Compiler.compileExpression, Solidity.compileExpression, appendConditionalJump,
          appendConditionalJumpTo, appendJumpToNew, appendJumpTo, newTag,
          CompilerContext.append]
      · simp [Compiler.compileExpression, Solidity.compileExpression, appendConditionalJump,
          appendConditionalJumpTo, appendJumpToNew, appendJumpTo, newTag,
          CompilerContext.append]
        omega
      · simp
      · rfl
      · rfl
      · simp [Compiler.compileExpression, Solidity.compileExpression, appendConditionalJump,
          appendConditionalJumpTo, appendJumpToNew, appendJumpTo, newTag,
          CompilerContext.append]
        omega
    · rename_i u s2 heq
      obtain ⟨mI, hI, hIs⟩ := visitOptionalStatement_lowers initializationExpression _ _ _ heq
      have hu1 : self.m_context.usedTags + 2 ≤ s2.m_context.usedTags := by
        have := hI.usedTags_le
        simp [Compiler.compileExpression, Solidity.compileExpression, appendConditionalJump,
          appendConditionalJumpTo, appendJumpToNew, appendJumpTo, newTag,
          CompilerContext.append] at this
        omega
      have h0 := (lowered_ctx self.m_context.usedTags self _ [] _ _ ?_ ?_ ?_ ?_ ?_).trans_step
        (hI.weaken ?_)
      rotate_left
      · simp [Compiler.compileExpression, Solidity.compileExpression, appendConditionalJump,
          appendConditionalJumpTo, appendJumpToNew, appendJumpTo, newTag,
          CompilerContext.append]
      · simp [Compiler.compileExpression, Solidity.compileExpression, appendConditionalJump,
          appendConditionalJumpTo, appendJumpToNew, appendJumpTo, newTag,
          CompilerContext.append]
        omega
      · simp
      · rfl
      · rfl
      · simp [Compiler.compileExpression, Solidity.compileExpression, appendConditionalJump,
          appendConditionalJumpTo, appendJumpToNew, appendJumpTo, newTag,
          CompilerContext.append]
        omega
      split at h
      · rename_i e s5 heq2
        obtain ⟨rfl, rfl⟩ := Prod.mk.inj h
        obtain ⟨mB, hB, _⟩ := visitStatement_lowers body _ _ _ heq2
        have hu2 : s2.m_context.usedTags ≤ s5.m_context.usedTags := by
          have := hB.usedTags_le
          simp [Compiler.compileExpression, Solidity.compileExpression, appendConditionalJump,
          appendConditionalJumpTo, appendJumpToNew, appendJumpTo, newTag,
          CompilerContext.append] at this
          omega
        refine ⟨_, (h0.trans_step (lowered_ctx _ s2 _
            [AssemblyItem.Tag self.m_context.usedTags,
             AssemblyItem.CompileExpression c, AssemblyItem.Operation Instruction.ISZERO,
             AssemblyItem.PushTag (self.m_context.usedTags + 1),
             AssemblyItem.Operation Instruction.JUMPI] _ _ ?_ ?_ ?_ ?_ ?_)).trans_step
          (hB.weaken ?_), fun h => by cases h⟩
        · simp [Compiler.compileExpression, Solidity.compileExpression, appendConditionalJump,
          appendConditionalJumpTo, appendJumpToNew, appendJumpTo, newTag,
          CompilerContext.append]
        · simp [Compiler.compileExpression, Solidity.compileExpression, appendConditionalJump,
          appendConditionalJumpTo, appendJumpToNew, appendJumpTo, newTag,
          CompilerContext.append]
        · intro t ht
          simp at ht
          subst ht
          simp [Compiler.compileExpression, Solidity.compileExpression, appendConditionalJump,
          appendConditionalJumpTo, appendJumpToNew, appendJumpTo, newTag,
          CompilerContext.append]
          omega
        · rfl
        · rfl
        · simp [Compiler.compileExpression, Solidity.compileExpression, appendConditionalJump,
          appendConditionalJumpTo, appendJumpToNew, appendJumpTo, newTag,
          CompilerContext.append]
          omega
      · rename_i u2 s5 heq2
        obtain ⟨mB, hB, hBs⟩ := visitStatement_lowers body _ _ _ heq2
        have hu2 : s2.m_context.usedTags ≤ s5.m_context.usedTags := by
          have := hB.usedTags_le
          simp [Compiler.compileExpression, Solidity.compileExpression, appendConditionalJump,
          appendConditionalJumpTo, appendJumpToNew, appendJumpTo, newTag,
          CompilerContext.append] at this
          omega
        have h1 := (h0.trans_step (lowered_ctx self.m_context.usedTags s2 _
            [AssemblyItem.Tag self.m_context.usedTags,
             AssemblyItem.CompileExpression c, AssemblyItem.Operation Instruction.ISZERO,
             AssemblyItem.PushTag (self.m_context.usedTags + 1),
             AssemblyItem.Operation Instruction.JUMPI] _ _ ?_ ?_ ?_ ?_ ?_)).trans_step
          (hB.weaken ?_)
        rotate_left
        · simp [Compiler.compileExpression, Solidity.compileExpression, appendConditionalJump,
          appendConditionalJumpTo, appendJumpToNew, appendJumpTo, newTag,
          CompilerContext.append]
        · simp [Compiler.compileExpression, Solidity.compileExpression, appendConditionalJump,
          appendConditionalJumpTo, appendJumpToNew, appendJumpTo, newTag,
          CompilerContext.append]
        · intro t ht
          simp at ht
          subst ht
          simp [Compiler.compileExpression, Solidity.compileExpression, appendConditionalJump,
          appendConditionalJumpTo, appendJumpToNew, appendJumpTo, newTag,
          CompilerContext.append]
          omega
        · rfl
        · rfl
        · simp [Compiler.compileExpression, Solidity.compileExpression, appendConditionalJump,
          appendConditionalJumpTo, appendJumpToNew, appendJumpTo, newTag,
          CompilerContext.append]
          omega
        split at h
        · rename_i e s6 heq3
          obtain ⟨rfl, rfl⟩ := Prod.mk.inj h
          obtain ⟨mL, hL, _⟩ := visitOptionalStatement_lowers loopExpression _ _ _ heq3
          exact ⟨_, h1.trans_step (hL.weaken (by omega)), fun h => by cases h⟩
        · rename_i u3 s6 heq3
          obtain ⟨rfl, rfl⟩ := Prod.mk.inj h
          obtain ⟨mL, hL, hLs⟩ := visitOptionalStatement_lowers loopExpression _ _ _ heq3
          have hu3 := hL.usedTags_le
          refine ⟨_, (h1.trans_step (hL.weaken (by omega))).trans_step (lowered_ctx _ s6 _
              [AssemblyItem.PushTag self.m_context.usedTags,
               AssemblyItem.Operation Instruction.JUMP,
               AssemblyItem.Tag (self.m_context.usedTags + 1)] _ _ ?_ ?_ ?_ ?_ ?_), ?_⟩
          · simp [Compiler.compileExpression, Solidity.compileExpression, appendConditionalJump,
          appendConditionalJumpTo, appendJumpToNew, appendJumpTo, newTag,
          CompilerContext.append]
          · simp [Compiler.compileExpression, Solidity.compileExpression, appendConditionalJump,
          appendConditionalJumpTo, appendJumpToNew, appendJumpTo, newTag,
          CompilerContext.append]
          · intro t ht
            simp at ht
            subst ht
            simp [Compiler.compileExpression, Solidity.compileExpression, appendConditionalJump,
          appendConditionalJumpTo, appendJumpToNew, appendJumpTo, newTag,
          CompilerContext.append]
            omega
          · rfl
          · rfl
          · intro _
            have k1 := hIs rfl
            have k2 := hBs rfl
            have k3 := hLs rfl
            refine ⟨?_, ?_⟩
            · show s6.m_breakTags.dropLast = self.m_breakTags
              rw [k3.1, k2.1]
              simp only [Compiler.compileExpression]
              rw [k1.1]
              simp
            · show s6.m_continueTags.dropLast = self.m_continueTags
              rw [k3.2, k2.2]
              simp only [Compiler.compileExpression]
              rw [k1.2]
              simp
  | Statement.ForStatement initializationExpression none loopExpression body, self, r,
      self2, h => by
    simp only [visitStatement] at h
    split at h
    · rename_i e s2 heq
      obtain ⟨rfl, rfl⟩ := Prod.mk.inj h
      obtain ⟨mI, hI, _⟩ := visitOptionalStatement_lowers initializationExpression _ _ _ heq
      refine ⟨_, (lowered_ctx _ self _ [] _ _ ?_ ?_ ?_ ?_ ?_).trans_step
        (hI.weaken ?_), fun h => by cases h⟩
      · simp [Compiler.compileExpression, Solidity.compileExpression, appendConditionalJump,
          appendConditionalJumpTo, appendJumpToNew, appendJumpTo, newTag,
          CompilerContext.append]
      · simp [Compiler.compileExpression, Solidity.compileExpression, appendConditionalJump,
          appendConditionalJumpTo, appendJumpToNew, appendJumpTo, newTag,
          CompilerContext.append]
        omega
      · simp
      · rfl
      · rfl
      · simp [Compiler.compileExpression, Solidity.compileExpression, appendConditionalJump,
          appendConditionalJumpTo, appendJumpToNew, appendJumpTo, newTag,
          CompilerContext.append]
        omega
    · rename_i u s2 heq
      obtain ⟨mI, hI, hIs⟩ := visitOptionalStatement_lowers initializationExpression _ _ _ heq
      have hu1 : self.m_context.usedTags + 2 ≤ s2.m_context.usedTags := by
        have := hI.usedTags_le
        simp [Compiler.compileExpression, Solidity.compileExpression, appendConditionalJump,
          appendConditionalJumpTo, appendJumpToNew, appendJumpTo, newTag,
          CompilerContext.append] at this
        omega
      have h0 := (lowered_ctx self.m_context.usedTags self _ [] _ _ ?_ ?_ ?_ ?_ ?_).trans_step
        (hI.weaken ?_)
      rotate_left
      · simp [Compiler.compileExpression, Solidity.compileExpression, appendConditionalJump,
          appendConditionalJumpTo, appendJumpToNew, appendJumpTo, newTag,
          CompilerContext.append]
      · simp [Compiler.compileExpression, Solidity.compileExpression, appendConditionalJump,
          appendConditionalJumpTo, appendJumpToNew, appendJumpTo, newTag,
          CompilerContext.append]
        omega
      · simp
      · rfl
      · rfl
      · simp [Compiler.compileExpression, Solidity.compileExpression, appendConditionalJump,
          appendConditionalJumpTo, appendJumpToNew, appendJumpTo, newTag,
          CompilerContext.append]
        omega
      split at h
      · rename_i e s5 heq2
        obtain ⟨rfl, rfl⟩ := Prod.mk.inj h
        obtain ⟨mB, hB, _⟩ := visitStatement_lowers body _ _ _ heq2
        have hu2 : s2.m_context.usedTags ≤ s5.m_context.usedTags := by
          have := hB.usedTags_le
          simp [Compiler.compileExpression, Solidity.compileExpression, appendConditionalJump,
          appendConditionalJumpTo, appendJumpToNew, appendJumpTo, newTag,
          CompilerContext.append] at this
          omega
        refine ⟨_, (h0.trans_step (lowered_ctx _ s2 _
            [AssemblyItem.Tag self.m_context.usedTags] _ _ ?_ ?_ ?_ ?_ ?_)).trans_step
          (hB.weaken ?_), fun h => by cases h⟩
        · simp [Compiler.compileExpression, Solidity.compileExpression, appendConditionalJump,
          appendConditionalJumpTo, appendJumpToNew, appendJumpTo, newTag,
          CompilerContext.append]
        · simp [Compiler.compileExpression, Solidity.compileExpression, appendConditionalJump,
          appendConditionalJumpTo, appendJumpToNew, appendJumpTo, newTag,
          CompilerContext.append]
        · intro t ht
          simp at ht
          subst ht
          simp [Compiler.compileExpression, Solidity.compileExpression, appendConditionalJump,
          appendConditionalJumpTo, appendJumpToNew, appendJumpTo, newTag,
          CompilerContext.append]
          omega
        · rfl
        · rfl
        · simp [Compiler.compileExpression, Solidity.compileExpression, appendConditionalJump,
          appendConditionalJumpTo, appendJumpToNew, appendJumpTo, newTag,
          CompilerContext.append]
          omega
      · rename_i u2 s5 heq2
        obtain ⟨mB, hB, hBs⟩ := visitStatement_lowers body _ _ _ heq2
        have hu2 : s2.m_context.usedTags ≤ s5.m_context.usedTags := by
          have := hB.usedTags_le
          simp [Compiler.compileExpression, Solidity.compileExpression, appendConditionalJump,
          appendConditionalJumpTo, appendJumpToNew, appendJumpTo, newTag,
          CompilerContext.append] at this
          omega
        have h1 := (h0.trans_step (lowered_ctx self.m_context.usedTags s2 _
            [AssemblyItem.Tag self.m_context.usedTags] _ _ ?_ ?_ ?_ ?_ ?_)).trans_step
          (hB.weaken ?_)
        rotate_left
        · simp [Compiler.compileExpression, Solidity.compileExpression, appendConditionalJump,
          appendConditionalJumpTo, appendJumpToNew, appendJumpTo, newTag,
          CompilerContext.append]
        · simp [Compiler.compileExpression, Solidity.compileExpression, appendConditionalJump,
          appendConditionalJumpTo, appendJumpToNew, appendJumpTo, newTag,
          CompilerContext.append]
        · intro t ht
          simp at ht
          subst ht
          simp [Compiler.compileExpression, Solidity.compileExpression, appendConditionalJump,
          appendConditionalJumpTo, appendJumpToNew, appendJumpTo, newTag,
          CompilerContext.append]
          omega
        · rfl
        · rfl
        · simp [Compiler.compileExpression, Solidity.compileExpression, appendConditionalJump,
          appendConditionalJumpTo, appendJumpToNew, appendJumpTo, newTag,
          CompilerContext.append]
          omega
        split at h
        · rename_i e s6 heq3
          obtain ⟨rfl, rfl⟩ := Prod.mk.inj h
          obtain ⟨mL, hL, _⟩ := visitOptionalStatement_lowers loopExpression _ _ _ heq3
          exact ⟨_, h1.trans_step (hL.weaken (by omega)), fun h => by cases h⟩
        · rename_i u3 s6 heq3
          obtain ⟨rfl, rfl⟩ := Prod.mk.inj h
          obtain ⟨mL, hL, hLs⟩ := visitOptionalStatement_lowers loopExpression _ _ _ heq3
          have hu3 := hL.usedTags_le
          refine ⟨_, (h1.trans_step (hL.weaken (by omega))).trans_step (lowered_ctx _ s6 _
              [AssemblyItem.PushTag self.m_context.usedTags,
               AssemblyItem.Operation Instruction.JUMP,
               AssemblyItem.Tag (self.m_context.usedTags + 1)] _ _ ?_ ?_ ?_ ?_ ?_), ?_⟩
          · simp [Compiler.compileExpression, Solidity.compileExpression, appendConditionalJump,
          appendConditionalJumpTo, appendJumpToNew, appendJumpTo, newTag,
          CompilerContext.append]
          · simp [Compiler.compileExpression, Solidity.compileExpression, appendConditionalJump,
          appendConditionalJumpTo, appendJumpToNew, appendJumpTo, newTag,
          CompilerContext.append]
          · intro t ht
            simp at ht
            subst ht
            simp [Compiler.compileExpression, Solidity.compileExpression, appendConditionalJump,
          appendConditionalJumpTo, appendJumpToNew, appendJumpTo, newTag,
          CompilerContext.append]
            omega
          · rfl
          · rfl
          · intro _
            have k1 := hIs rfl
            have k2 := hBs rfl
            have k3 := hLs rfl
            refine ⟨?_, ?_⟩
            · show s6.m_breakTags.dropLast = self.m_breakTags
              rw [k3.1, k2.1]
              simp only [Compiler.compileExpression]
              rw [k1.1]
              simp
            · show s6.m_continueTags.dropLast = self.m_continueTags
              rw [k3.2, k2.2]
              simp only [Compiler.compileExpression]
              rw [k1.2]
              simp
  | Statement.Continue, self, r, self2, h => by
    simp only [visitStatement] at h
    split at h
    · rename_i back hback
      obtain ⟨rfl, rfl⟩ := Prod.mk.inj h
      exact ⟨_, lowered_ctx _ self _
        [AssemblyItem.PushTag back, AssemblyItem.Operation Instruction.JUMP]
        _ _ (by simp [appendJumpTo, CompilerContext.append]) (Nat.le_refl _) (by simp) rfl rfl,
        fun _ => ⟨rfl, rfl⟩⟩
    · obtain ⟨rfl, rfl⟩ := Prod.mk.inj h
      exact ⟨[], LoweredFrom.refl_step _ _, fun _ => ⟨rfl, rfl⟩⟩
  | Statement.Break, self, r, self2, h => by
    simp only [visitStatement] at h
    split at h
    · rename_i back hback
      obtain ⟨rfl, rfl⟩ := Prod.mk.inj h
      exact ⟨_, lowered_ctx _ self _
        [AssemblyItem.PushTag back, AssemblyItem.Operation Instruction.JUMP]
        _ _ (by simp [appendJumpTo, CompilerContext.append]) (Nat.le_refl _) (by simp) rfl rfl,
        fun _ => ⟨rfl, rfl⟩⟩
    · obtain ⟨rfl, rfl⟩ := Prod.mk.inj h
      exact ⟨[], LoweredFrom.refl_step _ _, fun _ => ⟨rfl, rfl⟩⟩
  | Statement.Return (some expression) functionReturnParameters, self, r, self2, h => by
    simp only [visitStatement] at h
    split at h
    · obtain ⟨rfl, rfl⟩ := Prod.mk.inj h
      exact ⟨_, lowered_ctx _ self _ [AssemblyItem.CompileExpression expression]
        _ _ (by simp [Compiler.compileExpression, Solidity.compileExpression,
          CompilerContext.append]) (Nat.le_refl _) (by simp) rfl rfl,
        fun h => by cases h⟩
    · rename_i firstVariable hfirst
      obtain ⟨rfl, rfl⟩ := Prod.mk.inj h
      exact ⟨_, lowered_ctx _ self _ [AssemblyItem.CompileExpression expression,
          AssemblyItem.TypeConversion expression.type firstVariable.type false,
          AssemblyItem.MoveToStackVariable firstVariable,
          AssemblyItem.PushTag self.m_returnTag, AssemblyItem.Operation Instruction.JUMP]
        _ _ (by simp [Compiler.compileExpression, Solidity.compileExpression,
          CompilerContext.append, appendTypeConversion, moveToStackVariable, appendJumpTo])
        (Nat.le_refl _) (by simp) rfl rfl,
        fun _ => ⟨rfl, rfl⟩⟩
  | Statement.Return none _, self, r, self2, h => by
    simp only [visitStatement] at h
    obtain ⟨rfl, rfl⟩ := Prod.mk.inj h
    exact ⟨_, lowered_ctx _ self _
      [AssemblyItem.PushTag self.m_returnTag, AssemblyItem.Operation Instruction.JUMP]
      _ _ (by simp [appendJumpTo, CompilerContext.append]) (Nat.le_refl _) (by simp) rfl rfl,
      fun _ => ⟨rfl, rfl⟩⟩
  | Statement.VariableDefinition declaration (some expression), self, r, self2, h => by
    simp only [visitStatement] at h
    obtain ⟨rfl, rfl⟩ := Prod.mk.inj h
    exact ⟨_, lowered_ctx _ self _ [AssemblyItem.CompileExpression expression,
        AssemblyItem.TypeConversion expression.type declaration.type false,
        AssemblyItem.MoveToStackVariable declaration]
      _ _ (by simp [Compiler.compileExpression, Solidity.compileExpression,
        CompilerContext.append, appendTypeConversion, moveToStackVariable])
      (Nat.le_refl _) (by simp) rfl rfl,
      fun _ => ⟨rfl, rfl⟩⟩
  | Statement.VariableDefinition _ none, self, r, self2, h => by
    simp only [visitStatement] at h
    obtain ⟨rfl, rfl⟩ := Prod.mk.inj h
    exact ⟨[], LoweredFrom.refl_step _ _, fun _ => ⟨rfl, rfl⟩⟩
  | Statement.ExpressionStatement expression, self, r, self2, h => by
    simp only [visitStatement] at h
    obtain ⟨rfl, rfl⟩ := Prod.mk.inj h
    exact ⟨_, lowered_ctx _ self _ [AssemblyItem.CompileExpression expression,
        AssemblyItem.PopStackElement expression.type]
      _ _ (by simp [Compiler.compileExpression, Solidity.compileExpression,
        CompilerContext.append, popStackElement])
      (Nat.le_refl _) (by simp) rfl rfl,
      fun _ => ⟨rfl, rfl⟩⟩
/-- The frame property for the statements of a block. -/
theorem visitStatements_lowers : ∀ (ss : List Statement) (self : Compiler)
    (r : Except CompilerException Unit) (self2 : Compiler),
    visitStatements ss self = (r, self2) →
    ∃ more, LoweredFrom self.m_context.usedTags self self2 more ∧
      (r = Except.ok () → SameTagStacks self self2)
  | [], self, r, self2, h => by
    simp only [visitStatements] at h
    obtain ⟨rfl, rfl⟩ := Prod.mk.inj h
    exact ⟨[], LoweredFrom.refl_step _ _, fun _ => ⟨rfl, rfl⟩⟩
  | statement :: rest, self, r, self2, h => by
    simp only [visitStatements] at h
    split at h
    · rename_i e s1 heq
      obtain ⟨rfl, rfl⟩ := Prod.mk.inj h
      obtain ⟨m1, h1, _⟩ := visitStatement_lowers statement _ _ _ heq
      exact ⟨m1, h1, fun h => by cases h⟩
    · rename_i u s1 heq
      obtain ⟨m1, h1, h1s⟩ := visitStatement_lowers statement _ _ _ heq
      obtain ⟨m2, h2, h2s⟩ := visitStatements_lowers rest _ _ _ h
      refine ⟨_, h1.trans_step (h2.weaken h1.usedTags_le), fun hr => ?_⟩
      have ha := h1s rfl
      have hb := h2s hr
      exact ⟨hb.1.trans ha.1, hb.2.trans ha.2⟩
/-- The frame property for an optional statement. -/
theorem visitOptionalStatement_lowers : ∀ (s : Option Statement) (self : Compiler)
    (r : Except CompilerException Unit) (self2 : Compiler),
    visitOptionalStatement s self = (r, self2) →
    ∃ more, LoweredFrom self.m_context.usedTags self self2 more ∧
      (r = Except.ok () → SameTagStacks self self2)
  | none, self, r, self2, h => by
    simp only [visitOptionalStatement] at h
    obtain ⟨rfl, rfl⟩ := Prod.mk.inj h
    exact ⟨[], LoweredFrom.refl_step _ _, fun _ => ⟨rfl, rfl⟩⟩
  | some statement, self, r, self2, h => by
    simp only [visitOptionalStatement] at h
    exact visitStatement_lowers statement self r self2 h
end

end Solidity

namespace Solidity

open Compiler CompilerContext CompilerUtils

/-! ## Frame properties of the lowering of functions -/

theorem foldl_addVariable_frame (vs : List VariableDeclaration) :
    ∀ ctx : CompilerContext,
      (vs.foldl CompilerContext.addVariable ctx).items = ctx.items ∧
        (vs.foldl CompilerContext.addVariable ctx).subs = ctx.subs ∧
        (vs.foldl CompilerContext.addVariable ctx).usedTags = ctx.usedTags := by
  induction vs with
  | nil => intro ctx; exact ⟨rfl, rfl, rfl⟩
  | cons v rest ih =>
    intro ctx
    rw [List.foldl_cons]
    obtain ⟨h1, h2, h3⟩ := ih (ctx.addVariable v)
    exact ⟨h1, h2, h3⟩

theorem foldl_addAndInitializeVariable_frame (vs : List VariableDeclaration) :
    ∀ ctx : CompilerContext,
      (∃ more, (vs.foldl CompilerContext.addAndInitializeVariable ctx).items
          = ctx.items ++ more) ∧
        (vs.foldl CompilerContext.addAndInitializeVariable ctx).subs = ctx.subs ∧
        (vs.foldl CompilerContext.addAndInitializeVariable ctx).usedTags = ctx.usedTags := by
  induction vs with
  | nil => intro ctx; exact ⟨⟨[], by simp⟩, rfl, rfl⟩
  | cons v rest ih =>
    intro ctx
    rw [List.foldl_cons]
    obtain ⟨⟨more, h1⟩, h2, h3⟩ := ih (ctx.addAndInitializeVariable v)
    refine ⟨⟨List.replicate v.type.sizeOnStack (AssemblyItem.Push 0) ++ more, ?_⟩, h2, h3⟩
    rw [h1]
    simp [CompilerContext.addAndInitializeVariable, CompilerContext.addVariable]

theorem foldl_append_operation_frame (ops : List Instruction) :
    ∀ ctx : CompilerContext,
      (ops.foldl (fun c instruction => c.append (AssemblyItem.Operation instruction)) ctx).items
          = ctx.items ++ ops.map AssemblyItem.Operation ∧
        (ops.foldl (fun c instruction => c.append (AssemblyItem.Operation instruction)) ctx).subs
          = ctx.subs ∧
        (ops.foldl (fun c instruction => c.append (AssemblyItem.Operation instruction))
          ctx).usedTags = ctx.usedTags := by
  induction ops with
  | nil => intro ctx; exact ⟨by simp, rfl, rfl⟩
  | cons op rest ih =>
    intro ctx
    rw [List.foldl_cons]
    obtain ⟨h1, h2, h3⟩ := ih (ctx.append (AssemblyItem.Operation op))
    refine ⟨?_, h2, h3⟩
    rw [h1]
    simp [CompilerContext.append]

/-- What the lowering of a function leaves untouched: the items already in the current
context (new ones are appended), its sub-assemblies and the runtime context. -/
theorem visitFunctionDefinition_frame (f : FunctionDefinition) (self : Compiler)
    (r : Except CompilerException Unit) (self2 : Compiler)
    (h : visitFunctionDefinition f self = (r, self2)) :
    (∃ more, self2.m_context.items = self.m_context.items ++ more) ∧
      self2.m_context.subs = self.m_context.subs ∧
      self2.m_runtimeContext = self.m_runtimeContext ∧
      self.m_context.usedTags ≤ self2.m_context.usedTags := by
  unfold visitFunctionDefinition at h
  simp only at h
  split at h
  · obtain ⟨rfl, rfl⟩ := Prod.mk.inj h
    exact ⟨⟨[], by simp [startNewFunction, newTag]⟩, rfl, rfl,
      by simp [startNewFunction, newTag]⟩
  · rename_i entryLabel hlabel
    obtain ⟨hv1, hv2, hv3⟩ := foldl_addVariable_frame f.parameters
      ((self.m_context.startNewFunction.newTag.2).append (AssemblyItem.Tag entryLabel))
    obtain ⟨⟨m2, hr1⟩, hr2, hr3⟩ := foldl_addAndInitializeVariable_frame f.returnParameters
      (f.parameters.foldl CompilerContext.addVariable
        ((self.m_context.startNewFunction.newTag.2).append (AssemblyItem.Tag entryLabel)))
    obtain ⟨⟨m3, hl1⟩, hl2, hl3⟩ := foldl_addAndInitializeVariable_frame f.localVariables
      (f.returnParameters.foldl CompilerContext.addAndInitializeVariable
        (f.parameters.foldl CompilerContext.addVariable
          ((self.m_context.startNewFunction.newTag.2).append (AssemblyItem.Tag entryLabel))))
    have hi4 : (f.localVariables.foldl CompilerContext.addAndInitializeVariable
        (f.returnParameters.foldl CompilerContext.addAndInitializeVariable
          (f.parameters.foldl CompilerContext.addVariable
            ((self.m_context.startNewFunction.newTag.2).append
              (AssemblyItem.Tag entryLabel))))).items
        = self.m_context.items ++ ([AssemblyItem.Tag entryLabel] ++ m2 ++ m3) := by
      rw [hl1, hr1, hv1]
      simp [startNewFunction, newTag, CompilerContext.append]
    have hs4 : (f.localVariables.foldl CompilerContext.addAndInitializeVariable
        (f.returnParameters.foldl CompilerContext.addAndInitializeVariable
          (f.parameters.foldl CompilerContext.addVariable
            ((self.m_context.startNewFunction.newTag.2).append
              (AssemblyItem.Tag entryLabel))))).subs = self.m_context.subs := by
      rw [hl2, hr2, hv2]
      rfl
    have hu4 : (f.localVariables.foldl CompilerContext.addAndInitializeVariable
        (f.returnParameters.foldl CompilerContext.addAndInitializeVariable
          (f.parameters.foldl CompilerContext.addVariable
            ((self.m_context.startNewFunction.newTag.2).append
              (AssemblyItem.Tag entryLabel))))).usedTags = self.m_context.usedTags + 1 := by
      rw [hl3, hr3, hv3]
      rfl
    split at h
    · rename_i e s2 heq
      obtain ⟨rfl, rfl⟩ := Prod.mk.inj h
      obtain ⟨mB, hB, _⟩ := visitStatement_lowers _ _ _ _ heq
      refine ⟨⟨[AssemblyItem.Tag entryLabel] ++ m2 ++ m3 ++ mB, ?_⟩, ?_, ?_, ?_⟩
      · rw [hB.items_eq]
        simp only [hi4]
        simp
      · rw [hB.subs_eq]
        exact hs4
      · rw [hB.runtimeContext_eq]
      · have := hB.usedTags_le
        simp only [hu4] at this
        omega
    · rename_i u s2 heq
      obtain ⟨mB, hB, _⟩ := visitStatement_lowers _ _ _ _ heq
      have hBi : s2.m_context.items
          = self.m_context.items ++ ([AssemblyItem.Tag entryLabel] ++ m2 ++ m3 ++ mB) := by
        rw [hB.items_eq]
        simp only [hi4]
        simp
      have hBs : s2.m_context.subs = self.m_context.subs := by
        rw [hB.subs_eq]
        exact hs4
      have hBr : s2.m_runtimeContext = self.m_runtimeContext := by
        rw [hB.runtimeContext_eq]
      have hBu : self.m_context.usedTags ≤ s2.m_context.usedTags := by
        have := hB.usedTags_le
        simp only [hu4] at this
        omega
      split at h
      · obtain ⟨rfl, rfl⟩ := Prod.mk.inj h
        exact ⟨⟨[AssemblyItem.Tag entryLabel] ++ m2 ++ m3 ++ mB
          ++ [AssemblyItem.Tag s2.m_returnTag], by simp [CompilerContext.append, hBi]⟩,
          hBs, hBr, hBu⟩
      · rename_i layoutAndInstructions hloop
        obtain ⟨rfl, rfl⟩ := Prod.mk.inj h
        obtain ⟨ho1, ho2, ho3⟩ := foldl_append_operation_frame layoutAndInstructions.2
          (s2.m_context.append (AssemblyItem.Tag s2.m_returnTag))
        refine ⟨⟨[AssemblyItem.Tag entryLabel] ++ m2 ++ m3 ++ mB
          ++ [AssemblyItem.Tag s2.m_returnTag]
          ++ layoutAndInstructions.2.map AssemblyItem.Operation
          ++ [AssemblyItem.Operation Instruction.JUMP], ?_⟩, ?_, hBr, ?_⟩
        · simp only [CompilerContext.append] at ho1 ⊢
          rw [ho1, hBi]
          simp
        · simp only [CompilerContext.append] at ho2 ⊢
          rw [ho2, hBs]
        · simp only [CompilerContext.append] at ho3 ⊢
          rw [ho3]
          exact hBu

theorem visitNeededFunctions_frame :
    ∀ (fs : List FunctionDefinition) (self : Compiler)
      (r : Except CompilerException Unit) (self2 : Compiler),
      visitNeededFunctions fs self = (r, self2) →
      (∃ more, self2.m_context.items = self.m_context.items ++ more) ∧
        self2.m_context.subs = self.m_context.subs ∧
        self2.m_runtimeContext = self.m_runtimeContext ∧
        self.m_context.usedTags ≤ self2.m_context.usedTags := by
  intro fs
  induction fs with
  | nil =>
    intro self r self2 h
    simp only [visitNeededFunctions] at h
    obtain ⟨rfl, rfl⟩ := Prod.mk.inj h
    exact ⟨⟨[], by simp⟩, rfl, rfl, Nat.le_refl _⟩
  | cons f rest ih =>
    intro self r self2 h
    simp only [visitNeededFunctions] at h
    split at h
    · rename_i e s1 heq
      obtain ⟨rfl, rfl⟩ := Prod.mk.inj h
      exact visitFunctionDefinition_frame f self _ _ heq
    · rename_i u s1 heq
      obtain ⟨⟨m1, h1⟩, h2, h3, h4⟩ := visitFunctionDefinition_frame f self _ _ heq
      obtain ⟨⟨m2, k1⟩, k2, k3, k4⟩ := ih s1 r self2 h
      exact ⟨⟨m1 ++ m2, by rw [k1, h1, List.append_assoc]⟩, k2.trans h2, k3.trans h3,
        Nat.le_trans h4 k4⟩

end Solidity

namespace Solidity

open Compiler CompilerContext CompilerUtils

/-! ## Lowering of `while`, `for` and `if` -/

theorem visitStatement_while_eq (condition : Expression) (body : Statement) (self : Compiler) :
    visitStatement (Statement.WhileStatement condition body) self =
      match visitStatement body (whileBodyState condition self) with
      | (Except.error e, self4) => (Except.error e, self4)
      | (Except.ok _, self4) =>
        (Except.ok (),
          { self4 with
            m_context := (self4.m_context.appendJumpTo self.m_context.usedTags).append
              (AssemblyItem.Tag (self.m_context.usedTags + 1))
            m_continueTags := self4.m_continueTags.dropLast
            m_breakTags := self4.m_breakTags.dropLast }) := by
  simp only [visitStatement]
  rfl

theorem whileBodyState_items (condition : Expression) (self : Compiler) :
    (whileBodyState condition self).m_context.items = self.m_context.items ++
      [AssemblyItem.Tag self.m_context.usedTags, AssemblyItem.CompileExpression condition,
       AssemblyItem.Operation Instruction.ISZERO,
       AssemblyItem.PushTag (self.m_context.usedTags + 1),
       AssemblyItem.Operation Instruction.JUMPI] := by
  simp [whileBodyState, Compiler.compileExpression, Solidity.compileExpression,
    appendConditionalJumpTo, newTag, CompilerContext.append]

/-- C20: for every `while` statement, the two tags are obtained from two successive
`newTag()` calls (`loopStart = usedTags`, `loopEnd = usedTags + 1`, so they are distinct
and were not allocated before); while the body is lowered, `loopStart` is the top of the
continue-tag stack and `loopEnd` the top of the break-tag stack; an exception of the body
propagates; and when the body is lowered normally, the sequence emitted for the statement
is `[Tag loopStart, condition, ISZERO, PUSH loopEnd, JUMPI] ++ body ++ [PUSH loopStart,
JUMP, Tag loopEnd]`, the body placing neither of the two tags. -/
theorem while_lowering (condition : Expression) (body : Statement) (self : Compiler) :
    self.m_context.newTag.1 = self.m_context.usedTags ∧
      self.m_context.newTag.2.newTag.1 = self.m_context.usedTags + 1 ∧
      self.m_context.usedTags ≠ self.m_context.usedTags + 1 ∧
      (whileBodyState condition self).m_continueTags.getLast? = some self.m_context.usedTags ∧
      (whileBodyState condition self).m_breakTags.getLast?
        = some (self.m_context.usedTags + 1) ∧
      (∀ e s, visitStatement body (whileBodyState condition self) = (Except.error e, s) →
        visitStatement (Statement.WhileStatement condition body) self = (Except.error e, s)) ∧
      (∀ afterBody,
        visitStatement body (whileBodyState condition self) = (Except.ok (), afterBody) →
        ∃ (bodyItems : List AssemblyItem) (final : Compiler),
          afterBody.m_context.items
            = (whileBodyState condition self).m_context.items ++ bodyItems ∧
          visitStatement (Statement.WhileStatement condition body) self
            = (Except.ok (), final) ∧
          final.m_context.items = self.m_context.items ++
            whileItems condition self.m_context.usedTags (self.m_context.usedTags + 1)
              bodyItems ∧
          (∀ t, AssemblyItem.Tag t ∈ bodyItems → self.m_context.usedTags + 1 < t) ∧
          self.m_context.usedTags + 1 < final.m_context.usedTags ∧
          final.m_continueTags = self.m_continueTags ∧
          final.m_breakTags = self.m_breakTags) := by
  refine ⟨rfl, rfl, by omega, by simp [whileBodyState, Compiler.compileExpression, newTag],
    by simp [whileBodyState, Compiler.compileExpression, newTag], ?_, ?_⟩
  · intro e s h
    rw [visitStatement_while_eq, h]
  · intro afterBody h
    obtain ⟨bodyItems, hB, hBs⟩ := visitStatement_lowers body _ _ _ h
    have hu : (whileBodyState condition self).m_context.usedTags
        = self.m_context.usedTags + 2 := by
      simp [whileBodyState, Compiler.compileExpression, Solidity.compileExpression,
        appendConditionalJumpTo, newTag, CompilerContext.append]
    have hst := hBs rfl
    refine ⟨bodyItems, _, hB.items_eq, by rw [visitStatement_while_eq, h], ?_, ?_, ?_, ?_, ?_⟩
    · simp only [appendJumpTo, CompilerContext.append, hB.items_eq, whileBodyState_items,
        whileItems]
      simp
    · intro t ht
      have := (hB.placed t ht).1
      omega
    · have := hB.usedTags_le
      simp only [appendJumpTo, CompilerContext.append]
      omega
    · show afterBody.m_continueTags.dropLast = self.m_continueTags
      rw [hst.2]
      simp [whileBodyState, Compiler.compileExpression, newTag]
    · show afterBody.m_breakTags.dropLast = self.m_breakTags
      rw [hst.1]
      simp [whileBodyState, Compiler.compileExpression, newTag]

end Solidity

namespace Solidity

open Compiler CompilerContext CompilerUtils

theorem visitStatement_for_eq (initializationExpression : Option Statement)
    (condition : Option Expression) (loopExpression : Option Statement) (body : Statement)
    (self : Compiler) :
    visitStatement
        (Statement.ForStatement initializationExpression condition loopExpression body) self =
      match visitOptionalStatement initializationExpression (forInitState self) with
      | (Except.error e, self2) => (Except.error e, self2)
      | (Except.ok _, self2) =>
        match visitStatement body
            (forBodyState condition self.m_context.usedTags (self.m_context.usedTags + 1)
              self2) with
        | (Except.error e, self5) => (Except.error e, self5)
        | (Except.ok _, self5) =>
          match visitOptionalStatement loopExpression self5 with
          | (Except.error e, self6) => (Except.error e, self6)
          | (Except.ok _, self6) =>
            (Except.ok (),
              { self6 with
                m_context := (self6.m_context.appendJumpTo self.m_context.usedTags).append
                  (AssemblyItem.Tag (self.m_context.usedTags + 1))
                m_continueTags := self6.m_continueTags.dropLast
                m_breakTags := self6.m_breakTags.dropLast }) := by
  cases condition <;> simp only [visitStatement] <;> rfl

theorem forBodyState_items (condition : Option Expression) (loopStart loopEnd : Nat)
    (afterInit : Compiler) :
    (forBodyState condition loopStart loopEnd afterInit).m_context.items
      = afterInit.m_context.items ++ [AssemblyItem.Tag loopStart]
          ++ forConditionItems condition loopEnd := by
  cases condition <;>
    simp [forBodyState, forConditionItems, Compiler.compileExpression,
      Solidity.compileExpression, appendConditionalJumpTo, CompilerContext.append]

theorem forBodyState_fields (condition : Option Expression) (loopStart loopEnd : Nat)
    (afterInit : Compiler) :
    (forBodyState condition loopStart loopEnd afterInit).m_context.usedTags
        = afterInit.m_context.usedTags ∧
      (forBodyState condition loopStart loopEnd afterInit).m_continueTags
        = afterInit.m_continueTags ∧
      (forBodyState condition loopStart loopEnd afterInit).m_breakTags
        = afterInit.m_breakTags := by
  cases condition <;>
    simp [forBodyState, Compiler.compileExpression, Solidity.compileExpression,
      appendConditionalJumpTo, CompilerContext.append]

theorem forConditionItems_not_tag (condition : Option Expression) (loopEnd t : Nat) :
    AssemblyItem.Tag t ∉ forConditionItems condition loopEnd := by
  cases condition <;> simp [forConditionItems]

/-- C18: for every `for` statement, with `loopStart = usedTags` and
`loopEnd = usedTags + 1` the two tags allocated on entry: an exception of the
initialization statement, the body or the loop expression propagates; when the three are
lowered normally, the sequence emitted for the statement is `init ++ [Tag loopStart] ++
(condition, ISZERO, PUSH loopEnd, JUMPI, if there is a condition) ++ body ++ step ++
[PUSH loopStart, JUMP, Tag loopEnd]`.  While the body is lowered the top of the
continue-tag stack is `loopStart` and the top of the break-tag stack is `loopEnd`, so a
`continue` lowered with these stacks emits exactly the jump to `loopStart` and a `break`
exactly the jump to `loopEnd`.  `loopStart` is placed exactly at the end of the
initialization code, right before the condition code, and the code of the loop
expression lies after the body: a jump to `loopStart` does not pass through it. -/
theorem for_lowering (initializationExpression : Option Statement)
    (condition : Option Expression) (loopExpression : Option Statement) (body : Statement)
    (self : Compiler) :
    (∀ e s, visitOptionalStatement initializationExpression (forInitState self)
          = (Except.error e, s) →
        visitStatement
          (Statement.ForStatement initializationExpression condition loopExpression body) self
          = (Except.error e, s)) ∧
    (∀ afterInit,
      visitOptionalStatement initializationExpression (forInitState self)
        = (Except.ok (), afterInit) →
      (forBodyState condition self.m_context.usedTags (self.m_context.usedTags + 1)
          afterInit).m_continueTags.getLast? = some self.m_context.usedTags ∧
      (forBodyState condition self.m_context.usedTags (self.m_context.usedTags + 1)
          afterInit).m_breakTags.getLast? = some (self.m_context.usedTags + 1) ∧
      (∀ st : Compiler, st.m_continueTags.getLast? = some self.m_context.usedTags →
        visitStatement Statement.Continue st =
          (Except.ok (),
            { st with m_context := st.m_context.appendJumpTo self.m_context.usedTags })) ∧
      (∀ st : Compiler, st.m_breakTags.getLast? = some (self.m_context.usedTags + 1) →
        visitStatement Statement.Break st =
          (Except.ok (),
            { st with m_context := st.m_context.appendJumpTo (self.m_context.usedTags + 1) })) ∧
      (∀ e s, visitStatement body
            (forBodyState condition self.m_context.usedTags (self.m_context.usedTags + 1)
              afterInit) = (Except.error e, s) →
        visitStatement
          (Statement.ForStatement initializationExpression condition loopExpression body) self
          = (Except.error e, s)) ∧
      (∀ afterBody,
        visitStatement body
            (forBodyState condition self.m_context.usedTags (self.m_context.usedTags + 1)
              afterInit) = (Except.ok (), afterBody) →
        (∀ e s, visitOptionalStatement loopExpression afterBody = (Except.error e, s) →
          visitStatement
            (Statement.ForStatement initializationExpression condition loopExpression body)
            self = (Except.error e, s)) ∧
        (∀ afterStep,
          visitOptionalStatement loopExpression afterBody = (Except.ok (), afterStep) →
          ∃ (initItems bodyItems stepItems : List AssemblyItem) (final : Compiler),
            afterInit.m_context.items = self.m_context.items ++ initItems ∧
            afterBody.m_context.items
              = (forBodyState condition self.m_context.usedTags
                  (self.m_context.usedTags + 1) afterInit).m_context.items ++ bodyItems ∧
            afterStep.m_context.items = afterBody.m_context.items ++ stepItems ∧
            visitStatement
              (Statement.ForStatement initializationExpression condition loopExpression body)
              self = (Except.ok (), final) ∧
            final.m_context.items = self.m_context.items ++
              forItems condition self.m_context.usedTags (self.m_context.usedTags + 1)
                initItems bodyItems stepItems ∧
            tagPosition self.m_context.usedTags
                (forItems condition self.m_context.usedTags (self.m_context.usedTags + 1)
                  initItems bodyItems stepItems) = some initItems.length ∧
            tagPosition (self.m_context.usedTags + 1)
                (forItems condition self.m_context.usedTags (self.m_context.usedTags + 1)
                  initItems bodyItems stepItems)
              = some (initItems.length + 1
                  + (forConditionItems condition (self.m_context.usedTags + 1)).length
                  + bodyItems.length + stepItems.length + 2)))) := by
  refine ⟨?_, ?_⟩
  · intro e s h
    rw [visitStatement_for_eq, h]
  · intro afterInit hI
    obtain ⟨initItems, hIl, hIs⟩ := visitOptionalStatement_lowers _ _ _ _ hI
    have hIst := hIs rfl
    have hf := forBodyState_fields condition self.m_context.usedTags
      (self.m_context.usedTags + 1) afterInit
    have hIu : self.m_context.usedTags + 2 ≤ afterInit.m_context.usedTags := by
      have := hIl.usedTags_le
      simpa [forInitState, newTag] using this
    have hIi : afterInit.m_context.items = self.m_context.items ++ initItems := by
      have := hIl.items_eq
      simpa [forInitState, newTag] using this
    refine ⟨?_, ?_, ?_, ?_, ?_, ?_⟩
    · rw [hf.2.1, hIst.2]
      simp [forInitState, newTag]
    · rw [hf.2.2, hIst.1]
      simp [forInitState, newTag]
    · intro st hst
      simp only [visitStatement, hst]
    · intro st hst
      simp only [visitStatement, hst]
    · intro e s h
      rw [visitStatement_for_eq, hI]
      simp only [h]
    · intro afterBody hB
      obtain ⟨bodyItems, hBl, hBs⟩ := visitStatement_lowers _ _ _ _ hB
      have hBst := hBs rfl
      refine ⟨?_, ?_⟩
      · intro e s h
        rw [visitStatement_for_eq, hI]
        simp only [hB, h]
      · intro afterStep hS
        obtain ⟨stepItems, hSl, hSs⟩ := visitOptionalStatement_lowers _ _ _ _ hS
        have hnI : AssemblyItem.Tag self.m_context.usedTags ∉ initItems := by
          intro hm
          have := (hIl.placed _ hm).1
          simp [forInitState, newTag] at this
          omega
        have hnI2 : AssemblyItem.Tag (self.m_context.usedTags + 1) ∉ initItems := by
          intro hm
          have := (hIl.placed _ hm).1
          simp [forInitState, newTag] at this
        have hnB : AssemblyItem.Tag (self.m_context.usedTags + 1) ∉ bodyItems := by
          intro hm
          have := (hBl.placed _ hm).1
          rw [hf.1] at this
          omega
        have hnS : AssemblyItem.Tag (self.m_context.usedTags + 1) ∉ stepItems := by
          intro hm
          have := (hSl.placed _ hm).1
          have := hBl.usedTags_le
          rw [hf.1] at this
          omega
        refine ⟨initItems, bodyItems, stepItems,
          { afterStep with
            m_context := (afterStep.m_context.appendJumpTo self.m_context.usedTags).append
              (AssemblyItem.Tag (self.m_context.usedTags + 1))
            m_continueTags := afterStep.m_continueTags.dropLast
            m_breakTags := afterStep.m_breakTags.dropLast },
          hIi, hBl.items_eq, hSl.items_eq, ?_, ?_, ?_, ?_⟩
        · rw [visitStatement_for_eq, hI]
          simp only [hB, hS]
        · simp only [appendJumpTo, CompilerContext.append, hSl.items_eq, hBl.items_eq,
            forBodyState_items, hIi, forItems]
          simp
        · have := tagPosition_decomp self.m_context.usedTags initItems
            (forConditionItems condition (self.m_context.usedTags + 1) ++ bodyItems
              ++ stepItems ++ [AssemblyItem.PushTag self.m_context.usedTags,
                AssemblyItem.Operation Instruction.JUMP,
                AssemblyItem.Tag (self.m_context.usedTags + 1)]) hnI
          simpa [forItems] using this
        · have hne : AssemblyItem.Tag (self.m_context.usedTags + 1) ∉
              initItems ++ [AssemblyItem.Tag self.m_context.usedTags]
                ++ forConditionItems condition (self.m_context.usedTags + 1) ++ bodyItems
                ++ stepItems ++ [AssemblyItem.PushTag self.m_context.usedTags,
                  AssemblyItem.Operation Instruction.JUMP] := by
            simp only [List.mem_append, not_or]
            refine ⟨⟨⟨⟨⟨hnI2, by simp⟩, forConditionItems_not_tag _ _ _⟩, hnB⟩, hnS⟩, by simp⟩
          have hpos := tagPosition_decomp (self.m_context.usedTags + 1) _ [] hne
          have hsplit : forItems condition self.m_context.usedTags (self.m_context.usedTags + 1)
              initItems bodyItems stepItems
              = (initItems ++ [AssemblyItem.Tag self.m_context.usedTags]
                ++ forConditionItems condition (self.m_context.usedTags + 1) ++ bodyItems
                ++ stepItems ++ [AssemblyItem.PushTag self.m_context.usedTags,
                  AssemblyItem.Operation Instruction.JUMP])
                ++ [AssemblyItem.Tag (self.m_context.usedTags + 1)] := by
            simp [forItems]
          rw [hsplit, hpos]
          simp only [Option.some.injEq, List.length_append, List.length_cons, List.length_nil]

end Solidity

namespace Solidity

open Compiler CompilerContext CompilerUtils

theorem step_jumpi_value (load : Nat → Nat → Bool → Bool → Bool → Nat)
    {items : List AssemblyItem} {pc : Nat} (base : List Word) (c t p : Nat)
    (hget : items[pc]? = some (AssemblyItem.Operation Instruction.JUMPI))
    (hpos : tagPosition t items = some p) :
    step items load pc (base ++ [Word.value c, Word.tag t])
      = Sum.inl (if c = 0 then pc + 1 else p, base) := by
  by_cases hc : c = 0 <;> simp [step, hget, hpos, hc]

theorem step_jump_to (load : Nat → Nat → Bool → Bool → Bool → Nat)
    {items : List AssemblyItem} {pc : Nat} (base : List Word) (t p : Nat)
    (hget : items[pc]? = some (AssemblyItem.Operation Instruction.JUMP))
    (hpos : tagPosition t items = some p) :
    step items load pc (base ++ [Word.tag t]) = Sum.inl (p, base) := by
  simp [step, hget, hpos]

theorem getElem?_of_split {α : Type} {l : List α} (pre post : List α) {x : α} {n : Nat}
    (h : l = pre ++ x :: post) (hn : n = pre.length) : l[n]? = some x := by
  subst h hn
  exact getElem?_decomp pre post x

theorem visitStatement_if_eq (condition : Expression) (trueStatement : Statement)
    (falseStatement : Option Statement) (self : Compiler) :
    visitStatement (Statement.IfStatement condition trueStatement falseStatement) self =
      match visitOptionalStatement falseStatement (ifFalseState condition self) with
      | (Except.error e, self2) => (Except.error e, self2)
      | (Except.ok _, self2) =>
        match visitStatement trueStatement (ifTrueState self.m_context.usedTags self2) with
        | (Except.error e, self3) => (Except.error e, self3)
        | (Except.ok _, self3) =>
          (Except.ok (),
            { self3 with
              m_context := self3.m_context.append
                (AssemblyItem.Tag self2.m_context.usedTags) }) := by
  simp only [visitStatement]
  rfl

theorem ifItems_positions (condition : Expression) (trueTag endTag : Nat)
    (falseItems trueItems : List AssemblyItem)
    (hF1 : AssemblyItem.Tag trueTag ∉ falseItems)
    (hF2 : AssemblyItem.Tag endTag ∉ falseItems)
    (hT2 : AssemblyItem.Tag endTag ∉ trueItems) (hne : trueTag ≠ endTag) :
    (ifItems condition trueTag endTag falseItems trueItems)[2]?
        = some (AssemblyItem.Operation Instruction.JUMPI) ∧
      (ifItems condition trueTag endTag falseItems trueItems)[3 + falseItems.length + 1]?
        = some (AssemblyItem.Operation Instruction.JUMP) ∧
      tagPosition trueTag (ifItems condition trueTag endTag falseItems trueItems)
        = some (3 + falseItems.length + 2) ∧
      tagPosition endTag (ifItems condition trueTag endTag falseItems trueItems)
        = some (3 + falseItems.length + 3 + trueItems.length) := by
  have h1 : ifItems condition trueTag endTag falseItems trueItems
      = ([AssemblyItem.CompileExpression condition, AssemblyItem.PushTag trueTag,
          AssemblyItem.Operation Instruction.JUMPI] ++ falseItems
          ++ [AssemblyItem.PushTag endTag, AssemblyItem.Operation Instruction.JUMP])
        ++ AssemblyItem.Tag trueTag :: (trueItems ++ [AssemblyItem.Tag endTag]) := by
    simp [ifItems]
  have h2 : ifItems condition trueTag endTag falseItems trueItems
      = ([AssemblyItem.CompileExpression condition, AssemblyItem.PushTag trueTag,
          AssemblyItem.Operation Instruction.JUMPI] ++ falseItems
          ++ [AssemblyItem.PushTag endTag, AssemblyItem.Operation Instruction.JUMP,
              AssemblyItem.Tag trueTag] ++ trueItems)
        ++ AssemblyItem.Tag endTag :: [] := by
    simp [ifItems]
  have h3 : ifItems condition trueTag endTag falseItems trueItems
      = ([AssemblyItem.CompileExpression condition, AssemblyItem.PushTag trueTag,
          AssemblyItem.Operation Instruction.JUMPI] ++ falseItems
          ++ [AssemblyItem.PushTag endTag])
        ++ AssemblyItem.Operation Instruction.JUMP
          :: (AssemblyItem.Tag trueTag :: (trueItems ++ [AssemblyItem.Tag endTag])) := by
    simp [ifItems]
  refine ⟨by simp [ifItems], ?_, ?_, ?_⟩
  · exact getElem?_of_split _ _ h3 (by simp; omega)
  · rw [h1, tagPosition_decomp trueTag _ _ (by
      simp only [List.mem_append, not_or]
      exact ⟨⟨by simp, hF1⟩, by simp⟩)]
    simp
    omega
  · rw [h2, tagPosition_decomp endTag _ _ (by
      simp only [List.mem_append, not_or]
      refine ⟨⟨⟨by simp, hF2⟩, ?_⟩, hT2⟩
      simp
      exact fun h => hne h.symm)]
    simp
    omega

/-- C19: for every `if` statement, with `trueTag = usedTags` the tag allocated by
`appendConditionalJump()` and `endTag` the tag allocated by `appendJumpToNew()` after the
false branch: the two tags differ; an exception of a branch propagates; and when both
branches are lowered normally the emitted sequence is `[condition, PUSH trueTag, JUMPI]
++ false branch ++ [PUSH endTag, JUMP, Tag trueTag] ++ true branch ++ [Tag endTag]`.  On
the abstract machine the `JUMPI` at index 2, executed with the condition value `v` below
the tag, continues at index 3 (the first item of the false branch) when `v = 0` and at
the placement of `trueTag`, which the true branch follows, when `v ≠ 0`; the `JUMP`
after the false branch continues at the placement of `endTag`, which is the last item
and which the true branch runs into. -/
theorem if_lowering (condition : Expression) (trueStatement : Statement)
    (falseStatement : Option Statement) (self : Compiler) :
    (∀ e s, visitOptionalStatement falseStatement (ifFalseState condition self)
          = (Except.error e, s) →
        visitStatement (Statement.IfStatement condition trueStatement falseStatement) self
          = (Except.error e, s)) ∧
    (∀ afterFalse,
      visitOptionalStatement falseStatement (ifFalseState condition self)
        = (Except.ok (), afterFalse) →
      self.m_context.usedTags ≠ afterFalse.m_context.usedTags ∧
      (∀ e s, visitStatement trueStatement (ifTrueState self.m_context.usedTags afterFalse)
            = (Except.error e, s) →
        visitStatement (Statement.IfStatement condition trueStatement falseStatement) self
          = (Except.error e, s)) ∧
      (∀ afterTrue,
        visitStatement trueStatement (ifTrueState self.m_context.usedTags afterFalse)
          = (Except.ok (), afterTrue) →
        ∃ (falseItems trueItems : List AssemblyItem) (final : Compiler),
          afterFalse.m_context.items
            = (ifFalseState condition self).m_context.items ++ falseItems ∧
          afterTrue.m_context.items
            = (ifTrueState self.m_context.usedTags afterFalse).m_context.items ++ trueItems ∧
          visitStatement (Statement.IfStatement condition trueStatement falseStatement) self
            = (Except.ok (), final) ∧
          final.m_context.items = self.m_context.items ++
            ifItems condition self.m_context.usedTags afterFalse.m_context.usedTags
              falseItems trueItems ∧
          (∀ (load : Nat → Nat → Bool → Bool → Bool → Nat) (base : List Word) (v : Nat),
            step (ifItems condition self.m_context.usedTags afterFalse.m_context.usedTags
                falseItems trueItems) load 2
                (base ++ [Word.value v, Word.tag self.m_context.usedTags])
              = Sum.inl (if v = 0 then 3 else 3 + falseItems.length + 2, base)) ∧
          (ifItems condition self.m_context.usedTags afterFalse.m_context.usedTags
              falseItems trueItems)[3 + falseItems.length + 2]?
            = some (AssemblyItem.Tag self.m_context.usedTags) ∧
          (∀ (load : Nat → Nat → Bool → Bool → Bool → Nat) (base : List Word),
            step (ifItems condition self.m_context.usedTags afterFalse.m_context.usedTags
                falseItems trueItems) load (3 + falseItems.length + 1)
                (base ++ [Word.tag afterFalse.m_context.usedTags])
              = Sum.inl (3 + falseItems.length + 3 + trueItems.length, base)) ∧
          (ifItems condition self.m_context.usedTags afterFalse.m_context.usedTags
              falseItems trueItems)[3 + falseItems.length + 3 + trueItems.length]?
            = some (AssemblyItem.Tag afterFalse.m_context.usedTags) ∧
          (ifItems condition self.m_context.usedTags afterFalse.m_context.usedTags
              falseItems trueItems).length = 3 + falseItems.length + 3 + trueItems.length + 1))
    := by
  refine ⟨?_, ?_⟩
  · intro e s h
    rw [visitStatement_if_eq, h]
  · intro afterFalse hF
    obtain ⟨falseItems, hFl, _⟩ := visitOptionalStatement_lowers _ _ _ _ hF
    have hFu0 : (ifFalseState condition self).m_context.usedTags
        = self.m_context.usedTags + 1 := by
      simp [ifFalseState, Compiler.compileExpression, Solidity.compileExpression,
        appendConditionalJump, appendConditionalJumpTo, newTag, CompilerContext.append]
    have hFu : self.m_context.usedTags + 1 ≤ afterFalse.m_context.usedTags := by
      have := hFl.usedTags_le
      omega
    have hFi : (ifFalseState condition self).m_context.items = self.m_context.items ++
        [AssemblyItem.CompileExpression condition,
         AssemblyItem.PushTag self.m_context.usedTags,
         AssemblyItem.Operation Instruction.JUMPI] := by
      simp [ifFalseState, Compiler.compileExpression, Solidity.compileExpression,
        appendConditionalJump, appendConditionalJumpTo, newTag, CompilerContext.append]
    refine ⟨by omega, ?_, ?_⟩
    · intro e s h
      rw [visitStatement_if_eq, hF]
      simp only [h]
    · intro afterTrue hT
      obtain ⟨trueItems, hTl, _⟩ := visitStatement_lowers _ _ _ _ hT
      have hTu0 : (ifTrueState self.m_context.usedTags afterFalse).m_context.usedTags
          = afterFalse.m_context.usedTags + 1 := by
        simp [ifTrueState, appendJumpToNew, appendJumpTo, newTag, CompilerContext.append]
      have hTi : (ifTrueState self.m_context.usedTags afterFalse).m_context.items
          = afterFalse.m_context.items ++
            [AssemblyItem.PushTag afterFalse.m_context.usedTags,
             AssemblyItem.Operation Instruction.JUMP,
             AssemblyItem.Tag self.m_context.usedTags] := by
        simp [ifTrueState, appendJumpToNew, appendJumpTo, newTag, CompilerContext.append]
      have hF1 : AssemblyItem.Tag self.m_context.usedTags ∉ falseItems := by
        intro hm
        have := (hFl.placed _ hm).1
        omega
      have hF2 : AssemblyItem.Tag afterFalse.m_context.usedTags ∉ falseItems := by
        intro hm
        have := (hFl.placed _ hm).2
        omega
      have hT2 : AssemblyItem.Tag afterFalse.m_context.usedTags ∉ trueItems := by
        intro hm
        have := (hTl.placed _ hm).1
        omega
      obtain ⟨p1, p2, p3, p4⟩ := ifItems_positions condition self.m_context.usedTags
        afterFalse.m_context.usedTags falseItems trueItems hF1 hF2 hT2 (by omega)
      refine ⟨falseItems, trueItems,
        { afterTrue with
          m_context := afterTrue.m_context.append
            (AssemblyItem.Tag afterFalse.m_context.usedTags) },
        hFl.items_eq, hTl.items_eq, ?_, ?_, ?_, ?_, ?_, ?_, ?_⟩
      · rw [visitStatement_if_eq, hF]
        simp only [hT]
      · simp only [CompilerContext.append, hTl.items_eq, hTi, hFl.items_eq, hFi, ifItems]
        simp
      · intro load base v
        rw [step_jumpi_value load base v _ _ p1 p3]
      · exact getElem?_of_split ([AssemblyItem.CompileExpression condition,
            AssemblyItem.PushTag self.m_context.usedTags,
            AssemblyItem.Operation Instruction.JUMPI] ++ falseItems
            ++ [AssemblyItem.PushTag afterFalse.m_context.usedTags,
                AssemblyItem.Operation Instruction.JUMP])
          (trueItems ++ [AssemblyItem.Tag afterFalse.m_context.usedTags])
          (by simp [ifItems]) (by simp; omega)
      · intro load base
        rw [step_jump_to load base _ _ p2 p4]
      · exact getElem?_of_split ([AssemblyItem.CompileExpression condition,
            AssemblyItem.PushTag self.m_context.usedTags,
            AssemblyItem.Operation Instruction.JUMPI] ++ falseItems
            ++ [AssemblyItem.PushTag afterFalse.m_context.usedTags,
                AssemblyItem.Operation Instruction.JUMP,
                AssemblyItem.Tag self.m_context.usedTags] ++ trueItems) []
          (by simp [ifItems]) (by simp; omega)
      · simp [ifItems]
        omega

end Solidity

namespace Solidity

open Compiler CompilerContext CompilerUtils

/-! ## The call of the most-derived constructor -/

theorem foldl_paddedSize (params : List VariableDeclaration) (start : Nat) :
    params.foldl
        (fun size var => (size + getPaddedSize var.type.calldataEncodedSize) % 2 ^ 32) start
      = if params = [] then start
        else (start + (params.map (fun p => getPaddedSize p.type.calldataEncodedSize)).sum)
          % 2 ^ 32 := by
  induction params generalizing start with
  | nil => simp
  | cons v rest ih =>
    rw [List.foldl_cons, ih]
    by_cases hr : rest = []
    · subst hr
      simp
    · simp only [hr, if_false, List.map_cons, List.sum_cons, reduceCtorEq]
      rw [Nat.add_mod, Nat.mod_mod, ← Nat.add_mod, Nat.add_assoc]

theorem foldl_paddedSize_zero (params : List VariableDeclaration) :
    params.foldl
        (fun size var => (size + getPaddedSize var.type.calldataEncodedSize) % 2 ^ 32) 0
      = constructorArgumentSize params := by
  rw [foldl_paddedSize]
  unfold constructorArgumentSize
  by_cases h : params = []
  · subst h
    simp
  · simp [h]

/-- What `appendConstructorCall` emits for a registered constructor whose parameters
have encoded size at most 32: the push of a new return tag, the argument copy and the
unpacker in `fromMemory` mode exactly when `argumentSize` is positive,
the jump to the entry label and the placement of the return tag. -/
theorem appendConstructorCall_ok (c : FunctionDefinition) (ctx : CompilerContext) (l : Nat)
    (hall : ∀ v ∈ c.parameters, v.type.calldataEncodedSize ≤ 32)
    (hl : ctx.getFunctionEntryLabel c = some l) :
    appendConstructorCall c ctx =
      (Except.ok (),
        { ctx with
          items := ctx.items ++ ([AssemblyItem.PushTag ctx.usedTags]
            ++ constructorArgumentItems c.parameters
            ++ [AssemblyItem.PushTag l, AssemblyItem.Operation Instruction.JUMP,
                AssemblyItem.Tag ctx.usedTags])
          usedTags := ctx.usedTags + 1 }) := by
  unfold appendConstructorCall
  simp only [foldl_paddedSize_zero]
  by_cases hpos : constructorArgumentSize c.parameters > 0
  · simp only [if_pos hpos, appendCalldataUnpacker]
    rw [appendCalldataUnpackerLoop_ok true _ _ _ hall]
    simp only
    have hl2 : CompilerContext.getFunctionEntryLabel
        { ((((ctx.pushNewTag.2.append (AssemblyItem.Push
              (constructorArgumentSize c.parameters))).append
            AssemblyItem.PushProgramSize).append (AssemblyItem.Push dataStartOffset)).append
            (AssemblyItem.Operation Instruction.CODECOPY)) with
          items := ((((ctx.pushNewTag.2.append (AssemblyItem.Push
              (constructorArgumentSize c.parameters))).append
            AssemblyItem.PushProgramSize).append (AssemblyItem.Push dataStartOffset)).append
            (AssemblyItem.Operation Instruction.CODECOPY)).items
            ++ loadItems true c.parameters dataStartOffset } c = some l := hl
    rw [hl2]
    simp [constructorArgumentItems, hpos, pushNewTag, newTag, CompilerContext.append,
      appendJumpTo, dataStartOffset, loadItems_eq_expectedLoads]
  · have hl2 : ctx.pushNewTag.2.getFunctionEntryLabel c = some l := hl
    simp only [if_neg hpos, hl2]
    simp [constructorArgumentItems, hpos, pushNewTag, newTag, CompilerContext.append,
      appendJumpTo]

/-- C16 (the code departs from the calling convention that `visit(FunctionDefinition)`
documents, "stack upon entry: [return address] [arg0] ... [argn]"): the constructor
`function D(string0 s)` takes one parameter, which occupies one stack slot, and its
encoded size is within the limit; the padded sizes sum to 0, so `appendConstructorCall`
emits only the push of the return tag, the jump to the entry label and the placement of
the return tag.  The unpacker is not run and no stack value is loaded for the parameter,
while the unpacker itself, as run by the function selector, loads one value for it. -/
theorem constructorCall_skips_zero_size_parameters :
    exampleConstructorZero.parameters.length = 1 ∧
      getSizeOnStack exampleConstructorZero.parameters = 1 ∧
      (∀ v ∈ exampleConstructorZero.parameters, v.type.calldataEncodedSize ≤ 32) ∧
      (({} : CompilerContext).addFunction exampleConstructorZero).getFunctionEntryLabel
          exampleConstructorZero = some 0 ∧
      (appendConstructorCall exampleConstructorZero
          (({} : CompilerContext).addFunction exampleConstructorZero)).1 = Except.ok () ∧
      (appendConstructorCall exampleConstructorZero
          (({} : CompilerContext).addFunction exampleConstructorZero)).2.items
        = [AssemblyItem.PushTag 1, AssemblyItem.PushTag 0,
           AssemblyItem.Operation Instruction.JUMP, AssemblyItem.Tag 1] ∧
      (appendCalldataUnpacker exampleConstructorZero true {}).2.items
        = [AssemblyItem.LoadFromMemory 4 0 true false true] := by
  refine ⟨rfl, rfl, by decide, rfl, rfl, rfl, rfl⟩

end Solidity

namespace Solidity

open Compiler CompilerContext CompilerUtils

/-! ## The registration passes of `packIntoContractCreator` and of `compileContract` -/

theorem addRest_eq_foldl (bases : List ContractDefinition) :
    ∀ (needed : List FunctionDefinition) (ctx : CompilerContext),
      addRest bases needed ctx
        = (needed.filter (fun fn => fn.isConstructor || isNotOwnOverride bases fn)).foldl
            CompilerContext.addFunction ctx := by
  intro needed
  induction needed with
  | nil => intro ctx; rfl
  | cons fn rest ih =>
    intro ctx
    by_cases h : (fn.isConstructor || isNotOwnOverride bases fn) = true
    · simp only [addRest, h, if_true, List.filter_cons_of_pos, List.foldl_cons, ih]
    · simp only [addRest, h, if_false, List.filter_cons_of_neg, ih, Bool.false_eq_true,
        not_false_eq_true]

theorem isNotOwnOverride_iff (bases : List ContractDefinition) (fn : FunctionDefinition) :
    isNotOwnOverride bases fn = true ↔
      (overrideResolver bases fn.name).map (fun o => o.id) ≠ some fn.id := by
  unfold isNotOwnOverride
  cases overrideResolver bases fn.name with
  | none => simp
  | some o => simp

/-- C14, as the code has it: the second pass of `packIntoContractCreator` calls
`addFunction`, in the order of the needed set, for exactly those needed functions that
are constructors or for whose name the override resolver does not return the function
itself (the function is overridden, or the resolver finds nothing).  A function that is
its own override is left to the first pass. -/
theorem second_pass_registers_rest (bases : List ContractDefinition)
    (needed : List FunctionDefinition) (ctx : CompilerContext) :
    addRest bases needed ctx
        = (needed.filter (fun fn => fn.isConstructor || isNotOwnOverride bases fn)).foldl
            CompilerContext.addFunction ctx ∧
      ∀ fn, fn ∈ needed.filter (fun fn => fn.isConstructor || isNotOwnOverride bases fn) ↔
        fn ∈ needed ∧ (fn.isConstructor = true ∨
          (overrideResolver bases fn.name).map (fun o => o.id) ≠ some fn.id) := by
  refine ⟨addRest_eq_foldl bases needed ctx, ?_⟩
  intro fn
  rw [List.mem_filter, Bool.or_eq_true, isNotOwnOverride_iff]

/-- Counterexample to C14 as stated, for `D is B` where both contracts define `f()` and
both definitions are needed: `D.f` is not a constructor and is not overridden (the
resolver returns `D.f` itself), yet the second pass does not register it; `B.f` is
overridden by `D.f`, which is needed, yet the second pass registers it. -/
theorem second_pass_counterexample :
    exampleDerivedF.isConstructor = false ∧ exampleBaseF.isConstructor = false ∧
      overrideResolver exampleOverrideBases exampleDerivedF.name = some exampleDerivedF ∧
      overrideResolver exampleOverrideBases exampleBaseF.name = some exampleDerivedF ∧
      exampleDerivedF ∈ [exampleDerivedF, exampleBaseF] ∧
      exampleDerivedF ≠ exampleBaseF ∧
      (addRest exampleOverrideBases [exampleDerivedF, exampleBaseF] {}).getFunctionEntryLabel
          exampleDerivedF = none ∧
      (addRest exampleOverrideBases [exampleDerivedF, exampleBaseF] {}).getFunctionEntryLabel
          exampleBaseF = some 0 ∧
      (addRest exampleOverrideBases [exampleDerivedF, exampleBaseF] {}).functionEntryLabels
        = [(exampleBaseF.id, 0)] := by
  refine ⟨rfl, rfl, rfl, rfl, by decide, by decide, rfl, rfl, rfl⟩

end Solidity

namespace Solidity

open Compiler CompilerContext CompilerUtils

theorem registerStateVariables_eq (bases : List ContractDefinition) (ctx : CompilerContext) :
    registerStateVariables bases ctx =
      { ctx with
        stateVariables := ctx.stateVariables ++
          ((bases.reverse.flatMap (fun c => c.stateVariables)).map (fun v => v.id)).zip
            (List.range' ctx.stateVariablesSize
              (bases.reverse.flatMap (fun c => c.stateVariables)).length)
        stateVariablesSize := ctx.stateVariablesSize
          + (bases.reverse.flatMap (fun c => c.stateVariables)).length } := by
  unfold registerStateVariables
  rw [foldl_contracts_stateVariables, foldl_addStateVariable]

theorem foldl_addFunction_filter (fs : List FunctionDefinition) :
    ∀ ctx : CompilerContext,
      fs.foldl (fun c2 function =>
          if !function.isConstructor then c2.addFunction function else c2) ctx
        = (fs.filter (fun f => !f.isConstructor)).foldl CompilerContext.addFunction ctx := by
  induction fs with
  | nil => intro ctx; rfl
  | cons f rest ih =>
    intro ctx
    by_cases h : (!f.isConstructor) = true
    · simp only [List.foldl_cons, h, if_true, List.filter_cons_of_pos, ih]
    · simp only [List.foldl_cons, h, if_false, List.filter_cons_of_neg, ih,
        Bool.false_eq_true, not_false_eq_true]

theorem addFunctions_eq_foldl (bases : List ContractDefinition) :
    ∀ ctx : CompilerContext,
      addFunctions bases ctx
        = (runtimeFunctions bases).foldl CompilerContext.addFunction ctx := by
  unfold addFunctions runtimeFunctions
  induction bases with
  | nil => intro ctx; rfl
  | cons c rest ih =>
    intro ctx
    rw [List.foldl_cons, ih, foldl_addFunction_filter, List.flatMap_cons, List.filter_append,
      List.foldl_append]

theorem addFunction_items (ctx : CompilerContext) (f : FunctionDefinition) :
    (ctx.addFunction f).items = ctx.items ∧ (ctx.addFunction f).subs = ctx.subs ∧
      ctx.usedTags ≤ (ctx.addFunction f).usedTags := by
  unfold CompilerContext.addFunction
  cases ctx.getFunctionEntryLabel f <;> simp [newTag]

theorem foldl_addFunction_items (fs : List FunctionDefinition) :
    ∀ ctx : CompilerContext,
      (fs.foldl CompilerContext.addFunction ctx).items = ctx.items ∧
        (fs.foldl CompilerContext.addFunction ctx).subs = ctx.subs ∧
        ctx.usedTags ≤ (fs.foldl CompilerContext.addFunction ctx).usedTags := by
  induction fs with
  | nil => intro ctx; exact ⟨rfl, rfl, Nat.le_refl _⟩
  | cons f rest ih =>
    intro ctx
    rw [List.foldl_cons]
    obtain ⟨h1, h2, h3⟩ := ih (ctx.addFunction f)
    obtain ⟨k1, k2, k3⟩ := addFunction_items ctx f
    exact ⟨h1.trans k1, h2.trans k2, Nat.le_trans k3 h3⟩

theorem addFunction_label_self (ctx : CompilerContext) (f : FunctionDefinition) :
    ∃ l, (ctx.addFunction f).getFunctionEntryLabel f = some l := by
  unfold CompilerContext.addFunction
  cases h : ctx.getFunctionEntryLabel f with
  | some l => exact ⟨l, h⟩
  | none =>
    refine ⟨ctx.usedTags, ?_⟩
    simp only [CompilerContext.getFunctionEntryLabel, newTag] at h ⊢
    rw [List.find?_append]
    simp only [Option.map_eq_none'] at h
    simp [h]

theorem addFunction_label_keep (ctx : CompilerContext) (f g : FunctionDefinition) (l : Nat)
    (h : ctx.getFunctionEntryLabel g = some l) :
    (ctx.addFunction f).getFunctionEntryLabel g = some l := by
  unfold CompilerContext.addFunction
  cases hf : ctx.getFunctionEntryLabel f with
  | some _ => exact h
  | none =>
    simp only [CompilerContext.getFunctionEntryLabel, newTag] at h ⊢
    rw [List.find?_append]
    cases hfind : ctx.functionEntryLabels.find? (fun e => e.1 == g.id) with
    | none => rw [hfind] at h; cases h
    | some e => rw [hfind] at h; simpa using h

theorem addFunction_label_other (ctx : CompilerContext) (f k : FunctionDefinition)
    (hne : f.id ≠ k.id) :
    (ctx.addFunction f).getFunctionEntryLabel k = ctx.getFunctionEntryLabel k := by
  unfold CompilerContext.addFunction
  cases hf : ctx.getFunctionEntryLabel f with
  | some _ => rfl
  | none =>
    simp only [CompilerContext.getFunctionEntryLabel, newTag]
    rw [List.find?_append]
    cases hfind : ctx.functionEntryLabels.find? (fun e => e.1 == k.id) with
    | some e => simp
    | none => simp [hne]

theorem foldl_addFunction_labels (fs : List FunctionDefinition) :
    ∀ ctx : CompilerContext,
      (∀ g l, ctx.getFunctionEntryLabel g = some l →
        (fs.foldl CompilerContext.addFunction ctx).getFunctionEntryLabel g = some l) ∧
      (∀ f ∈ fs, ∃ l, (fs.foldl CompilerContext.addFunction ctx).getFunctionEntryLabel f
        = some l) ∧
      (∀ k : FunctionDefinition, (∀ f ∈ fs, f.id ≠ k.id) →
        (fs.foldl CompilerContext.addFunction ctx).getFunctionEntryLabel k
          = ctx.getFunctionEntryLabel k) := by
  induction fs with
  | nil =>
    intro ctx
    exact ⟨fun _ _ h => h, fun f hf => (by cases hf), fun _ _ => rfl⟩
  | cons f rest ih =>
    intro ctx
    obtain ⟨h1, h2, h3⟩ := ih (ctx.addFunction f)
    refine ⟨?_, ?_, ?_⟩
    · intro g l hg
      exact h1 g l (addFunction_label_keep ctx f g l hg)
    · intro g hg
      rcases List.mem_cons.mp hg with rfl | hg
      · obtain ⟨l, hl⟩ := addFunction_label_self ctx g
        exact ⟨l, h1 g l hl⟩
      · exact h2 g hg
    · intro k hk
      rw [List.foldl_cons, h3 k (fun g hg => hk g (List.mem_cons_of_mem _ hg)),
        addFunction_label_other ctx f k (hk f (List.mem_cons_self _ _))]

theorem visitNeededFunctions_append (l1 l2 : List FunctionDefinition) :
    ∀ self : Compiler,
      visitNeededFunctions (l1 ++ l2) self =
        match visitNeededFunctions l1 self with
        | (Except.error e, self1) => (Except.error e, self1)
        | (Except.ok _, self1) => visitNeededFunctions l2 self1 := by
  induction l1 with
  | nil => intro self; rfl
  | cons f rest ih =>
    intro self
    rw [List.cons_append, visitNeededFunctions, visitNeededFunctions]
    rcases h : visitFunctionDefinition f self with ⟨r, s⟩
    cases r with
    | error e => rfl
    | ok u => exact ih s

theorem visitDefinedFunctions_eq (fs : List FunctionDefinition) :
    ∀ self : Compiler,
      visitDefinedFunctions fs self
        = visitNeededFunctions (fs.filter (fun f => !f.isConstructor)) self := by
  induction fs with
  | nil => intro self; rfl
  | cons f rest ih =>
    intro self
    by_cases h : (!f.isConstructor) = true
    · rw [List.filter_cons, visitDefinedFunctions]
      simp only [h, if_true]
      rw [visitNeededFunctions]
      rcases hv : visitFunctionDefinition f self with ⟨r, s⟩
      cases r with
      | error e => rfl
      | ok u => exact ih s
    · rw [List.filter_cons, visitDefinedFunctions]
      simp only [h, if_false, Bool.false_eq_true]
      exact ih self

theorem visitContracts_eq (bases : List ContractDefinition) :
    ∀ self : Compiler,
      visitContracts bases self = visitNeededFunctions (runtimeFunctions bases) self := by
  unfold runtimeFunctions
  induction bases with
  | nil => intro self; rfl
  | cons c rest ih =>
    intro self
    rw [visitContracts, List.flatMap_cons, List.filter_append, visitNeededFunctions_append,
      visitDefinedFunctions_eq]
    rcases hv : visitNeededFunctions (c.definedFunctions.filter (fun f => !f.isConstructor))
      self with ⟨r, s⟩
    cases r with
    | error e => rfl
    | ok u => exact ih s

/-- The registration of the runtime phase and the sequence of the phases of
`compileContract`: the registered functions are those of `runtimeFunctions`, each with an
entry label, on a context without items; then come the selector, the functions and the
creation phase on the swapped contexts. -/
theorem runtime_phase_registration
    (callGraph : List ASTNode → (String → Option FunctionDefinition) → List FunctionDefinition)
    (contract : ContractDefinition) (bases : List ContractDefinition)
    (contracts : List (Nat × List Nat)) (self : Compiler) :
    runtimeRegistered bases contracts
        = (runtimeFunctions bases).foldl CompilerContext.addFunction
            (registerStateVariables bases
              (({} : CompilerContext).setCompiledContracts contracts)) ∧
      (runtimeRegistered bases contracts).items = [] ∧
      (∀ f ∈ runtimeFunctions bases, f.isConstructor = false ∧
        ∃ l, (runtimeRegistered bases contracts).getFunctionEntryLabel f = some l) ∧
      (∀ k : FunctionDefinition, (∀ f ∈ runtimeFunctions bases, f.id ≠ k.id) →
        (runtimeRegistered bases contracts).getFunctionEntryLabel k = none) ∧
      compileContract callGraph contract bases contracts self =
        (match appendFunctionSelector contract (runtimeRegistered bases contracts) with
        | (Except.error e, ctx) => (Except.error e, { self with m_context := ctx })
        | (Except.ok _, ctx) =>
          match visitNeededFunctions (runtimeFunctions bases)
              { self with m_context := ctx } with
          | (Except.error e, self4) => (Except.error e, self4)
          | (Except.ok _, self4) =>
            packIntoContractCreator callGraph contract bases self4.m_context
              (initializeContext bases contracts
                { self4 with
                  m_context := self4.m_runtimeContext
                  m_runtimeContext := self4.m_context })) := by
  have hreg := addFunctions_eq_foldl bases
    (registerStateVariables bases (({} : CompilerContext).setCompiledContracts contracts))
  have hlab := foldl_addFunction_labels (runtimeFunctions bases)
    (registerStateVariables bases (({} : CompilerContext).setCompiledContracts contracts))
  refine ⟨hreg, ?_, ?_, ?_, ?_⟩
  · unfold runtimeRegistered
    rw [hreg, (foldl_addFunction_items _ _).1, registerStateVariables_eq]
    rfl
  · intro f hf
    refine ⟨?_, ?_⟩
    · have := (List.mem_filter.mp hf).2
      simpa using this
    · unfold runtimeRegistered
      rw [hreg]
      exact hlab.2.1 f hf
  · intro k hk
    unfold runtimeRegistered
    rw [hreg, hlab.2.2 k hk, registerStateVariables_eq]
    rfl
  · unfold compileContract
    simp only [initializeContext, visitContracts_eq]
    rfl

end Solidity

namespace Solidity

open Compiler CompilerContext CompilerUtils

/-! ## The deploy tail -/

theorem appendDeployTail_eq (runtimeContext ctx : CompilerContext) :
    appendDeployTail runtimeContext ctx =
      { ctx with
        items := ctx.items ++ deployTailItems ctx.subs.length
        subs := ctx.subs ++ [runtimeContext.getAssembly] } := by
  simp [appendDeployTail, addSubroutine, CompilerContext.append, deployTailItems]

theorem execDeploy_tail (before runtime after : List Nat) (subSize subOffset : Nat → Nat)
    (sub : Nat) (stack : List Nat) (memory : Nat → Nat)
    (hoff : subOffset sub = before.length) (hsize : subSize sub = runtime.length) :
    execDeploy (before ++ runtime ++ after) subSize subOffset (deployTailItems sub) stack memory
      = some runtime := by
  simp [deployTailItems, execDeploy, hoff, hsize]
  apply List.ext_getElem
  · simp
  · intro i h1 h2
    have hi : i < runtime.length := h2
    simp only [List.getElem_map, List.getElem_range, hi, if_true]
    rw [List.getElem?_append_right (by omega)]
    have hidx : before.length + i - before.length = i := by omega
    rw [hidx, List.getElem?_append_left hi, List.getElem?_eq_getElem hi]
    rfl

/-- C12: once the constructor calls have been emitted (leaving the context `ctx3`),
`packIntoContractCreator` attaches the assembly of the runtime context as a sub-assembly
`S` and appends exactly the deploy tail `[PUSH #S, DUP1, PUSH S, PUSH 0, CODECOPY,
PUSH 0, RETURN]`; whatever the lowering of the needed functions does afterwards only
follows the tail.  Executed on a code image in which `S` resolves to the offset of the
runtime image and `#S` to its length, the tail copies the runtime image to memory offset
0 and returns exactly its bytes, whatever the stack and the memory were before. -/
theorem deploy_tail_returns_runtime
    (callGraph : List ASTNode → (String → Option FunctionDefinition) → List FunctionDefinition)
    (contract : ContractDefinition) (bases : List ContractDefinition) (self : Compiler)
    (captured : CreatorState) (ctx3 : CompilerContext)
    (r : Except CompilerException Unit) (final : Compiler)
    (hcap : captureBaseArguments bases {} = Except.ok captured)
    (hctor : appendConstructorCalls contract bases captured.baseArguments
        (addRest bases
          (getFunctionsCalled callGraph captured.nodesUsedInConstructors (overrideResolver bases))
          (addOverrides bases
            (getFunctionsCalled callGraph captured.nodesUsedInConstructors
              (overrideResolver bases))
            (getFunctionsCalled callGraph captured.nodesUsedInConstructors
              (overrideResolver bases))
            self.m_context)) = (Except.ok (), ctx3))
    (hpack : packIntoContractCreator callGraph contract bases self.m_runtimeContext self
      = (r, final)) :
    (∃ bodies, final.m_context.items
        = ctx3.items ++ deployTailItems ctx3.subs.length ++ bodies) ∧
      final.m_context.subs = ctx3.subs ++ [final.m_runtimeContext.getAssembly] ∧
      final.m_runtimeContext = self.m_runtimeContext ∧
      (∀ (before runtime after : List Nat) (subSize subOffset : Nat → Nat)
          (stack : List Nat) (memory : Nat → Nat),
        subOffset ctx3.subs.length = before.length →
        subSize ctx3.subs.length = runtime.length →
        execDeploy (before ++ runtime ++ after) subSize subOffset
            (deployTailItems ctx3.subs.length) stack memory = some runtime) := by
  unfold packIntoContractCreator at hpack
  simp only [hcap, hctor] at hpack
  obtain ⟨⟨bodies, h1⟩, h2, h3, _⟩ := visitNeededFunctions_frame _ _ _ _ hpack
  rw [appendDeployTail_eq] at h1 h2
  refine ⟨⟨bodies, h1⟩, ?_, h3, ?_⟩
  · rw [h2, h3]
  · intro before runtime after subSize subOffset stack memory hoff hsize
    exact execDeploy_tail before runtime after subSize subOffset _ stack memory hoff hsize

end Solidity

namespace Solidity

open Compiler CompilerContext CompilerUtils

/-! ## `compileContract`: reuse of a `Compiler` and exceptions -/

theorem compileContract_eq
    (callGraph : List ASTNode → (String → Option FunctionDefinition) → List FunctionDefinition)
    (contract : ContractDefinition) (bases : List ContractDefinition)
    (contracts : List (Nat × List Nat)) (self : Compiler) :
    compileContract callGraph contract bases contracts self =
      (match appendFunctionSelector contract (runtimeRegistered bases contracts) with
      | (Except.error e, ctx) => (Except.error e, { self with m_context := ctx })
      | (Except.ok _, ctx) =>
        match visitNeededFunctions (runtimeFunctions bases) { self with m_context := ctx } with
        | (Except.error e, self4) => (Except.error e, self4)
        | (Except.ok _, self4) =>
          packIntoContractCreator callGraph contract bases self4.m_context
            (initializeContext bases contracts
              { self4 with
                m_context := self4.m_runtimeContext
                m_runtimeContext := self4.m_context })) := by
  unfold compileContract
  simp only [initializeContext, visitContracts_eq]
  rfl

theorem runtimeRegistered_items (bases : List ContractDefinition)
    (contracts : List (Nat × List Nat)) : (runtimeRegistered bases contracts).items = [] := by
  unfold runtimeRegistered
  rw [addFunctions_eq_foldl, (foldl_addFunction_items _ _).1, registerStateVariables_eq]
  rfl

/-- C13 (the code clears only one of the two contexts, although line 40 says "clear it
just in case"): the contract `S { uint x; }` is compiled twice on the same `Compiler`,
starting from a newly constructed one.  Both calls return normally and leave the same
runtime context, but the creation context of the second call is built on the runtime
context left by the first call: it starts with the four items of the first runtime code
and holds a second storage slot for `x`, so the two creation contexts differ. -/
theorem compileContract_twice_differs :
    (compileContract exampleCallGraphEmpty exampleStorage [exampleStorage] []
        (Compiler.construct false)).1 = Except.ok () ∧
      (compileContract exampleCallGraphEmpty exampleStorage [exampleStorage] []
        (compileContract exampleCallGraphEmpty exampleStorage [exampleStorage] []
          (Compiler.construct false)).2).1 = Except.ok () ∧
      (compileContract exampleCallGraphEmpty exampleStorage [exampleStorage] []
        (compileContract exampleCallGraphEmpty exampleStorage [exampleStorage] []
          (Compiler.construct false)).2).2.m_runtimeContext
        = (compileContract exampleCallGraphEmpty exampleStorage [exampleStorage] []
            (Compiler.construct false)).2.m_runtimeContext ∧
      (compileContract exampleCallGraphEmpty exampleStorage [exampleStorage] []
          (Compiler.construct false)).2.m_context.items = deployTailItems 0 ∧
      (compileContract exampleCallGraphEmpty exampleStorage [exampleStorage] []
        (compileContract exampleCallGraphEmpty exampleStorage [exampleStorage] []
          (Compiler.construct false)).2).2.m_context.items
        = [AssemblyItem.Push 1, AssemblyItem.Push 0,
           AssemblyItem.LoadFromMemory 0 4 false true true,
           AssemblyItem.Operation Instruction.STOP] ++ deployTailItems 0 ∧
      (compileContract exampleCallGraphEmpty exampleStorage [exampleStorage] []
          (Compiler.construct false)).2.m_context.stateVariables = [(71, 0)] ∧
      (compileContract exampleCallGraphEmpty exampleStorage [exampleStorage] []
        (compileContract exampleCallGraphEmpty exampleStorage [exampleStorage] []
          (Compiler.construct false)).2).2.m_context.stateVariables = [(71, 0), (71, 1)] := by
  refine ⟨rfl, rfl, rfl, rfl, rfl, rfl, rfl⟩

/-- An exception of the function selector leaves `compileContract` with the runtime
context from before the call and with the context the selector was working on. -/
theorem compileContract_selector_phase
    (callGraph : List ASTNode → (String → Option FunctionDefinition) → List FunctionDefinition)
    (contract : ContractDefinition) (bases : List ContractDefinition)
    (contracts : List (Nat × List Nat)) (self : Compiler)
    (e : CompilerException) (ctx : CompilerContext)
    (h : appendFunctionSelector contract (runtimeRegistered bases contracts)
      = (Except.error e, ctx)) :
    compileContract callGraph contract bases contracts self
        = (Except.error e, { self with m_context := ctx }) ∧
      (compileContract callGraph contract bases contracts self).2.m_runtimeContext
        = self.m_runtimeContext ∧
      ∃ more, (compileContract callGraph contract bases contracts self).2.m_context.items
        = selectorPrologue ++ more := by
  have hc : compileContract callGraph contract bases contracts self
      = (Except.error e, { self with m_context := ctx }) := by
    rw [compileContract_eq, h]
  refine ⟨hc, by rw [hc], ?_⟩
  obtain ⟨tags, landings, _, hitems⟩ := appendFunctionSelector_items contract
    (runtimeRegistered bases contracts)
  rw [h] at hitems
  simp only [emitted, runtimeRegistered_items, List.length_nil, List.drop_zero] at hitems
  rw [hc]
  exact ⟨_, by rw [hitems, List.append_assoc]⟩

/-- Counterexample to C17 as stated: compiling a contract whose interface function has
an oversized parameter signals `CompilerError`, and afterwards the current context of
the `Compiler` holds twelve items emitted by the failed compilation. -/
theorem compileContract_error_keeps_items :
    (compileContract exampleCallGraphEmpty exampleOversizedContract
        [exampleOversizedContract] [] (Compiler.construct false)).1
      = Except.error (CompilerException.CompilerError { start := 50, finish := 55 }
          "Type struct S not yet supported.") ∧
      (compileContract exampleCallGraphEmpty exampleOversizedContract
        [exampleOversizedContract] [] (Compiler.construct false)).2.m_context.items
      = [AssemblyItem.Push 1, AssemblyItem.Push 0,
         AssemblyItem.LoadFromMemory 0 4 false true true,
         AssemblyItem.Operation (Instruction.DUP 1), AssemblyItem.Push 3,
         AssemblyItem.Operation Instruction.EQ, AssemblyItem.PushTag 1,
         AssemblyItem.Operation Instruction.JUMPI, AssemblyItem.Operation Instruction.STOP,
         AssemblyItem.Tag 1, AssemblyItem.PushTag 2,
         AssemblyItem.LoadFromMemory 4 32 false true true] ∧
      (Compiler.construct false).m_context.items = [] := by
  refine ⟨rfl, rfl, rfl⟩

end Solidity

namespace Solidity

open Compiler CompilerContext CompilerUtils

/-! ## The theorems on lowering at concrete inputs -/

/-- Instance of C11 for `k() returns (uint256 r, string3 s)`: both return parameters fit
a word; the values are copied from depths 2 and 1 and stored at offsets 0 and 32, the
second one left-aligned, and 64 bytes are returned. -/
theorem returnValuePacker_layout_witness :
    (∀ v ∈ exampleTwoReturns.returnParameters, v.type.calldataEncodedSize ≤ 32) ∧
      appendReturnValuePacker exampleTwoReturns {}
        = (Except.ok (),
            { ({} : CompilerContext) with
              items := ({} : CompilerContext).items
                ++ expectedPackerItems exampleTwoReturns.returnParameters }) ∧
      expectedPackerItems exampleTwoReturns.returnParameters
        = [AssemblyItem.CopyToStackTop 2 exampleUint,
           AssemblyItem.TypeConversion exampleUint exampleUint true,
           AssemblyItem.StoreInMemory 0 32 false true,
           AssemblyItem.CopyToStackTop 1 exampleString,
           AssemblyItem.TypeConversion exampleString exampleString true,
           AssemblyItem.StoreInMemory 32 3 true true,
           AssemblyItem.Push 64, AssemblyItem.Push 0,
           AssemblyItem.Operation Instruction.RETURN] :=
  ⟨by decide, (returnValuePacker_layout exampleTwoReturns {}).1 (by decide), by decide⟩

/-- Instance of C12 for the linearization `[C, B, A]` with the constructors of `A` and
`C` needed: the base arguments are captured, the constructor calls are emitted, and the
sub-assembly attached is the assembly of the runtime context. -/
theorem deploy_tail_returns_runtime_witness :
    captureBaseArguments [exampleC, exampleB, exampleA] {} = Except.ok exampleCaptured ∧
      (packIntoContractCreator exampleCallGraph exampleC [exampleC, exampleB, exampleA]
          exampleSwapped.m_runtimeContext exampleSwapped).1 = Except.ok () ∧
      (packIntoContractCreator exampleCallGraph exampleC [exampleC, exampleB, exampleA]
          exampleSwapped.m_runtimeContext exampleSwapped).2.m_context.subs
        = [] ++ [Assembly.mk [AssemblyItem.Operation Instruction.STOP] []] :=
  ⟨rfl, rfl,
    (deploy_tail_returns_runtime exampleCallGraph exampleC [exampleC, exampleB, exampleA]
      exampleSwapped exampleCaptured
      (appendConstructorCalls exampleC [exampleC, exampleB, exampleA]
        exampleCaptured.baseArguments
        (addRest [exampleC, exampleB, exampleA]
          (getFunctionsCalled exampleCallGraph exampleCaptured.nodesUsedInConstructors
            (overrideResolver [exampleC, exampleB, exampleA]))
          (addOverrides [exampleC, exampleB, exampleA]
            (getFunctionsCalled exampleCallGraph exampleCaptured.nodesUsedInConstructors
              (overrideResolver [exampleC, exampleB, exampleA]))
            (getFunctionsCalled exampleCallGraph exampleCaptured.nodesUsedInConstructors
              (overrideResolver [exampleC, exampleB, exampleA]))
            exampleSwapped.m_context))).2
      (packIntoContractCreator exampleCallGraph exampleC [exampleC, exampleB, exampleA]
        exampleSwapped.m_runtimeContext exampleSwapped).1
      (packIntoContractCreator exampleCallGraph exampleC [exampleC, exampleB, exampleA]
        exampleSwapped.m_runtimeContext exampleSwapped).2
      rfl rfl rfl).2.1⟩

/-- Instance of C20 for `while (c) { continue; break; }` lowered by a fresh object: the
body is lowered normally, and the statement is lowered to twelve items. -/
theorem while_lowering_witness :
    visitStatement exampleLoopBody (whileBodyState exampleCondition {})
        = (Except.ok (), (visitStatement exampleLoopBody (whileBodyState exampleCondition {})).2) ∧
      ∃ (bodyItems : List AssemblyItem) (final : Compiler),
        (visitStatement exampleLoopBody (whileBodyState exampleCondition {})).2.m_context.items
          = (whileBodyState exampleCondition {}).m_context.items ++ bodyItems ∧
        visitStatement (Statement.WhileStatement exampleCondition exampleLoopBody) {}
          = (Except.ok (), final) ∧
        final.m_context.items = ({} : Compiler).m_context.items ++
          whileItems exampleCondition ({} : Compiler).m_context.usedTags
            (({} : Compiler).m_context.usedTags + 1) bodyItems ∧
        (∀ t, AssemblyItem.Tag t ∈ bodyItems → ({} : Compiler).m_context.usedTags + 1 < t) ∧
        ({} : Compiler).m_context.usedTags + 1 < final.m_context.usedTags ∧
        final.m_continueTags = ({} : Compiler).m_continueTags ∧
        final.m_breakTags = ({} : Compiler).m_breakTags :=
  ⟨rfl, (while_lowering exampleCondition exampleLoopBody {}).2.2.2.2.2.2 _ rfl⟩

end Solidity

namespace Solidity

open Compiler CompilerContext CompilerUtils

/-- Instance of C18 for `for (x; c; x) { continue; break; }` lowered by a fresh object:
the initialization statement, the body and the loop expression are lowered normally, and
the statement is lowered to the sequence of `forItems` with the tags 0 and 1. -/
theorem for_lowering_witness :
    visitOptionalStatement (some exampleStep) (forInitState {})
        = (Except.ok (), (visitOptionalStatement (some exampleStep) (forInitState {})).2) ∧
      visitStatement exampleLoopBody
          (forBodyState (some exampleCondition) 0 1
            (visitOptionalStatement (some exampleStep) (forInitState {})).2)
        = (Except.ok (),
            (visitStatement exampleLoopBody
              (forBodyState (some exampleCondition) 0 1
                (visitOptionalStatement (some exampleStep) (forInitState {})).2)).2) ∧
      visitOptionalStatement (some exampleStep)
          (visitStatement exampleLoopBody
            (forBodyState (some exampleCondition) 0 1
              (visitOptionalStatement (some exampleStep) (forInitState {})).2)).2
        = (Except.ok (),
            (visitOptionalStatement (some exampleStep)
              (visitStatement exampleLoopBody
                (forBodyState (some exampleCondition) 0 1
                  (visitOptionalStatement (some exampleStep) (forInitState {})).2)).2).2) ∧
      ∃ (initItems bodyItems stepItems : List AssemblyItem) (final : Compiler),
        visitStatement
            (Statement.ForStatement (some exampleStep) (some exampleCondition)
              (some exampleStep) exampleLoopBody) {} = (Except.ok (), final) ∧
          final.m_context.items = forItems (some exampleCondition) 0 1 initItems bodyItems
            stepItems ∧
          tagPosition 0 (forItems (some exampleCondition) 0 1 initItems bodyItems stepItems)
            = some initItems.length := by
  refine ⟨rfl, rfl, rfl, ?_⟩
  obtain ⟨initItems, bodyItems, stepItems, final, _, _, _, h1, h2, h3, _⟩ :=
    ((((for_lowering (some exampleStep) (some exampleCondition) (some exampleStep)
      exampleLoopBody {}).2 _ rfl).2.2.2.2.2 _ rfl).2 _ rfl)
  exact ⟨initItems, bodyItems, stepItems, final, h1, by simpa using h2, h3⟩

/-- Instance of C19 for `if (c) x; else { continue; break; }` lowered inside a loop:
both branches are lowered normally, and the statement is lowered to the sequence of
`ifItems` with the tags 2 and 3. -/
theorem if_lowering_witness :
    visitOptionalStatement (some exampleLoopBody) (ifFalseState exampleCondition exampleInLoop)
        = (Except.ok (),
            (visitOptionalStatement (some exampleLoopBody)
              (ifFalseState exampleCondition exampleInLoop)).2) ∧
      visitStatement exampleStep
          (ifTrueState 2
            (visitOptionalStatement (some exampleLoopBody)
              (ifFalseState exampleCondition exampleInLoop)).2)
        = (Except.ok (),
            (visitStatement exampleStep
              (ifTrueState 2
                (visitOptionalStatement (some exampleLoopBody)
                  (ifFalseState exampleCondition exampleInLoop)).2)).2) ∧
      ∃ (falseItems trueItems : List AssemblyItem) (final : Compiler),
        visitStatement
            (Statement.IfStatement exampleCondition exampleStep (some exampleLoopBody))
            exampleInLoop = (Except.ok (), final) ∧
          final.m_context.items = ifItems exampleCondition 2 3 falseItems trueItems ∧
          ∀ (load : Nat → Nat → Bool → Bool → Bool → Nat) (base : List Word) (v : Nat),
            step (ifItems exampleCondition 2 3 falseItems trueItems) load 2
                (base ++ [Word.value v, Word.tag 2])
              = Sum.inl (if v = 0 then 3 else 3 + falseItems.length + 2, base) := by
  refine ⟨rfl, rfl, ?_⟩
  obtain ⟨falseItems, trueItems, final, _, _, h1, h2, h3, _⟩ :=
    (((if_lowering exampleCondition exampleStep (some exampleLoopBody) exampleInLoop).2 _
      rfl).2.2 _ rfl)
  exact ⟨falseItems, trueItems, final, h1, by simpa using h2, h3⟩

end Solidity
namespace Solidity

open Compiler CompilerContext CompilerUtils

/-! ## Index and distance safety of the reshuffle loop -/

theorem reshuffleLoop_safe (R N : Nat) :
    ∀ (fuel : Nat) (layout : List Int) (out : List Instruction),
      LayoutInv R layout → layout.length ≤ N + 1 → unfixed layout < fuel →
      ∃ final ops, reshuffleLoop fuel layout out = some (final, out ++ ops) ∧
        R + 1 ≤ final.length ∧
        ops.length = (reshuffleIterations fuel layout).length ∧
        (∀ l ∈ reshuffleIterations fuel layout,
          R + 1 ≤ l.length ∧ l.length ≤ N + 1 ∧
            ∃ back, l.getLast? = some back ∧
              (0 ≤ back → back.toNat < l.length - 1)) ∧
        (∀ op ∈ ops, op = Instruction.POP ∨
          ∃ d, op = Instruction.SWAP d ∧ 1 ≤ d ∧ d ≤ N) := by
  intro fuel
  induction fuel with
  | zero => intro layout out _ _ hf; omega
  | succ fuel ih =>
    intro layout out hinv hN hf
    have hge := hinv.length_ge
    have hsome : (layout[layout.length - 1]?).isSome := by
      rw [List.getElem?_eq_getElem (by omega)]; rfl
    obtain ⟨back, hlast⟩ := Option.isSome_iff_exists.mp hsome
    have hgl : layout.getLast? = some back := by
      rw [List.getLast?_eq_getElem?]; exact hlast
    unfold reshuffleLoop reshuffleIterations
    simp only [hgl]
    by_cases hexit : back = (layout.length : Int) - 1
    · rw [if_pos hexit, if_pos hexit]
      exact ⟨layout, [], by simp, hge, rfl, by simp, by simp⟩
    · rw [if_neg hexit, if_neg hexit]
      by_cases hneg : back < 0
      · rw [if_pos hneg, if_pos hneg]
        obtain ⟨final, ops, h1, h2, h3, h4, h5⟩ := ih layout.dropLast (out ++ [Instruction.POP])
          (hinv.pop_inv hlast hneg) (by simp; omega)
          (by have := unfixed_pop hlast hneg; omega)
        refine ⟨final, Instruction.POP :: ops, by simpa using h1, h2, by simp [h3], ?_, ?_⟩
        · intro l hl
          rcases List.mem_cons.mp hl with rfl | hl
          · exact ⟨hge, hN, back, hgl, fun h => by omega⟩
          · exact h4 l hl
        · intro op hop
          rcases List.mem_cons.mp hop with rfl | hop
          · exact Or.inl rfl
          · exact h5 op hop
      · rw [if_neg hneg, if_neg hneg]
        have hlt := hinv.back_lt hlast hneg hexit
        rw [if_pos (by omega), if_pos (by omega)]
        obtain ⟨final, ops, h1, h2, h3, h4, h5⟩ :=
          ih (swapAt layout back.toNat (layout.length - 1))
            (out ++ [swapInstruction (layout.length - back.toNat - 1)])
            (hinv.swap_inv hlast hneg hexit) (by rw [swapAt_length]; exact hN)
            (by have := unfixed_swap hinv hlast hneg hexit; omega)
        refine ⟨final, swapInstruction (layout.length - back.toNat - 1) :: ops,
          by simpa using h1, h2, by simp [h3], ?_, ?_⟩
        · intro l hl
          rcases List.mem_cons.mp hl with rfl | hl
          · exact ⟨hge, hN, back, hgl, fun _ => hlt⟩
          · exact h4 l hl
        · intro op hop
          rcases List.mem_cons.mp hop with rfl | hop
          · exact Or.inr ⟨_, rfl, by omega, by omega⟩
          · exact h5 op hop

theorem initialStackLayout_length (A R L : Nat) :
    (initialStackLayout A R L).length = 1 + A + R + L := by
  simp [initialStackLayout]
  omega

/-- C28: for all sizes `A`, `R`, `L` the reshuffle loop started on the layout vector of
lines 310-315 runs to its end within `A + R + L + 2` evaluations of its condition; the
layout at its end and the layout at each of its iterations has at least `R + 1` (so at
least one) and at most `1 + A + R + L` entries; at each iteration the vector has a top
entry, and a non-negative top entry is an index strictly below the top position; there is
one emitted instruction per iteration, each a `POP` or a `SWAP d` with
`1 ≤ d ≤ A + R + L`, so that every `SWAP` is one of `SWAP1 .. SWAP16` when
`A + R + L ≤ 16`. -/
theorem reshuffle_index_and_distance_safe (A R L : Nat) :
    ∃ final ops,
      reshuffleLoop (A + R + L + 2) (initialStackLayout A R L) [] = some (final, ops) ∧
      R + 1 ≤ final.length ∧
      ops.length = (reshuffleIterations (A + R + L + 2) (initialStackLayout A R L)).length ∧
      (∀ l ∈ reshuffleIterations (A + R + L + 2) (initialStackLayout A R L),
        l ≠ [] ∧ R + 1 ≤ l.length ∧ l.length ≤ 1 + A + R + L ∧
          ∃ back, l.getLast? = some back ∧ (0 ≤ back → back.toNat < l.length - 1)) ∧
      (∀ op ∈ ops, op = Instruction.POP ∨
        ∃ d, op = swapInstruction d ∧ 1 ≤ d ∧ d ≤ A + R + L) ∧
      (A + R + L ≤ 16 → ∀ d, swapInstruction d ∈ ops → 1 ≤ d ∧ d ≤ 16) := by
  have hlen := initialStackLayout_length A R L
  obtain ⟨final, ops, h1, h2, h3, h4, h5⟩ :=
    reshuffleLoop_safe R (A + R + L) (A + R + L + 2) (initialStackLayout A R L) []
      (initialStackLayout_inv A R L) (by omega)
      (by have := unfixed_le_length (initialStackLayout A R L); omega)
  refine ⟨final, ops, by simpa using h1, h2, h3, ?_, ?_, ?_⟩
  · intro l hl
    obtain ⟨ha, hb, hc⟩ := h4 l hl
    refine ⟨?_, ha, by omega, hc⟩
    intro h
    rw [h] at ha
    simp at ha
  · intro op hop
    rcases h5 op hop with h | ⟨d, hd, h⟩
    · exact Or.inl h
    · exact Or.inr ⟨d, hd, h⟩
  · intro h16 d hd
    rcases h5 _ hd with h | ⟨e, he, h⟩
    · cases h
    · have : d = e := by
        simpa [swapInstruction] using he
      omega

end Solidity
namespace Solidity

open Compiler CompilerContext CompilerUtils

/-! ## The base-constructor call convention -/

theorem appendBaseConstructorArguments_ok (parameterTypes : List SolType) :
    ∀ (arguments : List Expression) (i : Nat) (ctx : CompilerContext),
      i + arguments.length ≤ parameterTypes.length →
      appendBaseConstructorArguments parameterTypes arguments i ctx =
        (Except.ok (),
          { ctx with
            items := ctx.items ++ (arguments.zip (parameterTypes.drop i)).flatMap
              (fun ap => [AssemblyItem.CompileExpression ap.1,
                          AssemblyItem.TypeConversion ap.1.type ap.2 false]) }) := by
  intro arguments
  induction arguments with
  | nil => intro i ctx _; simp [appendBaseConstructorArguments]
  | cons argument rest ih =>
    intro i ctx hlen
    simp only [List.length_cons] at hlen
    have hi : i < parameterTypes.length := by omega
    unfold appendBaseConstructorArguments
    simp only [List.getElem?_eq_getElem hi]
    rw [ih (i + 1) _ (by omega)]
    have hd : List.drop i parameterTypes = parameterTypes[i] :: List.drop (i + 1) parameterTypes :=
      List.drop_eq_getElem_cons hi
    simp [compileExpression, appendTypeConversion, CompilerContext.append]
    rw [hd]
    rfl

theorem appendBaseConstructorArguments_error (parameterTypes : List SolType) :
    ∀ (arguments : List Expression) (i : Nat) (ctx : CompilerContext) (e : CompilerException)
      (c : CompilerContext),
      appendBaseConstructorArguments parameterTypes arguments i ctx = (Except.error e, c) →
      e = CompilerException.InternalCompilerError := by
  intro arguments
  induction arguments with
  | nil => intro i ctx e c h; simp [appendBaseConstructorArguments] at h
  | cons argument rest ih =>
    intro i ctx e c h
    unfold appendBaseConstructorArguments at h
    simp only at h
    split at h
    · obtain ⟨h1, _⟩ := Prod.mk.inj h
      cases h1
      rfl
    · exact ih _ _ _ _ h

theorem appendBaseConstructorCall_error (constructor : FunctionDefinition)
    (arguments : List Expression) (ctx : CompilerContext) (e : CompilerException)
    (c : CompilerContext)
    (h : appendBaseConstructorCall constructor arguments ctx = (Except.error e, c)) :
    e = CompilerException.InternalCompilerError := by
  unfold appendBaseConstructorCall at h
  simp only at h
  split at h
  · rename_i e2 c2 heq
    obtain ⟨h1, _⟩ := Prod.mk.inj h
    cases h1
    exact appendBaseConstructorArguments_error _ _ _ _ _ _ heq
  · split at h
    · obtain ⟨h1, _⟩ := Prod.mk.inj h
      cases h1
      rfl
    · obtain ⟨h1, _⟩ := Prod.mk.inj h
      cases h1

theorem zip_map_right_flatMap (parameters : List VariableDeclaration)
    (arguments : List Expression) :
    (arguments.zip (parameters.map (fun p => p.type))).flatMap
        (fun ap => [AssemblyItem.CompileExpression ap.1,
                    AssemblyItem.TypeConversion ap.1.type ap.2 false])
      = baseArgumentItems parameters arguments := by
  unfold baseArgumentItems
  induction arguments generalizing parameters with
  | nil => simp
  | cons a rest ih =>
    cases parameters with
    | nil => simp
    | cons p ps =>
      simp only [List.map_cons, List.zip_cons_cons, List.flatMap_cons]
      rw [ih ps]

theorem appendBaseConstructorCall_ok (constructor : FunctionDefinition)
    (arguments : List Expression) (ctx : CompilerContext) (entry : Nat)
    (hlabel : ctx.getFunctionEntryLabel constructor = some entry)
    (hlen : arguments.length ≤ constructor.parameters.length) :
    appendBaseConstructorCall constructor arguments ctx =
      (Except.ok (),
        { ctx with
          items := ctx.items ++ ([AssemblyItem.PushTag ctx.usedTags]
            ++ baseArgumentItems constructor.parameters arguments
            ++ [AssemblyItem.PushTag entry, AssemblyItem.Operation Instruction.JUMP,
                AssemblyItem.Tag ctx.usedTags])
          usedTags := ctx.usedTags + 1 }) := by
  unfold appendBaseConstructorCall
  simp only
  rw [appendBaseConstructorArguments_ok _ _ 0 _ (by simpa using hlen)]
  simp only [List.drop_zero, zip_map_right_flatMap]
  have hl2 : CompilerContext.getFunctionEntryLabel
      { ctx.pushNewTag.2 with
        items := ctx.pushNewTag.2.items
          ++ baseArgumentItems constructor.parameters arguments } constructor
      = some entry := hlabel
  rw [hl2]
  simp [pushNewTag, newTag, CompilerContext.append, appendJumpTo]

theorem symbolicRun_append (l1 l2 : List AssemblyItem) (stack : List StackValue) :
    symbolicRun (l1 ++ l2) stack =
      (symbolicRun l1 stack).bind (symbolicRun l2) := by
  induction l1 generalizing stack with
  | nil => rfl
  | cons item rest ih =>
    simp only [List.cons_append, symbolicRun]
    cases symbolicStep stack item with
    | none => rfl
    | some next => exact ih next

theorem symbolicRun_baseArgumentItems :
    ∀ (arguments : List Expression) (parameters : List VariableDeclaration)
      (stack : List StackValue),
      symbolicRun (baseArgumentItems parameters arguments) stack
        = some (stack ++ argumentValues parameters arguments) := by
  intro arguments
  induction arguments with
  | nil => intro parameters stack; simp [baseArgumentItems, argumentValues, symbolicRun]
  | cons a rest ih =>
    intro parameters stack
    cases parameters with
    | nil => simp [baseArgumentItems, argumentValues, symbolicRun]
    | cons p ps =>
      have h := ih ps (stack ++ [StackValue.value a p.type])
      have hitems : baseArgumentItems (p :: ps) (a :: rest)
          = AssemblyItem.CompileExpression a
              :: AssemblyItem.TypeConversion a.type p.type false
              :: baseArgumentItems ps rest := rfl
      have hvalues : argumentValues (p :: ps) (a :: rest)
          = StackValue.value a p.type :: argumentValues ps rest := rfl
      rw [hitems, hvalues]
      simp only [symbolicRun, symbolicStep, List.getLast?_append, List.getLast?_singleton,
        Option.or_some, if_true, List.dropLast_concat]
      rw [h]
      simp

theorem foldl_addVariable_bindings :
    ∀ (parameters : List VariableDeclaration) (ctx : CompilerContext),
      (parameters.foldl CompilerContext.addVariable ctx).localVariables
          = ctx.localVariables ++ (parameters.map (fun p => p.id)).zip
              (wordOffsets (parameters.map (fun p => p.type.sizeOnStack))
                ctx.localVariablesSize) ∧
        (parameters.foldl CompilerContext.addVariable ctx).localVariablesSize
          = ctx.localVariablesSize + (parameters.map (fun p => p.type.sizeOnStack)).sum := by
  intro parameters
  induction parameters with
  | nil => intro ctx; simp [wordOffsets]
  | cons p rest ih =>
    intro ctx
    rw [List.foldl_cons]
    obtain ⟨h1, h2⟩ := ih (ctx.addVariable p)
    rw [h1, h2]
    simp [CompilerContext.addVariable, wordOffsets, Nat.add_assoc]

theorem argumentValues_sizes :
    ∀ (arguments : List Expression) (parameters : List VariableDeclaration),
      arguments.length = parameters.length →
      (argumentValues parameters arguments).map StackValue.size
        = parameters.map (fun p => p.type.sizeOnStack) := by
  intro arguments
  induction arguments with
  | nil =>
    intro parameters h
    have : parameters = [] := List.length_eq_zero.mp h.symm
    subst this
    rfl
  | cons a rest ih =>
    intro parameters h
    cases parameters with
    | nil => simp at h
    | cons p ps =>
      have := ih ps (by simpa using h)
      unfold argumentValues at *
      simp only [List.zip_cons_cons, List.map_cons, this]
      rfl

/-- C23: for a constructor whose entry label is registered and a list of at most as many
arguments as the constructor has parameters, `appendBaseConstructorCall` succeeds and
appends exactly: the push of a fresh return tag, for each argument in order its expression
code and the conversion from its type to the type of the parameter at the same index, the
jump to the entry label of the constructor, and the placement of the return tag.  When
there are as many arguments as parameters, the items before the jump build, on top of any
stack, the return address followed by the argument values in order, each in the
representation of its parameter type; and the offsets at which
`visit(FunctionDefinition)` binds the parameters on entry are the word offsets of these
values above the return address. -/
theorem baseConstructorCall_convention (constructor : FunctionDefinition)
    (arguments : List Expression) (ctx : CompilerContext) (entry : Nat)
    (hlabel : ctx.getFunctionEntryLabel constructor = some entry)
    (hlen : arguments.length ≤ constructor.parameters.length) :
    appendBaseConstructorCall constructor arguments ctx =
        (Except.ok (),
          { ctx with
            items := ctx.items ++ ([AssemblyItem.PushTag ctx.usedTags]
              ++ baseArgumentItems constructor.parameters arguments
              ++ [AssemblyItem.PushTag entry, AssemblyItem.Operation Instruction.JUMP,
                  AssemblyItem.Tag ctx.usedTags])
            usedTags := ctx.usedTags + 1 }) ∧
      (arguments.length = constructor.parameters.length →
        (∀ stack : List StackValue,
          symbolicRun ([AssemblyItem.PushTag ctx.usedTags]
              ++ baseArgumentItems constructor.parameters arguments) stack
            = some (stack ++ StackValue.returnAddress ctx.usedTags
                :: argumentValues constructor.parameters arguments)) ∧
        (∀ c : CompilerContext,
          (constructor.parameters.foldl CompilerContext.addVariable
              (c.startNewFunction.newTag.2.append (AssemblyItem.Tag entry))).localVariables
            = (constructor.parameters.map (fun p => p.id)).zip
                (wordOffsets
                  ((argumentValues constructor.parameters arguments).map StackValue.size) 0))) := by
  refine ⟨appendBaseConstructorCall_ok constructor arguments ctx entry hlabel hlen, ?_⟩
  intro heq
  constructor
  · intro stack
    rw [symbolicRun_append]
    simp only [symbolicRun, symbolicStep, Option.some_bind]
    rw [symbolicRun_baseArgumentItems]
    simp
  · intro c
    rw [(foldl_addVariable_bindings constructor.parameters _).1,
      argumentValues_sizes arguments constructor.parameters heq]
    rfl

end Solidity
namespace Solidity

open Compiler CompilerContext CompilerUtils

/-! ## The assertion of the constructor-chain loop -/

theorem emitCalls_missing_arguments :
    ∀ (calls : List ConstructorCall) (ctx : CompilerContext),
      (∀ call ∈ calls, ∃ k a, call = ConstructorCall.base k a) →
      (∃ k, ConstructorCall.base k none ∈ calls) →
      ∃ c, emitCalls calls ctx = (Except.error CompilerException.InternalCompilerError, c) := by
  intro calls
  induction calls with
  | nil => intro ctx _ h; obtain ⟨k, hk⟩ := h; cases hk
  | cons call rest ih =>
    intro ctx hbase hmem
    obtain ⟨k0, a0, hcall⟩ := hbase call (List.mem_cons_self _ _)
    subst hcall
    cases a0 with
    | none => exact ⟨ctx, rfl⟩
    | some arguments =>
      obtain ⟨k, hk⟩ := hmem
      have hk2 : ConstructorCall.base k none ∈ rest := by
        rcases List.mem_cons.mp hk with h | h
        · cases h
        · exact h
      simp only [emitCalls, emitCall]
      rcases h : appendBaseConstructorCall k0 arguments ctx with ⟨r, c⟩
      cases r with
      | error e =>
        have := appendBaseConstructorCall_error _ _ _ _ _ h
        subst this
        exact ⟨c, rfl⟩
      | ok u =>
        exact ih c (fun call hc => hbase call (List.mem_cons_of_mem _ hc)) ⟨k, hk2⟩

theorem emitCalls_base_ok :
    ∀ (calls : List ConstructorCall) (ctx : CompilerContext),
      (∀ call ∈ calls, ∃ k arguments entry, call = ConstructorCall.base k (some arguments) ∧
        ctx.getFunctionEntryLabel k = some entry ∧ arguments.length ≤ k.parameters.length) →
      ∃ c, emitCalls calls ctx = (Except.ok (), c) := by
  intro calls
  induction calls with
  | nil => intro ctx _; exact ⟨ctx, rfl⟩
  | cons call rest ih =>
    intro ctx hall
    obtain ⟨k, arguments, entry, hcall, hlabel, hlen⟩ := hall call (List.mem_cons_self _ _)
    subst hcall
    simp only [emitCalls, emitCall]
    rw [appendBaseConstructorCall_ok k arguments ctx entry hlabel hlen]
    apply ih
    intro call hc
    obtain ⟨k2, a2, e2, h1, h2, h3⟩ := hall call (List.mem_cons_of_mem _ hc)
    exact ⟨k2, a2, e2, h1, h2, h3⟩

theorem namedBySpecifier_iff (bases : List ContractDefinition) (X : Nat) :
    namedBySpecifier bases X = true ↔
      (((bases.flatMap (fun c => c.baseContracts)).find?
        (fun s => s.referencedContract == some X)).map (fun s => s.arguments)).isSome = true := by
  unfold namedBySpecifier
  rw [List.any_eq_true]
  cases h : (bases.flatMap (fun c => c.baseContracts)).find?
      (fun s => s.referencedContract == some X) with
  | none =>
    simp only [Option.map_none', Option.isSome_none, Bool.false_eq_true, iff_false]
    rintro ⟨s, hs, hp⟩
    exact absurd hp (by simpa using List.find?_eq_none.mp h s hs)
  | some s =>
    simp only [Option.map_some', Option.isSome_some, iff_true]
    exact ⟨s, List.mem_of_find?_eq_some h, by simpa using List.find?_some h⟩

/-- C27: when every inheritance specifier of the linearization resolves to a contract, the
walk that records the base arguments completes, and (a) for every contract of the
linearization other than the first that a specifier of the linearization names, the map
holds an argument list; (b) if every such contract is named, the constructor-chain loop,
run in a context where the entry labels of the base constructors are registered and no
argument list is longer than the parameter list, completes without an exception; (c) for
a contract other than the first that has a constructor and that no specifier names, the
map holds nothing, the iteration of the loop that reaches it fails with an internal error
leaving the context as it is, and the loop as a whole ends in an internal error. -/
theorem baseArguments_assertion (c0 : ContractDefinition) (inherited : List ContractDefinition)
    (hres : ∀ c ∈ c0 :: inherited, ∀ s ∈ c.baseContracts, s.referencedContract ≠ none) :
    ∃ st, captureBaseArguments (c0 :: inherited) {} = Except.ok st ∧
      (∀ base ∈ inherited, namedBySpecifier (c0 :: inherited) base.id = true →
        (lookupBaseArguments st.baseArguments base.id).isSome = true) ∧
      ((∀ base ∈ inherited, namedBySpecifier (c0 :: inherited) base.id = true) →
        ∀ ctx : CompilerContext,
          (∀ base ∈ inherited, ∀ k, base.getConstructor = some k →
            (ctx.getFunctionEntryLabel k).isSome = true ∧
            ∀ arguments, lookupBaseArguments st.baseArguments base.id = some arguments →
              arguments.length ≤ k.parameters.length) →
          ∃ c, appendBaseConstructorCalls (c0 :: inherited) st.baseArguments
                inherited.length 1 ctx = (Except.ok (), c)) ∧
      (∀ base ∈ inherited, namedBySpecifier (c0 :: inherited) base.id = false →
        base.getConstructor ≠ none →
        lookupBaseArguments st.baseArguments base.id = none ∧
        (∀ (remaining i : Nat) (ctx : CompilerContext),
          (c0 :: inherited)[(c0 :: inherited).length - i]? = some base →
          appendBaseConstructorCalls (c0 :: inherited) st.baseArguments (remaining + 1) i ctx
            = (Except.error CompilerException.InternalCompilerError, ctx)) ∧
        (∀ ctx : CompilerContext, ∃ c,
          appendBaseConstructorCalls (c0 :: inherited) st.baseArguments inherited.length 1 ctx
            = (Except.error CompilerException.InternalCompilerError, c))) := by
  obtain ⟨st, hst, hlook⟩ := captureBaseArguments_spec (c0 :: inherited) {} hres
  have hlook2 : ∀ X : Nat, lookupBaseArguments st.baseArguments X
      = (((c0 :: inherited).flatMap (fun c => c.baseContracts)).find?
          (fun s => s.referencedContract == some X)).map (fun s => s.arguments) := by
    intro X
    rw [hlook X]
    rfl
  have hloop : ∀ ctx : CompilerContext,
      appendBaseConstructorCalls (c0 :: inherited) st.baseArguments inherited.length 1 ctx
        = emitCalls (inherited.reverse.filterMap (baseCallOf st.baseArguments)) ctx := by
    intro ctx
    have h := appendBaseConstructorCalls_spec c0 st.baseArguments inherited.length [] inherited
      ctx rfl
    simpa using h
  refine ⟨st, hst, ?_, ?_, ?_⟩
  · intro base _ hnamed
    rw [hlook2]
    exact (namedBySpecifier_iff _ _).mp hnamed
  · intro hall ctx hctx
    rw [hloop]
    apply emitCalls_base_ok
    intro call hcall
    obtain ⟨base, hbase, hcallOf⟩ := List.mem_filterMap.mp hcall
    have hb : base ∈ inherited := List.mem_reverse.mp hbase
    unfold baseCallOf at hcallOf
    cases hk : base.getConstructor with
    | none => rw [hk] at hcallOf; cases hcallOf
    | some k =>
      rw [hk] at hcallOf
      have hsome : (lookupBaseArguments st.baseArguments base.id).isSome = true := by
        rw [hlook2]
        exact (namedBySpecifier_iff _ _).mp (hall base hb)
      obtain ⟨arguments, hargs⟩ := Option.isSome_iff_exists.mp hsome
      obtain ⟨hl, hlen⟩ := hctx base hb k hk
      obtain ⟨entry, hentry⟩ := Option.isSome_iff_exists.mp hl
      refine ⟨k, arguments, entry, ?_, hentry, hlen arguments hargs⟩
      rw [hargs] at hcallOf
      simpa using hcallOf.symm
  · intro base hb hnot hctor
    have hnone : lookupBaseArguments st.baseArguments base.id = none := by
      rw [hlook2]
      have := (namedBySpecifier_iff (c0 :: inherited) base.id).not
      rw [hnot] at this
      simpa using this
    obtain ⟨k, hk⟩ := Option.ne_none_iff_exists'.mp hctor
    refine ⟨hnone, ?_, ?_⟩
    · intro remaining i ctx hidx
      unfold appendBaseConstructorCalls
      simp only [hidx, hk, hnone]
    · intro ctx
      rw [hloop]
      apply emitCalls_missing_arguments
      · intro call hcall
        obtain ⟨b, _, hcallOf⟩ := List.mem_filterMap.mp hcall
        unfold baseCallOf at hcallOf
        cases hb2 : b.getConstructor with
        | none => rw [hb2] at hcallOf; cases hcallOf
        | some k2 =>
          rw [hb2] at hcallOf
          exact ⟨k2, _, by simpa using hcallOf.symm⟩
      · refine ⟨k, List.mem_filterMap.mpr ⟨base, List.mem_reverse.mpr hb, ?_⟩⟩
        unfold baseCallOf
        rw [hk, hnone]
        rfl

end Solidity
namespace Eth

open LogFilter

/-! ## Log filtering -/

theorem matchesEntries_eq (self : LogFilter) :
    ∀ (log ret : List LogEntry),
      matchesEntries self log ret
        = ret ++ log.filter
            (fun e => self.m_addresses.isEmpty || self.m_addresses.contains e.address) := by
  intro log
  induction log with
  | nil => intro ret; simp [matchesEntries]
  | cons e rest ih =>
    intro ret
    unfold matchesEntries
    by_cases hskip : (!self.m_addresses.isEmpty && self.m_addresses.count e.address == 0) = true
    · rw [if_pos hskip, ih]
      have : (self.m_addresses.isEmpty || self.m_addresses.contains e.address) = false := by
        simp only [Bool.and_eq_true, Bool.not_eq_true', beq_iff_eq, List.count_eq_zero] at hskip
        simp [hskip.1, hskip.2]
      rw [List.filter_cons]
      simp only [this, Bool.false_eq_true, if_false]
    · rw [if_neg hskip, ih]
      have : (self.m_addresses.isEmpty || self.m_addresses.contains e.address) = true := by
        simp only [Bool.and_eq_true, Bool.not_eq_true', beq_iff_eq, List.count_eq_zero,
          not_and, not_not] at hskip
        cases hempty : self.m_addresses.isEmpty with
        | true => rfl
        | false => simpa using hskip hempty
      rw [List.filter_cons]
      simp only [this, if_true, List.append_assoc, List.singleton_append]

/-- C30 (the topic test of `LogFilter::matches(TransactionReceipt)` has no effect, while
the claim and the bloom test of the same filter take the topics into account): for every
filter and receipt the result is empty when the bloom does not match, and otherwise it is
the receipt's log, in order, restricted to the entries whose address is in the address set
when that set is non-empty; the topic set plays no part.  So every returned entry passes
the address test and the result is a sublist of the log, but for the filter with the
topic 7 and a receipt whose one entry has no topic, that entry is returned. -/
theorem matches_ignores_topics :
    (∀ (fns : BloomFunctions) (self : LogFilter) (_m : TransactionReceipt),
      matchesReceipt fns self _m
        = if matchesBloom fns self _m.bloom then
            _m.log.filter
              (fun e => self.m_addresses.isEmpty || self.m_addresses.contains e.address)
          else []) ∧
      (∀ (fns : BloomFunctions) (self : LogFilter) (_m : TransactionReceipt),
        (matchesReceipt fns self _m).Sublist _m.log ∧
        (∀ e ∈ matchesReceipt fns self _m, self.m_addresses ≠ [] → e.address ∈ self.m_addresses) ∧
        (matchesBloom fns self _m.bloom = false → matchesReceipt fns self _m = [])) ∧
      matchesBloom exampleBloomFunctions exampleTopicFilter exampleReceipt.bloom = true ∧
      matchesReceipt exampleBloomFunctions exampleTopicFilter exampleReceipt = [exampleEntry] ∧
      7 ∈ exampleTopicFilter.m_topics ∧ 7 ∉ exampleEntry.topics := by
  have hgen : ∀ (fns : BloomFunctions) (self : LogFilter) (_m : TransactionReceipt),
      matchesReceipt fns self _m
        = if matchesBloom fns self _m.bloom then
            _m.log.filter
              (fun e => self.m_addresses.isEmpty || self.m_addresses.contains e.address)
          else [] := by
    intro fns self _m
    unfold matchesReceipt
    rw [matchesEntries_eq]
    rfl
  refine ⟨hgen, ?_, by decide, by decide, by decide, by decide⟩
  intro fns self _m
  rw [hgen]
  refine ⟨?_, ?_, ?_⟩
  · split
    · exact List.filter_sublist _
    · exact List.nil_sublist _
  · intro e he hne
    split at he
    · have := (List.mem_filter.mp he).2
      cases hl : self.m_addresses with
      | nil => exact absurd hl hne
      | cons a rest =>
        rw [hl] at this
        simpa using this
    · cases he
  · intro hb
    simp [hb]

end Eth
namespace Solidity

open Compiler CompilerContext CompilerUtils

/-! ## The visitors compute the item sequences of the specification -/

theorem advance_advance (self : Compiler) (a b : List AssemblyItem) (m n : Nat) :
    advance (advance self a m) b n = advance self (a ++ b) (m + n) := by
  simp [advance, Nat.add_assoc]

theorem forBodyState_returnTag (condition : Option Expression) (loopStart loopEnd : Nat)
    (afterInit : Compiler) :
    (forBodyState condition loopStart loopEnd afterInit).m_returnTag = afterInit.m_returnTag := by
  cases condition <;> rfl

mutual
theorem visitStatement_refines : ∀ (s : Statement) (self : Compiler),
    Refines (visitStatement s self) self
      (expectedItems self.m_returnTag s self.m_breakTags self.m_continueTags
        self.m_context.usedTags) (tagCount s)
  | Statement.Block statements, self => by
    have ih := visitStatements_refines statements self
    simpa only [visitStatement, expectedItems, tagCount] using ih
  | Statement.IfStatement condition trueStatement falseStatement, self => by
    have ihF := visitOptionalStatement_refines falseStatement (ifFalseState condition self)
    have e1 : (ifFalseState condition self).m_returnTag = self.m_returnTag := rfl
    have e2 : (ifFalseState condition self).m_breakTags = self.m_breakTags := rfl
    have e3 : (ifFalseState condition self).m_continueTags = self.m_continueTags := rfl
    have e4 : (ifFalseState condition self).m_context.usedTags = self.m_context.usedTags + 1 :=
      rfl
    rw [e1, e2, e3, e4] at ihF
    rw [visitStatement_if_eq]
    simp only [expectedItems, tagCount]
    cases hF : expectedItemsOption self.m_returnTag falseStatement self.m_breakTags
        self.m_continueTags (self.m_context.usedTags + 1) with
    | none =>
      rw [hF] at ihF
      simp only [Refines] at ihF ⊢
      rcases hv : visitOptionalStatement falseStatement (ifFalseState condition self) with ⟨r, s2⟩
      rw [hv] at ihF
      simp only at ihF
      subst ihF
      rfl
    | some falseItems =>
      rw [hF] at ihF
      simp only [Refines] at ihF
      rw [ihF]
      simp only
      have ihT := visitStatement_refines trueStatement
        (ifTrueState self.m_context.usedTags
          (advance (ifFalseState condition self) falseItems (tagCountOption falseStatement)))
      have f1 : (ifTrueState self.m_context.usedTags
          (advance (ifFalseState condition self) falseItems
            (tagCountOption falseStatement))).m_returnTag = self.m_returnTag := rfl
      have f2 : (ifTrueState self.m_context.usedTags
          (advance (ifFalseState condition self) falseItems
            (tagCountOption falseStatement))).m_breakTags = self.m_breakTags := rfl
      have f3 : (ifTrueState self.m_context.usedTags
          (advance (ifFalseState condition self) falseItems
            (tagCountOption falseStatement))).m_continueTags = self.m_continueTags := rfl
      have f4 : (ifTrueState self.m_context.usedTags
          (advance (ifFalseState condition self) falseItems
            (tagCountOption falseStatement))).m_context.usedTags
          = self.m_context.usedTags + 2 + tagCountOption falseStatement := by
        simp [ifTrueState, advance, ifFalseState, appendJumpToNew, appendJumpTo,
          appendConditionalJump, appendConditionalJumpTo, newTag, CompilerContext.append,
          Compiler.compileExpression, Solidity.compileExpression]
        omega
      rw [f1, f2, f3, f4] at ihT
      cases hT : expectedItems self.m_returnTag trueStatement self.m_breakTags
          self.m_continueTags (self.m_context.usedTags + 2 + tagCountOption falseStatement) with
      | none =>
        rw [hT] at ihT
        simp only [Refines] at ihT ⊢
        rcases hv : visitStatement trueStatement
          (ifTrueState self.m_context.usedTags
            (advance (ifFalseState condition self) falseItems
              (tagCountOption falseStatement))) with ⟨r, s3⟩
        rw [hv] at ihT
        simp only at ihT
        subst ihT
        rfl
      | some trueItems =>
        rw [hT] at ihT
        simp only [Refines] at ihT ⊢
        rw [ihT]
        simp [ifTrueState, advance, ifFalseState, appendJumpToNew, appendJumpTo,
          appendConditionalJump, appendConditionalJumpTo, newTag, CompilerContext.append,
          Compiler.compileExpression, Solidity.compileExpression, ifItems]
        omega
  | Statement.WhileStatement condition body, self => by
    have ih := visitStatement_refines body (whileBodyState condition self)
    have e1 : (whileBodyState condition self).m_returnTag = self.m_returnTag := rfl
    have e2 : (whileBodyState condition self).m_breakTags
        = self.m_breakTags ++ [self.m_context.usedTags + 1] := rfl
    have e3 : (whileBodyState condition self).m_continueTags
        = self.m_continueTags ++ [self.m_context.usedTags] := rfl
    have e4 : (whileBodyState condition self).m_context.usedTags
        = self.m_context.usedTags + 2 := rfl
    rw [e1, e2, e3, e4] at ih
    rw [visitStatement_while_eq]
    simp only [expectedItems, tagCount]
    cases hB : expectedItems self.m_returnTag body
        (self.m_breakTags ++ [self.m_context.usedTags + 1])
        (self.m_continueTags ++ [self.m_context.usedTags]) (self.m_context.usedTags + 2) with
    | none =>
      rw [hB] at ih
      simp only [Refines] at ih ⊢
      rcases hv : visitStatement body (whileBodyState condition self) with ⟨r, s4⟩
      rw [hv] at ih
      simp only at ih
      subst ih
      rfl
    | some bodyItems =>
      rw [hB] at ih
      simp only [Refines] at ih ⊢
      rw [ih]
      simp [whileBodyState, advance, appendJumpTo, appendConditionalJumpTo, newTag,
        CompilerContext.append, Compiler.compileExpression, Solidity.compileExpression,
        whileItems]
      omega
  | Statement.ForStatement initializationExpression condition loopExpression body, self => by
    have ihI := visitOptionalStatement_refines initializationExpression (forInitState self)
    have e1 : (forInitState self).m_returnTag = self.m_returnTag := rfl
    have e2 : (forInitState self).m_breakTags
        = self.m_breakTags ++ [self.m_context.usedTags + 1] := rfl
    have e3 : (forInitState self).m_continueTags
        = self.m_continueTags ++ [self.m_context.usedTags] := rfl
    have e4 : (forInitState self).m_context.usedTags = self.m_context.usedTags + 2 := rfl
    rw [e1, e2, e3, e4] at ihI
    rw [visitStatement_for_eq]
    simp only [expectedItems, tagCount]
    cases hI : expectedItemsOption self.m_returnTag initializationExpression
        (self.m_breakTags ++ [self.m_context.usedTags + 1])
        (self.m_continueTags ++ [self.m_context.usedTags]) (self.m_context.usedTags + 2) with
    | none =>
      rw [hI] at ihI
      simp only [Refines] at ihI ⊢
      rcases hv : visitOptionalStatement initializationExpression (forInitState self)
        with ⟨r, s2⟩
      rw [hv] at ihI
      simp only at ihI
      subst ihI
      rfl
    | some initItems =>
      rw [hI] at ihI
      simp only [Refines] at ihI
      rw [ihI]
      simp only
      have ihB := visitStatement_refines body
        (forBodyState condition self.m_context.usedTags (self.m_context.usedTags + 1)
          (advance (forInitState self) initItems (tagCountOption initializationExpression)))
      obtain ⟨g4, g3, g2⟩ := forBodyState_fields condition self.m_context.usedTags
        (self.m_context.usedTags + 1)
        (advance (forInitState self) initItems (tagCountOption initializationExpression))
      have g1 := forBodyState_returnTag condition self.m_context.usedTags
        (self.m_context.usedTags + 1)
        (advance (forInitState self) initItems (tagCountOption initializationExpression))
      rw [g1, g2, g3, g4] at ihB
      have a1 : (advance (forInitState self) initItems
          (tagCountOption initializationExpression)).m_returnTag = self.m_returnTag := rfl
      have a2 : (advance (forInitState self) initItems
          (tagCountOption initializationExpression)).m_breakTags
          = self.m_breakTags ++ [self.m_context.usedTags + 1] := rfl
      have a3 : (advance (forInitState self) initItems
          (tagCountOption initializationExpression)).m_continueTags
          = self.m_continueTags ++ [self.m_context.usedTags] := rfl
      have a4 : (advance (forInitState self) initItems
          (tagCountOption initializationExpression)).m_context.usedTags
          = self.m_context.usedTags + 2 + tagCountOption initializationExpression := rfl
      rw [a1, a2, a3, a4] at ihB
      cases hB : expectedItems self.m_returnTag body
          (self.m_breakTags ++ [self.m_context.usedTags + 1])
          (self.m_continueTags ++ [self.m_context.usedTags])
          (self.m_context.usedTags + 2 + tagCountOption initializationExpression) with
      | none =>
        rw [hB] at ihB
        simp only [Refines] at ihB ⊢
        rcases hv : visitStatement body
          (forBodyState condition self.m_context.usedTags (self.m_context.usedTags + 1)
            (advance (forInitState self) initItems
              (tagCountOption initializationExpression))) with ⟨r, s5⟩
        rw [hv] at ihB
        simp only at ihB
        subst ihB
        rfl
      | some bodyItems =>
        rw [hB] at ihB
        simp only [Refines] at ihB
        rw [ihB]
        simp only
        have ihL := visitOptionalStatement_refines loopExpression
          (advance (forBodyState condition self.m_context.usedTags
            (self.m_context.usedTags + 1)
            (advance (forInitState self) initItems
              (tagCountOption initializationExpression))) bodyItems (tagCount body))
        have b1 : (advance (forBodyState condition self.m_context.usedTags
            (self.m_context.usedTags + 1)
            (advance (forInitState self) initItems
              (tagCountOption initializationExpression))) bodyItems (tagCount body)).m_returnTag
            = self.m_returnTag := g1
        have b2 : (advance (forBodyState condition self.m_context.usedTags
            (self.m_context.usedTags + 1)
            (advance (forInitState self) initItems
              (tagCountOption initializationExpression))) bodyItems (tagCount body)).m_breakTags
            = self.m_breakTags ++ [self.m_context.usedTags + 1] := g2
        have b3 : (advance (forBodyState condition self.m_context.usedTags
            (self.m_context.usedTags + 1)
            (advance (forInitState self) initItems
              (tagCountOption initializationExpression))) bodyItems
                (tagCount body)).m_continueTags
            = self.m_continueTags ++ [self.m_context.usedTags] := g3
        have b4 : (advance (forBodyState condition self.m_context.usedTags
            (self.m_context.usedTags + 1)
            (advance (forInitState self) initItems
              (tagCountOption initializationExpression))) bodyItems
                (tagCount body)).m_context.usedTags
            = self.m_context.usedTags + 2 + tagCountOption initializationExpression
                + tagCount body := by
          show (forBodyState condition self.m_context.usedTags
            (self.m_context.usedTags + 1)
            (advance (forInitState self) initItems
              (tagCountOption initializationExpression))).m_context.usedTags + tagCount body = _
          rw [g4]
          rfl
        rw [b1, b2, b3, b4] at ihL
        cases hL : expectedItemsOption self.m_returnTag loopExpression
            (self.m_breakTags ++ [self.m_context.usedTags + 1])
            (self.m_continueTags ++ [self.m_context.usedTags])
            (self.m_context.usedTags + 2 + tagCountOption initializationExpression
              + tagCount body) with
        | none =>
          rw [hL] at ihL
          simp only [Refines] at ihL ⊢
          rcases hv : visitOptionalStatement loopExpression
            (advance (forBodyState condition self.m_context.usedTags
              (self.m_context.usedTags + 1)
              (advance (forInitState self) initItems
                (tagCountOption initializationExpression))) bodyItems (tagCount body))
            with ⟨r, s6⟩
          rw [hv] at ihL
          simp only at ihL
          subst ihL
          rfl
        | some stepItems =>
          rw [hL] at ihL
          simp only [Refines] at ihL ⊢
          rw [ihL]
          cases condition <;>
            simp [forBodyState, advance, forInitState, appendJumpTo, appendConditionalJumpTo,
              newTag, CompilerContext.append, Compiler.compileExpression,
              Solidity.compileExpression, forItems, forConditionItems] <;> omega
  | Statement.Continue, self => by
    simp only [visitStatement, expectedItems, tagCount, Refines, jumpToTop]
    cases self.m_continueTags.getLast? <;>
      simp [advance, appendJumpTo, CompilerContext.append]
  | Statement.Break, self => by
    simp only [visitStatement, expectedItems, tagCount, Refines, jumpToTop]
    cases self.m_breakTags.getLast? <;>
      simp [advance, appendJumpTo, CompilerContext.append]
  | Statement.Return (some expression) functionReturnParameters, self => by
    simp only [visitStatement, expectedItems, tagCount]
    cases functionReturnParameters.head? <;>
      simp [Refines, advance, appendJumpTo, CompilerContext.append, Compiler.compileExpression,
        Solidity.compileExpression, appendTypeConversion, moveToStackVariable]
  | Statement.Return none _, self => by
    simp [visitStatement, expectedItems, tagCount, Refines, advance, appendJumpTo,
      CompilerContext.append]
  | Statement.VariableDefinition declaration (some expression), self => by
    simp [visitStatement, expectedItems, tagCount, Refines, advance, CompilerContext.append,
      Compiler.compileExpression, Solidity.compileExpression, appendTypeConversion,
      moveToStackVariable]
  | Statement.VariableDefinition _ none, self => by
    simp [visitStatement, expectedItems, tagCount, Refines, advance]
  | Statement.ExpressionStatement expression, self => by
    simp [visitStatement, expectedItems, tagCount, Refines, advance, CompilerContext.append,
      Compiler.compileExpression, Solidity.compileExpression, popStackElement]
theorem visitStatements_refines : ∀ (ss : List Statement) (self : Compiler),
    Refines (visitStatements ss self) self
      (expectedItemsList self.m_returnTag ss self.m_breakTags self.m_continueTags
        self.m_context.usedTags) (tagCountList ss)
  | [], self => by
    simp [visitStatements, expectedItemsList, tagCountList, Refines, advance]
  | statement :: rest, self => by
    have ih1 := visitStatement_refines statement self
    simp only [visitStatements, expectedItemsList, tagCountList]
    cases h1 : expectedItems self.m_returnTag statement self.m_breakTags self.m_continueTags
        self.m_context.usedTags with
    | none =>
      rw [h1] at ih1
      simp only [Refines] at ih1 ⊢
      rcases hv : visitStatement statement self with ⟨r, s1⟩
      rw [hv] at ih1
      simp only at ih1
      subst ih1
      rfl
    | some items =>
      rw [h1] at ih1
      simp only [Refines] at ih1
      rw [ih1]
      simp only
      have ih2 := visitStatements_refines rest (advance self items (tagCount statement))
      have e1 : (advance self items (tagCount statement)).m_returnTag = self.m_returnTag := rfl
      have e2 : (advance self items (tagCount statement)).m_breakTags = self.m_breakTags := rfl
      have e3 : (advance self items (tagCount statement)).m_continueTags
          = self.m_continueTags := rfl
      have e4 : (advance self items (tagCount statement)).m_context.usedTags
          = self.m_context.usedTags + tagCount statement := rfl
      rw [e1, e2, e3, e4] at ih2
      cases h2 : expectedItemsList self.m_returnTag rest self.m_breakTags self.m_continueTags
          (self.m_context.usedTags + tagCount statement) with
      | none =>
        rw [h2] at ih2
        simpa only [Refines] using ih2
      | some restItems =>
        rw [h2] at ih2
        simp only [Refines] at ih2 ⊢
        rw [ih2, advance_advance]
theorem visitOptionalStatement_refines : ∀ (s : Option Statement) (self : Compiler),
    Refines (visitOptionalStatement s self) self
      (expectedItemsOption self.m_returnTag s self.m_breakTags self.m_continueTags
        self.m_context.usedTags) (tagCountOption s)
  | none, self => by
    simp [visitOptionalStatement, expectedItemsOption, tagCountOption, Refines, advance]
  | some statement, self => by
    have ih := visitStatement_refines statement self
    simpa only [visitOptionalStatement, expectedItemsOption, tagCountOption] using ih
end

end Solidity
namespace Solidity

open Compiler CompilerContext CompilerUtils

/-! ## The shape of a lowered function -/

theorem visitFunctionDefinition_eq (f : FunctionDefinition) (self : Compiler) :
    visitFunctionDefinition f self =
      match self.m_context.getFunctionEntryLabel f with
      | none =>
        (Except.error CompilerException.InternalCompilerError,
          { self with
            m_context := self.m_context.startNewFunction.newTag.2
            m_returnTag := self.m_context.usedTags
            m_breakTags := []
            m_continueTags := [] })
      | some entryLabel =>
        match visitStatement f.body (functionBodyState f entryLabel self) with
        | (Except.error e, self2) => (Except.error e, self2)
        | (Except.ok _, self2) =>
          match reshuffleLoop
              (getSizeOnStack f.parameters + getSizeOnStack f.returnParameters
                + getSizeOnStack f.localVariables + 2)
              (initialStackLayout (getSizeOnStack f.parameters)
                (getSizeOnStack f.returnParameters) (getSizeOnStack f.localVariables)) [] with
          | none =>
            (Except.error CompilerException.InternalCompilerError,
              { self2 with
                m_context := self2.m_context.append (AssemblyItem.Tag self2.m_returnTag) })
          | some layoutAndInstructions =>
            (Except.ok (),
              { self2 with
                m_context := (layoutAndInstructions.2.foldl
                  (fun c instruction => c.append (AssemblyItem.Operation instruction))
                  (self2.m_context.append (AssemblyItem.Tag self2.m_returnTag))).append
                    (AssemblyItem.Operation Instruction.JUMP) }) := by
  simp only [visitFunctionDefinition]
  rfl

theorem foldl_addVariable_context (vs : List VariableDeclaration) :
    ∀ ctx : CompilerContext,
      (vs.foldl CompilerContext.addVariable ctx).items = ctx.items ∧
        (vs.foldl CompilerContext.addVariable ctx).usedTags = ctx.usedTags ∧
        (vs.foldl CompilerContext.addVariable ctx).functionEntryLabels
          = ctx.functionEntryLabels ∧
        (vs.foldl CompilerContext.addVariable ctx).subs = ctx.subs := by
  induction vs with
  | nil => intro ctx; exact ⟨rfl, rfl, rfl, rfl⟩
  | cons v rest ih =>
    intro ctx
    rw [List.foldl_cons]
    exact ih (ctx.addVariable v)

theorem foldl_addAndInitializeVariable_context (vs : List VariableDeclaration) :
    ∀ ctx : CompilerContext,
      (vs.foldl CompilerContext.addAndInitializeVariable ctx).items
          = ctx.items ++ zeroPushes vs ∧
        (vs.foldl CompilerContext.addAndInitializeVariable ctx).usedTags = ctx.usedTags ∧
        (vs.foldl CompilerContext.addAndInitializeVariable ctx).functionEntryLabels
          = ctx.functionEntryLabels ∧
        (vs.foldl CompilerContext.addAndInitializeVariable ctx).subs = ctx.subs := by
  induction vs with
  | nil => intro ctx; exact ⟨by simp [zeroPushes], rfl, rfl, rfl⟩
  | cons v rest ih =>
    intro ctx
    rw [List.foldl_cons]
    obtain ⟨h1, h2, h3, h4⟩ := ih (ctx.addAndInitializeVariable v)
    refine ⟨?_, h2, h3, h4⟩
    rw [h1]
    simp [zeroPushes, CompilerContext.addAndInitializeVariable, CompilerContext.addVariable]

theorem functionBodyState_fields (f : FunctionDefinition) (entryLabel : Nat) (self : Compiler) :
    (functionBodyState f entryLabel self).m_context.items
        = self.m_context.items ++ ([AssemblyItem.Tag entryLabel]
            ++ zeroPushes f.returnParameters ++ zeroPushes f.localVariables) ∧
      (functionBodyState f entryLabel self).m_context.usedTags = self.m_context.usedTags + 1 ∧
      (functionBodyState f entryLabel self).m_context.functionEntryLabels
        = self.m_context.functionEntryLabels ∧
      (functionBodyState f entryLabel self).m_context.subs = self.m_context.subs ∧
      (functionBodyState f entryLabel self).m_returnTag = self.m_context.usedTags ∧
      (functionBodyState f entryLabel self).m_breakTags = [] ∧
      (functionBodyState f entryLabel self).m_continueTags = [] ∧
      (functionBodyState f entryLabel self).m_runtimeContext = self.m_runtimeContext := by
  obtain ⟨v1, v2, v3, v4⟩ := foldl_addVariable_context f.parameters
    ((self.m_context.startNewFunction.newTag.2).append (AssemblyItem.Tag entryLabel))
  obtain ⟨r1, r2, r3, r4⟩ := foldl_addAndInitializeVariable_context f.returnParameters
    (f.parameters.foldl CompilerContext.addVariable
      ((self.m_context.startNewFunction.newTag.2).append (AssemblyItem.Tag entryLabel)))
  obtain ⟨l1, l2, l3, l4⟩ := foldl_addAndInitializeVariable_context f.localVariables
    (f.returnParameters.foldl CompilerContext.addAndInitializeVariable
      (f.parameters.foldl CompilerContext.addVariable
        ((self.m_context.startNewFunction.newTag.2).append (AssemblyItem.Tag entryLabel))))
  refine ⟨?_, ?_, ?_, ?_, rfl, rfl, rfl, rfl⟩
  · show (f.localVariables.foldl CompilerContext.addAndInitializeVariable _).items = _
    rw [l1, r1, v1]
    simp [startNewFunction, newTag, CompilerContext.append]
  · show (f.localVariables.foldl CompilerContext.addAndInitializeVariable _).usedTags = _
    rw [l2, r2, v2]
    rfl
  · show (f.localVariables.foldl CompilerContext.addAndInitializeVariable _).functionEntryLabels
      = _
    rw [l3, r3, v3]
    rfl
  · show (f.localVariables.foldl CompilerContext.addAndInitializeVariable _).subs = _
    rw [l4, r4, v4]
    rfl

theorem foldl_append_operation_context (ops : List Instruction) :
    ∀ ctx : CompilerContext,
      ops.foldl (fun c instruction => c.append (AssemblyItem.Operation instruction)) ctx
        = { ctx with items := ctx.items ++ ops.map AssemblyItem.Operation } := by
  induction ops with
  | nil => intro ctx; simp
  | cons op rest ih =>
    intro ctx
    rw [List.foldl_cons, ih]
    simp [CompilerContext.append]

theorem reshuffleLoop_returns (A R L : Nat) :
    ∃ final ops,
      reshuffleLoop (A + R + L + 2) (initialStackLayout A R L) [] = some (final, ops) := by
  have hlen := initialStackLayout_length A R L
  obtain ⟨final, ops, h1, _⟩ :=
    reshuffleLoop_safe R (A + R + L) (A + R + L + 2) (initialStackLayout A R L) []
      (initialStackLayout_inv A R L) (by omega)
      (by have := unfixed_le_length (initialStackLayout A R L); omega)
  exact ⟨final, ops, by simpa using h1⟩

/-- The lowering of a function whose entry label is registered and whose body has an item
sequence returns normally, with the items of `functionItems` appended. -/
theorem visitFunctionDefinition_ok (f : FunctionDefinition) (self : Compiler)
    (entryLabel : Nat) (bodyItems : List AssemblyItem)
    (hlabel : self.m_context.getFunctionEntryLabel f = some entryLabel)
    (hbody : expectedItems self.m_context.usedTags f.body [] [] (self.m_context.usedTags + 1)
      = some bodyItems) :
    ∃ final ops self2,
      reshuffleLoop
          (getSizeOnStack f.parameters + getSizeOnStack f.returnParameters
            + getSizeOnStack f.localVariables + 2)
          (initialStackLayout (getSizeOnStack f.parameters)
            (getSizeOnStack f.returnParameters) (getSizeOnStack f.localVariables)) []
        = some (final, ops) ∧
      visitFunctionDefinition f self = (Except.ok (), self2) ∧
      visitStatement f.body (functionBodyState f entryLabel self)
        = (Except.ok (),
            advance (functionBodyState f entryLabel self) bodyItems (tagCount f.body)) ∧
      self2.m_context.items
        = self.m_context.items
            ++ functionItems f entryLabel self.m_context.usedTags bodyItems ops ∧
      self2.m_context.usedTags = self.m_context.usedTags + 1 + tagCount f.body ∧
      self2.m_context.functionEntryLabels = self.m_context.functionEntryLabels ∧
      self2.m_context.subs = self.m_context.subs ∧
      self2.m_runtimeContext = self.m_runtimeContext ∧
      self2.m_returnTag = self.m_context.usedTags := by
  obtain ⟨final, ops, hloop⟩ := reshuffleLoop_returns (getSizeOnStack f.parameters)
    (getSizeOnStack f.returnParameters) (getSizeOnStack f.localVariables)
  obtain ⟨b1, b2, b3, b4, b5, b6, b7, b8⟩ := functionBodyState_fields f entryLabel self
  have href := visitStatement_refines f.body (functionBodyState f entryLabel self)
  rw [b5, b6, b7, b2, hbody] at href
  simp only [Refines] at href
  refine ⟨final, ops,
    { advance (functionBodyState f entryLabel self) bodyItems (tagCount f.body) with
      m_context := (ops.foldl
        (fun c instruction => c.append (AssemblyItem.Operation instruction))
        ((advance (functionBodyState f entryLabel self) bodyItems
          (tagCount f.body)).m_context.append
            (AssemblyItem.Tag (advance (functionBodyState f entryLabel self) bodyItems
              (tagCount f.body)).m_returnTag))).append
          (AssemblyItem.Operation Instruction.JUMP) },
    hloop, ?_, href, ?_, ?_, ?_, ?_, ?_, ?_⟩
  · rw [visitFunctionDefinition_eq, hlabel]
    simp only [href, hloop]
  · simp only [foldl_append_operation_context]
    simp only [CompilerContext.append, advance, b1, functionItems, b5]
    simp
  · simp only [foldl_append_operation_context]
    simp only [CompilerContext.append, advance, b2]
  · simp only [foldl_append_operation_context]
    simp only [CompilerContext.append, advance, b3]
  · simp only [foldl_append_operation_context]
    simp only [CompilerContext.append, advance, b4]
  · exact b8
  · exact b5

/-- Conversely, a lowering that returned normally found the entry label and an item
sequence for the body. -/
theorem visitFunctionDefinition_shape (f : FunctionDefinition) (self self2 : Compiler)
    (h : visitFunctionDefinition f self = (Except.ok (), self2)) :
    ∃ entryLabel bodyItems final ops,
      self.m_context.getFunctionEntryLabel f = some entryLabel ∧
      expectedItems self.m_context.usedTags f.body [] [] (self.m_context.usedTags + 1)
        = some bodyItems ∧
      reshuffleLoop
          (getSizeOnStack f.parameters + getSizeOnStack f.returnParameters
            + getSizeOnStack f.localVariables + 2)
          (initialStackLayout (getSizeOnStack f.parameters)
            (getSizeOnStack f.returnParameters) (getSizeOnStack f.localVariables)) []
        = some (final, ops) ∧
      self2.m_context.items
        = self.m_context.items
            ++ functionItems f entryLabel self.m_context.usedTags bodyItems ops ∧
      self2.m_context.usedTags = self.m_context.usedTags + 1 + tagCount f.body ∧
      self2.m_context.functionEntryLabels = self.m_context.functionEntryLabels ∧
      self2.m_context.subs = self.m_context.subs ∧
      self2.m_runtimeContext = self.m_runtimeContext := by
  cases hl : self.m_context.getFunctionEntryLabel f with
  | none =>
    rw [visitFunctionDefinition_eq, hl] at h
    cases (Prod.mk.inj h).1
  | some entryLabel =>
    obtain ⟨b1, b2, b3, b4, b5, b6, b7, b8⟩ := functionBodyState_fields f entryLabel self
    have href := visitStatement_refines f.body (functionBodyState f entryLabel self)
    rw [b5, b6, b7, b2] at href
    cases hb : expectedItems self.m_context.usedTags f.body [] []
        (self.m_context.usedTags + 1) with
    | none =>
      rw [hb] at href
      simp only [Refines] at href
      rw [visitFunctionDefinition_eq, hl] at h
      simp only at h
      rcases hv : visitStatement f.body (functionBodyState f entryLabel self) with ⟨r, s2⟩
      rw [hv] at href h
      simp only at href
      subst href
      cases (Prod.mk.inj h).1
    | some bodyItems =>
      obtain ⟨final, ops, s2, k1, k2, _, k4, k5, k6, k7, k8, _⟩ :=
        visitFunctionDefinition_ok f self entryLabel bodyItems hl hb
      rw [h] at k2
      obtain ⟨_, rfl⟩ := Prod.mk.inj k2
      exact ⟨entryLabel, bodyItems, final, ops, rfl, rfl, k1, k4, k5, k6, k7, k8⟩

end Solidity
namespace Solidity

open Compiler CompilerContext CompilerUtils

/-! ## The visitor calls made during the lowering of a statement -/

theorem refines_ok (r : CompilerResult Unit) (self self2 : Compiler)
    (expected : Option (List AssemblyItem)) (tags : Nat)
    (href : Refines r self expected tags) (h : r = (Except.ok (), self2)) :
    ∃ items, expected = some items ∧ self2 = advance self items tags := by
  cases expected with
  | none =>
    simp only [Refines] at href
    rw [h] at href
    cases href
  | some items =>
    simp only [Refines] at href
    rw [h] at href
    exact ⟨items, rfl, (Prod.mk.inj href).2⟩

theorem visitStatement_ok_advance (s : Statement) (self self2 : Compiler)
    (h : visitStatement s self = (Except.ok (), self2)) :
    ∃ items, expectedItems self.m_returnTag s self.m_breakTags self.m_continueTags
        self.m_context.usedTags = some items ∧ self2 = advance self items (tagCount s) :=
  refines_ok _ _ _ _ _ (visitStatement_refines s self) h

theorem visitStatements_ok_advance (ss : List Statement) (self self2 : Compiler)
    (h : visitStatements ss self = (Except.ok (), self2)) :
    ∃ items, expectedItemsList self.m_returnTag ss self.m_breakTags self.m_continueTags
        self.m_context.usedTags = some items ∧ self2 = advance self items (tagCountList ss) :=
  refines_ok _ _ _ _ _ (visitStatements_refines ss self) h

theorem visitOptionalStatement_ok_advance (s : Option Statement) (self self2 : Compiler)
    (h : visitOptionalStatement s self = (Except.ok (), self2)) :
    ∃ items, expectedItemsOption self.m_returnTag s self.m_breakTags self.m_continueTags
        self.m_context.usedTags = some items ∧ self2 = advance self items (tagCountOption s) :=
  refines_ok _ _ _ _ _ (visitOptionalStatement_refines s self) h

/-- At every visitor call made during the lowering of a statement, the tag stacks are
those of the start with the tags of the enclosing loops pushed on them, the return tag is
the one of the start, and the tags of the enclosing loops were allocated during the
lowering, `loopEnd` right after `loopStart`. -/
theorem Visits.invariant {s : Statement} {self : Compiler} {loops : List (Nat × Nat)}
    {t : Statement} {st : Compiler} (h : Visits s self loops t st) :
    st.m_breakTags = self.m_breakTags ++ loops.map Prod.snd ∧
      st.m_continueTags = self.m_continueTags ++ loops.map Prod.fst ∧
      st.m_returnTag = self.m_returnTag ∧
      self.m_context.usedTags ≤ st.m_context.usedTags ∧
      (∀ p ∈ loops, self.m_context.usedTags ≤ p.1 ∧ p.2 = p.1 + 1 ∧
        p.2 < st.m_context.usedTags) := by
  induction h with
  | here s self => exact ⟨by simp, by simp, rfl, Nat.le_refl _, by simp⟩
  | block before s after self self1 loops t st hpre _ ih =>
    obtain ⟨items, _, rfl⟩ := visitStatements_ok_advance _ _ _ hpre
    obtain ⟨h1, h2, h3, h4, h5⟩ := ih
    refine ⟨h1, h2, h3, ?_, ?_⟩
    · have : self.m_context.usedTags
          ≤ (advance self items (tagCountList before)).m_context.usedTags := by
        simp [advance]
      omega
    · intro p hp
      obtain ⟨k1, k2, k3⟩ := h5 p hp
      have : self.m_context.usedTags
          ≤ (advance self items (tagCountList before)).m_context.usedTags := by
        simp [advance]
      exact ⟨by omega, k2, k3⟩
  | ifFalse condition trueStatement falseStatement self loops t st _ ih =>
    obtain ⟨h1, h2, h3, h4, h5⟩ := ih
    have e : (ifFalseState condition self).m_context.usedTags = self.m_context.usedTags + 1 :=
      rfl
    refine ⟨h1, h2, h3, by omega, ?_⟩
    intro p hp
    obtain ⟨k1, k2, k3⟩ := h5 p hp
    exact ⟨by omega, k2, k3⟩
  | ifTrue condition trueStatement falseStatement self self2 loops t st hfalse _ ih =>
    obtain ⟨items, _, rfl⟩ := visitOptionalStatement_ok_advance _ _ _ hfalse
    obtain ⟨h1, h2, h3, h4, h5⟩ := ih
    have e : self.m_context.usedTags ≤ (ifTrueState self.m_context.usedTags
        (advance (ifFalseState condition self) items
          (tagCountOption falseStatement))).m_context.usedTags := by
      simp [ifTrueState, advance, ifFalseState, appendJumpToNew, appendJumpTo,
        appendConditionalJump, appendConditionalJumpTo, newTag, CompilerContext.append,
        Compiler.compileExpression, Solidity.compileExpression]
      omega
    refine ⟨h1, h2, h3, by omega, ?_⟩
    intro p hp
    obtain ⟨k1, k2, k3⟩ := h5 p hp
    exact ⟨by omega, k2, k3⟩
  | whileBody condition body self loops t st _ ih =>
    obtain ⟨h1, h2, h3, h4, h5⟩ := ih
    have e : (whileBodyState condition self).m_context.usedTags
        = self.m_context.usedTags + 2 := rfl
    have e2 : (whileBodyState condition self).m_breakTags
        = self.m_breakTags ++ [self.m_context.usedTags + 1] := rfl
    have e3 : (whileBodyState condition self).m_continueTags
        = self.m_continueTags ++ [self.m_context.usedTags] := rfl
    refine ⟨by rw [h1, e2]; simp, by rw [h2, e3]; simp, h3, by omega, ?_⟩
    intro p hp
    rcases List.mem_cons.mp hp with rfl | hp
    · exact ⟨Nat.le_refl _, rfl, by simp only; omega⟩
    · obtain ⟨k1, k2, k3⟩ := h5 p hp
      exact ⟨by omega, k2, k3⟩
  | forInit initializationExpression condition loopExpression body self loops t st _ ih =>
    obtain ⟨h1, h2, h3, h4, h5⟩ := ih
    have e : (forInitState self).m_context.usedTags = self.m_context.usedTags + 2 := rfl
    have e2 : (forInitState self).m_breakTags
        = self.m_breakTags ++ [self.m_context.usedTags + 1] := rfl
    have e3 : (forInitState self).m_continueTags
        = self.m_continueTags ++ [self.m_context.usedTags] := rfl
    refine ⟨by rw [h1, e2]; simp, by rw [h2, e3]; simp, h3, by omega, ?_⟩
    intro p hp
    rcases List.mem_cons.mp hp with rfl | hp
    · exact ⟨Nat.le_refl _, rfl, by simp only; omega⟩
    · obtain ⟨k1, k2, k3⟩ := h5 p hp
      exact ⟨by omega, k2, k3⟩
  | forBody initializationExpression condition loopExpression body self self2 loops t st
      hinit _ ih =>
    obtain ⟨items, _, rfl⟩ := visitOptionalStatement_ok_advance _ _ _ hinit
    obtain ⟨h1, h2, h3, h4, h5⟩ := ih
    obtain ⟨g4, g3, g2⟩ := forBodyState_fields condition self.m_context.usedTags
      (self.m_context.usedTags + 1)
      (advance (forInitState self) items (tagCountOption initializationExpression))
    have g1 := forBodyState_returnTag condition self.m_context.usedTags
      (self.m_context.usedTags + 1)
      (advance (forInitState self) items (tagCountOption initializationExpression))
    have a2 : (advance (forInitState self) items
        (tagCountOption initializationExpression)).m_breakTags
        = self.m_breakTags ++ [self.m_context.usedTags + 1] := rfl
    have a3 : (advance (forInitState self) items
        (tagCountOption initializationExpression)).m_continueTags
        = self.m_continueTags ++ [self.m_context.usedTags] := rfl
    have a4 : (advance (forInitState self) items
        (tagCountOption initializationExpression)).m_context.usedTags
        = self.m_context.usedTags + 2 + tagCountOption initializationExpression := rfl
    rw [g1] at h3
    rw [g2, a2] at h1
    rw [g3, a3] at h2
    rw [g4, a4] at h4
    refine ⟨by rw [h1]; simp, by rw [h2]; simp, h3, by omega, ?_⟩
    intro p hp
    rcases List.mem_cons.mp hp with rfl | hp
    · exact ⟨Nat.le_refl _, rfl, by simp only; omega⟩
    · obtain ⟨k1, k2, k3⟩ := h5 p hp
      rw [g4, a4] at k1
      exact ⟨by omega, k2, k3⟩
  | forStep initializationExpression condition loopExpression body self self2 self5 loops t st
      hinit hbody _ ih =>
    obtain ⟨items, _, rfl⟩ := visitOptionalStatement_ok_advance _ _ _ hinit
    obtain ⟨bodyItems, _, rfl⟩ := visitStatement_ok_advance _ _ _ hbody
    obtain ⟨h1, h2, h3, h4, h5⟩ := ih
    obtain ⟨g4, g3, g2⟩ := forBodyState_fields condition self.m_context.usedTags
      (self.m_context.usedTags + 1)
      (advance (forInitState self) items (tagCountOption initializationExpression))
    have g1 := forBodyState_returnTag condition self.m_context.usedTags
      (self.m_context.usedTags + 1)
      (advance (forInitState self) items (tagCountOption initializationExpression))
    have a2 : (advance (forInitState self) items
        (tagCountOption initializationExpression)).m_breakTags
        = self.m_breakTags ++ [self.m_context.usedTags + 1] := rfl
    have a3 : (advance (forInitState self) items
        (tagCountOption initializationExpression)).m_continueTags
        = self.m_continueTags ++ [self.m_context.usedTags] := rfl
    have a4 : (advance (forInitState self) items
        (tagCountOption initializationExpression)).m_context.usedTags
        = self.m_context.usedTags + 2 + tagCountOption initializationExpression := rfl
    have c1 : ∀ (x : Compiler) (l : List AssemblyItem) (n : Nat),
        (advance x l n).m_returnTag = x.m_returnTag := fun _ _ _ => rfl
    have c2 : ∀ (x : Compiler) (l : List AssemblyItem) (n : Nat),
        (advance x l n).m_breakTags = x.m_breakTags := fun _ _ _ => rfl
    have c3 : ∀ (x : Compiler) (l : List AssemblyItem) (n : Nat),
        (advance x l n).m_continueTags = x.m_continueTags := fun _ _ _ => rfl
    have c4 : ∀ (x : Compiler) (l : List AssemblyItem) (n : Nat),
        (advance x l n).m_context.usedTags = x.m_context.usedTags + n := fun _ _ _ => rfl
    rw [c1, g1] at h3
    rw [c2, g2, a2] at h1
    rw [c3, g3, a3] at h2
    rw [c4, g4, a4] at h4
    refine ⟨by rw [h1]; simp, by rw [h2]; simp, h3, by omega, ?_⟩
    intro p hp
    rcases List.mem_cons.mp hp with rfl | hp
    · exact ⟨Nat.le_refl _, rfl, by simp only; omega⟩
    · obtain ⟨k1, k2, k3⟩ := h5 p hp
      rw [c4, g4, a4] at k1
      exact ⟨by omega, k2, k3⟩

end Solidity
namespace Solidity

open Compiler CompilerContext CompilerUtils

/-! ## Tags in the item sequence of a statement -/

theorem count_tag_jumpToTop (tags : List Nat) (t : Nat) :
    List.count (AssemblyItem.Tag t) (jumpToTop tags) = 0 := by
  unfold jumpToTop
  cases tags.getLast? <;> simp

mutual
theorem expectedItems_count_tag : ∀ (s : Statement) (rt : Nat) (bs cs : List Nat) (u : Nat)
    (items : List AssemblyItem),
    expectedItems rt s bs cs u = some items →
    ∀ t, List.count (AssemblyItem.Tag t) items
      = if u ≤ t ∧ t < u + tagCount s then 1 else 0
  | Statement.Block statements, rt, bs, cs, u, items, h => by
    simp only [expectedItems] at h
    simpa only [tagCount] using expectedItemsList_count_tag statements rt bs cs u items h
  | Statement.IfStatement condition trueStatement falseStatement, rt, bs, cs, u, items, h => by
    simp only [expectedItems] at h
    split at h
    · cases h
    · rename_i falseItems hF
      split at h
      · cases h
      · rename_i trueItems hT
        cases h
        intro t
        have iF := expectedItemsOption_count_tag falseStatement rt bs cs _ _ hF t
        have iT := expectedItems_count_tag trueStatement rt bs cs _ _ hT t
        simp only [ifItems, List.count_append, List.count_cons, List.count_nil, iF, iT,
          tagCount, beq_iff_eq, AssemblyItem.Tag.injEq, reduceCtorEq, if_false]
        split_ifs <;> omega
  | Statement.WhileStatement condition body, rt, bs, cs, u, items, h => by
    simp only [expectedItems] at h
    split at h
    · cases h
    · rename_i bodyItems hB
      cases h
      intro t
      have iB := expectedItems_count_tag body rt _ _ _ _ hB t
      simp only [whileItems, List.count_append, List.count_cons, List.count_nil, iB,
        tagCount, beq_iff_eq, AssemblyItem.Tag.injEq, reduceCtorEq, if_false]
      split_ifs <;> omega
  | Statement.ForStatement initializationExpression condition loopExpression body, rt, bs, cs,
      u, items, h => by
    simp only [expectedItems] at h
    split at h
    · cases h
    · rename_i initItems hI
      split at h
      · cases h
      · rename_i bodyItems hB
        split at h
        · cases h
        · rename_i stepItems hL
          cases h
          intro t
          have iI := expectedItemsOption_count_tag initializationExpression rt _ _ _ _ hI t
          have iB := expectedItems_count_tag body rt _ _ _ _ hB t
          have iL := expectedItemsOption_count_tag loopExpression rt _ _ _ _ hL t
          have hc : List.count (AssemblyItem.Tag t) (forConditionItems condition (u + 1)) = 0 := by
            cases condition <;> simp [forConditionItems]
          simp only [forItems, List.count_append, List.count_cons, List.count_nil, iI, iB, iL,
            hc, tagCount, beq_iff_eq, AssemblyItem.Tag.injEq, reduceCtorEq, if_false]
          split_ifs <;> omega
  | Statement.Continue, rt, bs, cs, u, items, h => by
    simp only [expectedItems] at h
    cases h
    intro t
    simp only [count_tag_jumpToTop, tagCount]
    split_ifs <;> omega
  | Statement.Break, rt, bs, cs, u, items, h => by
    simp only [expectedItems] at h
    cases h
    intro t
    simp only [count_tag_jumpToTop, tagCount]
    split_ifs <;> omega
  | Statement.Return (some expression) functionReturnParameters, rt, bs, cs, u, items, h => by
    simp only [expectedItems] at h
    split at h
    · cases h
    · cases h
      intro t
      simp only [tagCount, List.count_cons, List.count_nil, beq_iff_eq, reduceCtorEq, if_false]
      split_ifs <;> omega
  | Statement.Return none _, rt, bs, cs, u, items, h => by
    simp only [expectedItems] at h
    cases h
    intro t
    simp only [tagCount, List.count_cons, List.count_nil, beq_iff_eq, reduceCtorEq, if_false]
    split_ifs <;> omega
  | Statement.VariableDefinition declaration (some expression), rt, bs, cs, u, items, h => by
    simp only [expectedItems] at h
    cases h
    intro t
    simp only [tagCount, List.count_cons, List.count_nil, beq_iff_eq, reduceCtorEq, if_false]
    split_ifs <;> omega
  | Statement.VariableDefinition _ none, rt, bs, cs, u, items, h => by
    simp only [expectedItems] at h
    cases h
    intro t
    simp only [tagCount, List.count_cons, List.count_nil, beq_iff_eq, reduceCtorEq, if_false]
    split_ifs <;> omega
  | Statement.ExpressionStatement expression, rt, bs, cs, u, items, h => by
    simp only [expectedItems] at h
    cases h
    intro t
    simp only [tagCount, List.count_cons, List.count_nil, beq_iff_eq, reduceCtorEq, if_false]
    split_ifs <;> omega
theorem expectedItemsList_count_tag : ∀ (ss : List Statement) (rt : Nat) (bs cs : List Nat)
    (u : Nat) (items : List AssemblyItem),
    expectedItemsList rt ss bs cs u = some items →
    ∀ t, List.count (AssemblyItem.Tag t) items
      = if u ≤ t ∧ t < u + tagCountList ss then 1 else 0
  | [], rt, bs, cs, u, items, h => by
    simp only [expectedItemsList] at h
    cases h
    intro t
    simp only [tagCountList, List.count_nil]
    split_ifs <;> omega
  | statement :: rest, rt, bs, cs, u, items, h => by
    simp only [expectedItemsList] at h
    split at h
    · cases h
    · rename_i firstItems h1
      split at h
      · cases h
      · rename_i restItems h2
        cases h
        intro t
        have i1 := expectedItems_count_tag statement rt bs cs u _ h1 t
        have i2 := expectedItemsList_count_tag rest rt bs cs _ _ h2 t
        simp only [List.count_append, i1, i2, tagCountList]
        split_ifs <;> omega
theorem expectedItemsOption_count_tag : ∀ (s : Option Statement) (rt : Nat) (bs cs : List Nat)
    (u : Nat) (items : List AssemblyItem),
    expectedItemsOption rt s bs cs u = some items →
    ∀ t, List.count (AssemblyItem.Tag t) items
      = if u ≤ t ∧ t < u + tagCountOption s then 1 else 0
  | none, rt, bs, cs, u, items, h => by
    simp only [expectedItemsOption] at h
    cases h
    intro t
    simp only [tagCountOption, List.count_nil]
    split_ifs <;> omega
  | some statement, rt, bs, cs, u, items, h => by
    simp only [expectedItemsOption] at h
    simpa only [tagCountOption] using expectedItems_count_tag statement rt bs cs u items h
end

end Solidity
namespace Solidity

open Compiler CompilerContext CompilerUtils

/-! ## Jump targets in the item sequence of a statement -/

theorem pushTag_jumpToTop (tags : List Nat) (t : Nat)
    (h : AssemblyItem.PushTag t ∈ jumpToTop tags) : tags.getLast? = some t := by
  unfold jumpToTop at h
  cases hl : tags.getLast? with
  | none => rw [hl] at h; cases h
  | some back =>
    rw [hl] at h
    simp at h
    rw [h]

mutual
theorem expectedItems_pushTag : ∀ (s : Statement) (rt : Nat) (bs cs : List Nat) (u : Nat)
    (items : List AssemblyItem),
    expectedItems rt s bs cs u = some items →
    ∀ t, AssemblyItem.PushTag t ∈ items →
      (u ≤ t ∧ t < u + tagCount s) ∨ t = rt ∨ bs.getLast? = some t ∨ cs.getLast? = some t
  | Statement.Block statements, rt, bs, cs, u, items, h => by
    simp only [expectedItems] at h
    simpa only [tagCount] using expectedItemsList_pushTag statements rt bs cs u items h
  | Statement.IfStatement condition trueStatement falseStatement, rt, bs, cs, u, items, h => by
    simp only [expectedItems] at h
    split at h
    · cases h
    · rename_i falseItems hF
      split at h
      · cases h
      · rename_i trueItems hT
        cases h
        intro t ht
        have iF := expectedItemsOption_pushTag falseStatement rt bs cs _ _ hF t
        have iT := expectedItems_pushTag trueStatement rt bs cs _ _ hT t
        simp only [tagCount]
        unfold ifItems at ht
        rcases List.mem_append.mp ht with h1 | hC
        · rcases List.mem_append.mp h1 with h2 | hTm
          · rcases List.mem_append.mp h2 with h3 | hB
            · rcases List.mem_append.mp h3 with hA | hFm
              · simp at hA
                left; omega
              · rcases iF hFm with k | k | k | k
                · left; omega
                · exact Or.inr (Or.inl k)
                · exact Or.inr (Or.inr (Or.inl k))
                · exact Or.inr (Or.inr (Or.inr k))
            · simp at hB
              left; omega
          · rcases iT hTm with k | k | k | k
            · left; omega
            · exact Or.inr (Or.inl k)
            · exact Or.inr (Or.inr (Or.inl k))
            · exact Or.inr (Or.inr (Or.inr k))
        · simp at hC
  | Statement.WhileStatement condition body, rt, bs, cs, u, items, h => by
    simp only [expectedItems] at h
    split at h
    · cases h
    · rename_i bodyItems hB
      cases h
      intro t ht
      have iB := expectedItems_pushTag body rt _ _ _ _ hB t
      simp only [tagCount]
      unfold whileItems at ht
      rcases List.mem_append.mp ht with h1 | hC
      · rcases List.mem_append.mp h1 with hA | hBm
        · simp at hA
          left; omega
        · rcases iB hBm with k | k | k | k
          · left; omega
          · exact Or.inr (Or.inl k)
          · simp at k
            left; omega
          · simp at k
            left; omega
      · simp at hC
        left; omega
  | Statement.ForStatement initializationExpression condition loopExpression body, rt, bs, cs,
      u, items, h => by
    simp only [expectedItems] at h
    split at h
    · cases h
    · rename_i initItems hI
      split at h
      · cases h
      · rename_i bodyItems hB
        split at h
        · cases h
        · rename_i stepItems hL
          cases h
          intro t ht
          have iI := expectedItemsOption_pushTag initializationExpression rt _ _ _ _ hI t
          have iB := expectedItems_pushTag body rt _ _ _ _ hB t
          have iL := expectedItemsOption_pushTag loopExpression rt _ _ _ _ hL t
          simp only [tagCount]
          unfold forItems at ht
          rcases List.mem_append.mp ht with h1 | hC
          · rcases List.mem_append.mp h1 with h2 | hLm
            · rcases List.mem_append.mp h2 with h3 | hBm
              · rcases List.mem_append.mp h3 with h4 | hc
                · rcases List.mem_append.mp h4 with hIm | hS
                  · rcases iI hIm with k | k | k | k
                    · left; omega
                    · exact Or.inr (Or.inl k)
                    · simp at k
                      left; omega
                    · simp at k
                      left; omega
                  · simp at hS
                · have : t = u + 1 := by
                    cases condition with
                    | none => simp [forConditionItems] at hc
                    | some c => simpa [forConditionItems] using hc
                  left; omega
              · rcases iB hBm with k | k | k | k
                · left; omega
                · exact Or.inr (Or.inl k)
                · simp at k
                  left; omega
                · simp at k
                  left; omega
            · rcases iL hLm with k | k | k | k
              · left; omega
              · exact Or.inr (Or.inl k)
              · simp at k
                left; omega
              · simp at k
                left; omega
          · simp at hC
            left; omega
  | Statement.Continue, rt, bs, cs, u, items, h => by
    simp only [expectedItems] at h
    cases h
    intro t ht
    exact Or.inr (Or.inr (Or.inr (pushTag_jumpToTop _ _ ht)))
  | Statement.Break, rt, bs, cs, u, items, h => by
    simp only [expectedItems] at h
    cases h
    intro t ht
    exact Or.inr (Or.inr (Or.inl (pushTag_jumpToTop _ _ ht)))
  | Statement.Return (some expression) functionReturnParameters, rt, bs, cs, u, items, h => by
    simp only [expectedItems] at h
    split at h
    · cases h
    · cases h
      intro t ht
      simp at ht
      exact Or.inr (Or.inl ht)
  | Statement.Return none _, rt, bs, cs, u, items, h => by
    simp only [expectedItems] at h
    cases h
    intro t ht
    simp at ht
    exact Or.inr (Or.inl ht)
  | Statement.VariableDefinition declaration (some expression), rt, bs, cs, u, items, h => by
    simp only [expectedItems] at h
    cases h
    intro t ht
    simp at ht
  | Statement.VariableDefinition _ none, rt, bs, cs, u, items, h => by
    simp only [expectedItems] at h
    cases h
    intro t ht
    simp at ht
  | Statement.ExpressionStatement expression, rt, bs, cs, u, items, h => by
    simp only [expectedItems] at h
    cases h
    intro t ht
    simp at ht
theorem expectedItemsList_pushTag : ∀ (ss : List Statement) (rt : Nat) (bs cs : List Nat)
    (u : Nat) (items : List AssemblyItem),
    expectedItemsList rt ss bs cs u = some items →
    ∀ t, AssemblyItem.PushTag t ∈ items →
      (u ≤ t ∧ t < u + tagCountList ss) ∨ t = rt ∨ bs.getLast? = some t ∨ cs.getLast? = some t
  | [], rt, bs, cs, u, items, h => by
    simp only [expectedItemsList] at h
    cases h
    intro t ht
    simp at ht
  | statement :: rest, rt, bs, cs, u, items, h => by
    simp only [expectedItemsList] at h
    split at h
    · cases h
    · rename_i firstItems h1
      split at h
      · cases h
      · rename_i restItems h2
        cases h
        intro t ht
        have i1 := expectedItems_pushTag statement rt bs cs u _ h1 t
        have i2 := expectedItemsList_pushTag rest rt bs cs _ _ h2 t
        simp only [tagCountList]
        rcases List.mem_append.mp ht with hm | hm
        · rcases i1 hm with k | k | k | k
          · left; omega
          · exact Or.inr (Or.inl k)
          · exact Or.inr (Or.inr (Or.inl k))
          · exact Or.inr (Or.inr (Or.inr k))
        · rcases i2 hm with k | k | k | k
          · left; omega
          · exact Or.inr (Or.inl k)
          · exact Or.inr (Or.inr (Or.inl k))
          · exact Or.inr (Or.inr (Or.inr k))
theorem expectedItemsOption_pushTag : ∀ (s : Option Statement) (rt : Nat) (bs cs : List Nat)
    (u : Nat) (items : List AssemblyItem),
    expectedItemsOption rt s bs cs u = some items →
    ∀ t, AssemblyItem.PushTag t ∈ items →
      (u ≤ t ∧ t < u + tagCountOption s) ∨ t = rt ∨ bs.getLast? = some t
        ∨ cs.getLast? = some t
  | none, rt, bs, cs, u, items, h => by
    simp only [expectedItemsOption] at h
    cases h
    intro t ht
    simp at ht
  | some statement, rt, bs, cs, u, items, h => by
    simp only [expectedItemsOption] at h
    simpa only [tagCountOption] using expectedItems_pushTag statement rt bs cs u items h
end

end Solidity
namespace Solidity

open Compiler CompilerContext CompilerUtils

/-! ## Stack heights along the item sequence of a statement -/

theorem scanHeights_append (base : Int) (l1 l2 : List AssemblyItem) :
    ∀ height : Int,
      scanHeights base (l1 ++ l2) height
        = (scanHeights base l1 height).bind (scanHeights base l2) := by
  induction l1 with
  | nil => intro height; rfl
  | cons item rest ih =>
    intro height
    simp only [List.cons_append, scanHeights]
    cases stackDelta item with
    | none => rfl
    | some delta =>
      simp only
      split
      · rfl
      · exact ih _

theorem scanHeights_jumpToTop (base : Int) (tags : List Nat) :
    scanHeights base (jumpToTop tags) base = some base := by
  unfold jumpToTop
  cases tags.getLast? <;> simp [scanHeights, stackDelta, isControlItem]

theorem scanHeights_zeroPushes (base : Int) :
    ∀ (vs : List VariableDeclaration) (height : Int),
      scanHeights base (zeroPushes vs) height = some (height + (getSizeOnStack vs : Int)) := by
  have hrep : ∀ (n : Nat) (height : Int),
      scanHeights base (List.replicate n (AssemblyItem.Push 0)) height
        = some (height + (n : Int)) := by
    intro n
    induction n with
    | zero => intro height; simp [scanHeights]
    | succ n ih =>
      intro height
      simp only [List.replicate_succ, scanHeights, stackDelta, isControlItem, Bool.false_and,
        Bool.false_eq_true, if_false, ih]
      congr 1
      push_cast
      omega
  intro vs
  induction vs with
  | nil => intro height; simp [zeroPushes, getSizeOnStack, scanHeights]
  | cons v rest ih =>
    intro height
    have hz : zeroPushes (v :: rest)
        = List.replicate v.type.sizeOnStack (AssemblyItem.Push 0) ++ zeroPushes rest := by
      simp [zeroPushes]
    rw [hz, scanHeights_append, hrep, Option.some_bind, ih]
    simp only [getSizeOnStack, List.map_cons, List.sum_cons]
    congr 1
    push_cast
    omega

mutual
theorem expectedItems_scan : ∀ (s : Statement) (rt : Nat) (bs cs : List Nat) (u : Nat)
    (items : List AssemblyItem),
    conditionsOneWord s = true →
    expectedItems rt s bs cs u = some items →
    ∀ base : Int, scanHeights base items base = some base
  | Statement.Block statements, rt, bs, cs, u, items, hc, h => by
    simp only [expectedItems] at h
    simp only [conditionsOneWord] at hc
    exact expectedItemsList_scan statements rt bs cs u items hc h
  | Statement.IfStatement condition trueStatement falseStatement, rt, bs, cs, u, items, hc,
      h => by
    simp only [expectedItems] at h
    simp only [conditionsOneWord, Bool.and_eq_true, beq_iff_eq] at hc
    obtain ⟨⟨hc1, hcF⟩, hcT⟩ := hc
    split at h
    · cases h
    · rename_i falseItems hF
      split at h
      · cases h
      · rename_i trueItems hT
        cases h
        intro base
        have iF := expectedItemsOption_scan falseStatement rt bs cs _ _ hcF hF base
        have iT := expectedItems_scan trueStatement rt bs cs _ _ hcT hT base
        have hhead : scanHeights base [AssemblyItem.CompileExpression condition,
            AssemblyItem.PushTag u, AssemblyItem.Operation Instruction.JUMPI] base
            = some base := by
          simp [scanHeights, stackDelta, isControlItem, hc1]
          omega
        have hmid : scanHeights base [AssemblyItem.PushTag
              (u + 1 + tagCountOption falseStatement),
            AssemblyItem.Operation Instruction.JUMP, AssemblyItem.Tag u] base = some base := by
          simp [scanHeights, stackDelta, isControlItem]
        have hend : scanHeights base [AssemblyItem.Tag
            (u + 1 + tagCountOption falseStatement)] base = some base := by
          simp [scanHeights, stackDelta, isControlItem]
        unfold ifItems
        simp only [scanHeights_append, hhead, iF, hmid, iT, hend, Option.some_bind]
  | Statement.WhileStatement condition body, rt, bs, cs, u, items, hc, h => by
    simp only [expectedItems] at h
    simp only [conditionsOneWord, Bool.and_eq_true, beq_iff_eq] at hc
    obtain ⟨hc1, hcB⟩ := hc
    split at h
    · cases h
    · rename_i bodyItems hB
      cases h
      intro base
      have iB := expectedItems_scan body rt _ _ _ _ hcB hB base
      have hhead : scanHeights base [AssemblyItem.Tag u,
          AssemblyItem.CompileExpression condition,
          AssemblyItem.Operation Instruction.ISZERO, AssemblyItem.PushTag (u + 1),
          AssemblyItem.Operation Instruction.JUMPI] base = some base := by
        simp [scanHeights, stackDelta, isControlItem, hc1]
        omega
      have hend : scanHeights base [AssemblyItem.PushTag u,
          AssemblyItem.Operation Instruction.JUMP, AssemblyItem.Tag (u + 1)] base
          = some base := by
        simp [scanHeights, stackDelta, isControlItem]
      unfold whileItems
      simp only [scanHeights_append, hhead, iB, hend, Option.some_bind]
  | Statement.ForStatement initializationExpression condition loopExpression body, rt, bs, cs,
      u, items, hc, h => by
    simp only [expectedItems] at h
    simp only [conditionsOneWord, Bool.and_eq_true] at hc
    obtain ⟨⟨⟨hc1, hcI⟩, hcB⟩, hcL⟩ := hc
    split at h
    · cases h
    · rename_i initItems hI
      split at h
      · cases h
      · rename_i bodyItems hB
        split at h
        · cases h
        · rename_i stepItems hL
          cases h
          intro base
          have iI := expectedItemsOption_scan initializationExpression rt _ _ _ _ hcI hI base
          have iB := expectedItems_scan body rt _ _ _ _ hcB hB base
          have iL := expectedItemsOption_scan loopExpression rt _ _ _ _ hcL hL base
          have hstart : scanHeights base [AssemblyItem.Tag u] base = some base := by
            simp [scanHeights, stackDelta, isControlItem]
          have hcond : scanHeights base (forConditionItems condition (u + 1)) base
              = some base := by
            cases condition with
            | none => simp [forConditionItems, scanHeights]
            | some c =>
              have : c.type.sizeOnStack = 1 := by simpa using hc1
              simp [forConditionItems, scanHeights, stackDelta, isControlItem, this]
              omega
          have hend : scanHeights base [AssemblyItem.PushTag u,
              AssemblyItem.Operation Instruction.JUMP, AssemblyItem.Tag (u + 1)] base
              = some base := by
            simp [scanHeights, stackDelta, isControlItem]
          unfold forItems
          simp only [scanHeights_append, iI, hstart, hcond, iB, iL, hend, Option.some_bind]
  | Statement.Continue, rt, bs, cs, u, items, hc, h => by
    simp only [expectedItems] at h
    cases h
    intro base
    exact scanHeights_jumpToTop base cs
  | Statement.Break, rt, bs, cs, u, items, hc, h => by
    simp only [expectedItems] at h
    cases h
    intro base
    exact scanHeights_jumpToTop base bs
  | Statement.Return (some expression) functionReturnParameters, rt, bs, cs, u, items, hc,
      h => by
    simp only [expectedItems] at h
    split at h
    · cases h
    · cases h
      intro base
      simp [scanHeights, stackDelta, isControlItem]
  | Statement.Return none _, rt, bs, cs, u, items, hc, h => by
    simp only [expectedItems] at h
    cases h
    intro base
    simp [scanHeights, stackDelta, isControlItem]
  | Statement.VariableDefinition declaration (some expression), rt, bs, cs, u, items, hc,
      h => by
    simp only [expectedItems] at h
    cases h
    intro base
    simp [scanHeights, stackDelta, isControlItem]
  | Statement.VariableDefinition _ none, rt, bs, cs, u, items, hc, h => by
    simp only [expectedItems] at h
    cases h
    intro base
    simp [scanHeights]
  | Statement.ExpressionStatement expression, rt, bs, cs, u, items, hc, h => by
    simp only [expectedItems] at h
    cases h
    intro base
    simp [scanHeights, stackDelta, isControlItem]
theorem expectedItemsList_scan : ∀ (ss : List Statement) (rt : Nat) (bs cs : List Nat)
    (u : Nat) (items : List AssemblyItem),
    conditionsOneWordList ss = true →
    expectedItemsList rt ss bs cs u = some items →
    ∀ base : Int, scanHeights base items base = some base
  | [], rt, bs, cs, u, items, hc, h => by
    simp only [expectedItemsList] at h
    cases h
    intro base
    simp [scanHeights]
  | statement :: rest, rt, bs, cs, u, items, hc, h => by
    simp only [expectedItemsList] at h
    simp only [conditionsOneWordList, Bool.and_eq_true] at hc
    split at h
    · cases h
    · rename_i firstItems h1
      split at h
      · cases h
      · rename_i restItems h2
        cases h
        intro base
        have i1 := expectedItems_scan statement rt bs cs u _ hc.1 h1 base
        have i2 := expectedItemsList_scan rest rt bs cs _ _ hc.2 h2 base
        simp only [scanHeights_append, i1, i2, Option.some_bind]
theorem expectedItemsOption_scan : ∀ (s : Option Statement) (rt : Nat) (bs cs : List Nat)
    (u : Nat) (items : List AssemblyItem),
    conditionsOneWordOption s = true →
    expectedItemsOption rt s bs cs u = some items →
    ∀ base : Int, scanHeights base items base = some base
  | none, rt, bs, cs, u, items, hc, h => by
    simp only [expectedItemsOption] at h
    cases h
    intro base
    simp [scanHeights]
  | some statement, rt, bs, cs, u, items, hc, h => by
    simp only [expectedItemsOption] at h
    simp only [conditionsOneWordOption] at hc
    exact expectedItems_scan statement rt bs cs u items hc h
end

end Solidity
namespace Solidity

open Compiler CompilerContext CompilerUtils

/-! ## `break`, `continue`, `return` and the tag stacks -/

theorem count_tag_zeroPushes (vs : List VariableDeclaration) (t : Nat) :
    List.count (AssemblyItem.Tag t) (zeroPushes vs) = 0 := by
  rw [List.count_eq_zero]
  intro h
  unfold zeroPushes at h
  obtain ⟨v, _, hv⟩ := List.mem_flatMap.mp h
  have := List.eq_of_mem_replicate hv
  cases this

theorem count_tag_operations (ops : List Instruction) (t : Nat) :
    List.count (AssemblyItem.Tag t) (ops.map AssemblyItem.Operation) = 0 := by
  rw [List.count_eq_zero]
  intro h
  obtain ⟨op, _, hop⟩ := List.mem_map.mp h
  cases hop

theorem count_tag_functionItems (f : FunctionDefinition) (entryLabel returnTag : Nat)
    (bodyItems : List AssemblyItem) (ops : List Instruction) (t : Nat) :
    List.count (AssemblyItem.Tag t) (functionItems f entryLabel returnTag bodyItems ops)
      = (if entryLabel = t then 1 else 0) + List.count (AssemblyItem.Tag t) bodyItems
          + (if returnTag = t then 1 else 0) := by
  simp only [functionItems, List.count_append, List.count_cons, List.count_nil,
    count_tag_zeroPushes, count_tag_operations, beq_iff_eq, AssemblyItem.Tag.injEq,
    reduceCtorEq, if_false]
  omega

/-- C22: let `f` be a function whose entry label is registered in the current context,
the label being a tag allocated earlier.  While the body of `f` is lowered, a `return`
with an expression whose return-parameter list has the first variable `v` returns normally
and appends exactly the expression code, the conversion from the type of the expression
to the type of `v`, the move into the slot of `v` and the jump to the return tag of `f`; a
`return` without expression appends exactly that jump.  The return tag is the tag
allocated at the start of `visit(FunctionDefinition)`; when the lowering of `f` returns
normally its items are those of `functionItems`, where the return tag is placed right
after the items of the body, and it is placed exactly once among them. -/
theorem return_lowering (f : FunctionDefinition) (self : Compiler) (entryLabel : Nat)
    (hlabel : self.m_context.getFunctionEntryLabel f = some entryLabel)
    (hfresh : entryLabel < self.m_context.usedTags) :
    (∀ (loops : List (Nat × Nat)) (st : Compiler) (expression : Expression)
        (functionReturnParameters : List VariableDeclaration) (firstVariable : VariableDeclaration),
      Visits f.body (functionBodyState f entryLabel self) loops
          (Statement.Return (some expression) functionReturnParameters) st →
        functionReturnParameters.head? = some firstVariable →
        visitStatement (Statement.Return (some expression) functionReturnParameters) st
          = (Except.ok (),
              advance st
                [AssemblyItem.CompileExpression expression,
                 AssemblyItem.TypeConversion expression.type firstVariable.type false,
                 AssemblyItem.MoveToStackVariable firstVariable,
                 AssemblyItem.PushTag self.m_context.usedTags,
                 AssemblyItem.Operation Instruction.JUMP] 0)) ∧
      (∀ (loops : List (Nat × Nat)) (st : Compiler)
          (functionReturnParameters : List VariableDeclaration),
        Visits f.body (functionBodyState f entryLabel self) loops
            (Statement.Return none functionReturnParameters) st →
          visitStatement (Statement.Return none functionReturnParameters) st
            = (Except.ok (),
                advance st
                  [AssemblyItem.PushTag self.m_context.usedTags,
                   AssemblyItem.Operation Instruction.JUMP] 0)) ∧
      (∀ self2 : Compiler, visitFunctionDefinition f self = (Except.ok (), self2) →
        ∃ bodyItems ops,
          visitStatement f.body (functionBodyState f entryLabel self)
            = (Except.ok (),
                advance (functionBodyState f entryLabel self) bodyItems (tagCount f.body)) ∧
          self2.m_context.items = self.m_context.items
            ++ functionItems f entryLabel self.m_context.usedTags bodyItems ops ∧
          AssemblyItem.Tag self.m_context.usedTags ∉ bodyItems ∧
          List.count (AssemblyItem.Tag self.m_context.usedTags)
            (functionItems f entryLabel self.m_context.usedTags bodyItems ops) = 1) := by
  have hr : (functionBodyState f entryLabel self).m_returnTag = self.m_context.usedTags := rfl
  refine ⟨?_, ?_, ?_⟩
  · intro loops st expression functionReturnParameters firstVariable hv hhead
    obtain ⟨_, _, h3, _, _⟩ := hv.invariant
    rw [hr] at h3
    simp [visitStatement, hhead, h3, advance, appendJumpTo, CompilerContext.append,
      Compiler.compileExpression, Solidity.compileExpression, appendTypeConversion,
      moveToStackVariable]
  · intro loops st functionReturnParameters hv
    obtain ⟨_, _, h3, _, _⟩ := hv.invariant
    rw [hr] at h3
    simp [visitStatement, h3, advance, appendJumpTo, CompilerContext.append]
  · intro self2 h
    obtain ⟨entry2, bodyItems, final, ops, k1, k2, _, k4, _⟩ :=
      visitFunctionDefinition_shape f self self2 h
    rw [hlabel] at k1
    obtain rfl := Option.some.inj k1
    obtain ⟨_, _, _, _, _, k3, _⟩ :=
      visitFunctionDefinition_ok f self entryLabel bodyItems hlabel k2
    have hcount := expectedItems_count_tag f.body _ _ _ _ _ k2 self.m_context.usedTags
    rw [if_neg (by omega)] at hcount
    refine ⟨bodyItems, ops, k3, k4, List.count_eq_zero.mp hcount, ?_⟩
    rw [count_tag_functionItems, hcount, if_neg (by omega), if_pos rfl]

end Solidity
namespace Solidity

open Compiler CompilerContext CompilerUtils

/-! ## Tag discipline -/

theorem visitNeededFunctions_places :
    ∀ (fs : List FunctionDefinition) (self self2 : Compiler),
      visitNeededFunctions fs self = (Except.ok (), self2) →
      self2.m_context.functionEntryLabels = self.m_context.functionEntryLabels ∧
        (∃ more, self2.m_context.items = self.m_context.items ++ more) ∧
        ∀ f ∈ fs, ∃ l, self.m_context.getFunctionEntryLabel f = some l ∧
          AssemblyItem.Tag l ∈ self2.m_context.items := by
  intro fs
  induction fs with
  | nil =>
    intro self self2 h
    simp only [visitNeededFunctions] at h
    obtain ⟨_, rfl⟩ := Prod.mk.inj h
    exact ⟨rfl, ⟨[], by simp⟩, by simp⟩
  | cons f rest ih =>
    intro self self2 h
    simp only [visitNeededFunctions] at h
    split at h
    · cases (Prod.mk.inj h).1
    · rename_i u s1 heq
      obtain ⟨entry, bodyItems, final, ops, k1, _, _, k4, _, k6, _⟩ :=
        visitFunctionDefinition_shape f self s1 heq
      obtain ⟨j1, ⟨more, j2⟩, j3⟩ := ih s1 self2 h
      refine ⟨j1.trans k6, ⟨functionItems f entry self.m_context.usedTags bodyItems ops ++ more,
        by rw [j2, k4, List.append_assoc]⟩, ?_⟩
      intro g hg
      rcases List.mem_cons.mp hg with rfl | hg
      · refine ⟨entry, k1, ?_⟩
        rw [j2, k4]
        simp [functionItems]
      · obtain ⟨l, hl, hmem⟩ := j3 g hg
        refine ⟨l, ?_, hmem⟩
        unfold CompilerContext.getFunctionEntryLabel at hl ⊢
        rw [← k6]
        exact hl

theorem pushTag_functionItems (f : FunctionDefinition) (entryLabel returnTag : Nat)
    (bodyItems : List AssemblyItem) (ops : List Instruction) (t : Nat)
    (h : AssemblyItem.PushTag t ∈ functionItems f entryLabel returnTag bodyItems ops) :
    AssemblyItem.PushTag t ∈ bodyItems := by
  unfold functionItems at h
  rcases List.mem_append.mp h with h1 | h
  · rcases List.mem_append.mp h1 with h2 | h
    · rcases List.mem_append.mp h2 with h3 | h
      · rcases List.mem_append.mp h3 with h4 | h
        · rcases List.mem_append.mp h4 with h5 | h
          · rcases List.mem_append.mp h5 with h6 | h
            · simp at h6
            · unfold zeroPushes at h
              obtain ⟨v, _, hv⟩ := List.mem_flatMap.mp h
              cases List.eq_of_mem_replicate hv
          · unfold zeroPushes at h
            obtain ⟨v, _, hv⟩ := List.mem_flatMap.mp h
            cases List.eq_of_mem_replicate hv
        · exact h
      · simp at h
    · obtain ⟨op, _, hop⟩ := List.mem_map.mp h
      cases hop
  · simp at h

theorem packerLoopItems_noTags :
    ∀ (params : List VariableDeclaration) (offset depth : Nat) (x : AssemblyItem),
      x ∈ packerLoopItems params offset depth →
      ∀ t, x ≠ AssemblyItem.Tag t ∧ x ≠ AssemblyItem.PushTag t := by
  intro params
  induction params with
  | nil => intro offset depth x h; simp [packerLoopItems] at h
  | cons p rest ih =>
    intro offset depth x h t
    simp only [packerLoopItems, List.mem_append, List.mem_cons, List.mem_singleton,
      List.mem_nil_iff, or_false] at h
    rcases h with (h | h | h) | h
    · subst h; exact ⟨by simp, by simp⟩
    · subst h; exact ⟨by simp, by simp⟩
    · subst h; exact ⟨by simp, by simp⟩
    · exact ih _ _ x h t

theorem packerItems_noTags (f : FunctionDefinition)
    (hall : ∀ v ∈ f.returnParameters, v.type.calldataEncodedSize ≤ 32) (x : AssemblyItem)
    (h : x ∈ packerItems f) (t : Nat) :
    x ≠ AssemblyItem.Tag t ∧ x ≠ AssemblyItem.PushTag t := by
  rw [packerItems_eq f hall] at h
  rcases List.mem_append.mp h with h | h
  · exact packerLoopItems_noTags _ _ _ x h t
  · simp only [List.mem_cons, List.mem_singleton, List.mem_nil_iff, or_false] at h
    rcases h with h | h | h
    · subst h; exact ⟨by simp, by simp⟩
    · subst h; exact ⟨by simp, by simp⟩
    · subst h; exact ⟨by simp, by simp⟩

theorem expectedLoads_noTags (fromMemory : Bool) (params : List VariableDeclaration)
    (x : AssemblyItem) (h : x ∈ expectedLoads fromMemory params) (t : Nat) :
    x ≠ AssemblyItem.Tag t ∧ x ≠ AssemblyItem.PushTag t := by
  unfold expectedLoads at h
  obtain ⟨e, _, rfl⟩ := List.mem_map.mp h
  exact ⟨by simp, by simp⟩

theorem count_tag_landingItems (entryTag returnTag entryLabel : Nat) (f : FunctionDefinition)
    (hall : ∀ v ∈ f.returnParameters, v.type.calldataEncodedSize ≤ 32) (t : Nat) :
    List.count (AssemblyItem.Tag t) (landingItems entryTag returnTag entryLabel f)
      = (if entryTag = t then 1 else 0) + (if returnTag = t then 1 else 0) := by
  have h1 : List.count (AssemblyItem.Tag t) (expectedLoads false f.parameters) = 0 :=
    List.count_eq_zero.mpr (fun h => (expectedLoads_noTags _ _ _ h t).1 rfl)
  have h2 : List.count (AssemblyItem.Tag t) (packerItems f) = 0 :=
    List.count_eq_zero.mpr (fun h => (packerItems_noTags f hall _ h t).1 rfl)
  simp only [landingItems, List.count_append, List.count_cons, List.count_nil, h1, h2,
    beq_iff_eq, AssemblyItem.Tag.injEq, reduceCtorEq, if_false]
  omega

theorem pushTag_landingItems (entryTag returnTag entryLabel : Nat) (f : FunctionDefinition)
    (hall : ∀ v ∈ f.returnParameters, v.type.calldataEncodedSize ≤ 32) (t : Nat)
    (h : AssemblyItem.PushTag t ∈ landingItems entryTag returnTag entryLabel f) :
    t = returnTag ∨ t = entryLabel := by
  unfold landingItems at h
  rcases List.mem_append.mp h with h1 | h
  · rcases List.mem_append.mp h1 with h2 | h
    · rcases List.mem_append.mp h2 with h3 | h
      · simp at h3
        exact Or.inl h3
      · exact absurd rfl (expectedLoads_noTags _ _ _ h t).2
    · simp at h
      exact Or.inr h
  · exact absurd rfl (packerItems_noTags f hall _ h t).2

theorem count_tag_landings (a b : Nat) (lab : FunctionDefinition → Nat) (t : Nat) :
    ∀ (table : List (Nat × FunctionDefinition)) (s : Nat),
      (∀ e ∈ table, ∀ v ∈ e.2.returnParameters, v.type.calldataEncodedSize ≤ 32) →
      List.count (AssemblyItem.Tag t)
          ((table.enumFrom s).flatMap
            (fun e => landingItems (a + e.1) (b + e.1) (lab e.2.2) e.2.2))
        = (if a + s ≤ t ∧ t < a + s + table.length then 1 else 0)
          + (if b + s ≤ t ∧ t < b + s + table.length then 1 else 0) := by
  intro table
  induction table with
  | nil =>
    intro s _
    simp only [List.enumFrom_nil, List.flatMap_nil, List.count_nil, List.length_nil]
    split_ifs <;> omega
  | cons it rest ih =>
    intro s hall
    have hrest := ih (s + 1) (fun e he => hall e (List.mem_cons_of_mem _ he))
    simp only [List.enumFrom_cons, List.flatMap_cons, List.count_append, hrest,
      count_tag_landingItems _ _ _ _ (hall it (List.mem_cons_self _ _)), List.length_cons]
    split_ifs <;> omega

theorem pushTag_landings (a b : Nat) (lab : FunctionDefinition → Nat) (t : Nat) :
    ∀ (table : List (Nat × FunctionDefinition)) (s : Nat),
      (∀ e ∈ table, ∀ v ∈ e.2.returnParameters, v.type.calldataEncodedSize ≤ 32) →
      AssemblyItem.PushTag t ∈ (table.enumFrom s).flatMap
          (fun e => landingItems (a + e.1) (b + e.1) (lab e.2.2) e.2.2) →
      (b + s ≤ t ∧ t < b + s + table.length) ∨ ∃ e ∈ table, lab e.2 = t := by
  intro table
  induction table with
  | nil => intro s _ h; simp at h
  | cons it rest ih =>
    intro s hall h
    simp only [List.enumFrom_cons, List.flatMap_cons, List.mem_append] at h
    rcases h with h | h
    · rcases pushTag_landingItems _ _ _ _ (hall it (List.mem_cons_self _ _)) t h with k | k
      · left
        simp only [List.length_cons]
        omega
      · exact Or.inr ⟨it, List.mem_cons_self _ _, k.symm⟩
    · rcases ih (s + 1) (fun e he => hall e (List.mem_cons_of_mem _ he)) h with k | ⟨e, he, k⟩
      · left
        simp only [List.length_cons]
        omega
      · exact Or.inr ⟨e, List.mem_cons_of_mem _ he, k⟩

theorem chain_items (a : Nat) (t : Nat) :
    ∀ (table : List (Nat × FunctionDefinition)) (s : Nat),
      List.count (AssemblyItem.Tag t)
          ((table.enumFrom s).flatMap (fun e => chainGroup e.2.1 (a + e.1))) = 0 ∧
        (AssemblyItem.PushTag t ∈ (table.enumFrom s).flatMap
            (fun e => chainGroup e.2.1 (a + e.1)) →
          a + s ≤ t ∧ t < a + s + table.length) := by
  intro table
  induction table with
  | nil => intro s; simp
  | cons it rest ih =>
    intro s
    obtain ⟨h1, h2⟩ := ih (s + 1)
    refine ⟨?_, ?_⟩
    · simp only [List.enumFrom_cons, List.flatMap_cons, List.count_append, h1]
      simp [chainGroup]
    · intro h
      simp only [List.enumFrom_cons, List.flatMap_cons, List.mem_append] at h
      rcases h with h | h
      · simp [chainGroup] at h
        simp only [List.length_cons]
        omega
      · have := h2 h
        simp only [List.length_cons]
        omega

theorem selectorItems_tags (ctx : CompilerContext) (contract : ContractDefinition)
    (hall : ∀ e ∈ contract.interfaceFunctions,
      ∀ v ∈ e.2.returnParameters, v.type.calldataEncodedSize ≤ 32) (t : Nat) :
    List.count (AssemblyItem.Tag t) (selectorItems ctx contract)
        = (if ctx.usedTags ≤ t ∧ t < ctx.usedTags + contract.interfaceFunctions.length
              + contract.interfaceFunctions.length then 1 else 0) ∧
      (AssemblyItem.PushTag t ∈ selectorItems ctx contract →
        (ctx.usedTags ≤ t ∧ t < ctx.usedTags + contract.interfaceFunctions.length
            + contract.interfaceFunctions.length) ∨
          ∃ e ∈ contract.interfaceFunctions, (ctx.getFunctionEntryLabel e.2).getD 0 = t) := by
  obtain ⟨c1, c2⟩ := chain_items ctx.usedTags t contract.interfaceFunctions 0
  have l1 := count_tag_landings ctx.usedTags
    (ctx.usedTags + contract.interfaceFunctions.length)
    (fun f => (ctx.getFunctionEntryLabel f).getD 0) t contract.interfaceFunctions 0 hall
  have l2 := pushTag_landings ctx.usedTags
    (ctx.usedTags + contract.interfaceFunctions.length)
    (fun f => (ctx.getFunctionEntryLabel f).getD 0) t contract.interfaceFunctions 0 hall
  refine ⟨?_, ?_⟩
  · simp only [selectorItems, List.enum, List.count_append, c1, l1, selectorPrologue,
      List.count_cons, List.count_nil, beq_iff_eq, reduceCtorEq, if_false]
    split_ifs <;> omega
  · intro h
    simp only [selectorItems, List.enum, List.mem_append] at h
    rcases h with ((h | h) | h) | h
    · simp [selectorPrologue] at h
    · have := c2 h
      left; omega
    · simp at h
    · rcases l2 h with k | k
      · left; omega
      · exact Or.inr k

theorem runtimeRegistered_label_origin (bases : List ContractDefinition)
    (contracts : List (Nat × List Nat)) (k : FunctionDefinition) (l : Nat)
    (h : (runtimeRegistered bases contracts).getFunctionEntryLabel k = some l) :
    ∃ f ∈ runtimeFunctions bases, f.id = k.id := by
  by_contra hne
  push_neg at hne
  have hsame := (foldl_addFunction_labels (runtimeFunctions bases)
    (registerStateVariables bases
      (({} : CompilerContext).setCompiledContracts contracts))).2.2 k hne
  unfold runtimeRegistered at h
  rw [addFunctions_eq_foldl, hsame, registerStateVariables_eq] at h
  simp [CompilerContext.getFunctionEntryLabel, CompilerContext.setCompiledContracts] at h

/-- C24: (a) when the lowering of a function whose entry label is an earlier tag returns
normally, the items appended for the function place the entry label once, every tag
allocated meanwhile (the return tag and the tags of the `if`, `while` and `for`
statements of the body) exactly once, and no other tag, and every pushed jump target is
one of the tags allocated meanwhile, hence placed among these items; (b) for an interface
table with distinct hashes whose functions are registered and within the size limit, the
function selector returns normally, the items appended for it place every tag allocated
meanwhile (the entry tag and the return tag of each table entry) exactly once and no other
tag, and every pushed tag is one of these or the entry label registered for a function of
the table; (c) when the functions of the linearization have been lowered into the context
(`visitContracts`), the entry label of each of them is placed in that context; (d) every
entry label registered in the runtime context of `compileContract`, so every label that
the selector can jump to, is placed in that context once the functions of the
linearization have been lowered into it. -/
theorem tag_discipline :
    (∀ (f : FunctionDefinition) (self self2 : Compiler) (entryLabel : Nat),
      self.m_context.getFunctionEntryLabel f = some entryLabel →
      entryLabel < self.m_context.usedTags →
      visitFunctionDefinition f self = (Except.ok (), self2) →
      ∃ emitted, self2.m_context.items = self.m_context.items ++ emitted ∧
        (∀ t, List.count (AssemblyItem.Tag t) emitted
          = if t = entryLabel ∨
              (self.m_context.usedTags ≤ t ∧ t < self2.m_context.usedTags) then 1 else 0) ∧
        (∀ t, AssemblyItem.PushTag t ∈ emitted →
          self.m_context.usedTags ≤ t ∧ t < self2.m_context.usedTags ∧
            List.count (AssemblyItem.Tag t) emitted = 1)) ∧
      (∀ (contract : ContractDefinition) (ctx : CompilerContext),
        (contract.interfaceFunctions.map (fun e => e.1)).Nodup →
        (∀ e ∈ contract.interfaceFunctions,
          (∀ v ∈ e.2.parameters, v.type.calldataEncodedSize ≤ 32) ∧
          (∀ v ∈ e.2.returnParameters, v.type.calldataEncodedSize ≤ 32) ∧
          ∃ l, ctx.getFunctionEntryLabel e.2 = some l) →
        ∃ ctx2 emitted, appendFunctionSelector contract ctx = (Except.ok (), ctx2) ∧
          ctx2.items = ctx.items ++ emitted ∧
          (∀ t, List.count (AssemblyItem.Tag t) emitted
            = if ctx.usedTags ≤ t ∧ t < ctx2.usedTags then 1 else 0) ∧
          (∀ t, AssemblyItem.PushTag t ∈ emitted →
            (ctx.usedTags ≤ t ∧ t < ctx2.usedTags ∧
              List.count (AssemblyItem.Tag t) emitted = 1) ∨
            ∃ e ∈ contract.interfaceFunctions, ctx.getFunctionEntryLabel e.2 = some t)) ∧
      (∀ (bases : List ContractDefinition) (self self2 : Compiler),
        visitContracts bases self = (Except.ok (), self2) →
        ∀ f ∈ runtimeFunctions bases, ∃ l, self.m_context.getFunctionEntryLabel f = some l ∧
          AssemblyItem.Tag l ∈ self2.m_context.items) ∧
      (∀ (bases : List ContractDefinition) (contracts : List (Nat × List Nat))
          (self self2 : Compiler) (k : FunctionDefinition) (l : Nat),
        self.m_context.functionEntryLabels
          = (runtimeRegistered bases contracts).functionEntryLabels →
        self.m_context.getFunctionEntryLabel k = some l →
        visitContracts bases self = (Except.ok (), self2) →
        AssemblyItem.Tag l ∈ self2.m_context.items) := by
  refine ⟨?_, ?_, ?_, ?_⟩
  · intro f self self2 entryLabel hlabel hfresh h
    obtain ⟨entry2, bodyItems, final, ops, k1, k2, _, k4, k5, _⟩ :=
      visitFunctionDefinition_shape f self self2 h
    rw [hlabel] at k1
    obtain rfl := Option.some.inj k1
    have hcount : ∀ t, List.count (AssemblyItem.Tag t)
        (functionItems f entryLabel self.m_context.usedTags bodyItems ops)
        = if t = entryLabel ∨
            (self.m_context.usedTags ≤ t ∧ t < self2.m_context.usedTags) then 1 else 0 := by
      intro t
      rw [count_tag_functionItems, expectedItems_count_tag f.body _ _ _ _ _ k2 t, k5]
      split_ifs <;> omega
    refine ⟨_, k4, hcount, ?_⟩
    intro t ht
    have hb := pushTag_functionItems _ _ _ _ _ _ ht
    have hrange : self.m_context.usedTags ≤ t ∧ t < self2.m_context.usedTags := by
      rcases expectedItems_pushTag f.body _ _ _ _ _ k2 t hb with k | k | k | k
      · omega
      · omega
      · simp at k
      · simp at k
    refine ⟨hrange.1, hrange.2, ?_⟩
    rw [hcount, if_pos (Or.inr hrange)]
  · intro contract ctx hnd hall
    have hok := appendFunctionSelector_ok contract ctx hnd hall
    have hret : ∀ e ∈ contract.interfaceFunctions,
        ∀ v ∈ e.2.returnParameters, v.type.calldataEncodedSize ≤ 32 :=
      fun e he => (hall e he).2.1
    refine ⟨_, selectorItems ctx contract, hok, rfl, ?_, ?_⟩
    · intro t
      exact (selectorItems_tags ctx contract hret t).1
    · intro t ht
      rcases (selectorItems_tags ctx contract hret t).2 ht with k | ⟨e, he, k⟩
      · left
        refine ⟨k.1, k.2, ?_⟩
        rw [(selectorItems_tags ctx contract hret t).1, if_pos k]
      · right
        obtain ⟨_, _, l, hl⟩ := hall e he
        refine ⟨e, he, ?_⟩
        rw [hl] at k ⊢
        simpa using k
  · intro bases self self2 h
    rw [visitContracts_eq] at h
    exact (visitNeededFunctions_places _ self self2 h).2.2
  · intro bases contracts self self2 k l hlabels hk h
    rw [visitContracts_eq] at h
    have hk2 : (runtimeRegistered bases contracts).getFunctionEntryLabel k = some l := by
      unfold CompilerContext.getFunctionEntryLabel at hk ⊢
      rw [← hlabels]
      exact hk
    obtain ⟨f, hf, hid⟩ := runtimeRegistered_label_origin bases contracts k l hk2
    obtain ⟨l2, hl2, hmem⟩ := (visitNeededFunctions_places _ self self2 h).2.2 f hf
    have : l2 = l := by
      unfold CompilerContext.getFunctionEntryLabel at hl2 hk
      rw [hid, hk] at hl2
      exact (Option.some.inj hl2).symm
    rw [← this]
    exact hmem

end Solidity
namespace Solidity

open Compiler CompilerContext CompilerUtils

/-! ## Stack neutrality of statements -/

/-- C25: with the stack effects that the specification states for the collaborators
(`stackDelta`) and conditions of one stack word, (a) the items that the lowering of a
statement appends leave the stack height where it was: followed in emission order from any
height `base` they end at `base`, and every tag among them is placed, and every jump among
them is taken, at height `base`, so that the height at a tag does not depend on the path
that reaches it; (b) when the lowering of a function returns normally, its items are the
entry label, the zero-pushes, the body, the return tag, the reshuffle instructions and the
final jump; entered at height `1 + A` (return address and arguments), the items from the
zero-pushes up to the placement of the return tag reach the return tag at height
`1 + A + R + L`, every jump to it included, which is the length of the layout vector the
reshuffle loop starts from. -/
theorem statement_stack_neutral :
    (∀ (s : Statement) (self self2 : Compiler),
      conditionsOneWord s = true →
      visitStatement s self = (Except.ok (), self2) →
      ∃ emitted, self2.m_context.items = self.m_context.items ++ emitted ∧
        ∀ base : Int, scanHeights base emitted base = some base) ∧
      (∀ (f : FunctionDefinition) (self self2 : Compiler),
        conditionsOneWord f.body = true →
        visitFunctionDefinition f self = (Except.ok (), self2) →
        ∃ entryLabel bodyItems ops,
          self2.m_context.items = self.m_context.items
            ++ functionItems f entryLabel self.m_context.usedTags bodyItems ops ∧
          functionItems f entryLabel self.m_context.usedTags bodyItems ops
            = [AssemblyItem.Tag entryLabel]
              ++ (zeroPushes f.returnParameters ++ zeroPushes f.localVariables ++ bodyItems
                  ++ [AssemblyItem.Tag self.m_context.usedTags])
              ++ ops.map AssemblyItem.Operation
              ++ [AssemblyItem.Operation Instruction.JUMP] ∧
          scanHeights
              ((1 + getSizeOnStack f.parameters + getSizeOnStack f.returnParameters
                + getSizeOnStack f.localVariables : Nat) : Int)
              (zeroPushes f.returnParameters ++ zeroPushes f.localVariables ++ bodyItems
                ++ [AssemblyItem.Tag self.m_context.usedTags])
              ((1 + getSizeOnStack f.parameters : Nat) : Int)
            = some ((1 + getSizeOnStack f.parameters + getSizeOnStack f.returnParameters
                + getSizeOnStack f.localVariables : Nat) : Int) ∧
          (initialStackLayout (getSizeOnStack f.parameters)
              (getSizeOnStack f.returnParameters) (getSizeOnStack f.localVariables)).length
            = 1 + getSizeOnStack f.parameters + getSizeOnStack f.returnParameters
                + getSizeOnStack f.localVariables) := by
  refine ⟨?_, ?_⟩
  · intro s self self2 hc h
    obtain ⟨items, hitems, rfl⟩ := visitStatement_ok_advance s self self2 h
    exact ⟨items, rfl, expectedItems_scan s _ _ _ _ _ hc hitems⟩
  · intro f self self2 hc h
    obtain ⟨entryLabel, bodyItems, final, ops, _, k2, _, k4, _⟩ :=
      visitFunctionDefinition_shape f self self2 h
    refine ⟨entryLabel, bodyItems, ops, k4, by simp [functionItems], ?_,
      initialStackLayout_length _ _ _⟩
    have hbody := expectedItems_scan f.body _ _ _ _ _ hc k2
      ((1 + getSizeOnStack f.parameters + getSizeOnStack f.returnParameters
        + getSizeOnStack f.localVariables : Nat) : Int)
    have hheight : ((1 + getSizeOnStack f.parameters : Nat) : Int)
        + (getSizeOnStack f.returnParameters : Int) + (getSizeOnStack f.localVariables : Int)
        = ((1 + getSizeOnStack f.parameters + getSizeOnStack f.returnParameters
            + getSizeOnStack f.localVariables : Nat) : Int) := by
      push_cast
      ring
    simp only [scanHeights_append, scanHeights_zeroPushes, Option.some_bind, hheight, hbody]
    simp [scanHeights, stackDelta, isControlItem]

end Solidity
namespace Solidity

open Compiler CompilerContext CompilerUtils

/-! ## Registration in the creation context -/

theorem addOverrides_eq_foldl (bases : List ContractDefinition)
    (needed : List FunctionDefinition) :
    ∀ (fs : List FunctionDefinition) (ctx : CompilerContext),
      addOverrides bases needed fs ctx
        = (overridesRegistered bases needed fs).foldl CompilerContext.addFunction ctx := by
  intro fs
  induction fs with
  | nil => intro ctx; rfl
  | cons fn rest ih =>
    intro ctx
    simp only [addOverrides, overridesRegistered]
    generalize (if (!fn.isConstructor) = true then overrideResolver bases fn.name else none)
      = override
    cases override with
    | none => exact ih _
    | some o =>
      simp only
      split
      · rw [List.foldl_cons]
        exact ih _
      · exact ih _

theorem overridesRegistered_mem (bases : List ContractDefinition)
    (needed : List FunctionDefinition) :
    ∀ (fs : List FunctionDefinition) (o : FunctionDefinition),
      o ∈ overridesRegistered bases needed fs ↔
        ∃ fn ∈ fs, fn.isConstructor = false ∧ overrideResolver bases fn.name = some o ∧
          ∃ g ∈ needed, g.id = o.id := by
  intro fs
  induction fs with
  | nil => intro o; simp [overridesRegistered]
  | cons fn rest ih =>
    intro o
    simp only [overridesRegistered]
    cases hc : fn.isConstructor with
    | true =>
      simp only [Bool.not_true, Bool.false_eq_true, if_false, ih, List.mem_cons]
      constructor
      · rintro ⟨g, hg, h⟩
        exact ⟨g, Or.inr hg, h⟩
      · rintro ⟨g, hg | hg, h1, h2⟩
        · subst hg
          rw [hc] at h1
          cases h1
        · exact ⟨g, hg, h1, h2⟩
    | false =>
      simp only [Bool.not_false, if_true]
      cases hr : overrideResolver bases fn.name with
      | none =>
        simp only [ih, List.mem_cons]
        constructor
        · rintro ⟨g, hg, h⟩
          exact ⟨g, Or.inr hg, h⟩
        · rintro ⟨g, hg | hg, h1, h2, h3⟩
          · subst hg
            rw [hr] at h2
            cases h2
          · exact ⟨g, hg, h1, h2, h3⟩
      | some o2 =>
        simp only
        by_cases hany : needed.any (fun g => g.id == o2.id) = true
        · rw [if_pos hany]
          simp only [List.mem_cons, ih]
          constructor
          · rintro (rfl | ⟨g, hg, h⟩)
            · refine ⟨fn, Or.inl rfl, hc, hr, ?_⟩
              obtain ⟨g, hg, hid⟩ := List.any_eq_true.mp hany
              exact ⟨g, hg, by simpa using hid⟩
            · exact ⟨g, Or.inr hg, h⟩
          · rintro ⟨g, hg | hg, h1, h2, h3⟩
            · subst hg
              rw [hr] at h2
              exact Or.inl (Option.some.inj h2).symm
            · exact Or.inr ⟨g, hg, h1, h2, h3⟩
        · rw [if_neg hany]
          simp only [ih, List.mem_cons]
          constructor
          · rintro ⟨g, hg, h⟩
            exact ⟨g, Or.inr hg, h⟩
          · rintro ⟨g, hg | hg, h1, h2, k, hk, hid⟩
            · subst hg
              rw [hr] at h2
              obtain rfl := Option.some.inj h2
              exact absurd (List.any_eq_true.mpr ⟨k, hk, by simpa using hid⟩) hany
            · exact ⟨g, hg, h1, h2, k, hk, hid⟩

theorem registeredFunctions_ids (bases : List ContractDefinition)
    (needed : List FunctionDefinition) (i : Nat) :
    i ∈ (registeredFunctions bases needed).map (fun f => f.id)
      ↔ i ∈ needed.map (fun f => f.id) := by
  simp only [List.mem_map]
  constructor
  · rintro ⟨o, ho, rfl⟩
    unfold registeredFunctions at ho
    rcases List.mem_append.mp ho with h | h
    · obtain ⟨_, _, _, _, g, hg, hid⟩ := (overridesRegistered_mem bases needed needed o).mp h
      exact ⟨g, hg, hid⟩
    · exact ⟨o, (List.mem_filter.mp h).1, rfl⟩
  · rintro ⟨fn, hfn, rfl⟩
    unfold registeredFunctions
    by_cases hrest : (fn.isConstructor || isNotOwnOverride bases fn) = true
    · exact ⟨fn, List.mem_append.mpr (Or.inr (List.mem_filter.mpr ⟨hfn, hrest⟩)), rfl⟩
    · simp only [Bool.or_eq_true, not_or, Bool.not_eq_true] at hrest
      obtain ⟨hc, hown⟩ := hrest
      unfold isNotOwnOverride at hown
      cases hr : overrideResolver bases fn.name with
      | none => rw [hr] at hown; cases hown
      | some o =>
        rw [hr] at hown
        have hid : o.id = fn.id := by simpa using hown
        refine ⟨o, List.mem_append.mpr (Or.inl ?_), hid⟩
        exact (overridesRegistered_mem bases needed needed o).mpr
          ⟨fn, hfn, hc, hr, fn, hfn, hid.symm⟩

theorem getFunctionEntryLabel_id (ctx : CompilerContext) (f g : FunctionDefinition)
    (h : f.id = g.id) : ctx.getFunctionEntryLabel f = ctx.getFunctionEntryLabel g := by
  unfold CompilerContext.getFunctionEntryLabel
  rw [h]

theorem getFunctionEntryLabel_labels (ctx ctx2 : CompilerContext) (f : FunctionDefinition)
    (h : ctx2.functionEntryLabels = ctx.functionEntryLabels) :
    ctx2.getFunctionEntryLabel f = ctx.getFunctionEntryLabel f := by
  unfold CompilerContext.getFunctionEntryLabel
  rw [h]

theorem appendCalldataUnpackerLoop_labels (fromMemory : Bool) :
    ∀ (params : List VariableDeclaration) (offset : Nat) (ctx : CompilerContext),
      (appendCalldataUnpackerLoop fromMemory params offset ctx).2.functionEntryLabels
        = ctx.functionEntryLabels := by
  intro params
  induction params with
  | nil => intro offset ctx; rfl
  | cons v rest ih =>
    intro offset ctx
    simp only [appendCalldataUnpackerLoop]
    split
    · rfl
    · rw [ih]
      rfl

theorem appendBaseConstructorArguments_labels (parameterTypes : List SolType) :
    ∀ (arguments : List Expression) (i : Nat) (ctx : CompilerContext),
      (appendBaseConstructorArguments parameterTypes arguments i ctx).2.functionEntryLabels
        = ctx.functionEntryLabels := by
  intro arguments
  induction arguments with
  | nil => intro i ctx; rfl
  | cons a rest ih =>
    intro i ctx
    simp only [appendBaseConstructorArguments]
    split
    · rfl
    · rw [ih]
      rfl

theorem appendBaseConstructorCall_labels (constructor : FunctionDefinition)
    (arguments : List Expression) (ctx : CompilerContext) :
    (appendBaseConstructorCall constructor arguments ctx).2.functionEntryLabels
      = ctx.functionEntryLabels := by
  have h := appendBaseConstructorArguments_labels
    (constructor.parameters.map (fun p => p.type)) arguments 0 ctx.pushNewTag.2
  simp only [appendBaseConstructorCall]
  split
  · rename_i e c heq
    rw [heq] at h
    exact h
  · rename_i u c heq
    rw [heq] at h
    split <;> exact h

theorem appendConstructorCall_labels (constructor : FunctionDefinition)
    (ctx : CompilerContext) :
    (appendConstructorCall constructor ctx).2.functionEntryLabels
      = ctx.functionEntryLabels := by
  simp only [appendConstructorCall]
  split
  · rename_i e c heq
    split at heq
    · have h := appendCalldataUnpackerLoop_labels true constructor.parameters dataStartOffset
        ((((ctx.pushNewTag.2.append (AssemblyItem.Push
          (constructor.parameters.foldl
            (fun size var => (size + getPaddedSize var.type.calldataEncodedSize) % 2 ^ 32) 0))).append
          AssemblyItem.PushProgramSize).append (AssemblyItem.Push dataStartOffset)).append
          (AssemblyItem.Operation Instruction.CODECOPY))
      unfold appendCalldataUnpacker at heq
      split at heq
      · rename_i e2 c2 heq2
        rw [heq2] at h
        obtain ⟨_, rfl⟩ := Prod.mk.inj heq
        exact h
      · cases (Prod.mk.inj heq).1
    · cases (Prod.mk.inj heq).1
  · rename_i u c heq
    have hc : c.functionEntryLabels = ctx.functionEntryLabels := by
      split at heq
      · have h := appendCalldataUnpackerLoop_labels true constructor.parameters dataStartOffset
          ((((ctx.pushNewTag.2.append (AssemblyItem.Push
            (constructor.parameters.foldl
              (fun size var => (size + getPaddedSize var.type.calldataEncodedSize) % 2 ^ 32) 0))).append
            AssemblyItem.PushProgramSize).append (AssemblyItem.Push dataStartOffset)).append
            (AssemblyItem.Operation Instruction.CODECOPY))
        unfold appendCalldataUnpacker at heq
        split at heq
        · cases (Prod.mk.inj heq).1
        · rename_i n c2 heq2
          rw [heq2] at h
          obtain ⟨_, rfl⟩ := Prod.mk.inj heq
          exact h
      · obtain ⟨_, rfl⟩ := Prod.mk.inj heq
        rfl
    cases c.getFunctionEntryLabel constructor with
    | none => exact hc
    | some l => exact hc

theorem appendBaseConstructorCalls_labels (bases : List ContractDefinition)
    (baseArguments : List (Nat × List Expression)) :
    ∀ (remaining i : Nat) (ctx : CompilerContext),
      (appendBaseConstructorCalls bases baseArguments remaining i ctx).2.functionEntryLabels
        = ctx.functionEntryLabels := by
  intro remaining
  induction remaining with
  | zero => intro i ctx; rfl
  | succ n ih =>
    intro i ctx
    simp only [appendBaseConstructorCalls]
    split
    · rfl
    · split
      · exact ih _ _
      · split
        · rfl
        · split
          · rename_i e c heq
            have h := congrArg (fun r => r.2.functionEntryLabels) heq
            simp only [appendBaseConstructorCall_labels] at h
            exact h.symm
          · rename_i u c heq
            have h := congrArg (fun r => r.2.functionEntryLabels) heq
            simp only [appendBaseConstructorCall_labels] at h
            rw [ih]
            exact h.symm

theorem appendConstructorCalls_labels (contract : ContractDefinition)
    (bases : List ContractDefinition) (baseArguments : List (Nat × List Expression))
    (ctx : CompilerContext) :
    (appendConstructorCalls contract bases baseArguments ctx).2.functionEntryLabels
      = ctx.functionEntryLabels := by
  have h := appendBaseConstructorCalls_labels bases baseArguments (bases.length - 1) 1 ctx
  simp only [appendConstructorCalls]
  split
  · rename_i e c heq
    rw [heq] at h
    exact h
  · rename_i u c heq
    rw [heq] at h
    cases contract.getConstructor with
    | none => exact h
    | some k =>
      simp only
      rw [appendConstructorCall_labels, h]

/-- C26: for every linearization, every list `needed` of functions and every context,
(a) the two registration loops of `packIntoContractCreator` call `addFunction` for the
functions of `registeredFunctions`, and the identities of these functions are exactly the
identities of the functions of `needed`; (b) after the two loops every function of
`needed` has an entry label, and a function whose identity is not among those of `needed`
has the label it had before, none if it had none; (c) when `packIntoContractCreator`
returns normally, the label table of the creation context is still the one the two loops
left, and for every function that the call graph returned the entry label is placed in
the creation context. -/
theorem creation_registration_exact (bases : List ContractDefinition) :
    (∀ (needed : List FunctionDefinition) (ctx : CompilerContext),
      addRest bases needed (addOverrides bases needed needed ctx)
          = (registeredFunctions bases needed).foldl CompilerContext.addFunction ctx ∧
        (∀ i, i ∈ (registeredFunctions bases needed).map (fun f => f.id)
          ↔ i ∈ needed.map (fun f => f.id)) ∧
        (∀ fn ∈ needed, ∃ l,
          (addRest bases needed (addOverrides bases needed needed ctx)).getFunctionEntryLabel fn
            = some l) ∧
        (∀ k : FunctionDefinition, (∀ fn ∈ needed, fn.id ≠ k.id) →
          (addRest bases needed (addOverrides bases needed needed ctx)).getFunctionEntryLabel k
            = ctx.getFunctionEntryLabel k)) ∧
      (∀ (callGraph : List ASTNode → (String → Option FunctionDefinition) →
            List FunctionDefinition)
          (contract : ContractDefinition) (runtimeContext : CompilerContext)
          (self final : Compiler) (captured : CreatorState),
        captureBaseArguments bases {} = Except.ok captured →
        packIntoContractCreator callGraph contract bases runtimeContext self
          = (Except.ok (), final) →
        final.m_context.functionEntryLabels
          = (addRest bases
              (getFunctionsCalled callGraph captured.nodesUsedInConstructors
                (overrideResolver bases))
              (addOverrides bases
                (getFunctionsCalled callGraph captured.nodesUsedInConstructors
                  (overrideResolver bases))
                (getFunctionsCalled callGraph captured.nodesUsedInConstructors
                  (overrideResolver bases)) self.m_context)).functionEntryLabels ∧
        ∀ fn ∈ getFunctionsCalled callGraph captured.nodesUsedInConstructors
            (overrideResolver bases),
          ∃ l, final.m_context.getFunctionEntryLabel fn = some l ∧
            AssemblyItem.Tag l ∈ final.m_context.items) := by
  refine ⟨?_, ?_⟩
  · intro needed ctx
    have heq : addRest bases needed (addOverrides bases needed needed ctx)
        = (registeredFunctions bases needed).foldl CompilerContext.addFunction ctx := by
      rw [addRest_eq_foldl, addOverrides_eq_foldl, registeredFunctions, List.foldl_append]
    obtain ⟨_, h2, h3⟩ := foldl_addFunction_labels (registeredFunctions bases needed) ctx
    refine ⟨heq, registeredFunctions_ids bases needed, ?_, ?_⟩
    · intro fn hfn
      have hid : fn.id ∈ (registeredFunctions bases needed).map (fun f => f.id) :=
        (registeredFunctions_ids bases needed fn.id).mpr (List.mem_map.mpr ⟨fn, hfn, rfl⟩)
      obtain ⟨o, ho, hoid⟩ := List.mem_map.mp hid
      obtain ⟨l, hl⟩ := h2 o ho
      refine ⟨l, ?_⟩
      rw [heq, ← getFunctionEntryLabel_id _ o fn hoid]
      exact hl
    · intro k hk
      rw [heq]
      apply h3
      intro o ho hoid
      have hid : o.id ∈ needed.map (fun f => f.id) :=
        (registeredFunctions_ids bases needed o.id).mp (List.mem_map.mpr ⟨o, ho, rfl⟩)
      obtain ⟨fn, hfn, hfnid⟩ := List.mem_map.mp hid
      exact hk fn hfn (by simpa using hfnid.trans hoid)
  · intro callGraph contract runtimeContext self final captured hcap h
    unfold packIntoContractCreator at h
    rw [hcap] at h
    simp only at h
    split at h
    · cases (Prod.mk.inj h).1
    · rename_i u ctx3 heq
      have hl3 := congrArg (fun r => r.2.functionEntryLabels) heq
      simp only [appendConstructorCalls_labels] at hl3
      obtain ⟨j1, _, j3⟩ := visitNeededFunctions_places _ _ final h
      have hfinal : final.m_context.functionEntryLabels = ctx3.functionEntryLabels := j1
      refine ⟨hfinal.trans hl3.symm, ?_⟩
      intro fn hfn
      obtain ⟨l, hl, hmem⟩ := j3 fn hfn
      refine ⟨l, ?_, hmem⟩
      rw [getFunctionEntryLabel_labels _ _ fn j1]
      exact hl

end Solidity
namespace Solidity

open Compiler CompilerContext CompilerUtils

/-- Instance of C23 for the base-constructor call `A(e1)`: the entry label of the
constructor of `A` is registered, and the one argument matches the one parameter. -/
theorem baseConstructorCall_convention_witness :
    exampleBaseCallContext.getFunctionEntryLabel exampleConstructorA = some 0 ∧
      [({ id := 41, type := exampleUint } : Expression)].length
        ≤ exampleConstructorA.parameters.length ∧
      appendBaseConstructorCall exampleConstructorA [{ id := 41, type := exampleUint }]
          exampleBaseCallContext =
        (Except.ok (),
          { exampleBaseCallContext with
            items := exampleBaseCallContext.items ++ ([AssemblyItem.PushTag 1]
              ++ baseArgumentItems exampleConstructorA.parameters
                  [{ id := 41, type := exampleUint }]
              ++ [AssemblyItem.PushTag 0, AssemblyItem.Operation Instruction.JUMP,
                  AssemblyItem.Tag 1])
            usedTags := 2 }) :=
  ⟨by decide, by decide,
    (baseConstructorCall_convention exampleConstructorA [{ id := 41, type := exampleUint }]
      exampleBaseCallContext 0 (by decide) (by decide)).1⟩

end Solidity

namespace Solidity

open Compiler CompilerContext CompilerUtils

/-- Instance of C27 for the linearization `[E, A]`, where no specifier names `A` and `A`
has a constructor: every specifier (there is none) resolves, and from the empty context
the constructor-chain loop ends in an internal error. -/
theorem baseArguments_assertion_witness :
    (∀ c ∈ [exampleUnnamed, exampleA], ∀ s ∈ c.baseContracts, s.referencedContract ≠ none) ∧
      ∃ st, captureBaseArguments [exampleUnnamed, exampleA] {} = Except.ok st ∧
        appendBaseConstructorCalls [exampleUnnamed, exampleA] st.baseArguments 1 1 {}
          = (Except.error CompilerException.InternalCompilerError, {}) :=
  ⟨by decide, by
    obtain ⟨st, hst, _, _, h⟩ := baseArguments_assertion exampleUnnamed [exampleA] (by decide)
    exact ⟨st, hst,
      (h exampleA (by decide) (by decide) (by decide)).2.1 0 1 {} (by decide)⟩⟩

end Solidity
namespace Solidity

open Compiler CompilerContext CompilerUtils

/-- Instance of C22 for the function `m`, whose entry label is 0 and whose return tag is
1: the visitor reaches the `return` after the loop, and the `return` appends the
expression code, the conversion, the move and the jump to tag 1. -/
theorem return_lowering_witness :
    exampleLoopCompiler.m_context.getFunctionEntryLabel exampleLoopFunction = some 0 ∧
      0 < exampleLoopCompiler.m_context.usedTags ∧
      visitStatement
          (Statement.Return (some { id := 92, type := exampleUint })
            [exampleDecl 91 exampleUint]) exampleAtReturn
        = (Except.ok (),
            advance exampleAtReturn
              [AssemblyItem.CompileExpression { id := 92, type := exampleUint },
               AssemblyItem.TypeConversion exampleUint exampleUint false,
               AssemblyItem.MoveToStackVariable (exampleDecl 91 exampleUint),
               AssemblyItem.PushTag 1, AssemblyItem.Operation Instruction.JUMP] 0) :=
  ⟨by decide, by decide,
    (return_lowering exampleLoopFunction exampleLoopCompiler 0 (by decide) (by decide)).1
      [] exampleAtReturn { id := 92, type := exampleUint } [exampleDecl 91 exampleUint]
      (exampleDecl 91 exampleUint)
      (Visits.block [Statement.WhileStatement exampleCondition exampleLoopBody]
        (Statement.Return (some { id := 92, type := exampleUint })
          [exampleDecl 91 exampleUint]) [] _ _ _ _ _ rfl (Visits.here _ _))
      rfl⟩

/-- Instance of C24 for the function `m`, lowered in a context where its entry label is
0: the lowering returns normally, and the items appended place the tags 0 to 3 once each
and push only the tags 1 to 3. -/
theorem tag_discipline_witness :
    (visitFunctionDefinition exampleLoopFunction exampleLoopCompiler).1 = Except.ok () ∧
      ∃ emitted,
        (visitFunctionDefinition exampleLoopFunction exampleLoopCompiler).2.m_context.items
          = exampleLoopCompiler.m_context.items ++ emitted ∧
        (∀ t, List.count (AssemblyItem.Tag t) emitted
          = if t = 0 ∨ (1 ≤ t ∧ t < 4) then 1 else 0) ∧
        (∀ t, AssemblyItem.PushTag t ∈ emitted →
          1 ≤ t ∧ t < 4 ∧ List.count (AssemblyItem.Tag t) emitted = 1) :=
  ⟨rfl, tag_discipline.1 exampleLoopFunction exampleLoopCompiler
    (visitFunctionDefinition exampleLoopFunction exampleLoopCompiler).2 0 rfl (by decide) rfl⟩

/-- Instance of C25 for the function `m`, whose conditions occupy one word: the lowering
returns normally, and the return tag is reached at height 2 (return address and one return
value). -/
theorem statement_stack_neutral_witness :
    conditionsOneWord exampleLoopFunction.body = true ∧
      (visitFunctionDefinition exampleLoopFunction exampleLoopCompiler).1 = Except.ok () ∧
      ∃ bodyItems,
        scanHeights 2
            (zeroPushes exampleLoopFunction.returnParameters
              ++ zeroPushes exampleLoopFunction.localVariables ++ bodyItems
              ++ [AssemblyItem.Tag 1]) 1
          = some 2 :=
  ⟨rfl, rfl, by
    obtain ⟨_, bodyItems, _, _, _, h, _⟩ :=
      statement_stack_neutral.2 exampleLoopFunction exampleLoopCompiler
        (visitFunctionDefinition exampleLoopFunction exampleLoopCompiler).2 rfl rfl
    exact ⟨bodyItems, h⟩⟩

/-- Instance of C26 for `D is B` where both contracts define `f()` and the call graph
returns both definitions: `packIntoContractCreator` returns normally and the entry labels
of both are placed in the creation context. -/
theorem creation_registration_exact_witness :
    (packIntoContractCreator exampleCallGraphOverride
        { id := 60, definedFunctions := [exampleDerivedF],
          baseContracts := [{ referencedContract := some 63, arguments := [] }],
          stateVariables := [], interfaceFunctions := [] }
        exampleOverrideBases {} {}).1 = Except.ok () ∧
      ∀ fn ∈ [exampleDerivedF, exampleBaseF],
        ∃ l, (packIntoContractCreator exampleCallGraphOverride
            { id := 60, definedFunctions := [exampleDerivedF],
              baseContracts := [{ referencedContract := some 63, arguments := [] }],
              stateVariables := [], interfaceFunctions := [] }
            exampleOverrideBases {} {}).2.m_context.getFunctionEntryLabel fn = some l ∧
          AssemblyItem.Tag l ∈ (packIntoContractCreator exampleCallGraphOverride
            { id := 60, definedFunctions := [exampleDerivedF],
              baseContracts := [{ referencedContract := some 63, arguments := [] }],
              stateVariables := [], interfaceFunctions := [] }
            exampleOverrideBases {} {}).2.m_context.items :=
  ⟨rfl, ((creation_registration_exact exampleOverrideBases).2 exampleCallGraphOverride
    { id := 60, definedFunctions := [exampleDerivedF],
      baseContracts := [{ referencedContract := some 63, arguments := [] }],
      stateVariables := [], interfaceFunctions := [] }
    {} {} _ { baseArguments := [(63, [])], nodesUsedInConstructors := [] } rfl rfl).2⟩

end Solidity

namespace Solidity

open Compiler CompilerContext CompilerUtils

/-! ## The items of the constructor calls -/

theorem callsItems_labels (ctx ctx2 : CompilerContext)
    (h : ctx2.functionEntryLabels = ctx.functionEntryLabels) :
    ∀ (calls : List ConstructorCall) (u : Nat),
      callsItems ctx2 calls u = callsItems ctx calls u := by
  intro calls
  induction calls with
  | nil => intro u; rfl
  | cons call rest ih =>
    intro u
    simp only [callsItems, getFunctionEntryLabel_labels ctx ctx2 _ h, ih]

theorem callEmittable_labels (ctx ctx2 : CompilerContext)
    (h : ctx2.functionEntryLabels = ctx.functionEntryLabels) (call : ConstructorCall) :
    callEmittable ctx2 call = callEmittable ctx call := by
  cases call with
  | base k a =>
    cases a <;> simp only [callEmittable, getFunctionEntryLabel_labels ctx ctx2 _ h]
  | mostDerived k => simp only [callEmittable, getFunctionEntryLabel_labels ctx ctx2 _ h]

/-- Constructor calls that can all be emitted are emitted one after the other: the items
of `callsItems` are appended and one tag is allocated per call. -/
theorem emitCalls_items :
    ∀ (calls : List ConstructorCall) (ctx : CompilerContext),
      (∀ call ∈ calls, callEmittable ctx call = true) →
      emitCalls calls ctx =
        (Except.ok (),
          { ctx with
            items := ctx.items ++ callsItems ctx calls ctx.usedTags
            usedTags := ctx.usedTags + calls.length }) := by
  intro calls
  induction calls with
  | nil => intro ctx _; simp [emitCalls, callsItems]
  | cons call rest ih =>
    intro ctx hall
    have hcall := hall call (List.mem_cons_self _ _)
    have hstep : ∃ entry, ctx.getFunctionEntryLabel call.callee = some entry ∧
        emitCall call ctx =
          (Except.ok (),
            { ctx with
              items := ctx.items ++ callItems ctx.usedTags entry call
              usedTags := ctx.usedTags + 1 }) := by
      cases call with
      | base k a =>
        cases a with
        | none => simp [callEmittable] at hcall
        | some args =>
          simp only [callEmittable, Bool.and_eq_true, decide_eq_true_eq] at hcall
          obtain ⟨entry, hentry⟩ := Option.isSome_iff_exists.mp hcall.1
          exact ⟨entry, hentry, appendBaseConstructorCall_ok k args ctx entry hentry hcall.2⟩
      | mostDerived k =>
        simp only [callEmittable, Bool.and_eq_true, List.all_eq_true,
          decide_eq_true_eq] at hcall
        obtain ⟨entry, hentry⟩ := Option.isSome_iff_exists.mp hcall.1
        exact ⟨entry, hentry, appendConstructorCall_ok k ctx entry hcall.2 hentry⟩
    obtain ⟨entry, hentry, hemit⟩ := hstep
    have hl : ({ ctx with
        items := ctx.items ++ callItems ctx.usedTags entry call
        usedTags := ctx.usedTags + 1 } : CompilerContext).functionEntryLabels
        = ctx.functionEntryLabels := rfl
    simp only [emitCalls, hemit]
    rw [ih _ (fun c hc => by
      rw [callEmittable_labels ctx _ hl]
      exact hall c (List.mem_cons_of_mem _ hc))]
    simp only [callsItems, callsItems_labels ctx _ hl, hentry, Option.getD_some,
      List.length_cons, List.append_assoc]
    have : ctx.usedTags + 1 + rest.length = ctx.usedTags + (rest.length + 1) := by omega
    rw [this]

/-- C4: for every linearization `c0 :: inherited`, every recorded `baseArguments` and
every context, the constructor-call part of `packIntoContractCreator` makes exactly the
calls of `expectedConstructorCalls`, one after the other and stopping at the first
exception: the constructors of the inherited contracts that exist, deepest base first,
each with the arguments recorded for its contract, and last the constructor of `c0` if it
exists.  Each contract of the linearization contributes at most one call, so no
constructor is called twice when the constructors of the linearized contracts are
distinct nodes.  When every call can be emitted (entry label registered, arguments
recorded and not more than the parameters, parameters of the most-derived constructor
within the size limit), the code returns normally and the items appended to the context
are exactly the call sequences of these calls in this order, the `i`-th with the `i`-th
tag allocated as its return tag: push of the return tag, the arguments, jump to the entry
label of the constructor, placement of the return tag. -/
theorem constructor_calls_base_to_derived (c0 : ContractDefinition)
    (inherited : List ContractDefinition) (baseArguments : List (Nat × List Expression))
    (ctx : CompilerContext) :
    appendConstructorCalls c0 (c0 :: inherited) baseArguments ctx
        = emitCalls (expectedConstructorCalls c0 inherited baseArguments) ctx ∧
      (expectedConstructorCalls c0 inherited baseArguments).map ConstructorCall.callee
        = inherited.reverse.filterMap (fun c => c.getConstructor) ++ c0.getConstructor.toList ∧
      (((c0 :: inherited).filterMap (fun c => c.getConstructor)).Nodup →
        ((expectedConstructorCalls c0 inherited baseArguments).map
          ConstructorCall.callee).Nodup) ∧
      ((∀ call ∈ expectedConstructorCalls c0 inherited baseArguments,
          callEmittable ctx call = true) →
        appendConstructorCalls c0 (c0 :: inherited) baseArguments ctx =
          (Except.ok (),
            { ctx with
              items := ctx.items
                ++ callsItems ctx (expectedConstructorCalls c0 inherited baseArguments)
                    ctx.usedTags
              usedTags := ctx.usedTags
                + (expectedConstructorCalls c0 inherited baseArguments).length })) := by
  refine ⟨appendConstructorCalls_eq_emitCalls c0 inherited baseArguments ctx,
    expectedConstructorCalls_callees c0 inherited baseArguments,
    expectedConstructorCalls_nodup c0 inherited baseArguments, ?_⟩
  intro hall
  rw [appendConstructorCalls_eq_emitCalls]
  exact emitCalls_items _ ctx hall

/-- Instance of C4 for the linearization `[C, B, A]` where `C is B, A(e2)`, with the
captured base arguments, in a context where the constructors of `A` and `C` have the
entry labels 0 and 1: both calls can be emitted, and the items emitted are the call of the
constructor of `A` with the argument `e2`, return tag 2, followed by the call of the
constructor of `C`, return tag 3. -/
theorem constructor_calls_base_to_derived_witness :
    (∀ call ∈ expectedConstructorCalls exampleC [exampleB, exampleA]
        exampleCaptured.baseArguments, callEmittable exampleCreationContext call = true) ∧
      appendConstructorCalls exampleC [exampleC, exampleB, exampleA]
          exampleCaptured.baseArguments exampleCreationContext =
        (Except.ok (),
          { exampleCreationContext with
            items :=
              [AssemblyItem.PushTag 2,
               AssemblyItem.CompileExpression { id := 42, type := exampleUint },
               AssemblyItem.TypeConversion exampleUint exampleUint false,
               AssemblyItem.PushTag 0, AssemblyItem.Operation Instruction.JUMP,
               AssemblyItem.Tag 2,
               AssemblyItem.PushTag 3,
               AssemblyItem.PushTag 1, AssemblyItem.Operation Instruction.JUMP,
               AssemblyItem.Tag 3]
            usedTags := 4 }) :=
  ⟨by decide,
    (constructor_calls_base_to_derived exampleC [exampleB, exampleA]
      exampleCaptured.baseArguments exampleCreationContext).2.2.2 (by decide)⟩

end Solidity

namespace Solidity

open Compiler CompilerContext CompilerUtils

/-! ## The runtime items of `compileContract` -/

theorem appendSelectorChain_labels :
    ∀ (fs : List (Nat × FunctionDefinition)) (entryPoints : List (Nat × Nat))
      (ctx : CompilerContext),
      (appendSelectorChain fs entryPoints ctx).2.functionEntryLabels
        = ctx.functionEntryLabels := by
  intro fs
  induction fs with
  | nil => intro entryPoints ctx; rfl
  | cons f rest ih =>
    intro entryPoints ctx
    simp only [appendSelectorChain]
    rw [ih]
    rfl

theorem appendReturnValuePackerLoop_labels :
    ∀ (params : List VariableDeclaration) (offset depth : Nat) (ctx : CompilerContext),
      (appendReturnValuePackerLoop params offset depth ctx).2.functionEntryLabels
        = ctx.functionEntryLabels := by
  intro params
  induction params with
  | nil => intro offset depth ctx; rfl
  | cons v rest ih =>
    intro offset depth ctx
    simp only [appendReturnValuePackerLoop]
    split
    · rfl
    · rw [ih]
      rfl

theorem appendReturnValuePacker_labels (f : FunctionDefinition) (ctx : CompilerContext) :
    (appendReturnValuePacker f ctx).2.functionEntryLabels = ctx.functionEntryLabels := by
  have h := appendReturnValuePackerLoop_labels f.returnParameters 0
    (getSizeOnStack f.returnParameters) ctx
  simp only [appendReturnValuePacker]
  split
  · rename_i e c heq
    rw [heq] at h
    exact h
  · rename_i offset c heq
    rw [heq] at h
    exact h

theorem appendSelectorLandings_labels (entryPoints : List (Nat × Nat)) :
    ∀ (fs : List (Nat × FunctionDefinition)) (ctx : CompilerContext),
      (appendSelectorLandings entryPoints fs ctx).2.functionEntryLabels
        = ctx.functionEntryLabels := by
  intro fs
  induction fs with
  | nil => intro ctx; rfl
  | cons f rest ih =>
    intro ctx
    have hu := appendCalldataUnpackerLoop_labels false f.2.parameters dataStartOffset
      (ctx.append (AssemblyItem.Tag (entryPointAt entryPoints f.1))).pushNewTag.2
    simp only [appendSelectorLandings, appendCalldataUnpacker]
    split
    · rename_i e c heq
      rw [heq] at hu
      exact hu
    · rename_i offset c heq
      rw [heq] at hu
      split
      · exact hu
      · rename_i entryLabel hlabel
        have hp := appendReturnValuePacker_labels f.2
          ((c.appendJumpTo entryLabel).append
            (AssemblyItem.Tag
              (ctx.append (AssemblyItem.Tag (entryPointAt entryPoints f.1))).pushNewTag.1))
        split
        · rename_i e2 c2 heq2
          rw [heq2] at hp
          exact hp.trans hu
        · rename_i u2 c2 heq2
          rw [heq2] at hp
          rw [ih]
          exact hp.trans hu

/-- The function selector leaves the entry labels as they are. -/
theorem appendFunctionSelector_labels (contract : ContractDefinition)
    (ctx : CompilerContext) :
    (appendFunctionSelector contract ctx).2.functionEntryLabels
      = ctx.functionEntryLabels := by
  simp only [appendFunctionSelector]
  rw [appendSelectorLandings_labels]
  show (appendSelectorChain _ _ _).2.functionEntryLabels = _
  rw [appendSelectorChain_labels]
  rfl

theorem loweredFunctionsItems_labels (ctx ctx2 : CompilerContext)
    (h : ctx2.functionEntryLabels = ctx.functionEntryLabels) :
    ∀ (fs : List FunctionDefinition) (u : Nat),
      loweredFunctionsItems ctx2 fs u = loweredFunctionsItems ctx fs u := by
  intro fs
  induction fs with
  | nil => intro u; rfl
  | cons f rest ih =>
    intro u
    simp only [loweredFunctionsItems, loweredFunctionItems,
      getFunctionEntryLabel_labels ctx ctx2 _ h, ih]

/-- An exception of `visit(FunctionDefinition)` is an internal error. -/
theorem visitFunctionDefinition_error (f : FunctionDefinition) (self self2 : Compiler)
    (e : CompilerException) (h : visitFunctionDefinition f self = (Except.error e, self2)) :
    e = CompilerException.InternalCompilerError := by
  rw [visitFunctionDefinition_eq] at h
  split at h
  · cases (Prod.mk.inj h).1
    rfl
  · rename_i entryLabel hl
    have href := visitStatement_refines f.body (functionBodyState f entryLabel self)
    split at h
    · rename_i e2 s2 heq
      cases (Prod.mk.inj h).1
      rw [heq] at href
      unfold Refines at href
      split at href
      · cases (Prod.mk.inj href).1
      · simp only at href
        cases href
        rfl
    · split at h
      · cases (Prod.mk.inj h).1
        rfl
      · cases (Prod.mk.inj h).1

/-- An exception of the loop over the needed functions is an internal error. -/
theorem visitNeededFunctions_error :
    ∀ (fs : List FunctionDefinition) (self self2 : Compiler) (e : CompilerException),
      visitNeededFunctions fs self = (Except.error e, self2) →
      e = CompilerException.InternalCompilerError := by
  intro fs
  induction fs with
  | nil =>
    intro self self2 e h
    simp only [visitNeededFunctions] at h
    cases (Prod.mk.inj h).1
  | cons f rest ih =>
    intro self self2 e h
    simp only [visitNeededFunctions] at h
    split at h
    · rename_i e2 s1 heq
      cases (Prod.mk.inj h).1
      exact visitFunctionDefinition_error f self s1 _ heq
    · exact ih _ _ _ h

/-- The lowering of one function: when the function has an item sequence, the lowering
returns normally and appends it; otherwise it ends in an internal error. -/
theorem visitFunctionDefinition_items (f : FunctionDefinition) (self : Compiler) :
    match loweredFunctionItems self.m_context f self.m_context.usedTags with
    | some items =>
      ∃ self2, visitFunctionDefinition f self = (Except.ok (), self2) ∧
        self2.m_context.items = self.m_context.items ++ items ∧
        self2.m_context.usedTags = self.m_context.usedTags + 1 + tagCount f.body ∧
        self2.m_context.functionEntryLabels = self.m_context.functionEntryLabels ∧
        self2.m_runtimeContext = self.m_runtimeContext
    | none =>
      ∃ self2, visitFunctionDefinition f self
        = (Except.error CompilerException.InternalCompilerError, self2) := by
  cases hitems : loweredFunctionItems self.m_context f self.m_context.usedTags with
  | some items =>
    simp only
    unfold loweredFunctionItems at hitems
    split at hitems
    · rename_i entryLabel bodyItems ops hl hb hr
      obtain ⟨final, ops2, self2, k1, k2, _, k4, k5, k6, _, k8, _⟩ :=
        visitFunctionDefinition_ok f self entryLabel bodyItems hl hb
      have hops : ops2 = ops := by
        unfold reshuffleInstructions at hr
        rw [k1] at hr
        simpa using hr
      subst hops
      cases hitems
      exact ⟨self2, k2, k4, k5, k6, k8⟩
    · cases hitems
  | none =>
    simp only
    rcases hv : visitFunctionDefinition f self with ⟨r, self2⟩
    cases r with
    | error e =>
      have := visitFunctionDefinition_error f self self2 e hv
      subst this
      exact ⟨self2, rfl⟩
    | ok u =>
      obtain ⟨entryLabel, bodyItems, final, ops, k1, k2, k3, _⟩ :=
        visitFunctionDefinition_shape f self self2 hv
      simp [loweredFunctionItems, k1, k2, reshuffleInstructions, k3] at hitems

/-- The lowering of a list of functions: when every function has an item sequence, the
loop returns normally and appends the sequences one after the other, in list order;
otherwise it ends in an internal error. -/
theorem visitNeededFunctions_items :
    ∀ (fs : List FunctionDefinition) (self : Compiler),
      match loweredFunctionsItems self.m_context fs self.m_context.usedTags with
      | some items =>
        ∃ self2, visitNeededFunctions fs self = (Except.ok (), self2) ∧
          self2.m_context.items = self.m_context.items ++ items ∧
          self2.m_context.functionEntryLabels = self.m_context.functionEntryLabels ∧
          self2.m_runtimeContext = self.m_runtimeContext
      | none =>
        ∃ self2, visitNeededFunctions fs self
          = (Except.error CompilerException.InternalCompilerError, self2) := by
  intro fs
  induction fs with
  | nil =>
    intro self
    simp only [loweredFunctionsItems, visitNeededFunctions]
    exact ⟨self, rfl, by simp, rfl, rfl⟩
  | cons f rest ih =>
    intro self
    have hf := visitFunctionDefinition_items f self
    simp only [loweredFunctionsItems, visitNeededFunctions]
    cases hitems : loweredFunctionItems self.m_context f self.m_context.usedTags with
    | none =>
      rw [hitems] at hf
      obtain ⟨self2, h2⟩ := hf
      simp only [h2]
      exact ⟨self2, rfl⟩
    | some items =>
      rw [hitems] at hf
      obtain ⟨self1, h1, k1, k2, k3, k4⟩ := hf
      have hrest := ih self1
      rw [loweredFunctionsItems_labels self.m_context self1.m_context k3, k2] at hrest
      simp only [h1]
      cases hr : loweredFunctionsItems self.m_context rest
          (self.m_context.usedTags + 1 + tagCount f.body) with
      | none =>
        rw [hr] at hrest
        exact hrest
      | some restItems =>
        rw [hr] at hrest
        obtain ⟨self2, j1, j2, j3, j4⟩ := hrest
        exact ⟨self2, j1, by rw [j2, k1, List.append_assoc], j3.trans k3, j4.trans k4⟩

/-- The creation phase leaves the runtime context of the object as it is. -/
theorem packIntoContractCreator_runtimeContext
    (callGraph : List ASTNode → (String → Option FunctionDefinition) → List FunctionDefinition)
    (contract : ContractDefinition) (bases : List ContractDefinition)
    (runtimeContext : CompilerContext) (self : Compiler) :
    (packIntoContractCreator callGraph contract bases runtimeContext self).2.m_runtimeContext
      = self.m_runtimeContext := by
  unfold packIntoContractCreator
  split
  · rfl
  · simp only
    split
    · rfl
    · rename_i u ctx3 heq
      exact (visitNeededFunctions_frame _ _ _ _ rfl).2.2.1

/-- C15: for every contract, `compileContract` first registers, on a default-constructed
context that holds no items, every non-constructor function defined in a contract of the
linearization (`runtimeFunctions`, in linearization order then definition order): each of
them has an entry label when the function selector is emitted, and a function whose
identity is not among them, a constructor in particular, has none.  It then emits the
function selector and lowers the same functions one after the other in that order; an
exception of the selector or of a function propagates, and the creation phase follows on
the swapped contexts.  When the selector has returned normally, the items that follow
those of the selector in the runtime context are exactly the item sequences of the
functions of `runtimeFunctions`, each once, in that order, each with the entry label
registered for it before the selector was emitted and with the tags that follow those of
the function before it, and nothing else; if one of them has no item sequence,
`compileContract` ends in an internal error. -/
theorem runtime_phase_registers_then_lowers
    (callGraph : List ASTNode → (String → Option FunctionDefinition) → List FunctionDefinition)
    (contract : ContractDefinition) (bases : List ContractDefinition)
    (contracts : List (Nat × List Nat)) (self : Compiler) :
    runtimeRegistered bases contracts
        = (runtimeFunctions bases).foldl CompilerContext.addFunction
            (registerStateVariables bases
              (({} : CompilerContext).setCompiledContracts contracts)) ∧
      (runtimeRegistered bases contracts).items = [] ∧
      (∀ f ∈ runtimeFunctions bases, f.isConstructor = false ∧
        ∃ l, (runtimeRegistered bases contracts).getFunctionEntryLabel f = some l) ∧
      (∀ k : FunctionDefinition, (∀ f ∈ runtimeFunctions bases, f.id ≠ k.id) →
        (runtimeRegistered bases contracts).getFunctionEntryLabel k = none) ∧
      compileContract callGraph contract bases contracts self =
        (match appendFunctionSelector contract (runtimeRegistered bases contracts) with
        | (Except.error e, ctx) => (Except.error e, { self with m_context := ctx })
        | (Except.ok _, ctx) =>
          match visitNeededFunctions (runtimeFunctions bases)
              { self with m_context := ctx } with
          | (Except.error e, self4) => (Except.error e, self4)
          | (Except.ok _, self4) =>
            packIntoContractCreator callGraph contract bases self4.m_context
              (initializeContext bases contracts
                { self4 with
                  m_context := self4.m_runtimeContext
                  m_runtimeContext := self4.m_context })) ∧
      (∀ ctx : CompilerContext,
        appendFunctionSelector contract (runtimeRegistered bases contracts)
            = (Except.ok (), ctx) →
          match loweredFunctionsItems (runtimeRegistered bases contracts)
              (runtimeFunctions bases) ctx.usedTags with
          | some items =>
            (compileContract callGraph contract bases contracts self).2.m_runtimeContext.items
              = ctx.items ++ items
          | none =>
            ∃ final, compileContract callGraph contract bases contracts self
              = (Except.error CompilerException.InternalCompilerError, final)) := by
  obtain ⟨h1, h2, h3, h4, h5⟩ :=
    runtime_phase_registration callGraph contract bases contracts self
  refine ⟨h1, h2, h3, h4, h5, ?_⟩
  intro ctx hsel
  have hlabels : ctx.functionEntryLabels
      = (runtimeRegistered bases contracts).functionEntryLabels := by
    have := appendFunctionSelector_labels contract (runtimeRegistered bases contracts)
    rw [hsel] at this
    exact this
  have hlower := visitNeededFunctions_items (runtimeFunctions bases)
    { self with m_context := ctx }
  simp only at hlower
  rw [loweredFunctionsItems_labels (runtimeRegistered bases contracts) ctx hlabels] at hlower
  rw [h5, hsel]
  simp only
  cases hitems : loweredFunctionsItems (runtimeRegistered bases contracts)
      (runtimeFunctions bases) ctx.usedTags with
  | none =>
    rw [hitems] at hlower
    obtain ⟨final, hfinal⟩ := hlower
    simp only [hfinal]
    exact ⟨final, rfl⟩
  | some items =>
    rw [hitems] at hlower
    obtain ⟨self4, k1, k2, _, _⟩ := hlower
    simp only [k1]
    rw [packIntoContractCreator_runtimeContext]
    exact k2

/-- Instance of C15 for the contract `R` with the constructor `R()`, the function `m`
with a `while` loop and the function `n`: the runtime functions are `m` and `n`, the
selector returns normally, `compileContract` returns normally, and the runtime context
holds the four items of the selector followed by the items of `m` (entry label 0, return
tag 2, loop tags 3 and 4) and then the items of `n` (entry label 1, return tag 5). -/
theorem runtime_phase_registers_then_lowers_witness :
    runtimeFunctions [exampleRuntimeContract] = [exampleLoopFunction, exampleStepFunction] ∧
      (compileContract exampleCallGraphConstructor exampleRuntimeContract
        [exampleRuntimeContract] [] (Compiler.construct false)).1 = Except.ok () ∧
      (appendFunctionSelector exampleRuntimeContract
          (runtimeRegistered [exampleRuntimeContract] [])).2.items
        = [AssemblyItem.Push 1, AssemblyItem.Push 0,
           AssemblyItem.LoadFromMemory 0 4 false true true,
           AssemblyItem.Operation Instruction.STOP] ∧
      (compileContract exampleCallGraphConstructor exampleRuntimeContract
        [exampleRuntimeContract] [] (Compiler.construct false)).2.m_runtimeContext.items
        = [AssemblyItem.Push 1, AssemblyItem.Push 0,
           AssemblyItem.LoadFromMemory 0 4 false true true,
           AssemblyItem.Operation Instruction.STOP]
          ++ [AssemblyItem.Tag 0, AssemblyItem.Push 0,
              AssemblyItem.Tag 3, AssemblyItem.CompileExpression exampleCondition,
              AssemblyItem.Operation Instruction.ISZERO, AssemblyItem.PushTag 4,
              AssemblyItem.Operation Instruction.JUMPI,
              AssemblyItem.PushTag 3, AssemblyItem.Operation Instruction.JUMP,
              AssemblyItem.PushTag 4, AssemblyItem.Operation Instruction.JUMP,
              AssemblyItem.PushTag 3, AssemblyItem.Operation Instruction.JUMP,
              AssemblyItem.Tag 4,
              AssemblyItem.CompileExpression { id := 92, type := exampleUint },
              AssemblyItem.TypeConversion exampleUint exampleUint false,
              AssemblyItem.MoveToStackVariable (exampleDecl 91 exampleUint),
              AssemblyItem.PushTag 2, AssemblyItem.Operation Instruction.JUMP,
              AssemblyItem.Tag 2, AssemblyItem.Operation (Instruction.SWAP 1),
              AssemblyItem.Operation Instruction.JUMP]
          ++ [AssemblyItem.Tag 1,
              AssemblyItem.CompileExpression { id := 51, type := exampleUint },
              AssemblyItem.PopStackElement exampleUint,
              AssemblyItem.Tag 5, AssemblyItem.Operation Instruction.JUMP] :=
  ⟨rfl, rfl, rfl,
    (runtime_phase_registers_then_lowers exampleCallGraphConstructor exampleRuntimeContract
      [exampleRuntimeContract] [] (Compiler.construct false)).2.2.2.2.2
      (appendFunctionSelector exampleRuntimeContract
        (runtimeRegistered [exampleRuntimeContract] [])).2 rfl⟩

end Solidity

namespace Solidity

open Compiler CompilerContext CompilerUtils

/-! ## `CompilerError` out of `compileContract` -/

theorem captureSpecifiers_error :
    ∀ (specifiers : List InheritanceSpecifier) (st : CreatorState) (e : CompilerException),
      captureSpecifiers specifiers st = Except.error e →
      e = CompilerException.InternalCompilerError := by
  intro specifiers
  induction specifiers with
  | nil => intro st e h; simp [captureSpecifiers] at h
  | cons base rest ih =>
    intro st e h
    unfold captureSpecifiers at h
    split at h
    · cases h
      rfl
    · split at h
      · exact ih _ _ h
      · exact ih _ _ h

theorem captureBaseArguments_error :
    ∀ (bases : List ContractDefinition) (st : CreatorState) (e : CompilerException),
      captureBaseArguments bases st = Except.error e →
      e = CompilerException.InternalCompilerError := by
  intro bases
  induction bases with
  | nil => intro st e h; simp [captureBaseArguments] at h
  | cons contract rest ih =>
    intro st e h
    unfold captureBaseArguments at h
    simp only at h
    split at h
    · rename_i e2 heq
      cases h
      exact captureSpecifiers_error _ _ _ heq
    · exact ih _ _ h

theorem appendBaseConstructorArguments_frame (parameterTypes : List SolType) :
    ∀ (arguments : List Expression) (i : Nat) (ctx : CompilerContext),
      ∃ more, (appendBaseConstructorArguments parameterTypes arguments i ctx).2.items
        = ctx.items ++ more := by
  intro arguments
  induction arguments with
  | nil => intro i ctx; exact ⟨[], by simp [appendBaseConstructorArguments]⟩
  | cons argument rest ih =>
    intro i ctx
    unfold appendBaseConstructorArguments
    simp only
    split
    · exact ⟨[AssemblyItem.CompileExpression argument], rfl⟩
    · rename_i parameterType hp
      obtain ⟨more, hmore⟩ := ih (i + 1)
        (appendTypeConversion (compileExpression ctx argument) argument.type parameterType false)
      exact ⟨[AssemblyItem.CompileExpression argument,
        AssemblyItem.TypeConversion argument.type parameterType false] ++ more, by
          rw [hmore]
          simp [appendTypeConversion, compileExpression, CompilerContext.append]⟩

theorem appendBaseConstructorCall_frame (constructor : FunctionDefinition)
    (arguments : List Expression) (ctx : CompilerContext) :
    ∃ more, (appendBaseConstructorCall constructor arguments ctx).2.items
      = ctx.items ++ more := by
  obtain ⟨more, hmore⟩ := appendBaseConstructorArguments_frame
    (constructor.parameters.map (fun p => p.type)) arguments 0 ctx.pushNewTag.2
  unfold appendBaseConstructorCall
  simp only
  split
  · rename_i e c heq
    rw [heq] at hmore
    simp only at hmore
    exact ⟨[AssemblyItem.PushTag ctx.usedTags] ++ more, by
      simp only [hmore]
      simp [pushNewTag, newTag, CompilerContext.append]⟩
  · rename_i u c heq
    rw [heq] at hmore
    simp only at hmore
    split
    · exact ⟨[AssemblyItem.PushTag ctx.usedTags] ++ more, by
        simp only [hmore]
        simp [pushNewTag, newTag, CompilerContext.append]⟩
    · rename_i entryLabel hl
      exact ⟨[AssemblyItem.PushTag ctx.usedTags] ++ more
        ++ [AssemblyItem.PushTag entryLabel, AssemblyItem.Operation Instruction.JUMP,
            AssemblyItem.Tag ctx.usedTags], by
        simp only [appendJumpTo, CompilerContext.append, hmore]
        simp [pushNewTag, newTag, CompilerContext.append]⟩

/-- The loop over the base constructors keeps the items that the context held, and an
exception of the loop is an internal error. -/
theorem appendBaseConstructorCalls_frame (bases : List ContractDefinition)
    (baseArguments : List (Nat × List Expression)) :
    ∀ (remaining i : Nat) (ctx : CompilerContext),
      (∃ more, (appendBaseConstructorCalls bases baseArguments remaining i ctx).2.items
        = ctx.items ++ more) ∧
      ∀ e, (appendBaseConstructorCalls bases baseArguments remaining i ctx).1
          = Except.error e → e = CompilerException.InternalCompilerError := by
  intro remaining
  induction remaining with
  | zero =>
    intro i ctx
    refine ⟨⟨[], by simp [appendBaseConstructorCalls]⟩, ?_⟩
    intro e h
    simp [appendBaseConstructorCalls] at h
  | succ n ih =>
    intro i ctx
    unfold appendBaseConstructorCalls
    split
    · exact ⟨⟨[], by simp⟩, fun e h => by cases h; rfl⟩
    · split
      · exact ih (i + 1) ctx
      · rename_i base hb baseConstructor hk
        split
        · exact ⟨⟨[], by simp⟩, fun e h => by cases h; rfl⟩
        · rename_i arguments ha
          obtain ⟨m1, h1⟩ := appendBaseConstructorCall_frame baseConstructor arguments ctx
          split
          · rename_i e c heq
            rw [heq] at h1
            refine ⟨⟨m1, h1⟩, ?_⟩
            intro e2 h2
            cases h2
            exact appendBaseConstructorCall_error _ _ _ _ _ heq
          · rename_i u c heq
            rw [heq] at h1
            simp only at h1
            obtain ⟨⟨m2, h2⟩, h3⟩ := ih (i + 1) c
            exact ⟨⟨m1 ++ m2, by rw [h2, h1, List.append_assoc]⟩, h3⟩

/-- A `CompilerError` of the call of the most-derived constructor comes from the first
oversized parameter, after the return tag has been pushed, the copy of the argument data
emitted and the parameters before the oversized one loaded. -/
theorem appendConstructorCall_compilerError (k : FunctionDefinition) (ctx c : CompilerContext)
    (location : Location) (comment : String)
    (h : appendConstructorCall k ctx
      = (Except.error (CompilerException.CompilerError location comment), c)) :
    ∃ (before : List VariableDeclaration) (bad : VariableDeclaration)
      (after : List VariableDeclaration),
      k.parameters = before ++ bad :: after ∧
      (∀ v ∈ before, v.type.calldataEncodedSize ≤ 32) ∧
      32 < bad.type.calldataEncodedSize ∧
      location = bad.location ∧
      comment = "Type " ++ bad.type.name ++ " not yet supported." ∧
      0 < constructorArgumentSize k.parameters ∧
      c = { ctx with
            items := ctx.items ++ ([AssemblyItem.PushTag ctx.usedTags,
              AssemblyItem.Push (constructorArgumentSize k.parameters),
              AssemblyItem.PushProgramSize, AssemblyItem.Push dataStartOffset,
              AssemblyItem.Operation Instruction.CODECOPY]
              ++ loadItems true before dataStartOffset)
            usedTags := ctx.usedTags + 1 } := by
  unfold appendConstructorCall at h
  simp only [foldl_paddedSize_zero] at h
  by_cases hpos : constructorArgumentSize k.parameters > 0
  · simp only [if_pos hpos, appendCalldataUnpacker] at h
    by_cases hall : ∀ v ∈ k.parameters, v.type.calldataEncodedSize ≤ 32
    · rw [appendCalldataUnpackerLoop_ok true _ _ _ hall] at h
      simp only at h
      split at h
      · cases (Prod.mk.inj h).1
      · cases (Prod.mk.inj h).1
    · push_neg at hall
      obtain ⟨before, bad, after, hsplit, hbefore, hbad⟩ :=
        exists_first_oversized k.parameters
          (by obtain ⟨v, hv, hlt⟩ := hall; exact ⟨v, hv, hlt⟩)
      rw [hsplit] at h
      rw [appendCalldataUnpackerLoop_error true before bad after _ _ hbefore hbad] at h
      simp only at h
      obtain ⟨h1, h2⟩ := Prod.mk.inj h
      cases h1
      refine ⟨before, bad, after, hsplit, hbefore, hbad, rfl, rfl, hpos, ?_⟩
      rw [← h2, hsplit]
      simp [pushNewTag, newTag, CompilerContext.append]
  · simp only [if_neg hpos] at h
    split at h
    · cases (Prod.mk.inj h).1
    · cases (Prod.mk.inj h).1

/-- C17, as the code has it: nothing is rolled back when `compileContract` signals
`CompilerError`.  The error comes from one of two places.  (1) The function selector
raised it: the runtime context is the one from before the call, and the current context
is the one the selector was working on, which holds the items emitted before the
exception, the dispatch prologue first.  (2) The call of the constructor of the contract
raised it in the creation phase, for its first oversized parameter: the contexts have
been swapped, so the runtime context holds the complete runtime code of the failed
compilation (the items of the selector, the dispatch prologue first, followed by the
items of the lowered functions), and the current context holds the items of the runtime
context from before the call followed by the creation items emitted before the
exception: the base-constructor calls, the push of the return tag, the copy of the
argument data and the loads of the parameters before the oversized one. -/
theorem compileContract_compilerError
    (callGraph : List ASTNode → (String → Option FunctionDefinition) → List FunctionDefinition)
    (contract : ContractDefinition) (bases : List ContractDefinition)
    (contracts : List (Nat × List Nat)) (self final : Compiler)
    (location : Location) (comment : String)
    (h : compileContract callGraph contract bases contracts self
      = (Except.error (CompilerException.CompilerError location comment), final)) :
    (∃ ctx : CompilerContext,
        appendFunctionSelector contract (runtimeRegistered bases contracts)
          = (Except.error (CompilerException.CompilerError location comment), ctx) ∧
        final = { self with m_context := ctx } ∧
        final.m_runtimeContext = self.m_runtimeContext ∧
        ∃ more, final.m_context.items = selectorPrologue ++ more) ∨
      (∃ (ctx : CompilerContext) (runtimeItems : List AssemblyItem) (k : FunctionDefinition)
          (before : List VariableDeclaration) (bad : VariableDeclaration)
          (after : List VariableDeclaration) (baseItems : List AssemblyItem)
          (returnTag : Nat),
        appendFunctionSelector contract (runtimeRegistered bases contracts)
          = (Except.ok (), ctx) ∧
        loweredFunctionsItems (runtimeRegistered bases contracts) (runtimeFunctions bases)
          ctx.usedTags = some runtimeItems ∧
        contract.getConstructor = some k ∧
        k.parameters = before ++ bad :: after ∧
        (∀ v ∈ before, v.type.calldataEncodedSize ≤ 32) ∧
        32 < bad.type.calldataEncodedSize ∧
        location = bad.location ∧
        comment = "Type " ++ bad.type.name ++ " not yet supported." ∧
        (∃ more, ctx.items = selectorPrologue ++ more) ∧
        final.m_runtimeContext.items = ctx.items ++ runtimeItems ∧
        final.m_context.items
          = self.m_runtimeContext.items ++ baseItems
            ++ ([AssemblyItem.PushTag returnTag,
                 AssemblyItem.Push (constructorArgumentSize k.parameters),
                 AssemblyItem.PushProgramSize, AssemblyItem.Push dataStartOffset,
                 AssemblyItem.Operation Instruction.CODECOPY]
                ++ loadItems true before dataStartOffset)) := by
  have hshape : ∃ more, (appendFunctionSelector contract
      (runtimeRegistered bases contracts)).2.items = selectorPrologue ++ more := by
    obtain ⟨tags, landings, _, hitems⟩ := appendFunctionSelector_items contract
      (runtimeRegistered bases contracts)
    simp only [emitted, runtimeRegistered_items, List.length_nil, List.drop_zero] at hitems
    exact ⟨_, by rw [hitems, List.append_assoc]⟩
  rw [compileContract_eq] at h
  rcases hsel : appendFunctionSelector contract (runtimeRegistered bases contracts)
    with ⟨r, ctx⟩
  rw [hsel] at h hshape
  cases r with
  | error e =>
    simp only at h
    obtain ⟨h1, h2⟩ := Prod.mk.inj h
    cases h1
    left
    subst h2
    exact ⟨ctx, rfl, rfl, rfl, hshape⟩
  | ok u =>
    right
    simp only at h
    have hlabels : ctx.functionEntryLabels
        = (runtimeRegistered bases contracts).functionEntryLabels := by
      have := appendFunctionSelector_labels contract (runtimeRegistered bases contracts)
      rw [hsel] at this
      exact this
    have hlower := visitNeededFunctions_items (runtimeFunctions bases)
      { self with m_context := ctx }
    simp only at hlower
    rw [loweredFunctionsItems_labels (runtimeRegistered bases contracts) ctx hlabels]
      at hlower
    cases hitems : loweredFunctionsItems (runtimeRegistered bases contracts)
        (runtimeFunctions bases) ctx.usedTags with
    | none =>
      rw [hitems] at hlower
      obtain ⟨s, hs⟩ := hlower
      rw [hs] at h
      cases (Prod.mk.inj h).1
    | some runtimeItems =>
      rw [hitems] at hlower
      obtain ⟨self4, k1, k2, _, k4⟩ := hlower
      rw [k1] at h
      simp only at h
      unfold packIntoContractCreator at h
      split at h
      · rename_i e hcap
        have := captureBaseArguments_error _ _ _ hcap
        subst this
        cases (Prod.mk.inj h).1
      · rename_i captured hcap
        simp only at h
        split at h
        · rename_i e ctx3 hcalls
          obtain ⟨h1, h2⟩ := Prod.mk.inj h
          cases h1
          unfold appendConstructorCalls at hcalls
          obtain ⟨⟨baseItems, hbase⟩, hbaseError⟩ :=
            appendBaseConstructorCalls_frame bases captured.baseArguments (bases.length - 1) 1
              (addRest bases
                (getFunctionsCalled callGraph captured.nodesUsedInConstructors
                  (overrideResolver bases))
                (addOverrides bases
                  (getFunctionsCalled callGraph captured.nodesUsedInConstructors
                    (overrideResolver bases))
                  (getFunctionsCalled callGraph captured.nodesUsedInConstructors
                    (overrideResolver bases))
                  (initializeContext bases contracts
                    { self4 with
                      m_context := self4.m_runtimeContext
                      m_runtimeContext := self4.m_context }).m_context))
          have hstart : (addRest bases
                (getFunctionsCalled callGraph captured.nodesUsedInConstructors
                  (overrideResolver bases))
                (addOverrides bases
                  (getFunctionsCalled callGraph captured.nodesUsedInConstructors
                    (overrideResolver bases))
                  (getFunctionsCalled callGraph captured.nodesUsedInConstructors
                    (overrideResolver bases))
                  (initializeContext bases contracts
                    { self4 with
                      m_context := self4.m_runtimeContext
                      m_runtimeContext := self4.m_context }).m_context)).items
              = self.m_runtimeContext.items := by
            rw [addRest_eq_foldl, (foldl_addFunction_items _ _).1, addOverrides_eq_foldl,
              (foldl_addFunction_items _ _).1]
            simp only [initializeContext]
            rw [registerStateVariables_eq, k4]
            rfl
          rw [hstart] at hbase
          split at hcalls
          · rename_i e2 c2 heq
            have := hbaseError e2 (by rw [heq])
            subst this
            cases (Prod.mk.inj hcalls).1
          · rename_i u2 c2 heq
            rw [heq] at hbase
            simp only at hbase
            split at hcalls
            · rename_i k hk
              obtain ⟨before, bad, after, j1, j2, j3, j4, j5, _, j7⟩ :=
                appendConstructorCall_compilerError k c2 ctx3 location comment hcalls
              refine ⟨ctx, runtimeItems, k, before, bad, after, baseItems, c2.usedTags,
                rfl, hitems, hk, j1, j2, j3, j4, j5, hshape, ?_, ?_⟩
              · rw [← h2]
                exact k2
              · rw [← h2]
                simp only [j7, hbase]
            · cases (Prod.mk.inj hcalls).1
        · rename_i u3 ctx3 hcalls
          have := visitNeededFunctions_error _ _ _ _ h
          cases this

/-- Instance of C17 for both places.  The contract whose interface function `h` has an
oversized parameter: the selector raises the error, the runtime context is the one of the
new `Compiler` and the current context starts with the dispatch prologue.  The contract
`Q` whose constructor has an oversized second parameter: the constructor call raises the
error in the creation phase, the runtime context holds the complete runtime code (the
selector and the function `n`), and the current context holds the push of the return
tag, the copy of the argument data and the load of the first parameter. -/
theorem compileContract_compilerError_witness :
    ((compileContract exampleCallGraphEmpty exampleOversizedContract
          [exampleOversizedContract] [] (Compiler.construct false)).1
        = Except.error (CompilerException.CompilerError { start := 50, finish := 55 }
            "Type struct S not yet supported.") ∧
      (compileContract exampleCallGraphEmpty exampleOversizedContract
          [exampleOversizedContract] [] (Compiler.construct false)).2.m_runtimeContext
        = (Compiler.construct false).m_runtimeContext ∧
      ∃ more, (compileContract exampleCallGraphEmpty exampleOversizedContract
          [exampleOversizedContract] [] (Compiler.construct false)).2.m_context.items
        = selectorPrologue ++ more) ∧
    ((compileContract exampleCallGraphOversized exampleCreationErrorContract
          [exampleCreationErrorContract] [] (Compiler.construct false)).1
        = Except.error (CompilerException.CompilerError { start := 970, finish := 975 }
            "Type struct S not yet supported.") ∧
      (compileContract exampleCallGraphOversized exampleCreationErrorContract
          [exampleCreationErrorContract] [] (Compiler.construct false)).2.m_runtimeContext.items
        = [AssemblyItem.Push 1, AssemblyItem.Push 0,
           AssemblyItem.LoadFromMemory 0 4 false true true,
           AssemblyItem.Operation Instruction.STOP,
           AssemblyItem.Tag 0,
           AssemblyItem.CompileExpression { id := 51, type := exampleUint },
           AssemblyItem.PopStackElement exampleUint,
           AssemblyItem.Tag 1, AssemblyItem.Operation Instruction.JUMP] ∧
      (compileContract exampleCallGraphOversized exampleCreationErrorContract
          [exampleCreationErrorContract] [] (Compiler.construct false)).2.m_context.items
        = [AssemblyItem.PushTag 1, AssemblyItem.Push 96, AssemblyItem.PushProgramSize,
           AssemblyItem.Push 4, AssemblyItem.Operation Instruction.CODECOPY,
           AssemblyItem.LoadFromMemory 4 32 false false true] ∧
      ∃ (baseItems : List AssemblyItem) (returnTag : Nat)
          (before : List VariableDeclaration) (bad : VariableDeclaration)
          (after : List VariableDeclaration),
        exampleConstructorOversized.parameters = before ++ bad :: after ∧
        32 < bad.type.calldataEncodedSize ∧
        (compileContract exampleCallGraphOversized exampleCreationErrorContract
            [exampleCreationErrorContract] [] (Compiler.construct false)).2.m_context.items
          = (Compiler.construct false).m_runtimeContext.items ++ baseItems
            ++ ([AssemblyItem.PushTag returnTag,
                 AssemblyItem.Push
                   (constructorArgumentSize exampleConstructorOversized.parameters),
                 AssemblyItem.PushProgramSize, AssemblyItem.Push dataStartOffset,
                 AssemblyItem.Operation Instruction.CODECOPY]
                ++ loadItems true before dataStartOffset)) := by
  refine ⟨⟨rfl, ?_⟩, ⟨rfl, rfl, rfl, ?_⟩⟩
  · rcases compileContract_compilerError exampleCallGraphEmpty exampleOversizedContract
        [exampleOversizedContract] [] (Compiler.construct false)
        (compileContract exampleCallGraphEmpty exampleOversizedContract
          [exampleOversizedContract] [] (Compiler.construct false)).2
        { start := 50, finish := 55 } "Type struct S not yet supported." rfl
      with ⟨ctx, _, _, h3, h4⟩ | ⟨ctx, _, _, _, _, _, _, _, hsel, _⟩
    · exact ⟨h3, h4⟩
    · have hfirst := congrArg Prod.fst hsel
      have hvalue : (appendFunctionSelector exampleOversizedContract
          (runtimeRegistered [exampleOversizedContract] [])).1
          = Except.error (CompilerException.CompilerError { start := 50, finish := 55 }
              "Type struct S not yet supported.") := rfl
      rw [hvalue] at hfirst
      cases hfirst
  · rcases compileContract_compilerError exampleCallGraphOversized
        exampleCreationErrorContract [exampleCreationErrorContract] []
        (Compiler.construct false)
        (compileContract exampleCallGraphOversized exampleCreationErrorContract
          [exampleCreationErrorContract] [] (Compiler.construct false)).2
        { start := 970, finish := 975 } "Type struct S not yet supported." rfl
      with ⟨ctx, hsel, _⟩ |
        ⟨ctx, _, k, before, bad, after, baseItems, returnTag, _, _, hk, j1, _, j3, _, _, _, _,
          j7⟩
    · have hfirst := congrArg Prod.fst hsel
      have hvalue : (appendFunctionSelector exampleCreationErrorContract
          (runtimeRegistered [exampleCreationErrorContract] [])).1 = Except.ok () := rfl
      rw [hvalue] at hfirst
      cases hfirst
    · have hconstructor : exampleCreationErrorContract.getConstructor
          = some exampleConstructorOversized := rfl
      rw [hconstructor] at hk
      cases hk
      exact ⟨baseItems, returnTag, before, bad, after, j1, j3, j7⟩

end Solidity

namespace Solidity

open Compiler CompilerContext CompilerUtils

/-! ## The tag stacks of a function -/

end Solidity
